import Mathlib

/-!
# leptjson: a shallow embedding of `leptjson.c` and properties of its parser, generator
and container functions

Bytes of texts and strings are natural numbers (`0..255`); a text is the list of the bytes of a
C string before its terminating NUL, and reading at the end of the list yields the NUL.
The scratch buffer of `lept_context` is kept as the list of the records below `top`; the
allocation size of the buffer is storage management and is not part of the model.
The C library conversions `strtod` and `sprintf("%.17g")` and the comparison of doubles are
not code of this repository: they are taken as a parameter (`CDouble`).
-/

namespace Leptjson

/-! ## Data model (`leptjson.h`) -/

/-- An IEEE-754 double, identified by its bit pattern. -/
structure double where
  bits : Nat
deriving DecidableEq, Repr

/-- The operations on doubles that the engine takes from the C language and its library. -/
structure CDouble where
  /-- The call `strtod(text, NULL)`: the converted value, and whether `errno` is `ERANGE`. -/
  strtod : List Nat → double × Bool
  /-- The constant `HUGE_VAL` of `math.h`. -/
  HUGE_VAL : double
  /-- Unary minus on doubles. -/
  neg : double → double
  /-- The comparison `==` on doubles. -/
  eq : double → double → Bool
  /-- The text written by `sprintf(buf, "%.17g", n)`. -/
  sprintf_17g : double → List Nat

inductive lept_type where
  | LEPT_NULL | LEPT_FALSE | LEPT_TRUE | LEPT_NUMBER | LEPT_STRING | LEPT_ARRAY | LEPT_OBJECT
deriving DecidableEq, Repr

open lept_type

inductive lept_parse_code where
  | LEPT_PARSE_OK
  | LEPT_PARSE_EXPECT_VALUE
  | LEPT_PARSE_INVALID_VALUE
  | LEPT_PARSE_ROOT_NOT_SINGULAR
  | LEPT_PARSE_NUMBER_TOO_BIG
  | LEPT_PARSE_MISS_QUOTATION_MARK
  | LEPT_PARSE_INVALID_STRING_ESCAPE
  | LEPT_PARSE_INVALID_STRING_CHAR
  | LEPT_PARSE_INVALID_UNICODE_HEX
  | LEPT_PARSE_INVALID_UNICODE_SURROGATE
  | LEPT_PARSE_MISS_COMMA_OR_SQUARE_BRACKET
  | LEPT_PARSE_MISS_KEY
  | LEPT_PARSE_MISS_COLON
  | LEPT_PARSE_MISS_COMMA_OR_CURLY_BRACKET
deriving DecidableEq, Repr

open lept_parse_code

mutual
/-- The tagged union `struct lept_value`: the constructor is the `type` tag, its arguments the
active member of the union. A string is its `len` bytes; an array is its `size` elements and its
capacity; an object is its `size` members and its capacity. -/
inductive lept_value where
  | null
  | jfalse
  | jtrue
  | number (n : double)
  | string (s : List Nat)
  | array (e : List lept_value) (capacity : Nat)
  | object (m : List lept_member) (capacity : Nat)
/-- The record `struct lept_member`: the key bytes (`klen` of them) and the value. -/
inductive lept_member where
  | mk (k : List Nat) (v : lept_value)
end

/-- The field `k` of a member. -/
def lept_member.k : lept_member → List Nat
  | .mk k _ => k

/-- The field `klen` of a member. -/
def lept_member.klen : lept_member → Nat
  | .mk k _ => k.length

/-- The field `v` of a member. -/
def lept_member.v : lept_member → lept_value
  | .mk _ v => v

/-- The function `lept_get_type`: the field `type`. -/
def lept_get_type : lept_value → lept_type
  | .null => LEPT_NULL
  | .jfalse => LEPT_FALSE
  | .jtrue => LEPT_TRUE
  | .number _ => LEPT_NUMBER
  | .string _ => LEPT_STRING
  | .array _ _ => LEPT_ARRAY
  | .object _ _ => LEPT_OBJECT

/-- The field `u.a.size` read from a value. The structs `u.a` and `u.o` of the union are both
a pointer followed by `size_t size, capacity`, so on an object this read yields `u.o.size`. -/
def lept_value.u_a_size : lept_value → Nat
  | .array e _ => e.length
  | .object m _ => m.length
  | _ => 0

/-- The macro `lept_init`: the value becomes `LEPT_NULL`. -/
def lept_init (_v : lept_value) : lept_value := .null

/-- The assignment `v->type = type` of `lept_parse_literal`, whose `type` is one of the three
literal tags; a value of such a type has no payload. -/
def lept_value.set_literal_type (v : lept_value) : lept_type → lept_value
  | LEPT_NULL => .null
  | LEPT_FALSE => .jfalse
  | LEPT_TRUE => .jtrue
  | _ => v

/-- The function `lept_set_number`: the old content is released and the double is stored,
whatever double it is. -/
def lept_set_number (_v : lept_value) (n : double) : lept_value :=
  .number n

/-- The function `lept_set_string`: the old content is released and `len` bytes are copied. -/
def lept_set_string (_v : lept_value) (s : List Nat) (len : Nat) : lept_value :=
  .string (s.take len)

/-- The value of `sizeof(lept_value)` where pointers and `size_t` take 8 bytes and the type tag
4: the union takes 24 bytes and the struct is padded to 32. -/
def sizeof_lept_value : Nat := 32

/-- The value of `sizeof(lept_member)`: the pointer `k`, `klen` and the value. -/
def sizeof_lept_member : Nat := 48

/-- The function `lept_set_array`: an empty array of the given capacity. The block is asked
for with `capacity * sizeof(lept_value)` bytes, a product computed in `size_t`: when it wraps
around, the block has fewer than `capacity` slots while `capacity` is recorded, and there is
no value. -/
def lept_set_array (_v : lept_value) (capacity : Nat) : Option lept_value :=
  if capacity * sizeof_lept_value % 2 ^ 64 < capacity * sizeof_lept_value then none
  else some (.array [] capacity)

/-- The function `lept_set_object`: an empty object of the given capacity. The block is asked
for with `capacity * sizeof(lept_member)` bytes, a product computed in `size_t`: when it wraps
around, the block has fewer than `capacity` slots while `capacity` is recorded, and there is
no value. -/
def lept_set_object (_v : lept_value) (capacity : Nat) : Option lept_value :=
  if capacity * sizeof_lept_member % 2 ^ 64 < capacity * sizeof_lept_member then none
  else some (.object [] capacity)

/-! ## The scratch buffer -/

/-- One record of the scratch buffer: a byte pushed by `PUTC`, or a `lept_value` or a
`lept_member` copied in by `memcpy`. -/
inductive Slot where
  | byte (b : Nat)
  | value (v : lept_value)
  | member (m : lept_member)

/-- The byte held by a record of the buffer. -/
def Slot.toByte : Slot → Nat
  | .byte b => b
  | _ => 0

/-- The `lept_value` held by a record of the buffer. -/
def Slot.toValue : Slot → lept_value
  | .value v => v
  | _ => .null

/-- The `lept_member` held by a record of the buffer. -/
def Slot.toMember : Slot → lept_member
  | .member m => m
  | _ => .mk [] .null

/-- The struct `lept_context`: the rest of the text and the records of the stack below `top`. -/
structure lept_context where
  json : List Nat
  stack : List Slot

/-- The field `top`, counted in records. -/
def lept_context.top (c : lept_context) : Nat := c.stack.length

/-- The function `lept_context_push` for one record, followed by the store into it. -/
def lept_context_push (c : lept_context) (s : Slot) : lept_context :=
  ⟨c.json, c.stack ++ [s]⟩

/-- The function `lept_context_pop`: `top` goes down by `size`; the records above the new `top`
are returned. -/
def lept_context_pop (c : lept_context) (size : Nat) : List Slot × lept_context :=
  (c.stack.drop (c.top - size), ⟨c.json, c.stack.take (c.top - size)⟩)

/-- The macro `PUTC`. -/
def PUTC (c : lept_context) (ch : Nat) : lept_context :=
  lept_context_push c (.byte ch)

/-- The macro `PUTS`: the bytes of `s` are pushed. -/
def PUTS (c : lept_context) (s : List Nat) : lept_context :=
  ⟨c.json, c.stack ++ s.map Slot.byte⟩

/-- The byte `*p`: the terminating NUL once the text is exhausted. -/
def peek (p : List Nat) : Nat := p.headD 0

/-- The macro `EXPECT`: the text pointer moves past the expected byte. -/
def EXPECT (c : lept_context) (_ch : Nat) : lept_context :=
  ⟨c.json.tail, c.stack⟩

/-! ## Parser -/

/-- The test of the loop of `lept_parse_whitespace`: space, tab, LF, CR. -/
def is_ws (ch : Nat) : Bool := ch = 32 || ch = 9 || ch = 10 || ch = 13

/-- The function `lept_parse_whitespace`. -/
def lept_parse_whitespace (c : lept_context) : lept_context :=
  ⟨c.json.dropWhile is_ws, c.stack⟩

/-- The loop of `lept_parse_literal`: the text is compared with the bytes of the literal after
its first; the result is the text after them, or nothing on a mismatch. -/
def lept_parse_literal_loop : List Nat → List Nat → Option (List Nat)
  | p, [] => some p
  | p, l :: ls => if peek p ≠ l then none else lept_parse_literal_loop p.tail ls

/-- The function `lept_parse_literal`. -/
def lept_parse_literal (c : lept_context) (v : lept_value) (literal : List Nat)
    (type : lept_type) : lept_parse_code × lept_context × lept_value :=
  let c := EXPECT c (peek literal)
  match lept_parse_literal_loop c.json literal.tail with
  | none => (LEPT_PARSE_INVALID_VALUE, c, v)
  | some p => (LEPT_PARSE_OK, ⟨p, c.stack⟩, v.set_literal_type type)

/-- The macro `ISDIGIT`. -/
def ISDIGIT (ch : Nat) : Bool := 48 ≤ ch && ch ≤ 57

/-- The macro `ISDIGIT1TO9`. -/
def ISDIGIT1TO9 (ch : Nat) : Bool := 49 ≤ ch && ch ≤ 57

/-- The validation of `lept_parse_number` (the walk of `p` over `["-"] int [frac] [exp]`):
the position after the number, or nothing where the source returns
`LEPT_PARSE_INVALID_VALUE`. -/
def lept_parse_number_scan (p : List Nat) : Option (List Nat) :=
  let p := if peek p = 45 then p.tail else p
  let r1 : Option (List Nat) :=
    if peek p = 48 then some p.tail
    else if !ISDIGIT1TO9 (peek p) then none
    else some (p.tail.dropWhile ISDIGIT)
  match r1 with
  | none => none
  | some p =>
    let r2 : Option (List Nat) :=
      if peek p = 46 then
        let p := p.tail
        if !ISDIGIT (peek p) then none
        else some (p.tail.dropWhile ISDIGIT)
      else some p
    match r2 with
    | none => none
    | some p =>
      if peek p = 101 ∨ peek p = 69 then
        let p := p.tail
        let p := if peek p = 43 ∨ peek p = 45 then p.tail else p
        if !ISDIGIT (peek p) then none
        else some (p.tail.dropWhile ISDIGIT)
      else some p

/-- The function `lept_parse_number`. On `LEPT_PARSE_NUMBER_TOO_BIG` the field `u.n` has been
written but the type tag has not, so the value keeps its type. -/
def lept_parse_number (L : CDouble) (c : lept_context) (v : lept_value) :
    lept_parse_code × lept_context × lept_value :=
  match lept_parse_number_scan c.json with
  | none => (LEPT_PARSE_INVALID_VALUE, c, v)
  | some p =>
    let r := L.strtod c.json
    if r.2 && (L.eq r.1 L.HUGE_VAL || L.eq r.1 (L.neg L.HUGE_VAL)) then
      (LEPT_PARSE_NUMBER_TOO_BIG, c, v)
    else
      (LEPT_PARSE_OK, ⟨p, c.stack⟩, .number r.1)

/-- The loop of `lept_parse_hex4` with `i` rounds to go: the position after the digits and the
accumulated value, or nothing on a byte that is no hexadecimal digit. -/
def lept_parse_hex4_loop : Nat → List Nat → Nat → Option (List Nat × Nat)
  | 0, p, u => some (p, u)
  | i + 1, p, u =>
    let ch := peek p
    let p := p.tail
    let u := u <<< 4
    if 48 ≤ ch ∧ ch ≤ 57 then lept_parse_hex4_loop i p (u ||| (ch - 48))
    else if 65 ≤ ch ∧ ch ≤ 70 then lept_parse_hex4_loop i p (u ||| (ch - (65 - 10)))
    else if 97 ≤ ch ∧ ch ≤ 102 then lept_parse_hex4_loop i p (u ||| (ch - (97 - 10)))
    else none

/-- The function `lept_parse_hex4`. -/
def lept_parse_hex4 (p : List Nat) : Option (List Nat × Nat) :=
  lept_parse_hex4_loop 4 p 0

/-- The function `lept_encode_utf8`; every `PUTC` stores its argument converted to `char`. -/
def lept_encode_utf8 (c : lept_context) (u : Nat) : lept_context :=
  if u ≤ 0x7F then
    PUTC c ((u &&& 0xFF) % 256)
  else if u ≤ 0x7FF then
    let c := PUTC c ((0xC0 ||| ((u >>> 6) &&& 0xFF)) % 256)
    PUTC c ((0x80 ||| (u &&& 0x3F)) % 256)
  else if u ≤ 0xFFFF then
    let c := PUTC c ((0xE0 ||| ((u >>> 12) &&& 0xFF)) % 256)
    let c := PUTC c ((0x80 ||| ((u >>> 6) &&& 0x3F)) % 256)
    PUTC c ((0x80 ||| (u &&& 0x3F)) % 256)
  else
    let c := PUTC c ((0xF0 ||| ((u >>> 18) &&& 0xFF)) % 256)
    let c := PUTC c ((0x80 ||| ((u >>> 12) &&& 0x3F)) % 256)
    let c := PUTC c ((0x80 ||| ((u >>> 6) &&& 0x3F)) % 256)
    PUTC c ((0x80 ||| (u &&& 0x3F)) % 256)

/-- The macro `STRING_ERROR`: `top` goes back to `head` and the code is returned. -/
def STRING_ERROR (c : lept_context) (head : Nat) (ret : lept_parse_code) :
    Option (lept_parse_code × lept_context × List Nat × Nat) :=
  some (ret, ⟨c.json, c.stack.take head⟩, [], 0)

/-- The loop `for (;;)` of `lept_parse_string_raw` at position `p`; one unit of fuel per round.
The result is the return code, the context, and the outputs `*str` and `*len`. -/
def lept_parse_string_raw_loop (head : Nat) :
    Nat → lept_context → List Nat → Option (lept_parse_code × lept_context × List Nat × Nat)
  | 0, _, _ => none
  | fuel + 1, c, p =>
    let ch := peek p
    let p := p.tail
    if ch = 34 then
      let len := c.top - head
      let r := lept_context_pop c len
      some (LEPT_PARSE_OK, ⟨p, r.2.stack⟩, r.1.map Slot.toByte, len)
    else if ch = 92 then
      let e := peek p
      let p := p.tail
      if e = 34 then lept_parse_string_raw_loop head fuel (PUTC c 34) p
      else if e = 92 then lept_parse_string_raw_loop head fuel (PUTC c 92) p
      else if e = 47 then lept_parse_string_raw_loop head fuel (PUTC c 47) p
      else if e = 98 then lept_parse_string_raw_loop head fuel (PUTC c 8) p
      else if e = 102 then lept_parse_string_raw_loop head fuel (PUTC c 12) p
      else if e = 110 then lept_parse_string_raw_loop head fuel (PUTC c 10) p
      else if e = 114 then lept_parse_string_raw_loop head fuel (PUTC c 13) p
      else if e = 116 then lept_parse_string_raw_loop head fuel (PUTC c 9) p
      else if e = 117 then
        match lept_parse_hex4 p with
        | none => STRING_ERROR c head LEPT_PARSE_INVALID_UNICODE_HEX
        | some (p, u) =>
          if 0xD800 ≤ u ∧ u ≤ 0xDBFF then
            if peek p ≠ 92 then STRING_ERROR c head LEPT_PARSE_INVALID_UNICODE_SURROGATE
            else
              let p := p.tail
              if peek p ≠ 117 then STRING_ERROR c head LEPT_PARSE_INVALID_UNICODE_SURROGATE
              else
                let p := p.tail
                match lept_parse_hex4 p with
                | none => STRING_ERROR c head LEPT_PARSE_INVALID_UNICODE_HEX
                | some (p, u2) =>
                  if u2 < 0xDC00 ∨ u2 > 0xDFFF then
                    STRING_ERROR c head LEPT_PARSE_INVALID_UNICODE_SURROGATE
                  else
                    let u := (((u - 0xD800) <<< 10) ||| (u2 - 0xDC00)) + 0x10000
                    lept_parse_string_raw_loop head fuel (lept_encode_utf8 c u) p
          else lept_parse_string_raw_loop head fuel (lept_encode_utf8 c u) p
      else STRING_ERROR c head LEPT_PARSE_INVALID_STRING_ESCAPE
    else if ch = 0 then STRING_ERROR c head LEPT_PARSE_MISS_QUOTATION_MARK
    else if ch < 0x20 then STRING_ERROR c head LEPT_PARSE_INVALID_STRING_CHAR
    else lept_parse_string_raw_loop head fuel (PUTC c ch) p

/-- The function `lept_parse_string_raw`. -/
def lept_parse_string_raw (fuel : Nat) (c : lept_context) :
    Option (lept_parse_code × lept_context × List Nat × Nat) :=
  let head := c.top
  let c := EXPECT c 34
  lept_parse_string_raw_loop head fuel c c.json

/-- The function `lept_parse_string`. -/
def lept_parse_string (fuel : Nat) (c : lept_context) (v : lept_value) :
    Option (lept_parse_code × lept_context × lept_value) :=
  match lept_parse_string_raw fuel c with
  | none => none
  | some (ret, c, s, len) =>
    if ret = LEPT_PARSE_OK then some (ret, c, lept_set_string v s len)
    else some (ret, c, v)

/-- The loop `for (;;)` of `lept_parse_array` with `size` elements on the stack, and the code
after it; `pv` is `lept_parse_value`, one unit of fuel per round. -/
def lept_parse_array_loop
    (pv : lept_context → lept_value → Option (lept_parse_code × lept_context × lept_value)) :
    Nat → lept_context → lept_value → Nat →
      Option (lept_parse_code × lept_context × lept_value)
  | 0, _, _, _ => none
  | fuel + 1, c, v, size =>
    match pv c (lept_init .null) with
    | none => none
    | some (ret, c, e) =>
      if ret ≠ LEPT_PARSE_OK then
        some (ret, (lept_context_pop c size).2, v)
      else
        let c := lept_context_push c (.value e)
        let size := size + 1
        let c := lept_parse_whitespace c
        if peek c.json = 44 then
          let c : lept_context := ⟨c.json.tail, c.stack⟩
          let c := lept_parse_whitespace c
          lept_parse_array_loop pv fuel c v size
        else if peek c.json = 93 then
          let c : lept_context := ⟨c.json.tail, c.stack⟩
          let r := lept_context_pop c size
          some (LEPT_PARSE_OK, r.2, .array (r.1.map Slot.toValue) size)
        else
          some (LEPT_PARSE_MISS_COMMA_OR_SQUARE_BRACKET, (lept_context_pop c size).2, v)

/-- The function `lept_parse_array`. -/
def lept_parse_array
    (pv : lept_context → lept_value → Option (lept_parse_code × lept_context × lept_value))
    (fuel : Nat) (c : lept_context) (v : lept_value) :
    Option (lept_parse_code × lept_context × lept_value) :=
  let c := EXPECT c 91
  let c := lept_parse_whitespace c
  if peek c.json = 93 then
    match lept_set_array v 0 with
    | none => none
    | some a => some (LEPT_PARSE_OK, ⟨c.json.tail, c.stack⟩, a)
  else
    lept_parse_array_loop pv fuel c v 0

/-- The loop `for (;;)` of `lept_parse_object` with `size` members on the stack, and the code
after it (the members on the stack are popped and `v->type` is set to `LEPT_NULL`). -/
def lept_parse_object_loop
    (pv : lept_context → lept_value → Option (lept_parse_code × lept_context × lept_value)) :
    Nat → lept_context → lept_value → Nat →
      Option (lept_parse_code × lept_context × lept_value)
  | 0, _, _, _ => none
  | fuel + 1, c, v, size =>
    if peek c.json ≠ 34 then
      some (LEPT_PARSE_MISS_KEY, (lept_context_pop c size).2, lept_init v)
    else
      match lept_parse_string_raw fuel c with
      | none => none
      | some (ret, c, str, klen) =>
        if ret ≠ LEPT_PARSE_OK then
          some (ret, (lept_context_pop c size).2, lept_init v)
        else
          let k := str.take klen
          let c := lept_parse_whitespace c
          if peek c.json ≠ 58 then
            some (LEPT_PARSE_MISS_COLON, (lept_context_pop c size).2, lept_init v)
          else
            let c : lept_context := ⟨c.json.tail, c.stack⟩
            let c := lept_parse_whitespace c
            match pv c (lept_init .null) with
            | none => none
            | some (ret, c, mv) =>
              if ret ≠ LEPT_PARSE_OK then
                some (ret, (lept_context_pop c size).2, lept_init v)
              else
                let c := lept_context_push c (.member (.mk k mv))
                let size := size + 1
                let c := lept_parse_whitespace c
                if peek c.json = 44 then
                  let c : lept_context := ⟨c.json.tail, c.stack⟩
                  let c := lept_parse_whitespace c
                  lept_parse_object_loop pv fuel c v size
                else if peek c.json = 125 then
                  let c : lept_context := ⟨c.json.tail, c.stack⟩
                  let r := lept_context_pop c size
                  some (LEPT_PARSE_OK, r.2, .object (r.1.map Slot.toMember) size)
                else
                  some (LEPT_PARSE_MISS_COMMA_OR_CURLY_BRACKET, (lept_context_pop c size).2,
                    lept_init v)

/-- The function `lept_parse_object`. -/
def lept_parse_object
    (pv : lept_context → lept_value → Option (lept_parse_code × lept_context × lept_value))
    (fuel : Nat) (c : lept_context) (v : lept_value) :
    Option (lept_parse_code × lept_context × lept_value) :=
  let c := EXPECT c 123
  let c := lept_parse_whitespace c
  if peek c.json = 125 then
    match lept_set_object v 0 with
    | none => none
    | some a => some (LEPT_PARSE_OK, ⟨c.json.tail, c.stack⟩, a)
  else
    lept_parse_object_loop pv fuel c v 0

/-- The function `lept_parse_value`. The fuel bounds the depth of the recursion and the rounds
of the loops below it; `none` is returned only when it runs out (the empty array and the empty
object are set with the capacity 0, for which `lept_set_array` and `lept_set_object` leave a
value). -/
def lept_parse_value (L : CDouble) :
    Nat → lept_context → lept_value → Option (lept_parse_code × lept_context × lept_value)
  | 0, _, _ => none
  | fuel + 1, c, v =>
    let ch := peek c.json
    if ch = 116 then some (lept_parse_literal c v [116, 114, 117, 101] LEPT_TRUE)
    else if ch = 102 then some (lept_parse_literal c v [102, 97, 108, 115, 101] LEPT_FALSE)
    else if ch = 110 then some (lept_parse_literal c v [110, 117, 108, 108] LEPT_NULL)
    else if ch = 34 then lept_parse_string fuel c v
    else if ch = 91 then lept_parse_array (lept_parse_value L fuel) fuel c v
    else if ch = 123 then lept_parse_object (lept_parse_value L fuel) fuel c v
    else if ch = 0 then some (LEPT_PARSE_EXPECT_VALUE, c, v)
    else some (lept_parse_number L c v)

/-- The function `lept_parse`: the return code and the value left in `*v`. The recursion gets
more fuel than the text has bytes. -/
def lept_parse (L : CDouble) (json : List Nat) : Option (lept_parse_code × lept_value) :=
  let c : lept_context := ⟨json, []⟩
  let v := lept_init .null
  let c := lept_parse_whitespace c
  match lept_parse_value L (json.length + 1) c v with
  | none => none
  | some (ret, c, v) =>
    if ret = LEPT_PARSE_OK then
      let c := lept_parse_whitespace c
      if peek c.json ≠ 0 then
        some (LEPT_PARSE_ROOT_NOT_SINGULAR, lept_init v)
      else some (ret, v)
    else some (ret, v)

/-- The value of `c.top` that `lept_parse` tests in `assert(c.top == 0)`, after the parse and
before the stack is freed. -/
def lept_parse_top (L : CDouble) (json : List Nat) : Option Nat :=
  let c : lept_context := ⟨json, []⟩
  let v := lept_init .null
  let c := lept_parse_whitespace c
  match lept_parse_value L (json.length + 1) c v with
  | none => none
  | some (ret, c, _) =>
    if ret = LEPT_PARSE_OK then
      let c := lept_parse_whitespace c
      some c.top
    else some c.top

/-! ## Generator -/

/-- The table `hex_digits` of `lept_stringify_string`. -/
def hex_digits : List Nat :=
  [48, 49, 50, 51, 52, 53, 54, 55, 56, 57, 65, 66, 67, 68, 69, 70]

/-- The bytes written by one round of the loop of `lept_stringify_string` for the byte `ch`. -/
def lept_stringify_string_char (ch : Nat) : List Nat :=
  if ch = 34 then [92, 34]
  else if ch = 92 then [92, 92]
  else if ch = 8 then [92, 98]
  else if ch = 12 then [92, 102]
  else if ch = 10 then [92, 110]
  else if ch = 13 then [92, 114]
  else if ch = 9 then [92, 116]
  else if ch < 0x20 then
    [92, 117, 48, 48, hex_digits.getD (ch >>> 4) 0, hex_digits.getD (ch &&& 15) 0]
  else [ch]

/-- The function `lept_stringify_string`: the bytes written into the reserved region stay on
the stack, the rest of the reservation is given back. -/
def lept_stringify_string (c : lept_context) (s : List Nat) (len : Nat) : lept_context :=
  let c := PUTC c 34
  let c := (s.take len).foldl (fun c ch => PUTS c (lept_stringify_string_char ch)) c
  PUTC c 34

/-- The store `*p++ = b` of `lept_stringify_string` into the region of `size` bytes that it
reserved; `w` are the bytes stored so far, `p - head` of them. Nothing is returned for a store
outside the region. -/
def store_reserved (size : Nat) (w : Option (List Nat)) (b : Nat) : Option (List Nat) :=
  match w with
  | none => none
  | some w => if w.length < size then some (w ++ [b]) else none

/-- The function `lept_stringify_string` with its reservation: `size` is `len * 6 + 2` computed
in `size_t`, `lept_context_push` asserts `size > 0` and moves `top` from `head` up by `size`,
the bytes are stored from `head` on, and the last statement takes `size - (p - head)` off
`top`. The result is the final `top` and the bytes stored; there is none when the assertion
fails, when a byte is stored outside the reserved region, or when `size - (p - head)` is below
zero. The buffer is taken to be reallocated with success. -/
def lept_stringify_string_reserved (c : lept_context) (s : List Nat) (len : Nat) :
    Option (Nat × List Nat) :=
  let size := (len * 6 + 2) % 2 ^ 64
  if size = 0 then none
  else
    let head := c.top
    let top := head + size
    let w := store_reserved size (some []) 34
    let w := (s.take len).foldl
      (fun w ch => (lept_stringify_string_char ch).foldl (store_reserved size) w) w
    let w := store_reserved size w 34
    match w with
    | none => none
    | some w => if size < w.length then none else some (top - (size - w.length), w)

mutual
/-- The function `lept_stringify_value`. -/
def lept_stringify_value (L : CDouble) : lept_context → lept_value → lept_context
  | c, .null => PUTS c [110, 117, 108, 108]
  | c, .jfalse => PUTS c [102, 97, 108, 115, 101]
  | c, .jtrue => PUTS c [116, 114, 117, 101]
  | c, .number n => PUTS c (L.sprintf_17g n)
  | c, .string s => lept_stringify_string c s s.length
  | c, .array e _ =>
    let c := PUTC c 91
    let c := lept_stringify_array_loop L c 0 e
    PUTC c 93
  | c, .object m _ =>
    let c := PUTC c 123
    let c := lept_stringify_object_loop L c 0 m
    PUTC c 125
/-- The loop of the `LEPT_ARRAY` case from index `i` on. -/
def lept_stringify_array_loop (L : CDouble) : lept_context → Nat → List lept_value → lept_context
  | c, _, [] => c
  | c, i, x :: xs =>
    let c := if i > 0 then PUTC c 44 else c
    let c := lept_stringify_value L c x
    lept_stringify_array_loop L c (i + 1) xs
/-- The loop of the `LEPT_OBJECT` case from index `i` on. -/
def lept_stringify_object_loop (L : CDouble) :
    lept_context → Nat → List lept_member → lept_context
  | c, _, [] => c
  | c, i, .mk k x :: ms =>
    let c := if i > 0 then PUTC c 44 else c
    let c := lept_stringify_string c k k.length
    let c := PUTC c 58
    let c := lept_stringify_value L c x
    lept_stringify_object_loop L c (i + 1) ms
end

/-- The function `lept_stringify`: the text of `*length` bytes in the returned buffer. -/
def lept_stringify (L : CDouble) (v : lept_value) : List Nat :=
  let c : lept_context := ⟨[], []⟩
  let c := lept_stringify_value L c v
  let length := c.top
  let c := PUTC c 0
  (c.stack.map Slot.toByte).take length

/-- The value `lept_stringify` stores in `*length`: `c.top` once the value is written, before
the terminating NUL is pushed. -/
def lept_stringify_length (L : CDouble) (v : lept_value) : Nat :=
  (lept_stringify_value L ⟨[], []⟩ v).top

/-- The buffer `lept_stringify` returns, up to and with the terminating NUL. -/
def lept_stringify_buffer (L : CDouble) (v : lept_value) : List Nat :=
  (PUTC (lept_stringify_value L ⟨[], []⟩ v) 0).stack.map Slot.toByte

/-! ## Equality and lookup -/

/-- The constant `LEPT_KEY_NOT_EXIST`, `(size_t)-1` with a 64-bit `size_t`. -/
def LEPT_KEY_NOT_EXIST : Nat := 2 ^ 64 - 1

/-- The call `memcmp(a, b, n) == 0`. -/
def memcmp_eq (a b : List Nat) (n : Nat) : Bool := a.take n = b.take n

/-- The loop of `lept_find_object_index` from index `i` on. -/
def lept_find_object_index_loop (key : List Nat) (klen : Nat) : Nat → List lept_member → Nat
  | _, [] => LEPT_KEY_NOT_EXIST
  | i, m :: ms =>
    if m.klen = klen ∧ memcmp_eq m.k key klen then i
    else lept_find_object_index_loop key klen (i + 1) ms

/-- The function `lept_find_object_index`, on the members of the object. -/
def lept_find_object_index (m : List lept_member) (key : List Nat) (klen : Nat) : Nat :=
  lept_find_object_index_loop key klen 0 m

/-- The member `m[index]` of an object. -/
def member_at (m : List lept_member) (index : Nat) : lept_member :=
  m.getD index (.mk [] .null)

mutual
/-- The function `lept_is_equal`. -/
def lept_is_equal (L : CDouble) : lept_value → lept_value → Bool
  | .null, .null => true
  | .jfalse, .jfalse => true
  | .jtrue, .jtrue => true
  | .string s1, .string s2 => s1.length = s2.length && memcmp_eq s1 s2 s1.length
  | .number n1, .number n2 => L.eq n1 n2
  | .array e1 _, .array e2 _ =>
    if e1.length ≠ e2.length then false
    else lept_is_equal_array_loop L e1 e2
  | .object m1 _, .object m2 c2 =>
    if m1.length ≠ (lept_value.object m2 c2).u_a_size then false
    else lept_is_equal_object_loop L m1 m2
  | _, _ => false
/-- The loop of the `LEPT_ARRAY` case over the remaining elements of both sides. -/
def lept_is_equal_array_loop (L : CDouble) : List lept_value → List lept_value → Bool
  | x :: xs, y :: ys =>
    if !lept_is_equal L x y then false else lept_is_equal_array_loop L xs ys
  | _, _ => true
/-- The loop of the `LEPT_OBJECT` case over the remaining members of the right side; `m1` are
the members of the left side. -/
def lept_is_equal_object_loop (L : CDouble) (m1 : List lept_member) : List lept_member → Bool
  | [] => true
  | .mk k x :: ms =>
    let index := lept_find_object_index m1 k k.length
    if index = LEPT_KEY_NOT_EXIST then false
    else if !lept_is_equal L (member_at m1 index).v x then false
    else lept_is_equal_object_loop L m1 ms
end

/-! ## Arrays and objects: the container functions

A function that returns nothing (`none`) stands for a call whose assertion fails or whose
behaviour the C standard leaves undefined: a `memcpy` between regions that overlap, a store
outside the allocated slots, a read outside a key buffer, the release of a slot that was never
written. A block asked for with its byte count is taken to be allocated. The slots of an array
or object from `size` up to `capacity` are not part of a value. -/

/-- The call `memcpy(e + dst, e + src, n * sizeof *e)` on the slots `e` of one allocation: the
`n` slots from `src` on are copied to the slots from `dst` on. The behaviour of `memcpy` is
undefined if the two regions overlap (C11 7.24.2.1). -/
def memcpy_slots {α : Type} (e : List α) (dst src n : Nat) : Option (List α) :=
  if n ≠ 0 ∧ dst < src + n ∧ src < dst + n then none
  else some (e.take dst ++ (e.drop src).take n ++ e.drop (dst + n))

/-- The store of `x` into the slot `e[i]`. -/
def store_slot {α : Type} (e : List α) (i : Nat) (x : α) : List α :=
  e.take i ++ x :: e.drop (i + 1)

/-- The function `lept_get_array_size`. -/
def lept_get_array_size : lept_value → Option Nat
  | .array e _ => some e.length
  | _ => none

/-- The function `lept_get_array_capacity`. -/
def lept_get_array_capacity : lept_value → Option Nat
  | .array _ c => some c
  | _ => none

/-- The function `lept_get_array_element`. -/
def lept_get_array_element : lept_value → Nat → Option lept_value
  | .array e _, index => if index < e.length then some (e.getD index .null) else none
  | _, _ => none

/-- The function `lept_reserve_array`. The block is reallocated with
`capacity * sizeof(lept_value)` bytes, a product computed in `size_t`: when it wraps around,
the block has fewer than `capacity` slots (none at all for a multiple of `2 ^ 59`, where the
elements are released), while `capacity` is recorded, and there is no value. -/
def lept_reserve_array : lept_value → Nat → Option lept_value
  | .array e c, capacity =>
    if c < capacity then
      if capacity * sizeof_lept_value % 2 ^ 64 < capacity * sizeof_lept_value then none
      else some (.array e capacity)
    else some (.array e c)
  | _, _ => none

/-- The function `lept_shrink_array`. -/
def lept_shrink_array : lept_value → Option lept_value
  | .array e c => if c > e.length then some (.array e e.length) else some (.array e c)
  | _ => none

/-- The slots `e[0 .. size)` at the end of `lept_erase_array_element` with `count > 0`: the
erased elements are released (`lept_free` leaves `LEPT_NULL`), the elements after them are
copied down by `memcpy`, and the last `count` slots are set to `LEPT_NULL` by `lept_init`. -/
def lept_erase_array_element_slots (e : List lept_value) (index count : Nat) :
    Option (List lept_value) :=
  let e1 := e.take index ++ List.replicate count .null ++ e.drop (index + count)
  match memcpy_slots e1 index (index + count) (e.length - index - count) with
  | none => none
  | some e2 => some (e2.take (e.length - count) ++ List.replicate count .null)

/-- The function `lept_erase_array_element`. A sum `index + count` that wraps around passes the
assertion and forms pointers outside the array. -/
def lept_erase_array_element : lept_value → Nat → Nat → Option lept_value
  | .array e c, index, count =>
    if index + count ≤ e.length then
      if count = 0 then some (.array e c)
      else
        match lept_erase_array_element_slots e index count with
        | none => none
        | some s => some (.array (s.take (e.length - count)) c)
    else none
  | _, _, _ => none

/-- The function `lept_clear_array`. -/
def lept_clear_array : lept_value → Option lept_value
  | .array e c => lept_erase_array_element (.array e c) 0 e.length
  | _ => none

/-- The function `lept_pushback_array_element`: the array and the index of the element whose
address is returned. -/
def lept_pushback_array_element : lept_value → Option (lept_value × Nat)
  | .array e c =>
    let v :=
      if e.length = c then lept_reserve_array (.array e c) (if c = 0 then 1 else c * 2 % 2 ^ 64)
      else some (.array e c)
    match v with
    | some (.array e c) =>
      if e.length < c then some (.array (store_slot e e.length .null) c, e.length) else none
    | _ => none
  | _ => none

/-- The function `lept_popback_array_element`. -/
def lept_popback_array_element : lept_value → Option lept_value
  | .array e c => if e.length > 0 then some (.array (e.take (e.length - 1)) c) else none
  | _ => none

/-- The function `lept_insert_array_element`: the array and the index of the element whose
address is returned. -/
def lept_insert_array_element : lept_value → Nat → Option (lept_value × Nat)
  | .array e c, index =>
    if index ≤ e.length then
      let v :=
        if e.length = c then
          lept_reserve_array (.array e c) (if c = 0 then 1 else c * 2 % 2 ^ 64)
        else some (.array e c)
      match v with
      | some (.array e c) =>
        if e.length < c then
          match memcpy_slots e (index + 1) index (e.length - index) with
          | none => none
          | some e1 => some (.array (store_slot e1 index .null) c, index)
        else none
      | _ => none
    else none
  | _, _ => none

/-- The function `lept_get_object_size`. -/
def lept_get_object_size : lept_value → Option Nat
  | .object m _ => some m.length
  | _ => none

/-- The function `lept_get_object_capacity`. -/
def lept_get_object_capacity : lept_value → Option Nat
  | .object _ c => some c
  | _ => none

/-- The function `lept_reserve_object`. The block is reallocated with
`capacity * sizeof(lept_member)` bytes, a product computed in `size_t`: when it wraps around,
the block has fewer than `capacity` slots, while `capacity` is recorded, and there is no
value. -/
def lept_reserve_object : lept_value → Nat → Option lept_value
  | .object m c, capacity =>
    if c < capacity then
      if capacity * sizeof_lept_member % 2 ^ 64 < capacity * sizeof_lept_member then none
      else some (.object m capacity)
    else some (.object m c)
  | _, _ => none

/-- The function `lept_shrink_object`. -/
def lept_shrink_object : lept_value → Option lept_value
  | .object m c => if c > m.length then some (.object m m.length) else some (.object m c)
  | _ => none

/-- The function `lept_clear_object`: the keys are freed and the size becomes 0. (Its loop
releases the value of the first member only, `size` times; what it leaves allocated is lost
and not part of a value.) -/
def lept_clear_object : lept_value → Option lept_value
  | .object _ c => some (.object [] c)
  | _ => none

/-- The function `lept_find_object_value`, on the members of the object: nothing for the
`NULL` result. -/
def lept_find_object_value (m : List lept_member) (key : List Nat) (klen : Nat) :
    Option lept_value :=
  let index := lept_find_object_index m key klen
  if index ≠ LEPT_KEY_NOT_EXIST then some (member_at m index).v else none

/-- The function `lept_set_object_value`: the object and the index of the member whose value
is returned by address. `key` holds the bytes that can be read at the pointer `key`. -/
def lept_set_object_value : lept_value → List Nat → Nat → Option (lept_value × Nat)
  | .object m c, key, klen =>
    let index := lept_find_object_index m key klen
    if index ≠ LEPT_KEY_NOT_EXIST then some (.object m c, index)
    else
      let tem := m.length
      let v :=
        if m.length = c then
          lept_reserve_object (.object m c) (if c = 0 then 1 else (c <<< 1) % 2 ^ 64)
        else some (.object m c)
      match v with
      | some (.object m c) =>
        if tem < c ∧ klen ≤ key.length then
          some (.object (store_slot m tem (.mk (key.take klen) .null)) c, tem)
        else none
      | _ => none
  | _, _, _ => none

/-- The function `lept_remove_object_value`. -/
def lept_remove_object_value : lept_value → Nat → Option lept_value
  | .object m c, index =>
    if index < m.length then
      match memcpy_slots m index (index + 1) (m.length - 1 - index) with
      | none => none
      | some m1 => some (.object (m1.take (m.length - 1)) c)
    else none
  | _, _ => none

/-- The store of a value through the pointer to the value of the member `m[index]`. -/
def store_member_value : lept_value → Nat → lept_value → lept_value
  | .object m c, index, x => .object (store_slot m index (.mk (member_at m index).k x)) c
  | v, _, _ => v

/-- The loop of the `LEPT_ARRAY` case of `lept_copy` over the remaining elements. The
destination of the call `lept_copy(&dst->u.a.e[i], &src->u.a.e[i])` is a slot of the block that
`lept_set_array` has just taken from `malloc`. Every case of `lept_copy` releases its
destination before it writes it (`lept_set_string`, `lept_set_array` and `lept_set_object`
call `lept_free`, as the default case does), and `lept_free` reads the type tag of the slot
and, by it, its pointers: the slot was never written, so a round leaves no value. -/
def lept_copy_array_loop : List lept_value → Option (List lept_value)
  | [] => some []
  | _ :: _ => none

mutual
/-- The function `lept_copy`: the value left in `*dst`, which on entry holds a value (it is
released and plays no further part). In the array case the capacity and the size of the source
are stored and the elements are copied by the loop above. In the object case the key of every
member is read with the length `src->u.o.m->klen` of the first member, from a buffer that
holds the key and its terminating NUL, and the value is copied into the member that
`lept_set_object_value` returns, which holds a value; after the loop `size` is set to the size
of the source, and there is no value if members up to that size were never written. -/
def lept_copy : lept_value → Option lept_value
  | .string s => some (lept_set_string .null s s.length)
  | .array e c =>
    match lept_set_array .null c with
    | none => none
    | some _ =>
      match lept_copy_array_loop e with
      | none => none
      | some e2 => some (.array e2 c)
  | .object m c =>
    match lept_set_object .null c with
    | none => none
    | some dst =>
      match lept_copy_object_loop (member_at m 0).klen m dst with
      | some (.object m2 c2) => if m2.length = m.length then some (.object m2 c2) else none
      | _ => none
  | .null => some .null
  | .jfalse => some .jfalse
  | .jtrue => some .jtrue
  | .number n => some (.number n)
/-- The loop of the `LEPT_OBJECT` case of `lept_copy` over the remaining members, `dst` being
the destination so far. -/
def lept_copy_object_loop (klen : Nat) : List lept_member → lept_value → Option lept_value
  | [], dst => some dst
  | .mk k x :: ms, dst =>
    match lept_set_object_value dst (k ++ [0]) klen with
    | none => none
    | some (dst, index) =>
      match lept_copy x with
      | none => none
      | some y => lept_copy_object_loop klen ms (store_member_value dst index y)
end

/-! ## Specification-level definitions

The definitions below are not code of the repository: they are the vocabulary in which the
properties of the engine are stated and proved. -/

/-- The bytes of a text written as an ASCII string literal. -/
def ascii (s : String) : List Nat := s.toList.map Char.toNat

/-- The bytes that `lept_encode_utf8` pushes for `u`. -/
def utf8_bytes (u : Nat) : List Nat :=
  if u ≤ 0x7F then [(u &&& 0xFF) % 256]
  else if u ≤ 0x7FF then
    [(0xC0 ||| ((u >>> 6) &&& 0xFF)) % 256, (0x80 ||| (u &&& 0x3F)) % 256]
  else if u ≤ 0xFFFF then
    [(0xE0 ||| ((u >>> 12) &&& 0xFF)) % 256, (0x80 ||| ((u >>> 6) &&& 0x3F)) % 256,
      (0x80 ||| (u &&& 0x3F)) % 256]
  else
    [(0xF0 ||| ((u >>> 18) &&& 0xFF)) % 256, (0x80 ||| ((u >>> 12) &&& 0x3F)) % 256,
      (0x80 ||| ((u >>> 6) &&& 0x3F)) % 256, (0x80 ||| (u &&& 0x3F)) % 256]

/-- What one round of the loop of `lept_parse_string_raw` does at position `p`: it ends the
string, pushes bytes and goes on, or fails. -/
inductive StringStep where
  | stop (p : List Nat)
  | put (bs : List Nat) (p : List Nat)
  | fail (ret : lept_parse_code)

/-- One round of the loop of `lept_parse_string_raw`, read off the text alone. -/
def string_step (p : List Nat) : StringStep :=
  let ch := peek p
  let p := p.tail
  if ch = 34 then .stop p
  else if ch = 92 then
    let e := peek p
    let p := p.tail
    if e = 34 then .put [34] p
    else if e = 92 then .put [92] p
    else if e = 47 then .put [47] p
    else if e = 98 then .put [8] p
    else if e = 102 then .put [12] p
    else if e = 110 then .put [10] p
    else if e = 114 then .put [13] p
    else if e = 116 then .put [9] p
    else if e = 117 then
      match lept_parse_hex4 p with
      | none => .fail LEPT_PARSE_INVALID_UNICODE_HEX
      | some (p, u) =>
        if 0xD800 ≤ u ∧ u ≤ 0xDBFF then
          if peek p ≠ 92 then .fail LEPT_PARSE_INVALID_UNICODE_SURROGATE
          else
            let p := p.tail
            if peek p ≠ 117 then .fail LEPT_PARSE_INVALID_UNICODE_SURROGATE
            else
              let p := p.tail
              match lept_parse_hex4 p with
              | none => .fail LEPT_PARSE_INVALID_UNICODE_HEX
              | some (p, u2) =>
                if u2 < 0xDC00 ∨ u2 > 0xDFFF then .fail LEPT_PARSE_INVALID_UNICODE_SURROGATE
                else .put (utf8_bytes ((((u - 0xD800) <<< 10) ||| (u2 - 0xDC00)) + 0x10000)) p
        else .put (utf8_bytes u) p
    else .fail LEPT_PARSE_INVALID_STRING_ESCAPE
  else if ch = 0 then .fail LEPT_PARSE_MISS_QUOTATION_MARK
  else if ch < 0x20 then .fail LEPT_PARSE_INVALID_STRING_CHAR
  else .put [ch] p

/-- The loop of `lept_parse_string_raw` without the stack: `acc` are the bytes decoded so far;
the result is the return code, the rest of the text and the decoded bytes. -/
def pure_string_loop : Nat → List Nat → List Nat → Option (lept_parse_code × List Nat × List Nat)
  | 0, _, _ => none
  | fuel + 1, p, acc =>
    match string_step p with
    | .stop p => some (LEPT_PARSE_OK, p, acc)
    | .put bs p => pure_string_loop fuel p (acc ++ bs)
    | .fail ret => some (ret, [], [])

/-- The function `lept_parse_string` without the stack: return code, rest of the text, value. -/
def pure_parse_string (fuel : Nat) (json : List Nat) (v : lept_value) :
    Option (lept_parse_code × List Nat × lept_value) :=
  match pure_string_loop fuel json.tail [] with
  | none => none
  | some (ret, p, s) =>
    if ret = LEPT_PARSE_OK then some (ret, p, .string s) else some (ret, json.tail, v)

/-- The loop of `lept_parse_array` without the stack: `acc` are the elements parsed so far. -/
def pure_parse_array_loop
    (pv : List Nat → lept_value → Option (lept_parse_code × List Nat × lept_value)) :
    Nat → List Nat → lept_value → List lept_value →
      Option (lept_parse_code × List Nat × lept_value)
  | 0, _, _, _ => none
  | fuel + 1, json, v, acc =>
    match pv json .null with
    | none => none
    | some (ret, json, e) =>
      if ret ≠ LEPT_PARSE_OK then some (ret, json, v)
      else
        let json := json.dropWhile is_ws
        if peek json = 44 then
          pure_parse_array_loop pv fuel (json.tail.dropWhile is_ws) v (acc ++ [e])
        else if peek json = 93 then
          some (LEPT_PARSE_OK, json.tail, .array (acc ++ [e]) (acc.length + 1))
        else some (LEPT_PARSE_MISS_COMMA_OR_SQUARE_BRACKET, json, v)

/-- The loop of `lept_parse_object` without the stack: `acc` are the members parsed so far. -/
def pure_parse_object_loop
    (pv : List Nat → lept_value → Option (lept_parse_code × List Nat × lept_value)) :
    Nat → List Nat → List lept_member → Option (lept_parse_code × List Nat × lept_value)
  | 0, _, _ => none
  | fuel + 1, json, acc =>
    if peek json ≠ 34 then some (LEPT_PARSE_MISS_KEY, json, .null)
    else
      match pure_string_loop fuel json.tail [] with
      | none => none
      | some (ret, p, k) =>
        if ret ≠ LEPT_PARSE_OK then some (ret, json.tail, .null)
        else
          let json := p.dropWhile is_ws
          if peek json ≠ 58 then some (LEPT_PARSE_MISS_COLON, json, .null)
          else
            let json := json.tail.dropWhile is_ws
            match pv json .null with
            | none => none
            | some (ret, json, mv) =>
              if ret ≠ LEPT_PARSE_OK then some (ret, json, .null)
              else
                let json := json.dropWhile is_ws
                if peek json = 44 then
                  pure_parse_object_loop pv fuel (json.tail.dropWhile is_ws) (acc ++ [.mk k mv])
                else if peek json = 125 then
                  some (LEPT_PARSE_OK, json.tail, .object (acc ++ [.mk k mv]) (acc.length + 1))
                else some (LEPT_PARSE_MISS_COMMA_OR_CURLY_BRACKET, json, .null)

/-- The function `lept_parse_value` without the stack: return code, rest of the text, value. -/
def pure_parse_value (L : CDouble) :
    Nat → List Nat → lept_value → Option (lept_parse_code × List Nat × lept_value)
  | 0, _, _ => none
  | fuel + 1, json, v =>
    let ch := peek json
    if ch = 116 then
      let r := lept_parse_literal ⟨json, []⟩ v [116, 114, 117, 101] LEPT_TRUE
      some (r.1, r.2.1.json, r.2.2)
    else if ch = 102 then
      let r := lept_parse_literal ⟨json, []⟩ v [102, 97, 108, 115, 101] LEPT_FALSE
      some (r.1, r.2.1.json, r.2.2)
    else if ch = 110 then
      let r := lept_parse_literal ⟨json, []⟩ v [110, 117, 108, 108] LEPT_NULL
      some (r.1, r.2.1.json, r.2.2)
    else if ch = 34 then pure_parse_string fuel json v
    else if ch = 91 then
      let p := json.tail.dropWhile is_ws
      if peek p = 93 then some (LEPT_PARSE_OK, p.tail, .array [] 0)
      else pure_parse_array_loop (pure_parse_value L fuel) fuel p v []
    else if ch = 123 then
      let p := json.tail.dropWhile is_ws
      if peek p = 125 then some (LEPT_PARSE_OK, p.tail, .object [] 0)
      else pure_parse_object_loop (pure_parse_value L fuel) fuel p []
    else if ch = 0 then some (LEPT_PARSE_EXPECT_VALUE, json, v)
    else
      let r := lept_parse_number L ⟨json, []⟩ v
      some (r.1, r.2.1.json, r.2.2)

/-- The result of the string loop on a stack `S` that holds the bytes `acc` above `head`. -/
def string_result (j : List Nat) (S : List Slot) :
    Option (lept_parse_code × List Nat × List Nat) →
      Option (lept_parse_code × lept_context × List Nat × Nat)
  | none => none
  | some (ret, q, s) =>
    if ret = LEPT_PARSE_OK then some (ret, ⟨q, S⟩, s, s.length) else some (ret, ⟨j, S⟩, [], 0)

/-- The result of a parsing function run on the stack `S`, from its result without the stack. -/
def value_result (S : List Slot) :
    Option (lept_parse_code × List Nat × lept_value) →
      Option (lept_parse_code × lept_context × lept_value)
  | none => none
  | some (ret, q, v) => some (ret, ⟨q, S⟩, v)

/-- The function `lept_parse` without the stack. -/
def pure_parse (L : CDouble) (json : List Nat) : Option (lept_parse_code × lept_value) :=
  match pure_parse_value L (json.length + 1) (json.dropWhile is_ws) .null with
  | none => none
  | some (ret, q, v) =>
    if ret = LEPT_PARSE_OK then
      if peek (q.dropWhile is_ws) ≠ 0 then some (LEPT_PARSE_ROOT_NOT_SINGULAR, .null)
      else some (ret, v)
    else some (ret, v)

/-- A parsing function leaves a suffix of the text, a proper one when it succeeds. -/
def Consumes (pv : List Nat → lept_value → Option (lept_parse_code × List Nat × lept_value)) :
    Prop :=
  ∀ j v ret q w, pv j v = some (ret, q, w) →
    q <:+ j ∧ (ret = LEPT_PARSE_OK → q.length < j.length)

/-- The bytes a JSON number is made of: digits, signs, the point and the exponent letters. -/
def is_numchar (b : Nat) : Bool :=
  ISDIGIT b || b = 45 || b = 43 || b = 46 || b = 101 || b = 69

/-- The bytes that follow a value in a well-formed text: the end of the text, whitespace,
`,`, `]` and the closing brace. -/
def is_delim (b : Nat) : Bool :=
  b = 0 || is_ws b || b = 44 || b = 93 || b = 125

/-- The sign of the number walk: an optional `-`. -/
def scan_sign (p : List Nat) : List Nat := if peek p = 45 then p.tail else p

/-- The integer part of the number walk: `0`, or a digit from 1 to 9 and digits. -/
def scan_int (p : List Nat) : Option (List Nat) :=
  if peek p = 48 then some p.tail
  else if !ISDIGIT1TO9 (peek p) then none
  else some (p.tail.dropWhile ISDIGIT)

/-- The fraction of the number walk: optional, a point and one digit or more. -/
def scan_frac (p : List Nat) : Option (List Nat) :=
  if peek p = 46 then
    if !ISDIGIT (peek p.tail) then none
    else some (p.tail.tail.dropWhile ISDIGIT)
  else some p

/-- The exponent of the number walk: optional, `e` or `E`, an optional sign, one digit or
more. -/
def scan_exp (p : List Nat) : Option (List Nat) :=
  if peek p = 101 ∨ peek p = 69 then
    if !ISDIGIT (peek (if peek p.tail = 43 ∨ peek p.tail = 45 then p.tail.tail else p.tail)) then
      none
    else some ((if peek p.tail = 43 ∨ peek p.tail = 45 then p.tail.tail else p.tail).tail.dropWhile
      ISDIGIT)
  else some p

/-- The text `q` is what is left of `t` after bytes of a number. -/
def NumRest (t q : List Nat) : Prop := ∃ n : List Nat, t = n ++ q ∧ ∀ b ∈ n, is_numchar b = true

/-- The bytes `lept_stringify_string` writes for the bytes of a string, without the quotes. -/
def render_chars (s : List Nat) : List Nat := s.flatMap lept_stringify_string_char

/-- The text `lept_stringify_string` writes for a string. -/
def render_string (s : List Nat) : List Nat := 34 :: (render_chars s ++ [34])

mutual
/-- The text `lept_stringify_value` appends to the buffer for a value. -/
def render (L : CDouble) : lept_value → List Nat
  | .null => [110, 117, 108, 108]
  | .jfalse => [102, 97, 108, 115, 101]
  | .jtrue => [116, 114, 117, 101]
  | .number n => L.sprintf_17g n
  | .string s => render_string s
  | .array e _ => 91 :: (render_array_loop L 0 e ++ [93])
  | .object m _ => 123 :: (render_object_loop L 0 m ++ [125])
/-- The text the loop of the `LEPT_ARRAY` case appends from index `i` on. -/
def render_array_loop (L : CDouble) : Nat → List lept_value → List Nat
  | _, [] => []
  | i, x :: xs => (if i > 0 then [44] else []) ++ (render L x ++ render_array_loop L (i + 1) xs)
/-- The text the loop of the `LEPT_OBJECT` case appends from index `i` on. -/
def render_object_loop (L : CDouble) : Nat → List lept_member → List Nat
  | _, [] => []
  | i, .mk k x :: ms =>
    (if i > 0 then [44] else []) ++
      (render_string k ++ (58 :: (render L x ++ render_object_loop L (i + 1) ms)))
end

/-- The UTF-8 encoding of the code point `u` (RFC 3629), written with division and remainder. -/
def utf8_spec (u : Nat) : List Nat :=
  if u < 0x80 then [u]
  else if u < 0x800 then [0xC0 + u / 64, 0x80 + u % 64]
  else if u < 0x10000 then [0xE0 + u / 4096, 0x80 + u / 64 % 64, 0x80 + u % 64]
  else [0xF0 + u / 262144, 0x80 + u / 4096 % 64, 0x80 + u / 64 % 64, 0x80 + u % 64]

/-- The character that writes the hexadecimal digit `d`, in upper or in lower case. -/
def hex_digit (upper : Bool) (d : Nat) : Nat :=
  if d < 10 then 48 + d else if upper then 55 + d else 87 + d

/-- Four hexadecimal digits, each with its own case. -/
structure Hex4 where
  d1 : Nat
  d2 : Nat
  d3 : Nat
  d4 : Nat
  u1 : Bool
  u2 : Bool
  u3 : Bool
  u4 : Bool

/-- The digits are below sixteen. -/
def Hex4.ok (h : Hex4) : Prop := h.d1 < 16 ∧ h.d2 < 16 ∧ h.d3 < 16 ∧ h.d4 < 16

/-- The code unit written by four hexadecimal digits. -/
def Hex4.value (h : Hex4) : Nat := ((h.d1 * 16 + h.d2) * 16 + h.d3) * 16 + h.d4

/-- The four characters of the digits. -/
def Hex4.text (h : Hex4) : List Nat :=
  [hex_digit h.u1 h.d1, hex_digit h.u2 h.d2, hex_digit h.u3 h.d3, hex_digit h.u4 h.d4]

/-- The test of `lept_parse_hex4` on one byte: `0-9`, `A-F` or `a-f`. -/
def is_hex (ch : Nat) : Bool :=
  (48 ≤ ch && ch ≤ 57) || (65 ≤ ch && ch ≤ 70) || (97 ≤ ch && ch ≤ 102)

/-- A text `b` that the loop of `lept_parse_string_raw` passes over without meeting the closing
quote or an error, pushing the bytes `out`: a sequence of items, each of which makes one round
of the loop push its bytes and go on with what follows the item. -/
inductive StringBody : List Nat → List Nat → Prop where
  | nil : StringBody [] []
  | item {it bs b out : List Nat} :
      (∀ x, string_step (it ++ x) = .put bs x) → StringBody b out → StringBody (it ++ b) (bs ++ out)

/-- The number of binary digits of `n`; the fuel bounds the search. -/
def bit_length : Nat → Nat → Nat
  | 0, _ => 0
  | f + 1, n => if n = 0 then 0 else bit_length f (n / 2) + 1

/-- The decimal digits of `n`, at most as many as there is fuel. -/
def decimal_digits : Nat → Nat → List Nat
  | 0, _ => []
  | f + 1, n => if n < 10 then [48 + n] else decimal_digits f (n / 10) ++ [48 + n % 10]

/-- The bits of the double whose value is the integer `n` below `2 ^ 53`, with the given
sign. -/
def double_of_nat (neg : Bool) (n : Nat) : double :=
  let s := if neg then 2 ^ 63 else 0
  if n = 0 then ⟨s⟩
  else
    let e := bit_length 64 n - 1
    ⟨s + (1023 + e) * 2 ^ 52 + (n - 2 ^ e) * 2 ^ (52 - e)⟩

/-- The magnitude of a double whose value is an integer below `2 ^ 53`. -/
def nat_of_double (d : double) : Option Nat :=
  let ex := d.bits / 2 ^ 52 % 2048
  let m := d.bits % 2 ^ 52
  if ex = 0 ∧ m = 0 then some 0
  else if 1023 ≤ ex ∧ ex ≤ 1075 ∧ (2 ^ 52 + m) % 2 ^ (1075 - ex) = 0 then
    some ((2 ^ 52 + m) / 2 ^ (1075 - ex))
  else none

/-- Whether the bits are those of a NaN. -/
def double_is_nan (d : double) : Bool :=
  d.bits / 2 ^ 52 % 2048 = 2047 && d.bits % 2 ^ 52 ≠ 0

/-- A C library for the examples. The comparison, the negation and `HUGE_VAL` are those of
IEEE-754 doubles. The conversions are those of a C library in the `C` locale on what the
examples use and are not meant beyond it: `strtod` reads a decimal integer below `2 ^ 53` with
an optional `-` (what follows the digits is not looked at), `%.17g` prints the doubles with an
integral value below `2 ^ 53` in decimal, the infinities as `inf` and `-inf`, a NaN as `nan`. -/
def example_libc : CDouble where
  strtod := fun s =>
    let t := s.takeWhile (fun b => !is_delim b)
    let neg := decide (peek t = 45)
    let ds := (if neg then t.tail else t).takeWhile ISDIGIT
    let n := ds.foldl (fun a d => 10 * a + (d - 48)) 0
    if n < 2 ^ 53 then (double_of_nat neg n, false)
    else (⟨(if neg then 2 ^ 63 else 0) + 2047 * 2 ^ 52⟩, true)
  HUGE_VAL := ⟨2047 * 2 ^ 52⟩
  neg := fun d => ⟨if d.bits < 2 ^ 63 then d.bits + 2 ^ 63 else d.bits - 2 ^ 63⟩
  eq := fun a b =>
    if double_is_nan a || double_is_nan b then false
    else if a.bits % 2 ^ 63 = 0 ∧ b.bits % 2 ^ 63 = 0 then true
    else decide (a.bits = b.bits)
  sprintf_17g := fun d =>
    let sign := if 2 ^ 63 ≤ d.bits then [45] else []
    if d.bits / 2 ^ 52 % 2048 = 2047 then
      if d.bits % 2 ^ 52 = 0 then sign ++ [105, 110, 102] else sign ++ [110, 97, 110]
    else
      match nat_of_double d with
      | some n => sign ++ decimal_digits 17 n
      | none => sign ++ [48]

instance Hex4.decidable_ok (h : Hex4) : Decidable h.ok := by
  unfold Hex4.ok
  infer_instance

/-- What `strtod` converts is decided by the text up to the first byte that ends a value: a
text that starts with bytes of a number gives the same result whatever follows the first
delimiter after them. A C library in the `C` locale does so, as no delimiter belongs to the
subject sequence of `strtod`. -/
def StrtodLocal (L : CDouble) : Prop :=
  ∀ n r r2 : List Nat, n ≠ [] → (∀ b ∈ n, is_numchar b = true) →
    is_delim (peek r) = true → is_delim (peek r2) = true → L.strtod (n ++ r) = L.strtod (n ++ r2)

/-- A parsing function that succeeds and stops before a delimiter does the same when text that
starts with a delimiter is appended. -/
def Appends (pv : List Nat → lept_value → Option (lept_parse_code × List Nat × lept_value)) :
    Prop :=
  ∀ j v q w x, pv j v = some (LEPT_PARSE_OK, q, w) → is_delim (peek q) = true →
    is_delim (peek x) = true → pv (j ++ x) v = some (LEPT_PARSE_OK, q ++ x, w)

/-- On the text `j`, `lept_parse_value` parses a value and leaves the text `q`. -/
def ParsesValue (L : CDouble) (j q : List Nat) : Prop :=
  ∃ fuel v, lept_parse_value L fuel ⟨j, []⟩ .null = some (LEPT_PARSE_OK, ⟨q, []⟩, v)

/-- On the text `j`, `lept_parse_string_raw` parses a key and leaves the text `q`. -/
def ParsesKey (j q : List Nat) : Prop :=
  ∃ fuel k len, lept_parse_string_raw fuel ⟨j, []⟩ = some (LEPT_PARSE_OK, ⟨q, []⟩, k, len)

/-- In the array text `j` the loop of `lept_parse_array` starts a round at `p`: after `[` and
whitespace when the array is not empty, or after an element parsed with success, whitespace, a
comma and whitespace. -/
inductive ArrayRound (L : CDouble) : List Nat → List Nat → Prop where
  | first {j : List Nat} : peek j = 91 → peek (j.tail.dropWhile is_ws) ≠ 93 →
      ArrayRound L j (j.tail.dropWhile is_ws)
  | next {j p q : List Nat} : ArrayRound L j p → ParsesValue L p q →
      peek (q.dropWhile is_ws) = 44 → ArrayRound L j ((q.dropWhile is_ws).tail.dropWhile is_ws)

/-- The member that starts at `p` has its value at `pv`: a key, whitespace, a colon,
whitespace. -/
def MemberValue (p pv : List Nat) : Prop :=
  peek p = 34 ∧ ∃ q, ParsesKey p q ∧ peek (q.dropWhile is_ws) = 58 ∧
    pv = (q.dropWhile is_ws).tail.dropWhile is_ws

/-- In the object text `j` the loop of `lept_parse_object` starts a round at `p`. -/
inductive ObjectRound (L : CDouble) : List Nat → List Nat → Prop where
  | first {j : List Nat} : peek j = 123 → peek (j.tail.dropWhile is_ws) ≠ 125 →
      ObjectRound L j (j.tail.dropWhile is_ws)
  | next {j p pv q : List Nat} : ObjectRound L j p → MemberValue p pv → ParsesValue L pv q →
      peek (q.dropWhile is_ws) = 44 → ObjectRound L j ((q.dropWhile is_ws).tail.dropWhile is_ws)

/-- The parse of the value at `j` comes to parse a value at `r`: `r` is `j`, or the place of an
element or of a member value, at any depth, of the array or object at `j`. -/
inductive Reaches (L : CDouble) : List Nat → List Nat → Prop where
  | here (j : List Nat) : Reaches L j j
  | element {j p r : List Nat} : ArrayRound L j p → Reaches L p r → Reaches L j r
  | member {j p pv r : List Nat} : ObjectRound L j p → MemberValue p pv → Reaches L pv r →
      Reaches L j r

/-- Parsing the value at `j` fails with the code `e`. -/
def ValueFails (L : CDouble) (j : List Nat) (e : lept_parse_code) : Prop :=
  ∃ f q w, pure_parse_value L f j .null = some (e, q, w)

/-- The rounds of the array loop from `p` on fail with the code `e`, whatever was parsed
before. -/
def ArrayLoopFails (L : CDouble) (p : List Nat) (e : lept_parse_code) : Prop :=
  ∀ acc, ∃ f k q w, pure_parse_array_loop (pure_parse_value L f) k p .null acc = some (e, q, w)

/-- The rounds of the object loop from `p` on fail with the code `e`, whatever was parsed
before. -/
def ObjectLoopFails (L : CDouble) (p : List Nat) (e : lept_parse_code) : Prop :=
  ∀ acc, ∃ f k q w, pure_parse_object_loop (pure_parse_value L f) k p acc = some (e, q, w)

mutual
/-- The value with every capacity set to the size: what the parser builds. -/
def exact_capacity : lept_value → lept_value
  | .null => .null
  | .jfalse => .jfalse
  | .jtrue => .jtrue
  | .number n => .number n
  | .string s => .string s
  | .array e _ => .array (exact_capacity_array e) e.length
  | .object m _ => .object (exact_capacity_object m) m.length
/-- The elements with every capacity set to the size. -/
def exact_capacity_array : List lept_value → List lept_value
  | [] => []
  | x :: xs => exact_capacity x :: exact_capacity_array xs
/-- The members with every capacity set to the size. -/
def exact_capacity_object : List lept_member → List lept_member
  | [] => []
  | .mk k x :: ms => .mk k (exact_capacity x) :: exact_capacity_object ms
end

mutual
/-- The property `P` holds of the value and of every value inside it. -/
def Everywhere (P : lept_value → Prop) : lept_value → Prop
  | .null => P .null
  | .jfalse => P .jfalse
  | .jtrue => P .jtrue
  | .number n => P (.number n)
  | .string s => P (.string s)
  | .array e c => P (.array e c) ∧ EverywhereArray P e
  | .object m c => P (.object m c) ∧ EverywhereObject P m
/-- The property `P` holds everywhere in the elements. -/
def EverywhereArray (P : lept_value → Prop) : List lept_value → Prop
  | [] => True
  | x :: xs => Everywhere P x ∧ EverywhereArray P xs
/-- The property `P` holds everywhere in the values of the members. -/
def EverywhereObject (P : lept_value → Prop) : List lept_member → Prop
  | [] => True
  | .mk _ x :: ms => Everywhere P x ∧ EverywhereObject P ms
end

/-- The double `x` is printed by `%.17g` as the text of a JSON number that `strtod` converts
back to `x` and that `lept_parse_number` does not take for an overflow, whatever delimiter
follows the text. The finite doubles are such with a C library in the `C` locale. -/
def PrintsBack (L : CDouble) (x : double) : Prop :=
  ∀ rest, is_delim (peek rest) = true →
    lept_parse_number_scan (L.sprintf_17g x ++ rest) = some rest ∧
    (L.strtod (L.sprintf_17g x ++ rest)).1 = x ∧
    ((L.strtod (L.sprintf_17g x ++ rest)).2 &&
      (L.eq x L.HUGE_VAL || L.eq x (L.neg L.HUGE_VAL))) = false

/-- At a number: it prints back. -/
def NumberPrintsBack (L : CDouble) : lept_value → Prop
  | .number n => PrintsBack L n
  | _ => True

/-- At a number: it is equal to itself (it is no NaN). At an object: no two members have the
same key, and the size is below `LEPT_KEY_NOT_EXIST`. -/
def EqualityFriendly (L : CDouble) : lept_value → Prop
  | .number n => L.eq n n = true
  | .object m _ => (m.map lept_member.k).Nodup ∧ m.length < 2 ^ 64
  | _ => True

/-- The text of `v` starts with a byte that is no delimiter, and followed by a delimiter it is
parsed back to `v` with exact capacities, the position left at the delimiter. -/
def ParsesBack (L : CDouble) (v : lept_value) : Prop :=
  (∃ c t, render L v = c :: t ∧ is_delim c = false) ∧
  ∀ rest, is_delim (peek rest) = true →
    ∃ f, pure_parse_value L f (render L v ++ rest) .null =
      some (LEPT_PARSE_OK, rest, exact_capacity v)

/-- The test of `lept_parse_number` on what `strtod` returns for the text: `errno` is `ERANGE`
and the result is `HUGE_VAL` or `-HUGE_VAL`. -/
def strtod_too_big (L : CDouble) (t : List Nat) : Bool :=
  (L.strtod t).2 && (L.eq (L.strtod t).1 L.HUGE_VAL || L.eq (L.strtod t).1 (L.neg L.HUGE_VAL))

/-- The upper-case hexadecimal digit of a value below 16. -/
def upper_hex (n : Nat) : Nat := if n < 10 then 48 + n else 55 + n

/-- The bytes by which the specification has a byte of a string written: the two-byte escapes
of `"`, `\`, backspace, form feed, line feed, carriage return and tab, `\u00XX` for the other
bytes below `0x20`, and the byte itself otherwise. -/
def escape_spec (b : Nat) : List Nat :=
  if b = 0x22 then [92, 34]
  else if b = 0x5C then [92, 92]
  else if b = 0x08 then [92, 98]
  else if b = 0x0C then [92, 102]
  else if b = 0x0A then [92, 110]
  else if b = 0x0D then [92, 114]
  else if b = 0x09 then [92, 116]
  else if b < 0x20 then [92, 117, 48, 48, upper_hex (b / 16), upper_hex (b % 16)]
  else [b]

/-- The text by which the specification has a string written: the escaped bytes between two
quotation marks. -/
def quoted_spec (s : List Nat) : List Nat := [34] ++ s.flatMap escape_spec ++ [34]

/-- The texts joined by `,`. -/
def join_comma : List (List Nat) → List Nat
  | [] => []
  | [x] => x
  | x :: y :: r => x ++ 44 :: join_comma (y :: r)

mutual
/-- The reference rendering of the specification, by recursion on the value, with the text of
a number and the text of a string left to `num` and `str`: the literals, `[` and `]` around the
renderings of the elements joined by `,`, and the braces around the members joined by `,`, a
member being its key as a string, `:` and the rendering of its value. -/
def reference_with (num : double → List Nat) (str : List Nat → List Nat) :
    lept_value → List Nat
  | .null => [110, 117, 108, 108]
  | .jfalse => [102, 97, 108, 115, 101]
  | .jtrue => [116, 114, 117, 101]
  | .number n => num n
  | .string s => str s
  | .array e _ => [91] ++ join_comma (reference_elements num str e) ++ [93]
  | .object m _ => [123] ++ join_comma (reference_members num str m) ++ [125]
/-- The reference renderings of the elements, in index order. -/
def reference_elements (num : double → List Nat) (str : List Nat → List Nat) :
    List lept_value → List (List Nat)
  | [] => []
  | x :: xs => reference_with num str x :: reference_elements num str xs
/-- The reference renderings of the members, in index order. -/
def reference_members (num : double → List Nat) (str : List Nat → List Nat) :
    List lept_member → List (List Nat)
  | [] => []
  | .mk k x :: ms =>
    (str k ++ [58] ++ reference_with num str x) :: reference_members num str ms
end

/-- The reference rendering of a value: numbers as `%.17g` prints them, strings escaped between
quotation marks. -/
def reference_rendering (L : CDouble) (v : lept_value) : List Nat :=
  reference_with L.sprintf_17g quoted_spec v

/-- The reference rendering without the texts of the numbers and without the payloads of the
strings: the bytes that `lept_stringify_value` writes by itself. -/
def reference_skeleton (v : lept_value) : List Nat :=
  reference_with (fun _ => []) (fun _ => [34, 34]) v

/-- The member has the key of `klen` bytes at `key`: its `klen` is the given length and its
bytes are the first `klen` bytes at `key`. -/
def KeyMatches (key : List Nat) (klen : Nat) (x : lept_member) : Prop :=
  x.klen = klen ∧ x.k = key.take klen

/-- The capacity of an array or object is its size. -/
def ExactCapacity : lept_value → Prop
  | .array e c => c = e.length
  | .object m c => c = m.length
  | _ => True

/-- The size of an array or object is at most its capacity. -/
def CapacityHolds : lept_value → Prop
  | .array e c => e.length ≤ c
  | .object m c => m.length ≤ c
  | _ => True

/-- The capacity invariant: `size <= capacity` for the value and for every array and object
inside it. -/
def Invariant (v : lept_value) : Prop := Everywhere CapacityHolds v

/-- The function given by a container operation keeps the capacity invariant: from a value
with the invariant it leaves, when it leaves a value, one with the invariant. -/
def Preserves (f : lept_value → Option lept_value) : Prop :=
  ∀ v w, Invariant v → f v = some w → Invariant w

/-- At an array: it has no element. At an object: the size is at most the capacity, no two
members have the same key, and every key has the length of the first key. At both: the byte
count of the capacity does not wrap in `size_t`. -/
def CopyFriendly : lept_value → Prop
  | .array e c => e = [] ∧ c * sizeof_lept_value < 2 ^ 64
  | .object m c => (m.length ≤ c ∧ (m.map lept_member.k).Nodup ∧
      ∀ x ∈ m, x.klen = (member_at m 0).klen) ∧ c * sizeof_lept_member < 2 ^ 64
  | _ => True

/-- The test of a continuation byte of UTF-8: `10xxxxxx`. -/
def utf8_is_continuation (b : Nat) : Bool := 0x80 ≤ b && b < 0xC0

/-- The code point that a sequence of one to four bytes stands for by the rules of UTF-8: the
lead byte `0xxxxxxx`, `110xxxxx`, `1110xxxx` or `11110xxx` gives the number of bytes and the
high bits, every continuation byte `10xxxxxx` six more bits. (Overlong forms and surrogates
are not told apart here.) -/
def utf8_decode : List Nat → Option Nat
  | [b0] => if b0 < 0x80 then some b0 else none
  | [b0, b1] =>
    if 0xC0 ≤ b0 ∧ b0 < 0xE0 ∧ utf8_is_continuation b1 then
      some ((b0 - 0xC0) * 64 + (b1 - 0x80))
    else none
  | [b0, b1, b2] =>
    if 0xE0 ≤ b0 ∧ b0 < 0xF0 ∧ utf8_is_continuation b1 ∧ utf8_is_continuation b2 then
      some ((b0 - 0xE0) * 4096 + (b1 - 0x80) * 64 + (b2 - 0x80))
    else none
  | [b0, b1, b2, b3] =>
    if 0xF0 ≤ b0 ∧ b0 < 0xF8 ∧ utf8_is_continuation b1 ∧ utf8_is_continuation b2 ∧
        utf8_is_continuation b3 then
      some ((b0 - 0xF0) * 262144 + (b1 - 0x80) * 4096 + (b2 - 0x80) * 64 + (b3 - 0x80))
    else none
  | _ => none

/-- The bytes of the encoding as the specification words them, by range of the code point:
the lead byte is the prefix `0x00`, `0xC0`, `0xE0` or `0xF0` with the high bits, every other
byte is `0x80` with six bits; nothing is masked to a byte. -/
def utf8_by_range (u : Nat) : List Nat :=
  if u ≤ 0x7F then [u]
  else if u ≤ 0x7FF then [0xC0 ||| (u >>> 6), 0x80 ||| (u &&& 0x3F)]
  else if u ≤ 0xFFFF then
    [0xE0 ||| (u >>> 12), 0x80 ||| ((u >>> 6) &&& 0x3F), 0x80 ||| (u &&& 0x3F)]
  else
    [0xF0 ||| (u >>> 18), 0x80 ||| ((u >>> 12) &&& 0x3F), 0x80 ||| ((u >>> 6) &&& 0x3F),
      0x80 ||| (u &&& 0x3F)]

/-- On the text `p`, `lept_parse_value` returns `LEPT_PARSE_OK` with the value `x` and leaves
the text `q`. -/
def ParsesTo (L : CDouble) (p : List Nat) (x : lept_value) (q : List Nat) : Prop :=
  ∃ fuel, lept_parse_value L fuel ⟨p, []⟩ .null = some (LEPT_PARSE_OK, ⟨q, []⟩, x)

/-- On the text `p`, `lept_parse_string_raw` returns `LEPT_PARSE_OK` with the bytes `k` and
their number, and leaves the text `q`. -/
def ParsesKeyTo (p k q : List Nat) : Prop :=
  ∃ fuel, lept_parse_string_raw fuel ⟨p, []⟩ = some (LEPT_PARSE_OK, ⟨q, []⟩, k, k.length)

/-- The text `p` holds the elements `es` of an array, in this order, and then `]`, after which
the text `r` follows: an element that the parser reads, whitespace, and either `]` or a comma,
whitespace and the further elements. -/
inductive ArrayElements (L : CDouble) : List Nat → List lept_value → List Nat → Prop where
  | last {p q : List Nat} {e : lept_value} :
      ParsesTo L p e q → peek (q.dropWhile is_ws) = 93 →
      ArrayElements L p [e] (q.dropWhile is_ws).tail
  | more {p q r : List Nat} {e : lept_value} {es : List lept_value} :
      ParsesTo L p e q → peek (q.dropWhile is_ws) = 44 →
      ArrayElements L ((q.dropWhile is_ws).tail.dropWhile is_ws) es r →
      ArrayElements L p (e :: es) r

/-- The text `j` starts with a well-formed array of the elements `es`, in this order, after
which the text `r` follows: `[`, whitespace, and `]` or the elements. -/
inductive ArrayText (L : CDouble) : List Nat → List lept_value → List Nat → Prop where
  | empty {j : List Nat} : peek j = 91 → peek (j.tail.dropWhile is_ws) = 93 →
      ArrayText L j [] (j.tail.dropWhile is_ws).tail
  | elements {j r : List Nat} {es : List lept_value} : peek j = 91 →
      ArrayElements L (j.tail.dropWhile is_ws) es r → ArrayText L j es r

/-- The text `p` holds the members `ms` of an object, in this order, and then the closing
brace, after which the text `r` follows: a key that starts with a quotation mark, whitespace,
a colon, whitespace, a value that the parser reads, whitespace, and either the closing brace
or a comma, whitespace and the further members. -/
inductive ObjectMembers (L : CDouble) : List Nat → List lept_member → List Nat → Prop where
  | last {p q1 q2 k : List Nat} {x : lept_value} :
      peek p = 34 → ParsesKeyTo p k q1 → peek (q1.dropWhile is_ws) = 58 →
      ParsesTo L ((q1.dropWhile is_ws).tail.dropWhile is_ws) x q2 →
      peek (q2.dropWhile is_ws) = 125 →
      ObjectMembers L p [.mk k x] (q2.dropWhile is_ws).tail
  | more {p q1 q2 k r : List Nat} {x : lept_value} {ms : List lept_member} :
      peek p = 34 → ParsesKeyTo p k q1 → peek (q1.dropWhile is_ws) = 58 →
      ParsesTo L ((q1.dropWhile is_ws).tail.dropWhile is_ws) x q2 →
      peek (q2.dropWhile is_ws) = 44 →
      ObjectMembers L ((q2.dropWhile is_ws).tail.dropWhile is_ws) ms r →
      ObjectMembers L p (.mk k x :: ms) r

/-- The text `j` starts with a well-formed object of the members `ms`, in this order, after
which the text `r` follows: the opening brace, whitespace, and the closing brace or the
members. -/
inductive ObjectText (L : CDouble) : List Nat → List lept_member → List Nat → Prop where
  | empty {j : List Nat} : peek j = 123 → peek (j.tail.dropWhile is_ws) = 125 →
      ObjectText L j [] (j.tail.dropWhile is_ws).tail
  | members {j r : List Nat} {ms : List lept_member} : peek j = 123 →
      ObjectMembers L (j.tail.dropWhile is_ws) ms r → ObjectText L j ms r

/-! # Theorems -/

theorem no_wrap {n s : Nat} (h : n * s < 2 ^ 64) : ¬ n * s % 2 ^ 64 < n * s := by
  rw [Nat.mod_eq_of_lt h]
  exact Nat.lt_irrefl _

theorem set_array_eq (v : lept_value) (cap : Nat) (h : cap * sizeof_lept_value < 2 ^ 64) :
    lept_set_array v cap = some (.array [] cap) := by
  unfold lept_set_array
  rw [if_neg (no_wrap h)]

theorem set_object_eq (v : lept_value) (cap : Nat) (h : cap * sizeof_lept_member < 2 ^ 64) :
    lept_set_object v cap = some (.object [] cap) := by
  unfold lept_set_object
  rw [if_neg (no_wrap h)]

theorem set_array_zero (v : lept_value) : lept_set_array v 0 = some (.array [] 0) :=
  set_array_eq v 0 (by decide)

theorem set_object_zero (v : lept_value) : lept_set_object v 0 = some (.object [] 0) :=
  set_object_eq v 0 (by decide)

theorem set_array_some {v w : lept_value} {cap : Nat} (h : lept_set_array v cap = some w) :
    w = .array [] cap := by
  unfold lept_set_array at h
  by_cases k : cap * sizeof_lept_value % 2 ^ 64 < cap * sizeof_lept_value
  · rw [if_pos k] at h
    cases h
  · rw [if_neg k] at h
    exact (Option.some.inj h).symm

theorem set_object_some {v w : lept_value} {cap : Nat} (h : lept_set_object v cap = some w) :
    w = .object [] cap := by
  unfold lept_set_object at h
  by_cases k : cap * sizeof_lept_member % 2 ^ 64 < cap * sizeof_lept_member
  · rw [if_pos k] at h
    cases h
  · rw [if_neg k] at h
    exact (Option.some.inj h).symm

/-! ## The parser does not depend on the stack it is handed -/

@[simp] theorem peek_nil : peek [] = 0 := rfl

@[simp] theorem peek_cons (a : Nat) (p : List Nat) : peek (a :: p) = a := rfl

theorem take_append_length_sub {α : Type} (S X : List α) :
    (S ++ X).take ((S ++ X).length - X.length) = S := by
  simp

theorem drop_append_length_sub {α : Type} (S X : List α) :
    (S ++ X).drop ((S ++ X).length - X.length) = X := by
  simp

theorem lept_encode_utf8_eq (c : lept_context) (u : Nat) :
    lept_encode_utf8 c u = PUTS c (utf8_bytes u) := by
  unfold lept_encode_utf8 utf8_bytes PUTC PUTS lept_context_push
  split_ifs <;> simp

theorem PUTC_eq_PUTS (c : lept_context) (ch : Nat) : PUTC c ch = PUTS c [ch] := rfl

theorem string_loop_succ (head fuel : Nat) (c : lept_context) (p : List Nat) :
    lept_parse_string_raw_loop head (fuel + 1) c p =
      match string_step p with
      | .stop q =>
        some (LEPT_PARSE_OK, ⟨q, (lept_context_pop c (c.top - head)).2.stack⟩,
          (lept_context_pop c (c.top - head)).1.map Slot.toByte, c.top - head)
      | .put bs q => lept_parse_string_raw_loop head fuel (PUTS c bs) q
      | .fail ret => STRING_ERROR c head ret := by
  rw [lept_parse_string_raw_loop]
  unfold string_step
  by_cases h1 : peek p = 34
  · rw [if_pos h1]; simp only [h1, if_true]
  · rw [if_neg h1]; simp only [h1, if_false]
    by_cases h2 : peek p = 92
    · rw [if_pos h2]; simp only [h2, if_true]
      by_cases e0 : peek p.tail = 34
      · rw [if_pos e0, if_pos e0]; rfl
      rw [if_neg e0, if_neg e0]
      by_cases e1 : peek p.tail = 92
      · rw [if_pos e1, if_pos e1]; rfl
      rw [if_neg e1, if_neg e1]
      by_cases e2 : peek p.tail = 47
      · rw [if_pos e2, if_pos e2]; rfl
      rw [if_neg e2, if_neg e2]
      by_cases e3 : peek p.tail = 98
      · rw [if_pos e3, if_pos e3]; rfl
      rw [if_neg e3, if_neg e3]
      by_cases e4 : peek p.tail = 102
      · rw [if_pos e4, if_pos e4]; rfl
      rw [if_neg e4, if_neg e4]
      by_cases e5 : peek p.tail = 110
      · rw [if_pos e5, if_pos e5]; rfl
      rw [if_neg e5, if_neg e5]
      by_cases e6 : peek p.tail = 114
      · rw [if_pos e6, if_pos e6]; rfl
      rw [if_neg e6, if_neg e6]
      by_cases e7 : peek p.tail = 116
      · rw [if_pos e7, if_pos e7]; rfl
      rw [if_neg e7, if_neg e7]
      by_cases e8 : peek p.tail = 117
      · rw [if_pos e8, if_pos e8]
        cases h3 : lept_parse_hex4 (p.tail.tail) with
        | none => rfl
        | some r1 =>
          obtain ⟨q1, u1⟩ := r1
          simp only []
          by_cases s1 : 0xD800 ≤ u1 ∧ u1 ≤ 0xDBFF
          · rw [if_pos s1, if_pos s1]
            by_cases s2 : peek q1 ≠ 92
            · rw [if_pos s2, if_pos s2]
            · rw [if_neg s2, if_neg s2]
              by_cases s3 : peek q1.tail ≠ 117
              · rw [if_pos s3, if_pos s3]
              · rw [if_neg s3, if_neg s3]
                cases h4 : lept_parse_hex4 (q1.tail.tail) with
                | none => rfl
                | some r2 =>
                  obtain ⟨q2, u2⟩ := r2
                  simp only []
                  by_cases s4 : u2 < 0xDC00 ∨ u2 > 0xDFFF
                  · rw [if_pos s4, if_pos s4]
                  · rw [if_neg s4, if_neg s4, lept_encode_utf8_eq]
          · rw [if_neg s1, if_neg s1, lept_encode_utf8_eq]
      · rw [if_neg e8, if_neg e8]
    · rw [if_neg h2]; simp only [h2, if_false]
      by_cases h3 : peek p = 0
      · rw [if_pos h3, if_pos h3]
      · rw [if_neg h3, if_neg h3]
        by_cases h4 : peek p < 32
        · rw [if_pos h4, if_pos h4]
        · rw [if_neg h4, if_neg h4]
          rfl

theorem peek_eq_cons {p : List Nat} {c : Nat} (h : peek p = c) (hc : c ≠ 0) :
    p = c :: p.tail := by
  cases p with
  | nil => simp at h; omega
  | cons a q => simp at h; simp [h]

theorem peek_append {p : List Nat} (x : List Nat) (hp : peek p ≠ 0) :
    peek (p ++ x) = peek p := by
  cases p with
  | nil => simp at hp
  | cons a q => rfl

theorem hex4_loop_some (i : Nat) : ∀ (p : List Nat) (u0 : Nat) (q : List Nat) (u : Nat),
    lept_parse_hex4_loop i p u0 = some (q, u) →
    ∃ h : List Nat, h.length = i ∧ p = h ++ q ∧
      ∀ x, lept_parse_hex4_loop i (h ++ x) u0 = some (x, u) := by
  induction i with
  | zero =>
    intro p u0 q u H
    simp only [lept_parse_hex4_loop, Option.some.injEq, Prod.mk.injEq] at H
    exact ⟨[], rfl, by simp [H.1], fun x => by simp [lept_parse_hex4_loop, H.2]⟩
  | succ i ih =>
    intro p u0 q u H
    cases p with
    | nil => simp [lept_parse_hex4_loop] at H
    | cons a r =>
      simp only [lept_parse_hex4_loop, peek_cons, List.tail_cons] at H
      split_ifs at H with h1 h2 h3
      · obtain ⟨h, hl, hp, hx⟩ := ih _ _ _ _ H
        refine ⟨a :: h, by simp [hl], by simp [hp], fun x => ?_⟩
        simp only [List.cons_append, lept_parse_hex4_loop, peek_cons, List.tail_cons, if_pos h1]
        exact hx x
      · obtain ⟨h, hl, hp, hx⟩ := ih _ _ _ _ H
        refine ⟨a :: h, by simp [hl], by simp [hp], fun x => ?_⟩
        simp only [List.cons_append, lept_parse_hex4_loop, peek_cons, List.tail_cons, if_neg h1,
          if_pos h2]
        exact hx x
      · obtain ⟨h, hl, hp, hx⟩ := ih _ _ _ _ H
        refine ⟨a :: h, by simp [hl], by simp [hp], fun x => ?_⟩
        simp only [List.cons_append, lept_parse_hex4_loop, peek_cons, List.tail_cons, if_neg h1,
          if_neg h2, if_pos h3]
        exact hx x

theorem hex4_some {p q : List Nat} {u : Nat} (H : lept_parse_hex4 p = some (q, u)) :
    ∃ h : List Nat, h.length = 4 ∧ p = h ++ q ∧ ∀ x, lept_parse_hex4 (h ++ x) = some (x, u) :=
  hex4_loop_some 4 p 0 q u H

theorem string_step_quote (q : List Nat) : string_step (34 :: q) = .stop q := rfl

theorem string_step_unicode {r q : List Nat} {u : Nat} (h : lept_parse_hex4 r = some (q, u))
    (hu : ¬(0xD800 ≤ u ∧ u ≤ 0xDBFF)) :
    string_step (92 :: 117 :: r) = .put (utf8_bytes u) q := by
  simp [string_step, h, hu]

theorem string_step_pair {r r2 q2 : List Nat} {u u2 : Nat}
    (h : lept_parse_hex4 r = some (92 :: 117 :: r2, u)) (hu : 0xD800 ≤ u ∧ u ≤ 0xDBFF)
    (h2 : lept_parse_hex4 r2 = some (q2, u2)) (hu2 : ¬(u2 < 0xDC00 ∨ u2 > 0xDFFF)) :
    string_step (92 :: 117 :: r) =
      .put (utf8_bytes ((((u - 0xD800) <<< 10) ||| (u2 - 0xDC00)) + 0x10000)) q2 := by
  simp [string_step, h, hu, h2, hu2]

theorem string_step_plain {ch : Nat} (q : List Nat) (h1 : ch ≠ 34) (h2 : ch ≠ 92)
    (h3 : ¬ ch < 32) : string_step (ch :: q) = .put [ch] q := by
  have h0 : ch ≠ 0 := by omega
  simp [string_step, h1, h2, h3, h0]

/-- What a round of the string loop can be: the closing quote; an item (a plain byte, an escape,
a unicode escape or a surrogate pair) whose bytes are pushed whatever follows it; a failure. -/

theorem string_step_cases (p : List Nat) :
    (∃ q, p = 34 :: q) ∨
    (∃ it bs q, it ≠ [] ∧ p = it ++ q ∧ ∀ x, string_step (it ++ x) = .put bs x) ∨
    (∃ e, e ≠ LEPT_PARSE_OK ∧ string_step p = .fail e) := by
  cases p with
  | nil => exact Or.inr (Or.inr ⟨_, by decide, rfl⟩)
  | cons ch q =>
    by_cases h1 : ch = 34
    · exact Or.inl ⟨q, by rw [h1]⟩
    by_cases h2 : ch = 92
    · subst h2
      cases q with
      | nil => exact Or.inr (Or.inr ⟨_, by decide, rfl⟩)
      | cons e r =>
        by_cases e0 : e = 34
        · subst e0; exact Or.inr (Or.inl ⟨[92, 34], [34], r, by simp, rfl, fun x => rfl⟩)
        by_cases e1 : e = 92
        · subst e1; exact Or.inr (Or.inl ⟨[92, 92], [92], r, by simp, rfl, fun x => rfl⟩)
        by_cases e2 : e = 47
        · subst e2; exact Or.inr (Or.inl ⟨[92, 47], [47], r, by simp, rfl, fun x => rfl⟩)
        by_cases e3 : e = 98
        · subst e3; exact Or.inr (Or.inl ⟨[92, 98], [8], r, by simp, rfl, fun x => rfl⟩)
        by_cases e4 : e = 102
        · subst e4; exact Or.inr (Or.inl ⟨[92, 102], [12], r, by simp, rfl, fun x => rfl⟩)
        by_cases e5 : e = 110
        · subst e5; exact Or.inr (Or.inl ⟨[92, 110], [10], r, by simp, rfl, fun x => rfl⟩)
        by_cases e6 : e = 114
        · subst e6; exact Or.inr (Or.inl ⟨[92, 114], [13], r, by simp, rfl, fun x => rfl⟩)
        by_cases e7 : e = 116
        · subst e7; exact Or.inr (Or.inl ⟨[92, 116], [9], r, by simp, rfl, fun x => rfl⟩)
        by_cases e8 : e = 117
        · subst e8
          cases hh : lept_parse_hex4 r with
          | none => exact Or.inr (Or.inr (by simp [string_step, hh]))
          | some r1 =>
            obtain ⟨q1, u1⟩ := r1
            obtain ⟨d1, -, hp1, hx1⟩ := hex4_some hh
            by_cases s1 : 0xD800 ≤ u1 ∧ u1 ≤ 0xDBFF
            · cases q1 with
              | nil => exact Or.inr (Or.inr (by simp [string_step, hh, s1]))
              | cons b1 q2 =>
                by_cases s2 : b1 = 92
                · subst s2
                  cases q2 with
                  | nil => exact Or.inr (Or.inr (by simp [string_step, hh, s1]))
                  | cons b2 q3 =>
                    by_cases s3 : b2 = 117
                    · subst s3
                      cases hh2 : lept_parse_hex4 q3 with
                      | none => exact Or.inr (Or.inr (by simp [string_step, hh, s1, hh2]))
                      | some r2 =>
                        obtain ⟨q4, u2⟩ := r2
                        obtain ⟨d2, -, hp2, hx2⟩ := hex4_some hh2
                        by_cases s4 : u2 < 0xDC00 ∨ u2 > 0xDFFF
                        · exact Or.inr (Or.inr (by simp [string_step, hh, s1, hh2, s4]))
                        · refine Or.inr (Or.inl ⟨92 :: 117 :: (d1 ++ 92 :: 117 :: d2),
                            utf8_bytes ((((u1 - 0xD800) <<< 10) ||| (u2 - 0xDC00)) + 0x10000), q4,
                            by simp, by simp [hp1, hp2], fun x => ?_⟩)
                          have a1 : lept_parse_hex4 (d1 ++ (92 :: 117 :: (d2 ++ x))) =
                              some (92 :: 117 :: (d2 ++ x), u1) := hx1 _
                          have a2 := string_step_pair a1 s1 (hx2 x) s4
                          simpa using a2
                    · exact Or.inr (Or.inr (by simp [string_step, hh, s1, s3]))
                · exact Or.inr (Or.inr (by simp [string_step, hh, s1, s2]))
            · refine Or.inr (Or.inl ⟨92 :: 117 :: d1, utf8_bytes u1, q1, by simp, by simp [hp1],
                fun x => ?_⟩)
              exact string_step_unicode (hx1 x) s1
        · exact Or.inr (Or.inr (by simp [string_step, e0, e1, e2, e3, e4, e5, e6, e7, e8]))
    by_cases h3 : ch < 32
    · by_cases h0 : ch = 0
      · exact Or.inr (Or.inr (by simp [string_step, h0]))
      · exact Or.inr (Or.inr (by simp [string_step, h0, h1, h2, h3]))
    · exact Or.inr (Or.inl ⟨[ch], [ch], q, by simp, rfl, fun x => string_step_plain x h1 h2 h3⟩)

theorem string_step_stop {p q : List Nat} (H : string_step p = .stop q) : p = 34 :: q := by
  rcases string_step_cases p with ⟨q1, rfl⟩ | ⟨it, bs, q1, -, rfl, hx⟩ | ⟨e, -, he⟩
  · rw [string_step_quote] at H
    injection H with H
    rw [H]
  · rw [hx] at H; cases H
  · rw [he] at H; cases H

theorem string_step_put {p bs q : List Nat} (H : string_step p = .put bs q) :
    ∃ it, it ≠ [] ∧ p = it ++ q ∧ ∀ x, string_step (it ++ x) = .put bs x := by
  rcases string_step_cases p with ⟨q1, rfl⟩ | ⟨it, bs1, q1, hne, rfl, hx⟩ | ⟨e, -, he⟩
  · rw [string_step_quote] at H; cases H
  · rw [hx] at H
    injection H with H1 H2
    subst H1; subst H2
    exact ⟨it, hne, rfl, hx⟩
  · rw [he] at H; cases H

theorem string_step_fail {p : List Nat} {e : lept_parse_code} (H : string_step p = .fail e) :
    e ≠ LEPT_PARSE_OK := by
  rcases string_step_cases p with ⟨q1, rfl⟩ | ⟨it, bs1, q1, hne, rfl, hx⟩ | ⟨e1, hne, he⟩
  · rw [string_step_quote] at H; cases H
  · rw [hx] at H; cases H
  · rw [he] at H
    injection H with H
    rw [← H]; exact hne

theorem toByte_comp_byte : Slot.toByte ∘ Slot.byte = id := funext fun _ => rfl

theorem toValue_comp_value : Slot.toValue ∘ Slot.value = id := funext fun _ => rfl

theorem toMember_comp_member : Slot.toMember ∘ Slot.member = id := funext fun _ => rfl

theorem string_loop_eq (S : List Slot) (j : List Nat) : ∀ (fuel : Nat) (acc p : List Nat),
    lept_parse_string_raw_loop S.length fuel ⟨j, S ++ acc.map Slot.byte⟩ p =
      string_result j S (pure_string_loop fuel p acc) := by
  intro fuel
  induction fuel with
  | zero => intro acc p; rfl
  | succ fuel ih =>
    intro acc p
    rw [string_loop_succ, pure_string_loop]
    cases hs : string_step p with
    | stop q =>
      simp only [string_result, lept_context_pop, lept_context.top, if_true]
      have e1 : (S ++ acc.map Slot.byte).length - ((S ++ acc.map Slot.byte).length - S.length)
          = S.length := by simp
      rw [e1]
      simp [toByte_comp_byte]
    | put bs q =>
      simp only []
      have e1 : PUTS ⟨j, S ++ acc.map Slot.byte⟩ bs = ⟨j, S ++ (acc ++ bs).map Slot.byte⟩ := by
        simp [PUTS]
      rw [e1]
      exact ih _ _
    | fail e =>
      have he := string_step_fail hs
      simp [string_result, STRING_ERROR, he]

theorem pop_append (j : List Nat) (S X : List Slot) (n : Nat) (h : X.length = n) :
    lept_context_pop ⟨j, S ++ X⟩ n = (X, ⟨j, S⟩) := by
  subst h
  simp [lept_context_pop, lept_context.top]

theorem parse_string_raw_eq (fuel : Nat) (j : List Nat) (S : List Slot) :
    lept_parse_string_raw fuel ⟨j, S⟩ = string_result j.tail S (pure_string_loop fuel j.tail []) := by
  have h := string_loop_eq S j.tail fuel [] j.tail
  simp only [List.map_nil, List.append_nil] at h
  exact h

theorem parse_string_eq (fuel : Nat) (j : List Nat) (S : List Slot) (v : lept_value) :
    lept_parse_string fuel ⟨j, S⟩ v = value_result S (pure_parse_string fuel j v) := by
  unfold lept_parse_string pure_parse_string
  rw [parse_string_raw_eq]
  cases pure_string_loop fuel j.tail [] with
  | none => rfl
  | some r =>
    obtain ⟨ret, q, s⟩ := r
    by_cases h : ret = LEPT_PARSE_OK
    · simp [string_result, value_result, h, lept_set_string]
    · simp [string_result, value_result, h]

theorem array_loop_eq
    (pv1 : lept_context → lept_value → Option (lept_parse_code × lept_context × lept_value))
    (pv : List Nat → lept_value → Option (lept_parse_code × List Nat × lept_value))
    (hpv : ∀ j S v, pv1 ⟨j, S⟩ v = value_result S (pv j v)) (S : List Slot) :
    ∀ (fuel : Nat) (j : List Nat) (v : lept_value) (acc : List lept_value),
      lept_parse_array_loop pv1 fuel ⟨j, S ++ acc.map Slot.value⟩ v acc.length =
        value_result S (pure_parse_array_loop pv fuel j v acc) := by
  intro fuel
  induction fuel with
  | zero => intro j v acc; rfl
  | succ fuel ih =>
    intro j v acc
    rw [lept_parse_array_loop, pure_parse_array_loop, hpv,
      show lept_init lept_value.null = lept_value.null from rfl]
    cases pv j .null with
    | none => rfl
    | some r =>
      obtain ⟨ret, q, e⟩ := r
      simp only [value_result, lept_init]
      by_cases h : ret = LEPT_PARSE_OK
      · have h1 : ¬ ret ≠ LEPT_PARSE_OK := by simp [h]
        rw [if_neg h1, if_neg h1]
        simp only [lept_context_push, lept_parse_whitespace]
        by_cases c1 : peek (List.dropWhile is_ws q) = 44
        · rw [if_pos c1, if_pos c1]
          have e1 : S ++ List.map Slot.value acc ++ [Slot.value e]
              = S ++ List.map Slot.value (acc ++ [e]) := by simp
          have e2 : acc.length + 1 = (acc ++ [e]).length := by simp
          rw [e1, e2]
          exact ih _ _ _
        · rw [if_neg c1, if_neg c1]
          by_cases c2 : peek (List.dropWhile is_ws q) = 93
          · rw [if_pos c2, if_pos c2]
            have e1 : S ++ List.map Slot.value acc ++ [Slot.value e]
                = S ++ List.map Slot.value (acc ++ [e]) := by simp
            rw [e1, pop_append _ _ _ _ (by simp)]
            simp [toValue_comp_value, Slot.toValue]
          · rw [if_neg c2, if_neg c2]
            rw [List.append_assoc, pop_append _ _ _ _ (by simp)]
      · have h1 : ret ≠ LEPT_PARSE_OK := h
        rw [if_pos h1, if_pos h1, pop_append _ _ _ _ (by simp)]

theorem object_loop_eq
    (pv1 : lept_context → lept_value → Option (lept_parse_code × lept_context × lept_value))
    (pv : List Nat → lept_value → Option (lept_parse_code × List Nat × lept_value))
    (hpv : ∀ j S v, pv1 ⟨j, S⟩ v = value_result S (pv j v)) (S : List Slot) :
    ∀ (fuel : Nat) (j : List Nat) (v : lept_value) (acc : List lept_member),
      lept_parse_object_loop pv1 fuel ⟨j, S ++ acc.map Slot.member⟩ v acc.length =
        value_result S (pure_parse_object_loop pv fuel j acc) := by
  intro fuel
  induction fuel with
  | zero => intro j v acc; rfl
  | succ fuel ih =>
    intro j v acc
    rw [lept_parse_object_loop, pure_parse_object_loop]
    simp only [lept_init]
    by_cases k1 : peek j ≠ 34
    · rw [if_pos k1, if_pos k1, pop_append _ _ _ _ (by simp)]
      rfl
    rw [if_neg k1, if_neg k1, parse_string_raw_eq]
    cases pure_string_loop fuel j.tail [] with
    | none => rfl
    | some r =>
      obtain ⟨ret, q, s⟩ := r
      by_cases h : ret = LEPT_PARSE_OK
      · subst h
        simp only [string_result, if_true, ne_eq, not_true_eq_false, if_false,
          lept_parse_whitespace, List.take_length]
        by_cases k2 : peek (List.dropWhile is_ws q) ≠ 58
        · rw [if_pos k2, if_pos k2, pop_append _ _ _ _ (by simp)]
          rfl
        rw [if_neg k2, if_neg k2, hpv]
        cases pv (List.dropWhile is_ws (List.dropWhile is_ws q).tail) .null with
        | none => rfl
        | some r2 =>
          obtain ⟨ret2, q2, mv⟩ := r2
          simp only [value_result]
          by_cases h2 : ret2 = LEPT_PARSE_OK
          · have h3 : ¬ ret2 ≠ LEPT_PARSE_OK := by simp [h2]
            rw [if_neg h3, if_neg h3]
            simp only [lept_context_push]
            have e1 : S ++ List.map Slot.member acc ++ [Slot.member (.mk s mv)]
                = S ++ List.map Slot.member (acc ++ [.mk s mv]) := by simp
            by_cases c1 : peek (List.dropWhile is_ws q2) = 44
            · rw [if_pos c1, if_pos c1]
              have e2 : acc.length + 1 = (acc ++ [lept_member.mk s mv]).length := by simp
              rw [e1, e2]
              exact ih _ _ _
            · rw [if_neg c1, if_neg c1]
              by_cases c2 : peek (List.dropWhile is_ws q2) = 125
              · rw [if_pos c2, if_pos c2, e1, pop_append _ _ _ _ (by simp)]
                simp [toMember_comp_member, Slot.toMember]
              · rw [if_neg c2, if_neg c2, List.append_assoc, pop_append _ _ _ _ (by simp)]
          · have h3 : ret2 ≠ LEPT_PARSE_OK := h2
            rw [if_pos h3, if_pos h3, pop_append _ _ _ _ (by simp)]
      · have h3 : ret ≠ LEPT_PARSE_OK := h
        simp only [string_result, if_neg h]
        rw [if_pos h3, if_pos h3, pop_append _ _ _ _ (by simp)]
        rfl

/-- The parser run on a stack `S` gives what it gives on the text alone, and leaves `S`. -/
theorem parse_value_eq (L : CDouble) : ∀ (fuel : Nat) (j : List Nat) (S : List Slot)
    (v : lept_value),
    lept_parse_value L fuel ⟨j, S⟩ v = value_result S (pure_parse_value L fuel j v) := by
  intro fuel
  induction fuel with
  | zero => intro j S v; rfl
  | succ fuel ih =>
    intro j S v
    rw [lept_parse_value, pure_parse_value]
    simp only []
    by_cases c1 : peek j = 116
    · rw [if_pos c1, if_pos c1]
      simp only [lept_parse_literal, EXPECT]
      cases lept_parse_literal_loop j.tail [116, 114, 117, 101].tail <;> rfl
    rw [if_neg c1, if_neg c1]
    by_cases c2 : peek j = 102
    · rw [if_pos c2, if_pos c2]
      simp only [lept_parse_literal, EXPECT]
      cases lept_parse_literal_loop j.tail [102, 97, 108, 115, 101].tail <;> rfl
    rw [if_neg c2, if_neg c2]
    by_cases c3 : peek j = 110
    · rw [if_pos c3, if_pos c3]
      simp only [lept_parse_literal, EXPECT]
      cases lept_parse_literal_loop j.tail [110, 117, 108, 108].tail <;> rfl
    rw [if_neg c3, if_neg c3]
    by_cases c4 : peek j = 34
    · rw [if_pos c4, if_pos c4]
      exact parse_string_eq _ _ _ _
    rw [if_neg c4, if_neg c4]
    by_cases c5 : peek j = 91
    · rw [if_pos c5, if_pos c5]
      simp only [lept_parse_array, EXPECT, lept_parse_whitespace, set_array_zero]
      by_cases d1 : peek (List.dropWhile is_ws j.tail) = 93
      · rw [if_pos d1, if_pos d1]; rfl
      · rw [if_neg d1, if_neg d1]
        have h := array_loop_eq _ _ ih S fuel (List.dropWhile is_ws j.tail) v []
        simp only [List.map_nil, List.append_nil, List.length_nil] at h
        exact h
    rw [if_neg c5, if_neg c5]
    by_cases c6 : peek j = 123
    · rw [if_pos c6, if_pos c6]
      simp only [lept_parse_object, EXPECT, lept_parse_whitespace, set_object_zero]
      by_cases d1 : peek (List.dropWhile is_ws j.tail) = 125
      · rw [if_pos d1, if_pos d1]; rfl
      · rw [if_neg d1, if_neg d1]
        have h := object_loop_eq _ _ ih S fuel (List.dropWhile is_ws j.tail) v []
        simp only [List.map_nil, List.append_nil, List.length_nil] at h
        exact h
    rw [if_neg c6, if_neg c6]
    by_cases c7 : peek j = 0
    · rw [if_pos c7, if_pos c7]; rfl
    rw [if_neg c7, if_neg c7]
    simp only [lept_parse_number]
    cases lept_parse_number_scan j with
    | none => rfl
    | some p =>
      simp only []
      split_ifs <;> rfl

theorem lept_parse_eq (L : CDouble) (json : List Nat) : lept_parse L json = pure_parse L json := by
  unfold lept_parse pure_parse
  simp only [lept_parse_whitespace, lept_init, parse_value_eq]
  cases pure_parse_value L (json.length + 1) (List.dropWhile is_ws json) lept_value.null with
  | none => rfl
  | some r =>
    obtain ⟨ret, q, v⟩ := r
    rfl

/-! ## What the parser consumes, and what it leaves in the value on an error -/

theorem string_loop_suffix : ∀ (fuel : Nat) (p acc : List Nat) (q s : List Nat),
    pure_string_loop fuel p acc = some (LEPT_PARSE_OK, q, s) →
      q <:+ p ∧ q.length < p.length := by
  intro fuel
  induction fuel with
  | zero => intro p acc q s H; simp [pure_string_loop] at H
  | succ fuel ih =>
    intro p acc q s H
    rw [pure_string_loop] at H
    cases hs : string_step p with
    | stop q1 =>
      rw [hs] at H
      simp only [Option.some.injEq, Prod.mk.injEq, true_and] at H
      have hp := string_step_stop hs
      rw [← H.1, hp]
      exact ⟨List.suffix_cons _ _, by simp⟩
    | put bs q1 =>
      rw [hs] at H
      obtain ⟨it, hne, hp, -⟩ := string_step_put hs
      obtain ⟨h1, h2⟩ := ih _ _ _ _ H
      have h3 : q1 <:+ p := by rw [hp]; exact List.suffix_append _ _
      exact ⟨h1.trans h3, lt_of_lt_of_le h2 h3.length_le⟩
    | fail e =>
      rw [hs] at H
      have he := string_step_fail hs
      simp only [Option.some.injEq, Prod.mk.injEq] at H
      exact absurd H.1 he

theorem parse_string_shape {fuel : Nat} {j : List Nat} {v w : lept_value}
    {ret : lept_parse_code} {q : List Nat}
    (H : pure_parse_string fuel j v = some (ret, q, w)) (hj : j ≠ []) :
    q <:+ j ∧ (ret = LEPT_PARSE_OK → q.length < j.length) ∧ (ret ≠ LEPT_PARSE_OK → w = v) := by
  unfold pure_parse_string at H
  cases hl : pure_string_loop fuel j.tail [] with
  | none => rw [hl] at H; simp at H
  | some r =>
    obtain ⟨ret1, q1, s⟩ := r
    rw [hl] at H
    have ht : j.tail.length < j.length := by
      cases j with
      | nil => exact absurd rfl hj
      | cons a t => simp
    by_cases h : ret1 = LEPT_PARSE_OK
    · subst h
      simp only [if_true, Option.some.injEq, Prod.mk.injEq] at H
      obtain ⟨h1, h2⟩ := string_loop_suffix _ _ _ _ _ hl
      obtain ⟨rfl, rfl, rfl⟩ := H
      exact ⟨h1.trans (List.tail_suffix j), fun _ => lt_trans h2 ht, fun h => absurd rfl h⟩
    · simp only [if_neg h, Option.some.injEq, Prod.mk.injEq] at H
      obtain ⟨rfl, rfl, rfl⟩ := H
      exact ⟨List.tail_suffix j, fun h1 => absurd h1 h, fun _ => rfl⟩

theorem ws_tail_suffix (q : List Nat) : (q.dropWhile is_ws).tail.dropWhile is_ws <:+ q :=
  ((List.dropWhile_suffix _).trans (List.tail_suffix _)).trans (List.dropWhile_suffix _)

theorem array_loop_shape
    (pv : List Nat → lept_value → Option (lept_parse_code × List Nat × lept_value))
    (hpv : Consumes pv) :
    ∀ (fuel : Nat) (j : List Nat) (v : lept_value) (acc : List lept_value)
      (ret : lept_parse_code) (q : List Nat) (w : lept_value),
      pure_parse_array_loop pv fuel j v acc = some (ret, q, w) →
        q <:+ j ∧ (ret = LEPT_PARSE_OK → q.length < j.length) ∧
          (ret ≠ LEPT_PARSE_OK → w = v) := by
  intro fuel
  induction fuel with
  | zero => intro j v acc ret q w H; simp [pure_parse_array_loop] at H
  | succ fuel ih =>
    intro j v acc ret q w H
    rw [pure_parse_array_loop] at H
    cases hp : pv j .null with
    | none => rw [hp] at H; simp at H
    | some r =>
      obtain ⟨ret1, q1, e⟩ := r
      rw [hp] at H
      obtain ⟨s1, l1⟩ := hpv _ _ _ _ _ hp
      simp only [] at H
      by_cases h : ret1 = LEPT_PARSE_OK
      · have h1 : ¬ ret1 ≠ LEPT_PARSE_OK := by simp [h]
        rw [if_neg h1] at H
        have l2 := l1 h
        by_cases c1 : peek (List.dropWhile is_ws q1) = 44
        · rw [if_pos c1] at H
          obtain ⟨a1, a2, a3⟩ := ih _ _ _ _ _ _ H
          have s2 := (ws_tail_suffix q1).trans s1
          exact ⟨a1.trans s2, fun hr => lt_of_lt_of_le (a2 hr) s2.length_le, a3⟩
        · rw [if_neg c1] at H
          by_cases c2 : peek (List.dropWhile is_ws q1) = 93
          · rw [if_pos c2] at H
            simp only [Option.some.injEq, Prod.mk.injEq] at H
            obtain ⟨rfl, rfl, rfl⟩ := H
            have s2 : (List.dropWhile is_ws q1).tail <:+ q1 :=
              (List.tail_suffix _).trans (List.dropWhile_suffix _)
            exact ⟨s2.trans s1, fun _ => lt_of_le_of_lt s2.length_le l2, fun h => absurd rfl h⟩
          · rw [if_neg c2] at H
            simp only [Option.some.injEq, Prod.mk.injEq] at H
            obtain ⟨rfl, rfl, rfl⟩ := H
            exact ⟨(List.dropWhile_suffix _).trans s1, (fun h => nomatch h), fun _ => rfl⟩
      · have h1 : ret1 ≠ LEPT_PARSE_OK := h
        rw [if_pos h1] at H
        simp only [Option.some.injEq, Prod.mk.injEq] at H
        obtain ⟨rfl, rfl, rfl⟩ := H
        exact ⟨s1, fun hr => absurd hr h, fun _ => rfl⟩

theorem object_loop_shape
    (pv : List Nat → lept_value → Option (lept_parse_code × List Nat × lept_value))
    (hpv : Consumes pv) :
    ∀ (fuel : Nat) (j : List Nat) (acc : List lept_member)
      (ret : lept_parse_code) (q : List Nat) (w : lept_value),
      pure_parse_object_loop pv fuel j acc = some (ret, q, w) →
        q <:+ j ∧ (ret = LEPT_PARSE_OK → q.length < j.length) ∧
          (ret ≠ LEPT_PARSE_OK → w = .null) := by
  intro fuel
  induction fuel with
  | zero => intro j acc ret q w H; simp [pure_parse_object_loop] at H
  | succ fuel ih =>
    intro j acc ret q w H
    rw [pure_parse_object_loop] at H
    by_cases k1 : peek j ≠ 34
    · rw [if_pos k1] at H
      simp only [Option.some.injEq, Prod.mk.injEq] at H
      obtain ⟨rfl, rfl, rfl⟩ := H
      exact ⟨List.suffix_refl _, (fun h => nomatch h), fun _ => rfl⟩
    rw [if_neg k1] at H
    cases hl : pure_string_loop fuel j.tail [] with
    | none => rw [hl] at H; simp at H
    | some r =>
      obtain ⟨ret1, q1, k⟩ := r
      rw [hl] at H
      simp only [] at H
      by_cases h : ret1 = LEPT_PARSE_OK
      · subst h
        obtain ⟨s1, -⟩ := string_loop_suffix _ _ _ _ _ hl
        have s1 := s1.trans (List.tail_suffix j)
        simp only [ne_eq, not_true_eq_false, if_false] at H
        by_cases k2 : peek (List.dropWhile is_ws q1) = 58
        · have k3 : ¬ ¬ peek (List.dropWhile is_ws q1) = 58 := by simp [k2]
          rw [if_neg k3] at H
          have s2 := (ws_tail_suffix q1).trans s1
          cases hp : pv (List.dropWhile is_ws (List.dropWhile is_ws q1).tail) .null with
          | none => rw [hp] at H; simp at H
          | some r2 =>
            obtain ⟨ret2, q2, mv⟩ := r2
            rw [hp] at H
            simp only [] at H
            obtain ⟨s3, l3⟩ := hpv _ _ _ _ _ hp
            have s3 := s3.trans s2
            by_cases h2 : ret2 = LEPT_PARSE_OK
            · have h3 : ¬ ¬ ret2 = LEPT_PARSE_OK := by simp [h2]
              rw [if_neg h3] at H
              have l4 : q2.length < j.length := lt_of_lt_of_le (l3 h2) s2.length_le
              by_cases c1 : peek (List.dropWhile is_ws q2) = 44
              · rw [if_pos c1] at H
                obtain ⟨a1, a2, a3⟩ := ih _ _ _ _ _ H
                have s4 := (ws_tail_suffix q2).trans s3
                exact ⟨a1.trans s4, fun hr => lt_of_lt_of_le (a2 hr) s4.length_le, a3⟩
              · rw [if_neg c1] at H
                by_cases c2 : peek (List.dropWhile is_ws q2) = 125
                · rw [if_pos c2] at H
                  simp only [Option.some.injEq, Prod.mk.injEq] at H
                  obtain ⟨rfl, rfl, rfl⟩ := H
                  have s4 : (List.dropWhile is_ws q2).tail <:+ q2 :=
                    (List.tail_suffix _).trans (List.dropWhile_suffix _)
                  exact ⟨s4.trans s3, fun _ => lt_of_le_of_lt s4.length_le l4,
                    fun h => absurd rfl h⟩
                · rw [if_neg c2] at H
                  simp only [Option.some.injEq, Prod.mk.injEq] at H
                  obtain ⟨rfl, rfl, rfl⟩ := H
                  exact ⟨(List.dropWhile_suffix _).trans s3, (fun h => nomatch h), fun _ => rfl⟩
            · rw [if_pos h2] at H
              simp only [Option.some.injEq, Prod.mk.injEq] at H
              obtain ⟨rfl, rfl, rfl⟩ := H
              exact ⟨s3, fun hr => absurd hr h2, fun _ => rfl⟩
        · rw [if_pos k2] at H
          simp only [Option.some.injEq, Prod.mk.injEq] at H
          obtain ⟨rfl, rfl, rfl⟩ := H
          exact ⟨(List.dropWhile_suffix _).trans s1, (fun h => nomatch h), fun _ => rfl⟩
      · have h3 : ret1 ≠ LEPT_PARSE_OK := h
        rw [if_pos h3] at H
        simp only [Option.some.injEq, Prod.mk.injEq] at H
        obtain ⟨rfl, rfl, rfl⟩ := H
        exact ⟨List.tail_suffix j, fun hr => absurd hr h, fun _ => rfl⟩

theorem number_scan_eq (p : List Nat) :
    lept_parse_number_scan p =
      (scan_int (scan_sign p)).bind (fun p => (scan_frac p).bind scan_exp) := by
  unfold lept_parse_number_scan
  simp only []
  change (match scan_int (scan_sign p) with
    | none => none
    | some p => match scan_frac p with
      | none => none
      | some p => scan_exp p) = _
  cases scan_int (scan_sign p) with
  | none => rfl
  | some t =>
    simp only [Option.some_bind]
    cases scan_frac t with
    | none => rfl
    | some t2 => rfl

theorem NumRest.refl (t : List Nat) : NumRest t t := ⟨[], rfl, by simp⟩

theorem NumRest.trans {a b c : List Nat} (h1 : NumRest a b) (h2 : NumRest b c) : NumRest a c := by
  obtain ⟨n1, e1, m1⟩ := h1
  obtain ⟨n2, e2, m2⟩ := h2
  refine ⟨n1 ++ n2, by rw [e1, e2, List.append_assoc], ?_⟩
  intro b hb
  rcases List.mem_append.mp hb with h | h
  · exact m1 b h
  · exact m2 b h

theorem NumRest.tail {t : List Nat} (h : is_numchar (peek t) = true) : NumRest t t.tail := by
  cases t with
  | nil => exact NumRest.refl _
  | cons a r => exact ⟨[a], rfl, by simpa using h⟩

theorem NumRest.digits (t : List Nat) : NumRest t (t.dropWhile ISDIGIT) := by
  refine ⟨t.takeWhile ISDIGIT, (List.takeWhile_append_dropWhile _ _).symm, ?_⟩
  intro b hb
  have := List.mem_takeWhile_imp hb
  simp [is_numchar, this]

theorem NumRest.suffix {t q : List Nat} (h : NumRest t q) : q <:+ t := by
  obtain ⟨n, e, -⟩ := h
  exact ⟨n, e.symm⟩

theorem scan_sign_rest (p : List Nat) : NumRest p (scan_sign p) := by
  unfold scan_sign
  by_cases h : peek p = 45
  · rw [if_pos h]; exact NumRest.tail (by rw [h]; rfl)
  · rw [if_neg h]; exact NumRest.refl _

theorem tail_length_lt {p : List Nat} (h : peek p ≠ 0) : p.tail.length < p.length := by
  cases p with
  | nil => exact absurd rfl h
  | cons a t => simp

theorem scan_int_rest {p q : List Nat} (H : scan_int p = some q) :
    NumRest p q ∧ q.length < p.length := by
  unfold scan_int at H
  by_cases h1 : peek p = 48
  · rw [if_pos h1] at H
    injection H with H
    subst H
    exact ⟨NumRest.tail (by rw [h1]; rfl), tail_length_lt (by rw [h1]; decide)⟩
  · rw [if_neg h1] at H
    by_cases h2 : (!ISDIGIT1TO9 (peek p)) = true
    · rw [if_pos h2] at H; cases H
    · rw [if_neg h2] at H
      injection H with H
      subst H
      have h3 : ISDIGIT1TO9 (peek p) = true := by simpa using h2
      have h4 : peek p ≠ 0 := by
        intro h0; rw [h0] at h3; cases h3
      have h5 : is_numchar (peek p) = true := by
        simp only [ISDIGIT1TO9, Bool.and_eq_true, decide_eq_true_eq] at h3
        simp only [is_numchar, ISDIGIT, Bool.or_eq_true, Bool.and_eq_true, decide_eq_true_eq]
        omega
      exact ⟨(NumRest.tail h5).trans (NumRest.digits _),
        lt_of_le_of_lt (List.dropWhile_suffix _).length_le (tail_length_lt h4)⟩

theorem scan_frac_rest {p q : List Nat} (H : scan_frac p = some q) : NumRest p q := by
  unfold scan_frac at H
  by_cases h1 : peek p = 46
  · rw [if_pos h1] at H
    by_cases h2 : (!ISDIGIT (peek p.tail)) = true
    · rw [if_pos h2] at H; cases H
    · rw [if_neg h2] at H
      injection H with H
      subst H
      have h3 : ISDIGIT (peek p.tail) = true := by simpa using h2
      exact ((NumRest.tail (by rw [h1]; rfl)).trans
        (NumRest.tail (by simp [is_numchar, h3]))).trans (NumRest.digits _)
  · rw [if_neg h1] at H
    injection H with H
    subst H
    exact NumRest.refl _

theorem scan_exp_rest {p q : List Nat} (H : scan_exp p = some q) : NumRest p q := by
  unfold scan_exp at H
  by_cases h1 : peek p = 101 ∨ peek p = 69
  · rw [if_pos h1] at H
    have h0 : NumRest p p.tail := NumRest.tail (by
      rcases h1 with h | h <;> rw [h] <;> rfl)
    by_cases hs : peek p.tail = 43 ∨ peek p.tail = 45
    · rw [if_pos hs] at H
      by_cases h2 : (!ISDIGIT (peek p.tail.tail)) = true
      · rw [if_pos h2] at H; cases H
      · rw [if_neg h2] at H
        injection H with H
        subst H
        have h3 : ISDIGIT (peek p.tail.tail) = true := by simpa using h2
        have h4 : NumRest p.tail p.tail.tail := NumRest.tail (by
          rcases hs with h | h <;> rw [h] <;> rfl)
        exact ((h0.trans h4).trans (NumRest.tail (by simp [is_numchar, h3]))).trans
          (NumRest.digits _)
    · rw [if_neg hs] at H
      by_cases h2 : (!ISDIGIT (peek p.tail)) = true
      · rw [if_pos h2] at H; cases H
      · rw [if_neg h2] at H
        injection H with H
        subst H
        have h3 : ISDIGIT (peek p.tail) = true := by simpa using h2
        exact (h0.trans (NumRest.tail (by simp [is_numchar, h3]))).trans (NumRest.digits _)
  · rw [if_neg h1] at H
    injection H with H
    subst H
    exact NumRest.refl _

/-- A successful number walk has passed over bytes of a number, one at least. -/
theorem number_scan_rest {p q : List Nat} (H : lept_parse_number_scan p = some q) :
    NumRest p q ∧ q.length < p.length := by
  rw [number_scan_eq] at H
  cases h1 : scan_int (scan_sign p) with
  | none => rw [h1] at H; cases H
  | some t1 =>
    rw [h1] at H
    simp only [Option.some_bind] at H
    cases h2 : scan_frac t1 with
    | none => rw [h2] at H; cases H
    | some t2 =>
      rw [h2] at H
      simp only [Option.some_bind] at H
      obtain ⟨a1, a2⟩ := scan_int_rest h1
      have a3 := scan_frac_rest h2
      have a4 := scan_exp_rest H
      have a0 := scan_sign_rest p
      refine ⟨((a0.trans a1).trans a3).trans a4, ?_⟩
      have := (a3.trans a4).suffix.length_le
      have := a0.suffix.length_le
      omega

theorem literal_loop_suffix : ∀ (ls p q : List Nat),
    lept_parse_literal_loop p ls = some q → q <:+ p := by
  intro ls
  induction ls with
  | nil =>
    intro p q H
    simp only [lept_parse_literal_loop, Option.some.injEq] at H
    rw [H]
  | cons l ls ih =>
    intro p q H
    rw [lept_parse_literal_loop] at H
    by_cases h : peek p ≠ l
    · rw [if_pos h] at H; cases H
    · rw [if_neg h] at H
      exact (ih _ _ H).trans (List.tail_suffix p)

theorem literal_shape (j : List Nat) (S : List Slot) (v : lept_value) (lit : List Nat)
    (ty : lept_type) (hj : peek j ≠ 0) :
    (lept_parse_literal ⟨j, S⟩ v lit ty).2.1.json <:+ j ∧
    ((lept_parse_literal ⟨j, S⟩ v lit ty).1 = LEPT_PARSE_OK →
      (lept_parse_literal ⟨j, S⟩ v lit ty).2.1.json.length < j.length) ∧
    ((lept_parse_literal ⟨j, S⟩ v lit ty).1 ≠ LEPT_PARSE_OK →
      (lept_parse_literal ⟨j, S⟩ v lit ty).2.2 = v) := by
  unfold lept_parse_literal
  simp only [EXPECT]
  cases hl : lept_parse_literal_loop j.tail lit.tail with
  | none => exact ⟨List.tail_suffix j, (fun h => nomatch h), fun _ => rfl⟩
  | some q =>
    have h1 := literal_loop_suffix _ _ _ hl
    exact ⟨h1.trans (List.tail_suffix j),
      fun _ => lt_of_le_of_lt h1.length_le (tail_length_lt hj), fun h => absurd rfl h⟩

theorem number_shape (L : CDouble) (j : List Nat) (S : List Slot) (v : lept_value) :
    (lept_parse_number L ⟨j, S⟩ v).2.1.json <:+ j ∧
    ((lept_parse_number L ⟨j, S⟩ v).1 = LEPT_PARSE_OK →
      (lept_parse_number L ⟨j, S⟩ v).2.1.json.length < j.length) ∧
    ((lept_parse_number L ⟨j, S⟩ v).1 ≠ LEPT_PARSE_OK →
      (lept_parse_number L ⟨j, S⟩ v).2.2 = v) := by
  unfold lept_parse_number
  simp only []
  cases hs : lept_parse_number_scan j with
  | none => exact ⟨List.suffix_refl j, (fun h => nomatch h), fun _ => rfl⟩
  | some q =>
    obtain ⟨h1, h2⟩ := number_scan_rest hs
    simp only []
    by_cases hb : ((L.strtod j).2 && (L.eq (L.strtod j).1 L.HUGE_VAL ||
        L.eq (L.strtod j).1 (L.neg L.HUGE_VAL))) = true
    · rw [if_pos hb]
      exact ⟨List.suffix_refl j, (fun h => nomatch h), fun _ => rfl⟩
    · rw [if_neg hb]
      exact ⟨h1.suffix, fun _ => h2, fun h => absurd rfl h⟩

/-- What `lept_parse_value` returns: the rest of the text is a suffix of the text, a proper one
on success; on an error the value is as it was handed in, or `LEPT_NULL`. -/
theorem parse_value_shape (L : CDouble) : ∀ (fuel : Nat) (j : List Nat) (v : lept_value)
    (ret : lept_parse_code) (q : List Nat) (w : lept_value),
    pure_parse_value L fuel j v = some (ret, q, w) →
      q <:+ j ∧ (ret = LEPT_PARSE_OK → q.length < j.length) ∧
        (ret ≠ LEPT_PARSE_OK → w = v ∨ w = .null) := by
  intro fuel
  induction fuel with
  | zero => intro j v ret q w H; simp [pure_parse_value] at H
  | succ fuel ih =>
    intro j v ret q w H
    have hc : Consumes (pure_parse_value L fuel) := fun j v ret q w h =>
      ⟨(ih j v ret q w h).1, (ih j v ret q w h).2.1⟩
    rw [pure_parse_value] at H
    simp only [] at H
    by_cases c1 : peek j = 116
    · rw [if_pos c1] at H
      simp only [Option.some.injEq, Prod.mk.injEq] at H
      obtain ⟨rfl, rfl, rfl⟩ := H
      obtain ⟨a1, a2, a3⟩ := literal_shape j [] v [116, 114, 117, 101] LEPT_TRUE
        (by rw [c1]; decide)
      exact ⟨a1, a2, fun h => Or.inl (a3 h)⟩
    rw [if_neg c1] at H
    by_cases c2 : peek j = 102
    · rw [if_pos c2] at H
      simp only [Option.some.injEq, Prod.mk.injEq] at H
      obtain ⟨rfl, rfl, rfl⟩ := H
      obtain ⟨a1, a2, a3⟩ := literal_shape j [] v [102, 97, 108, 115, 101] LEPT_FALSE
        (by rw [c2]; decide)
      exact ⟨a1, a2, fun h => Or.inl (a3 h)⟩
    rw [if_neg c2] at H
    by_cases c3 : peek j = 110
    · rw [if_pos c3] at H
      simp only [Option.some.injEq, Prod.mk.injEq] at H
      obtain ⟨rfl, rfl, rfl⟩ := H
      obtain ⟨a1, a2, a3⟩ := literal_shape j [] v [110, 117, 108, 108] LEPT_NULL
        (by rw [c3]; decide)
      exact ⟨a1, a2, fun h => Or.inl (a3 h)⟩
    rw [if_neg c3] at H
    by_cases c4 : peek j = 34
    · rw [if_pos c4] at H
      have hj : j ≠ [] := by
        intro h0; rw [h0] at c4; cases c4
      obtain ⟨a1, a2, a3⟩ := parse_string_shape H hj
      exact ⟨a1, a2, fun h => Or.inl (a3 h)⟩
    rw [if_neg c4] at H
    by_cases c5 : peek j = 91
    · rw [if_pos c5] at H
      have ht := tail_length_lt (p := j) (by rw [c5]; decide)
      have s0 : List.dropWhile is_ws j.tail <:+ j :=
        (List.dropWhile_suffix _).trans (List.tail_suffix j)
      by_cases d1 : peek (List.dropWhile is_ws j.tail) = 93
      · rw [if_pos d1] at H
        simp only [Option.some.injEq, Prod.mk.injEq] at H
        obtain ⟨rfl, rfl, rfl⟩ := H
        have s1 := (List.tail_suffix (List.dropWhile is_ws j.tail)).trans
          (List.dropWhile_suffix _)
        exact ⟨s1.trans (List.tail_suffix j), fun _ => lt_of_le_of_lt s1.length_le ht,
          fun h => absurd rfl h⟩
      · rw [if_neg d1] at H
        obtain ⟨a1, a2, a3⟩ := array_loop_shape _ hc _ _ _ _ _ _ _ H
        exact ⟨a1.trans s0, fun h => lt_of_lt_of_le (a2 h) s0.length_le,
          fun h => Or.inl (a3 h)⟩
    rw [if_neg c5] at H
    by_cases c6 : peek j = 123
    · rw [if_pos c6] at H
      have ht := tail_length_lt (p := j) (by rw [c6]; decide)
      have s0 : List.dropWhile is_ws j.tail <:+ j :=
        (List.dropWhile_suffix _).trans (List.tail_suffix j)
      by_cases d1 : peek (List.dropWhile is_ws j.tail) = 125
      · rw [if_pos d1] at H
        simp only [Option.some.injEq, Prod.mk.injEq] at H
        obtain ⟨rfl, rfl, rfl⟩ := H
        have s1 := (List.tail_suffix (List.dropWhile is_ws j.tail)).trans
          (List.dropWhile_suffix _)
        exact ⟨s1.trans (List.tail_suffix j), fun _ => lt_of_le_of_lt s1.length_le ht,
          fun h => absurd rfl h⟩
      · rw [if_neg d1] at H
        obtain ⟨a1, a2, a3⟩ := object_loop_shape _ hc _ _ _ _ _ _ H
        exact ⟨a1.trans s0, fun h => lt_of_lt_of_le (a2 h) s0.length_le,
          fun h => Or.inr (a3 h)⟩
    rw [if_neg c6] at H
    by_cases c7 : peek j = 0
    · rw [if_pos c7] at H
      simp only [Option.some.injEq, Prod.mk.injEq] at H
      obtain ⟨rfl, rfl, rfl⟩ := H
      exact ⟨List.suffix_refl j, (fun h => nomatch h), fun _ => Or.inl rfl⟩
    rw [if_neg c7] at H
    simp only [Option.some.injEq, Prod.mk.injEq] at H
    obtain ⟨rfl, rfl, rfl⟩ := H
    obtain ⟨a1, a2, a3⟩ := number_shape L j [] v
    exact ⟨a1, a2, fun h => Or.inl (a3 h)⟩

theorem parse_value_consumes (L : CDouble) (fuel : Nat) : Consumes (pure_parse_value L fuel) :=
  fun j v ret q w h =>
    ⟨(parse_value_shape L fuel j v ret q w h).1, (parse_value_shape L fuel j v ret q w h).2.1⟩

/-! ## Fuel: more of it changes nothing, and the text length is enough -/

theorem string_loop_mono : ∀ (fuel : Nat) (p acc : List Nat)
    (r : lept_parse_code × List Nat × List Nat),
    pure_string_loop fuel p acc = some r → pure_string_loop (fuel + 1) p acc = some r := by
  intro fuel
  induction fuel with
  | zero => intro p acc r H; simp [pure_string_loop] at H
  | succ fuel ih =>
    intro p acc r H
    rw [pure_string_loop] at H
    rw [pure_string_loop]
    cases hs : string_step p with
    | stop q => rw [hs] at H; exact H
    | put bs q => rw [hs] at H; exact ih _ _ _ H
    | fail e => rw [hs] at H; exact H

theorem array_loop_mono
    (pv pv2 : List Nat → lept_value → Option (lept_parse_code × List Nat × lept_value))
    (hpv : ∀ j v r, pv j v = some r → pv2 j v = some r) :
    ∀ (fuel : Nat) (j : List Nat) (v : lept_value) (acc : List lept_value)
      (r : lept_parse_code × List Nat × lept_value),
      pure_parse_array_loop pv fuel j v acc = some r →
        pure_parse_array_loop pv2 (fuel + 1) j v acc = some r := by
  intro fuel
  induction fuel with
  | zero => intro j v acc r H; simp [pure_parse_array_loop] at H
  | succ fuel ih =>
    intro j v acc r H
    rw [pure_parse_array_loop] at H
    rw [pure_parse_array_loop]
    cases hp : pv j .null with
    | none => rw [hp] at H; cases H
    | some r1 =>
      obtain ⟨ret1, q1, e⟩ := r1
      rw [hp] at H
      rw [hpv _ _ _ hp]
      simp only [] at H ⊢
      by_cases h : ret1 ≠ LEPT_PARSE_OK
      · rw [if_pos h] at H; rw [if_pos h]; exact H
      · rw [if_neg h] at H; rw [if_neg h]
        by_cases c1 : peek (List.dropWhile is_ws q1) = 44
        · rw [if_pos c1] at H; rw [if_pos c1]; exact ih _ _ _ _ H
        · rw [if_neg c1] at H; rw [if_neg c1]; exact H

theorem object_loop_mono
    (pv pv2 : List Nat → lept_value → Option (lept_parse_code × List Nat × lept_value))
    (hpv : ∀ j v r, pv j v = some r → pv2 j v = some r) :
    ∀ (fuel : Nat) (j : List Nat) (acc : List lept_member)
      (r : lept_parse_code × List Nat × lept_value),
      pure_parse_object_loop pv fuel j acc = some r →
        pure_parse_object_loop pv2 (fuel + 1) j acc = some r := by
  intro fuel
  induction fuel with
  | zero => intro j acc r H; simp [pure_parse_object_loop] at H
  | succ fuel ih =>
    intro j acc r H
    rw [pure_parse_object_loop] at H
    rw [pure_parse_object_loop]
    by_cases k1 : peek j ≠ 34
    · rw [if_pos k1] at H; rw [if_pos k1]; exact H
    rw [if_neg k1] at H; rw [if_neg k1]
    cases hl : pure_string_loop fuel j.tail [] with
    | none => rw [hl] at H; cases H
    | some r1 =>
      obtain ⟨ret1, q1, k⟩ := r1
      rw [hl] at H
      rw [string_loop_mono _ _ _ _ hl]
      simp only [] at H ⊢
      by_cases h : ret1 ≠ LEPT_PARSE_OK
      · rw [if_pos h] at H; rw [if_pos h]; exact H
      rw [if_neg h] at H; rw [if_neg h]
      by_cases k2 : peek (List.dropWhile is_ws q1) ≠ 58
      · rw [if_pos k2] at H; rw [if_pos k2]; exact H
      rw [if_neg k2] at H; rw [if_neg k2]
      cases hp : pv (List.dropWhile is_ws (List.dropWhile is_ws q1).tail) .null with
      | none => rw [hp] at H; cases H
      | some r2 =>
        obtain ⟨ret2, q2, mv⟩ := r2
        rw [hp] at H
        rw [hpv _ _ _ hp]
        simp only [] at H ⊢
        by_cases h2 : ret2 ≠ LEPT_PARSE_OK
        · rw [if_pos h2] at H; rw [if_pos h2]; exact H
        rw [if_neg h2] at H; rw [if_neg h2]
        by_cases c1 : peek (List.dropWhile is_ws q2) = 44
        · rw [if_pos c1] at H; rw [if_pos c1]; exact ih _ _ _ H
        · rw [if_neg c1] at H; rw [if_neg c1]; exact H

theorem parse_value_mono (L : CDouble) : ∀ (fuel : Nat) (j : List Nat) (v : lept_value)
    (r : lept_parse_code × List Nat × lept_value),
    pure_parse_value L fuel j v = some r → pure_parse_value L (fuel + 1) j v = some r := by
  intro fuel
  induction fuel with
  | zero => intro j v r H; simp [pure_parse_value] at H
  | succ fuel ih =>
    intro j v r H
    rw [pure_parse_value] at H
    rw [pure_parse_value]
    simp only [] at H ⊢
    by_cases c1 : peek j = 116
    · rw [if_pos c1] at H; rw [if_pos c1]; exact H
    rw [if_neg c1] at H; rw [if_neg c1]
    by_cases c2 : peek j = 102
    · rw [if_pos c2] at H; rw [if_pos c2]; exact H
    rw [if_neg c2] at H; rw [if_neg c2]
    by_cases c3 : peek j = 110
    · rw [if_pos c3] at H; rw [if_pos c3]; exact H
    rw [if_neg c3] at H; rw [if_neg c3]
    by_cases c4 : peek j = 34
    · rw [if_pos c4] at H; rw [if_pos c4]
      unfold pure_parse_string at H ⊢
      cases hl : pure_string_loop fuel j.tail [] with
      | none => rw [hl] at H; cases H
      | some r1 =>
        rw [hl] at H
        rw [string_loop_mono _ _ _ _ hl]
        exact H
    rw [if_neg c4] at H; rw [if_neg c4]
    by_cases c5 : peek j = 91
    · rw [if_pos c5] at H; rw [if_pos c5]
      by_cases d1 : peek (List.dropWhile is_ws j.tail) = 93
      · rw [if_pos d1] at H; rw [if_pos d1]; exact H
      · rw [if_neg d1] at H; rw [if_neg d1]
        exact array_loop_mono _ _ ih _ _ _ _ _ H
    rw [if_neg c5] at H; rw [if_neg c5]
    by_cases c6 : peek j = 123
    · rw [if_pos c6] at H; rw [if_pos c6]
      by_cases d1 : peek (List.dropWhile is_ws j.tail) = 125
      · rw [if_pos d1] at H; rw [if_pos d1]; exact H
      · rw [if_neg d1] at H; rw [if_neg d1]
        exact object_loop_mono _ _ ih _ _ _ _ H
    rw [if_neg c6] at H; rw [if_neg c6]
    exact H

theorem parse_value_mono_le (L : CDouble) {fuel fuel2 : Nat} (h : fuel ≤ fuel2) {j : List Nat}
    {v : lept_value} {r : lept_parse_code × List Nat × lept_value}
    (H : pure_parse_value L fuel j v = some r) : pure_parse_value L fuel2 j v = some r := by
  induction h with
  | refl => exact H
  | step _ ih => exact parse_value_mono L _ _ _ _ ih

theorem string_loop_mono_le {fuel fuel2 : Nat} (h : fuel ≤ fuel2) {p acc : List Nat}
    {r : lept_parse_code × List Nat × List Nat}
    (H : pure_string_loop fuel p acc = some r) : pure_string_loop fuel2 p acc = some r := by
  induction h with
  | refl => exact H
  | step _ ih => exact string_loop_mono _ _ _ _ ih

theorem string_loop_total : ∀ (fuel : Nat) (p acc : List Nat), p.length < fuel →
    ∃ r, pure_string_loop fuel p acc = some r := by
  intro fuel
  induction fuel with
  | zero => intro p acc h; omega
  | succ fuel ih =>
    intro p acc h
    rw [pure_string_loop]
    cases hs : string_step p with
    | stop q => exact ⟨_, rfl⟩
    | put bs q =>
      obtain ⟨it, hne, hp, -⟩ := string_step_put hs
      have h1 : 0 < it.length := List.length_pos.mpr hne
      have h2 : q.length < fuel := by
        rw [hp, List.length_append] at h; omega
      exact ih _ _ h2
    | fail e => exact ⟨_, rfl⟩

theorem array_loop_total
    (pv : List Nat → lept_value → Option (lept_parse_code × List Nat × lept_value))
    (hc : Consumes pv) (n : Nat) (ht : ∀ j v, j.length ≤ n → ∃ r, pv j v = some r) :
    ∀ (fuel : Nat) (j : List Nat) (v : lept_value) (acc : List lept_value),
      j.length ≤ n → j.length < fuel → ∃ r, pure_parse_array_loop pv fuel j v acc = some r := by
  intro fuel
  induction fuel with
  | zero => intro j v acc _ h; omega
  | succ fuel ih =>
    intro j v acc hn h
    rw [pure_parse_array_loop]
    obtain ⟨r1, hp⟩ := ht j .null hn
    obtain ⟨ret1, q1, e⟩ := r1
    rw [hp]
    simp only []
    obtain ⟨s1, l1⟩ := hc _ _ _ _ _ hp
    by_cases h1 : ret1 ≠ LEPT_PARSE_OK
    · rw [if_pos h1]; exact ⟨_, rfl⟩
    rw [if_neg h1]
    have l2 : q1.length < j.length := l1 (by simpa using h1)
    by_cases c1 : peek (List.dropWhile is_ws q1) = 44
    · rw [if_pos c1]
      have s2 := (ws_tail_suffix q1).length_le
      exact ih _ _ _ (by omega) (by omega)
    · rw [if_neg c1]
      by_cases c2 : peek (List.dropWhile is_ws q1) = 93
      · rw [if_pos c2]; exact ⟨_, rfl⟩
      · rw [if_neg c2]; exact ⟨_, rfl⟩

theorem object_loop_total
    (pv : List Nat → lept_value → Option (lept_parse_code × List Nat × lept_value))
    (hc : Consumes pv) (n : Nat) (ht : ∀ j v, j.length ≤ n → ∃ r, pv j v = some r) :
    ∀ (fuel : Nat) (j : List Nat) (acc : List lept_member),
      j.length ≤ n → j.length < fuel → ∃ r, pure_parse_object_loop pv fuel j acc = some r := by
  intro fuel
  induction fuel with
  | zero => intro j acc _ h; omega
  | succ fuel ih =>
    intro j acc hn h
    rw [pure_parse_object_loop]
    by_cases k1 : peek j ≠ 34
    · rw [if_pos k1]; exact ⟨_, rfl⟩
    rw [if_neg k1]
    have hj : j.tail.length < j.length := tail_length_lt (by
      intro h0; exact k1 (by rw [h0]; decide))
    obtain ⟨r1, hl⟩ := string_loop_total fuel j.tail [] (by omega)
    obtain ⟨ret1, q1, k⟩ := r1
    rw [hl]
    simp only []
    by_cases h1 : ret1 ≠ LEPT_PARSE_OK
    · rw [if_pos h1]; exact ⟨_, rfl⟩
    rw [if_neg h1]
    have h1 : ret1 = LEPT_PARSE_OK := by simpa using h1
    subst h1
    obtain ⟨s1, l1⟩ := string_loop_suffix _ _ _ _ _ hl
    by_cases k2 : peek (List.dropWhile is_ws q1) ≠ 58
    · rw [if_pos k2]; exact ⟨_, rfl⟩
    rw [if_neg k2]
    have s2 := (ws_tail_suffix q1).length_le
    obtain ⟨r2, hp⟩ := ht (List.dropWhile is_ws (List.dropWhile is_ws q1).tail) .null
      (by omega)
    obtain ⟨ret2, q2, mv⟩ := r2
    rw [hp]
    simp only []
    obtain ⟨s3, l3⟩ := hc _ _ _ _ _ hp
    by_cases h2 : ret2 ≠ LEPT_PARSE_OK
    · rw [if_pos h2]; exact ⟨_, rfl⟩
    rw [if_neg h2]
    have l4 := l3 (by simpa using h2)
    by_cases c1 : peek (List.dropWhile is_ws q2) = 44
    · rw [if_pos c1]
      have s4 := (ws_tail_suffix q2).length_le
      exact ih _ _ (by omega) (by omega)
    · rw [if_neg c1]
      by_cases c2 : peek (List.dropWhile is_ws q2) = 125
      · rw [if_pos c2]; exact ⟨_, rfl⟩
      · rw [if_neg c2]; exact ⟨_, rfl⟩

/-- With more fuel than the text has bytes the parser returns. -/
theorem parse_value_total (L : CDouble) : ∀ (fuel : Nat) (j : List Nat) (v : lept_value),
    j.length < fuel → ∃ r, pure_parse_value L fuel j v = some r := by
  intro fuel
  induction fuel with
  | zero => intro j v h; omega
  | succ fuel ih =>
    intro j v h
    rw [pure_parse_value]
    simp only []
    by_cases c1 : peek j = 116
    · rw [if_pos c1]; exact ⟨_, rfl⟩
    rw [if_neg c1]
    by_cases c2 : peek j = 102
    · rw [if_pos c2]; exact ⟨_, rfl⟩
    rw [if_neg c2]
    by_cases c3 : peek j = 110
    · rw [if_pos c3]; exact ⟨_, rfl⟩
    rw [if_neg c3]
    by_cases c4 : peek j = 34
    · rw [if_pos c4]
      have hj : j.tail.length < j.length := tail_length_lt (by rw [c4]; decide)
      obtain ⟨r1, hl⟩ := string_loop_total fuel j.tail [] (by omega)
      unfold pure_parse_string
      rw [hl]
      obtain ⟨ret1, q1, k⟩ := r1
      simp only []
      by_cases h1 : ret1 = LEPT_PARSE_OK
      · rw [if_pos h1]; exact ⟨_, rfl⟩
      · rw [if_neg h1]; exact ⟨_, rfl⟩
    rw [if_neg c4]
    by_cases c5 : peek j = 91
    · rw [if_pos c5]
      have hj : j.tail.length < j.length := tail_length_lt (by rw [c5]; decide)
      have hs := (List.dropWhile_suffix is_ws (l := j.tail)).length_le
      by_cases d1 : peek (List.dropWhile is_ws j.tail) = 93
      · rw [if_pos d1]; exact ⟨_, rfl⟩
      · rw [if_neg d1]
        exact array_loop_total _ (parse_value_consumes L fuel) (fuel - 1)
          (fun j v hj => ih j v (by omega)) fuel _ _ _ (by omega) (by omega)
    rw [if_neg c5]
    by_cases c6 : peek j = 123
    · rw [if_pos c6]
      have hj : j.tail.length < j.length := tail_length_lt (by rw [c6]; decide)
      have hs := (List.dropWhile_suffix is_ws (l := j.tail)).length_le
      by_cases d1 : peek (List.dropWhile is_ws j.tail) = 125
      · rw [if_pos d1]; exact ⟨_, rfl⟩
      · rw [if_neg d1]
        exact object_loop_total _ (parse_value_consumes L fuel) (fuel - 1)
          (fun j v hj => ih j v (by omega)) fuel _ _ (by omega) (by omega)
    rw [if_neg c6]
    by_cases c7 : peek j = 0
    · rw [if_pos c7]; exact ⟨_, rfl⟩
    rw [if_neg c7]
    exact ⟨_, rfl⟩

/-- Two runs with different fuel that both return, return the same. -/
theorem parse_value_fuel_agree (L : CDouble) {f1 f2 : Nat} {j : List Nat} {v : lept_value}
    {r1 r2 : lept_parse_code × List Nat × lept_value}
    (h1 : pure_parse_value L f1 j v = some r1) (h2 : pure_parse_value L f2 j v = some r2) :
    r1 = r2 := by
  have a := parse_value_mono_le L (le_max_left f1 f2) h1
  have b := parse_value_mono_le L (le_max_right f1 f2) h2
  rw [a] at b
  exact Option.some.inj b

/-- The function `lept_parse` returns on every text. -/
theorem pure_parse_total (L : CDouble) (json : List Nat) : ∃ r, pure_parse L json = some r := by
  unfold pure_parse
  have hs := (List.dropWhile_suffix is_ws (l := json)).length_le
  obtain ⟨r, hr⟩ := parse_value_total L (json.length + 1) (json.dropWhile is_ws) .null (by omega)
  obtain ⟨ret, q, v⟩ := r
  rw [hr]
  simp only []
  by_cases h1 : ret = LEPT_PARSE_OK
  · rw [if_pos h1]
    by_cases h2 : peek (List.dropWhile is_ws q) ≠ 0
    · rw [if_pos h2]; exact ⟨_, rfl⟩
    · rw [if_neg h2]; exact ⟨_, rfl⟩
  · rw [if_neg h1]; exact ⟨_, rfl⟩

/-! ## Errors leave no partial result -/

/-- Claim C4. On every text `lept_parse` returns, and whenever the code it returns is not
`LEPT_PARSE_OK` the type of the output value is `LEPT_NULL`: this covers the errors raised
inside nested arrays and objects, the number errors and `LEPT_PARSE_ROOT_NOT_SINGULAR`. -/
theorem lept_parse_error_leaves_null (L : CDouble) (json : List Nat) :
    ∃ ret v, lept_parse L json = some (ret, v) ∧
      (ret ≠ LEPT_PARSE_OK → lept_get_type v = LEPT_NULL) := by
  rw [lept_parse_eq]
  unfold pure_parse
  have hs := (List.dropWhile_suffix is_ws (l := json)).length_le
  obtain ⟨r, hr⟩ := parse_value_total L (json.length + 1) (json.dropWhile is_ws) .null (by omega)
  obtain ⟨ret, q, v⟩ := r
  rw [hr]
  simp only []
  obtain ⟨-, -, h3⟩ := parse_value_shape L _ _ _ _ _ _ hr
  by_cases h1 : ret = LEPT_PARSE_OK
  · rw [if_pos h1]
    by_cases h2 : peek (List.dropWhile is_ws q) ≠ 0
    · rw [if_pos h2]; exact ⟨_, _, rfl, fun _ => rfl⟩
    · rw [if_neg h2]; exact ⟨_, _, rfl, fun h => absurd h1 h⟩
  · rw [if_neg h1]
    refine ⟨_, _, rfl, fun _ => ?_⟩
    rcases h3 h1 with h | h <;> rw [h] <;> rfl

/-! ## The generator appends the rendering of the value -/

theorem PUTS_PUTS (c : lept_context) (a b : List Nat) : PUTS (PUTS c a) b = PUTS c (a ++ b) := by
  simp [PUTS]

theorem PUTS_nil (c : lept_context) : PUTS c [] = c := by
  simp [PUTS]

theorem stringify_chars_foldl (s : List Nat) : ∀ c : lept_context,
    s.foldl (fun c ch => PUTS c (lept_stringify_string_char ch)) c = PUTS c (render_chars s) := by
  induction s with
  | nil => intro c; simp [render_chars, PUTS_nil]
  | cons a t ih =>
    intro c
    rw [List.foldl_cons, ih, PUTS_PUTS]
    simp [render_chars]

theorem stringify_string_eq (c : lept_context) (s : List Nat) :
    lept_stringify_string c s s.length = PUTS c (render_string s) := by
  unfold lept_stringify_string render_string
  simp only [List.take_length, PUTC_eq_PUTS, stringify_chars_foldl, PUTS_PUTS]
  rfl

mutual
theorem stringify_value_eq (L : CDouble) : ∀ (v : lept_value) (c : lept_context),
    lept_stringify_value L c v = PUTS c (render L v)
  | .null, c => by rw [lept_stringify_value, render]
  | .jfalse, c => by rw [lept_stringify_value, render]
  | .jtrue, c => by rw [lept_stringify_value, render]
  | .number n, c => by rw [lept_stringify_value, render]
  | .string s, c => by rw [lept_stringify_value, render, stringify_string_eq]
  | .array e cap, c => by
    rw [lept_stringify_value, render]
    simp only [PUTC_eq_PUTS, stringify_array_loop_eq L e, PUTS_PUTS]
    rfl
  | .object m cap, c => by
    rw [lept_stringify_value, render]
    simp only [PUTC_eq_PUTS, stringify_object_loop_eq L m, PUTS_PUTS]
    rfl
theorem stringify_array_loop_eq (L : CDouble) : ∀ (e : List lept_value) (c : lept_context)
    (i : Nat), lept_stringify_array_loop L c i e = PUTS c (render_array_loop L i e)
  | [], c, i => by rw [lept_stringify_array_loop, render_array_loop, PUTS_nil]
  | x :: xs, c, i => by
    rw [lept_stringify_array_loop, render_array_loop]
    simp only [stringify_value_eq L x, stringify_array_loop_eq L xs, PUTS_PUTS, PUTC_eq_PUTS]
    by_cases h : i > 0
    · simp only [if_pos h, PUTS_PUTS]
    · simp only [if_neg h, List.nil_append]
theorem stringify_object_loop_eq (L : CDouble) : ∀ (m : List lept_member) (c : lept_context)
    (i : Nat), lept_stringify_object_loop L c i m = PUTS c (render_object_loop L i m)
  | [], c, i => by rw [lept_stringify_object_loop, render_object_loop, PUTS_nil]
  | .mk k x :: ms, c, i => by
    rw [lept_stringify_object_loop, render_object_loop]
    simp only [stringify_value_eq L x, stringify_object_loop_eq L ms, PUTS_PUTS, PUTC_eq_PUTS,
      stringify_string_eq]
    by_cases h : i > 0
    · simp only [if_pos h, PUTS_PUTS]
      simp
    · simp only [if_neg h, List.nil_append]
      simp
end

/-- The text returned by `lept_stringify` is the rendering of the value. -/
theorem lept_stringify_eq (L : CDouble) (v : lept_value) : lept_stringify L v = render L v := by
  unfold lept_stringify
  simp only [stringify_value_eq, PUTC_eq_PUTS, PUTS_PUTS]
  simp [PUTS, lept_context.top, toByte_comp_byte]

/-! ## Strings: bodies, escapes and errors -/

theorem or_small (k i x : Nat) (h : x < 2 ^ i) : (2 ^ i * k) ||| x = 2 ^ i * k + x :=
  (Nat.mul_add_lt_is_or h k).symm

theorem hex_digit_step (up : Bool) (d : Nat) (hd : d < 16) (i : Nat) (p : List Nat) (u : Nat) :
    lept_parse_hex4_loop (i + 1) (hex_digit up d :: p) u =
      lept_parse_hex4_loop i p (u * 16 + d) := by
  have e : (u <<< 4) ||| d = u * 16 + d := by
    rw [Nat.shiftLeft_eq, Nat.mul_comm, or_small u 4 d (by simpa using hd)]
  rw [lept_parse_hex4_loop]
  simp only [peek_cons, List.tail_cons]
  unfold hex_digit
  by_cases h1 : d < 10
  · rw [if_pos h1, if_pos (by omega), show 48 + d - 48 = d by omega, e]
  · rw [if_neg h1]
    cases up with
    | true =>
      simp only [if_true]
      rw [if_neg (by omega), if_pos (by omega), show 55 + d - (65 - 10) = d by omega, e]
    | false =>
      simp only [Bool.false_eq_true, if_false]
      rw [if_neg (by omega), if_neg (by omega), if_pos (by omega),
        show 87 + d - (97 - 10) = d by omega, e]

theorem hex4_text (h : Hex4) (hok : h.ok) (x : List Nat) :
    lept_parse_hex4 (h.text ++ x) = some (x, h.value) := by
  obtain ⟨h1, h2, h3, h4⟩ := hok
  unfold lept_parse_hex4 Hex4.text Hex4.value
  simp only [List.cons_append, List.nil_append]
  rw [hex_digit_step _ _ h1, hex_digit_step _ _ h2, hex_digit_step _ _ h3,
    hex_digit_step _ _ h4]
  simp [lept_parse_hex4_loop]

theorem utf8_bytes_eq_spec (u : Nat) (hu : u ≤ 0x10FFFF) : utf8_bytes u = utf8_spec u := by
  unfold utf8_bytes utf8_spec
  have m63 : ∀ x : Nat, x &&& 0x3F = x % 64 := fun x => Nat.and_pow_two_sub_one_eq_mod x 6
  have m255 : ∀ x : Nat, x &&& 0xFF = x % 256 := fun x => Nat.and_pow_two_sub_one_eq_mod x 8
  have o80 : ∀ x : Nat, x < 64 → 0x80 ||| x = 0x80 + x := fun x hx =>
    or_small 1 7 x (by omega)
  have oC0 : ∀ x : Nat, x < 64 → 0xC0 ||| x = 0xC0 + x := fun x hx =>
    or_small 3 6 x (by omega)
  have oE0 : ∀ x : Nat, x < 32 → 0xE0 ||| x = 0xE0 + x := fun x hx =>
    or_small 7 5 x (by omega)
  have oF0 : ∀ x : Nat, x < 16 → 0xF0 ||| x = 0xF0 + x := fun x hx =>
    or_small 15 4 x (by omega)
  by_cases h1 : u ≤ 0x7F
  · rw [if_pos h1, if_pos (show u < 0x80 by omega), m255]
    congr 1
    omega
  rw [if_neg h1, if_neg (show ¬ u < 0x80 by omega)]
  by_cases h2 : u ≤ 0x7FF
  · rw [if_pos h2, if_pos (show u < 0x800 by omega), m63, m255, Nat.shiftRight_eq_div_pow,
      o80 _ (Nat.mod_lt _ (by decide))]
    have e1 : u / 2 ^ 6 % 256 = u / 64 := by omega
    rw [e1, oC0 _ (by omega)]
    congr 1
    · omega
    · congr 1; omega
  rw [if_neg h2, if_neg (show ¬ u < 0x800 by omega)]
  by_cases h3 : u ≤ 0xFFFF
  · rw [if_pos h3, if_pos (show u < 0x10000 by omega), m63, m63, m255,
      Nat.shiftRight_eq_div_pow, Nat.shiftRight_eq_div_pow, o80 _ (Nat.mod_lt _ (by decide)),
      o80 _ (Nat.mod_lt _ (by decide))]
    have e1 : u / 2 ^ 12 % 256 = u / 4096 := by omega
    rw [e1, oE0 _ (by omega)]
    congr 1
    · omega
    · congr 1
      · omega
      · congr 1; omega
  rw [if_neg h3, if_neg (show ¬ u < 0x10000 by omega), m63, m63, m63, m255,
    Nat.shiftRight_eq_div_pow, Nat.shiftRight_eq_div_pow, Nat.shiftRight_eq_div_pow,
    o80 _ (Nat.mod_lt _ (by decide)), o80 _ (Nat.mod_lt _ (by decide)),
    o80 _ (Nat.mod_lt _ (by decide))]
  have e1 : u / 2 ^ 18 % 256 = u / 262144 := by omega
  rw [e1, oF0 _ (by omega)]
  congr 1
  · omega
  · congr 1
    · omega
    · congr 1
      · omega
      · congr 1; omega

/-- A result obtained with some fuel is the result with any fuel above the text length. -/
theorem parse_value_of_some (L : CDouble) {f0 f : Nat} {j : List Nat} {v : lept_value}
    {r : lept_parse_code × List Nat × lept_value}
    (h : pure_parse_value L f0 j v = some r) (hf : j.length < f) :
    pure_parse_value L f j v = some r := by
  obtain ⟨r2, h2⟩ := parse_value_total L f j v hf
  rw [h2, parse_value_fuel_agree L h2 h]

/-- The result of `lept_parse` from a result of `lept_parse_value` obtained with some fuel. -/
theorem pure_parse_of_value (L : CDouble) {f0 : Nat} {json : List Nat} {ret : lept_parse_code}
    {q : List Nat} {w : lept_value}
    (h : pure_parse_value L f0 (json.dropWhile is_ws) .null = some (ret, q, w)) :
    pure_parse L json =
      if ret = LEPT_PARSE_OK then
        if peek (q.dropWhile is_ws) ≠ 0 then some (LEPT_PARSE_ROOT_NOT_SINGULAR, .null)
        else some (ret, w)
      else some (ret, w) := by
  have hs := (List.dropWhile_suffix is_ws (l := json)).length_le
  unfold pure_parse
  rw [parse_value_of_some L h (by omega)]

theorem string_body_loop {b out : List Nat} (hb : StringBody b out) :
    ∃ k, ∀ (f : Nat) (rest acc : List Nat),
      pure_string_loop (f + k) (b ++ rest) acc = pure_string_loop f rest (acc ++ out) := by
  induction hb with
  | nil => exact ⟨0, fun f rest acc => by simp⟩
  | @item it bs b out hit _ ih =>
    obtain ⟨k, hk⟩ := ih
    refine ⟨k + 1, fun f rest acc => ?_⟩
    rw [← Nat.add_assoc, pure_string_loop, List.append_assoc, hit]
    simp only []
    rw [hk, List.append_assoc]

theorem parse_value_quote (L : CDouble) (f : Nat) (t : List Nat) (v : lept_value) :
    pure_parse_value L (f + 1) (34 :: t) v = pure_parse_string f (34 :: t) v := by
  rw [pure_parse_value]
  rfl

theorem parse_value_string_ok (L : CDouble) {b out : List Nat} (hb : StringBody b out)
    (q : List Nat) (v : lept_value) :
    ∃ f, pure_parse_value L f (34 :: (b ++ 34 :: q)) v = some (LEPT_PARSE_OK, q, .string out) := by
  obtain ⟨k, hk⟩ := string_body_loop hb
  refine ⟨(1 + k) + 1, ?_⟩
  rw [parse_value_quote]
  unfold pure_parse_string
  simp only [List.tail_cons]
  rw [hk, pure_string_loop, string_step_quote]
  simp

theorem parse_value_string_fail (L : CDouble) {b out rest : List Nat} (hb : StringBody b out)
    {e : lept_parse_code} (he : string_step rest = .fail e) (v : lept_value) :
    ∃ f, pure_parse_value L f (34 :: (b ++ rest)) v = some (e, b ++ rest, v) := by
  obtain ⟨k, hk⟩ := string_body_loop hb
  refine ⟨(1 + k) + 1, ?_⟩
  rw [parse_value_quote]
  unfold pure_parse_string
  simp only [List.tail_cons]
  rw [hk, pure_string_loop, he]
  simp only []
  rw [if_neg (string_step_fail he)]

theorem dropWhile_ws_cons {a : Nat} (p : List Nat) (h : is_ws a = false) :
    (a :: p).dropWhile is_ws = a :: p := by
  simp [List.dropWhile, h]

/-- A string text whose body is passed over and which then fails in a round of the loop: the
code of that round is the code of `lept_parse`. -/
theorem lept_parse_string_fail (L : CDouble) {b out rest : List Nat} (hb : StringBody b out)
    {e : lept_parse_code} (he : string_step rest = .fail e) :
    lept_parse L (34 :: (b ++ rest)) = some (e, .null) := by
  obtain ⟨f, hf⟩ := parse_value_string_fail L hb he .null
  rw [lept_parse_eq, @pure_parse_of_value L f _ _ _ _ (by rw [dropWhile_ws_cons (a := 34) _ rfl]; exact hf)]
  rw [if_neg (string_step_fail he)]

/-- A string text whose body is passed over and is followed by the closing quote and then by
whitespace only. -/
theorem lept_parse_string_ok (L : CDouble) {b out : List Nat} (hb : StringBody b out)
    (q : List Nat) (hq : peek (q.dropWhile is_ws) = 0) :
    lept_parse L (34 :: (b ++ 34 :: q)) = some (LEPT_PARSE_OK, .string out) := by
  obtain ⟨f, hf⟩ := parse_value_string_ok L hb q .null
  rw [lept_parse_eq, @pure_parse_of_value L f _ _ _ _ (by rw [dropWhile_ws_cons (a := 34) _ rfl]; exact hf)]
  rw [if_pos rfl, if_neg (by simp [hq])]

theorem hex_digits_getD (d : Nat) (hd : d < 16) : hex_digits.getD d 0 = hex_digit true d := by
  interval_cases d <;> rfl

theorem utf8_bytes_ascii (u : Nat) (hu : u ≤ 0x7F) : utf8_bytes u = [u] := by
  rw [utf8_bytes_eq_spec u (by omega)]
  unfold utf8_spec
  rw [if_pos (by omega)]

theorem stringify_char_item (ch : Nat) (x : List Nat) :
    string_step (lept_stringify_string_char ch ++ x) = .put [ch] x := by
  unfold lept_stringify_string_char
  by_cases h1 : ch = 34
  · subst h1; rfl
  rw [if_neg h1]
  by_cases h2 : ch = 92
  · subst h2; rfl
  rw [if_neg h2]
  by_cases h3 : ch = 8
  · subst h3; rfl
  rw [if_neg h3]
  by_cases h4 : ch = 12
  · subst h4; rfl
  rw [if_neg h4]
  by_cases h5 : ch = 10
  · subst h5; rfl
  rw [if_neg h5]
  by_cases h6 : ch = 13
  · subst h6; rfl
  rw [if_neg h6]
  by_cases h7 : ch = 9
  · subst h7; rfl
  rw [if_neg h7]
  by_cases h8 : ch < 0x20
  · rw [if_pos h8]
    have e1 : ch >>> 4 = ch / 16 := Nat.shiftRight_eq_div_pow ch 4
    have e2 : ch &&& 15 = ch % 16 := Nat.and_pow_two_sub_one_eq_mod ch 4
    rw [e1, e2, hex_digits_getD _ (by omega), hex_digits_getD _ (Nat.mod_lt _ (by decide))]
    have hh := hex4_text ⟨0, 0, ch / 16, ch % 16, true, true, true, true⟩
      ⟨by show 0 < 16; omega, by show 0 < 16; omega, by show ch / 16 < 16; omega,
        by show ch % 16 < 16; exact Nat.mod_lt _ (by decide)⟩ x
    have hv : Hex4.value ⟨0, 0, ch / 16, ch % 16, true, true, true, true⟩ = ch := by
      show ((0 * 16 + 0) * 16 + ch / 16) * 16 + ch % 16 = ch
      omega
    rw [hv] at hh
    have hs := string_step_unicode hh (by omega)
    rw [utf8_bytes_ascii ch (by omega)] at hs
    exact hs
  · rw [if_neg h8]
    exact string_step_plain x h1 h2 h8

/-- The text written for the bytes of a string is passed over by the string loop, which pushes
the bytes back. -/
theorem render_chars_body (s : List Nat) : StringBody (render_chars s) s := by
  induction s with
  | nil => exact StringBody.nil
  | cons ch s ih =>
    have h : render_chars (ch :: s) = lept_stringify_string_char ch ++ render_chars s := by
      simp [render_chars]
    rw [h]
    exact @StringBody.item _ [ch] _ _ (stringify_char_item ch) ih

/-- Claim C3. For every byte sequence `s` (zero bytes, control bytes, quotes, backslashes, 0x7F
and bytes from 0x80 on included), parsing the text that `lept_stringify` produces for the string
value `s` returns `LEPT_PARSE_OK` with a string whose bytes, and so whose length, are those of
`s`. -/
theorem string_payload_round_trip (L : CDouble) (s : List Nat) :
    lept_parse L (lept_stringify L (.string s)) = some (LEPT_PARSE_OK, .string s) := by
  rw [lept_stringify_eq, render, render_string]
  exact lept_parse_string_ok L (render_chars_body s) [] rfl

theorem example_libc_checks :
    example_libc.sprintf_17g ⟨0x3FF0000000000000⟩ = ascii "1" ∧
    example_libc.sprintf_17g ⟨0x4059000000000000⟩ = ascii "100" ∧
    example_libc.sprintf_17g ⟨0x7FF0000000000000⟩ = ascii "inf" ∧
    example_libc.sprintf_17g ⟨0xC000000000000000⟩ = ascii "-2" ∧
    example_libc.strtod (ascii "100,2") = (⟨0x4059000000000000⟩, false) ∧
    example_libc.strtod (ascii "-2]") = (⟨0xC000000000000000⟩, false) ∧
    example_libc.strtod (ascii "1") = (⟨0x3FF0000000000000⟩, false) := by
  refine ⟨?_, ?_, ?_, ?_, ?_, ?_, ?_⟩ <;> rfl

theorem hex4_value_le (h : Hex4) (hok : h.ok) : h.value ≤ 0xFFFF := by
  obtain ⟨h1, h2, h3, h4⟩ := hok
  unfold Hex4.value
  omega

theorem surrogate_code_point (hi lo : Nat) (h3 : 0xDC00 ≤ lo)
    (h4 : lo ≤ 0xDFFF) :
    (((hi - 0xD800) <<< 10) ||| (lo - 0xDC00)) + 0x10000 =
      0x10000 + (hi - 0xD800) * 0x400 + (lo - 0xDC00) := by
  have e : ((hi - 0xD800) <<< 10) ||| (lo - 0xDC00) = (hi - 0xD800) * 0x400 + (lo - 0xDC00) := by
    rw [Nat.shiftLeft_eq, Nat.mul_comm, or_small (hi - 0xD800) 10 (lo - 0xDC00) (by omega)]
  rw [e]
  omega

/-- Claim C7. A code unit outside `[0xD800, 0xDFFF]` written as four hexadecimal digits of
either case after `\u` is decoded to the UTF-8 encoding of the unit; a high surrogate followed at
once by `\u` and a low surrogate is decoded to the UTF-8 encoding of the code point
`0x10000 + (H - 0xD800) * 0x400 + (L - 0xDC00)`. -/
theorem unicode_escape_decodes (L : CDouble) (h : Hex4) (hok : h.ok) :
    (h.value < 0xD800 ∨ 0xDFFF < h.value →
      lept_parse L ([34, 92, 117] ++ h.text ++ [34]) =
        some (LEPT_PARSE_OK, .string (utf8_spec h.value))) ∧
    (∀ l : Hex4, l.ok → 0xD800 ≤ h.value → h.value ≤ 0xDBFF →
      0xDC00 ≤ l.value → l.value ≤ 0xDFFF →
      lept_parse L ([34, 92, 117] ++ h.text ++ [92, 117] ++ l.text ++ [34]) =
        some (LEPT_PARSE_OK,
          .string (utf8_spec (0x10000 + (h.value - 0xD800) * 0x400 + (l.value - 0xDC00))))) := by
  have hle := hex4_value_le h hok
  constructor
  · intro hr
    have hs : ∀ x, string_step ([92, 117] ++ h.text ++ x) = .put (utf8_spec h.value) x := by
      intro x
      have := string_step_unicode (hex4_text h hok x) (by omega)
      rw [utf8_bytes_eq_spec _ (by omega)] at this
      simpa using this
    have hb := StringBody.item hs StringBody.nil
    have := lept_parse_string_ok L hb [] rfl
    simpa using this
  · intro l lok a1 a2 a3 a4
    have hs : ∀ x, string_step ([92, 117] ++ h.text ++ [92, 117] ++ l.text ++ x) =
        .put (utf8_spec (0x10000 + (h.value - 0xD800) * 0x400 + (l.value - 0xDC00))) x := by
      intro x
      have e1 := hex4_text h hok (92 :: 117 :: (l.text ++ x))
      have := string_step_pair e1 ⟨a1, a2⟩ (hex4_text l lok x) (by omega)
      rw [surrogate_code_point _ _ a3 a4, utf8_bytes_eq_spec _ (by omega)] at this
      simpa using this
    have hb := StringBody.item hs StringBody.nil
    have := lept_parse_string_ok L hb [] rfl
    simpa using this

/-- The escapes `\u00e9` and `\ud834\udd1e` of the specification, by C7. -/
theorem unicode_escape_decodes_witness :
    lept_parse example_libc (ascii "\"\\u00e9\"") =
      some (LEPT_PARSE_OK, .string [0xC3, 0xA9]) ∧
    lept_parse example_libc (ascii "\"\\ud834\\udd1e\"") =
      some (LEPT_PARSE_OK, .string [0xF0, 0x9D, 0x84, 0x9E]) :=
  ⟨(unicode_escape_decodes example_libc ⟨0, 0, 14, 9, false, false, false, false⟩
      (by decide)).1 (by decide),
    (unicode_escape_decodes example_libc ⟨13, 8, 3, 4, false, false, false, false⟩
      (by decide)).2 ⟨13, 13, 1, 14, false, false, false, false⟩ (by decide) (by decide)
      (by decide) (by decide) (by decide)⟩

theorem hex4_loop_short (rest : List Nat) (hr : is_hex (peek rest) = false) :
    ∀ (h : List Nat) (i u : Nat), h.length < i → (∀ d ∈ h, is_hex d = true) →
      lept_parse_hex4_loop i (h ++ rest) u = none := by
  intro h
  induction h with
  | nil =>
    intro i u hi _
    obtain ⟨i, rfl⟩ : ∃ k, i = k + 1 := ⟨i - 1, by simp at hi; omega⟩
    rw [lept_parse_hex4_loop]
    simp only [List.nil_append]
    simp only [is_hex, Bool.or_eq_false_iff, Bool.and_eq_false_iff, decide_eq_false_iff_not]
      at hr
    rw [if_neg (by omega), if_neg (by omega), if_neg (by omega)]
  | cons d h ih =>
    intro i u hi hd
    obtain ⟨i, rfl⟩ : ∃ k, i = k + 1 := ⟨i - 1, by simp at hi; omega⟩
    rw [lept_parse_hex4_loop]
    simp only [List.cons_append, peek_cons, List.tail_cons]
    have hl : h.length < i := by simp at hi; omega
    have hh : ∀ d ∈ h, is_hex d = true := fun x hx => hd x (List.mem_cons_of_mem _ hx)
    by_cases c1 : 48 ≤ d ∧ d ≤ 57
    · rw [if_pos c1]; exact ih _ _ hl hh
    rw [if_neg c1]
    by_cases c2 : 65 ≤ d ∧ d ≤ 70
    · rw [if_pos c2]; exact ih _ _ hl hh
    rw [if_neg c2]
    by_cases c3 : 97 ≤ d ∧ d ≤ 102
    · rw [if_pos c3]; exact ih _ _ hl hh
    rw [if_neg c3]

/-- Fewer than four hexadecimal digits, followed by a byte that is none: `lept_parse_hex4`
fails. -/
theorem hex4_short {h rest : List Nat} (hl : h.length < 4) (hd : ∀ d ∈ h, is_hex d = true)
    (hr : is_hex (peek rest) = false) : lept_parse_hex4 (h ++ rest) = none :=
  hex4_loop_short rest hr h 4 0 hl hd

theorem hex4_loop_step_inv {i : Nat} {p q : List Nat} {u w : Nat}
    (H : lept_parse_hex4_loop (i + 1) p u = some (q, w)) :
    ∃ (up : Bool) (d : Nat) (r : List Nat), d < 16 ∧ p = hex_digit up d :: r ∧
      lept_parse_hex4_loop i r (u * 16 + d) = some (q, w) := by
  cases p with
  | nil => simp [lept_parse_hex4_loop] at H
  | cons a r =>
    rw [lept_parse_hex4_loop] at H
    simp only [peek_cons, List.tail_cons] at H
    have e : ∀ d, d < 16 → (u <<< 4) ||| d = u * 16 + d := fun d hd => by
      rw [Nat.shiftLeft_eq, Nat.mul_comm, or_small u 4 d (by simpa using hd)]
    by_cases c1 : 48 ≤ a ∧ a ≤ 57
    · rw [if_pos c1, e _ (by omega)] at H
      exact ⟨true, a - 48, r, by omega, by unfold hex_digit; rw [if_pos (by omega)]; congr 1; omega,
        H⟩
    rw [if_neg c1] at H
    by_cases c2 : 65 ≤ a ∧ a ≤ 70
    · rw [if_pos c2, e _ (by omega)] at H
      refine ⟨true, a - (65 - 10), r, by omega, ?_, H⟩
      unfold hex_digit
      rw [if_neg (by omega)]
      simp only [if_true]
      congr 1
      omega
    rw [if_neg c2] at H
    by_cases c3 : 97 ≤ a ∧ a ≤ 102
    · rw [if_pos c3, e _ (by omega)] at H
      refine ⟨false, a - (97 - 10), r, by omega, ?_, H⟩
      unfold hex_digit
      rw [if_neg (by omega)]
      simp only [Bool.false_eq_true, if_false]
      congr 1
      omega
    rw [if_neg c3] at H
    cases H

/-- What `lept_parse_hex4` accepts is four hexadecimal digits, and it returns their value. -/
theorem hex4_inv {p q : List Nat} {u : Nat} (H : lept_parse_hex4 p = some (q, u)) :
    ∃ h : Hex4, h.ok ∧ p = h.text ++ q ∧ h.value = u := by
  unfold lept_parse_hex4 at H
  obtain ⟨u1, d1, r1, k1, e1, H⟩ := hex4_loop_step_inv H
  obtain ⟨u2, d2, r2, k2, e2, H⟩ := hex4_loop_step_inv H
  obtain ⟨u3, d3, r3, k3, e3, H⟩ := hex4_loop_step_inv H
  obtain ⟨u4, d4, r4, k4, e4, H⟩ := hex4_loop_step_inv H
  simp only [lept_parse_hex4_loop, Option.some.injEq, Prod.mk.injEq] at H
  refine ⟨⟨d1, d2, d3, d4, u1, u2, u3, u4⟩, ⟨k1, k2, k3, k4⟩, ?_, ?_⟩
  · rw [e1, e2, e3, e4, H.1]; rfl
  · rw [← H.2]; simp [Hex4.value]

/-- Claim C8. In a string text whose body is passed over up to some position, the first
offending byte fixes the error: the end of the text where the closing quote or a further item
is expected gives `LEPT_PARSE_MISS_QUOTATION_MARK`; a raw byte in `0x01..0x1F` gives
`LEPT_PARSE_INVALID_STRING_CHAR`; a backslash followed by anything other than
`" \ / b f n r t u` gives `LEPT_PARSE_INVALID_STRING_ESCAPE`; `\u` followed by fewer than four
hexadecimal digits gives `LEPT_PARSE_INVALID_UNICODE_HEX`, also when it is the `\u` that follows
a high surrogate. -/
theorem string_error_classification (L : CDouble) {b out : List Nat} (hb : StringBody b out) :
    lept_parse L (34 :: b) = some (LEPT_PARSE_MISS_QUOTATION_MARK, .null) ∧
    (∀ ch rest, 1 ≤ ch → ch ≤ 0x1F →
      lept_parse L (34 :: (b ++ ch :: rest)) = some (LEPT_PARSE_INVALID_STRING_CHAR, .null)) ∧
    (∀ rest, peek rest ∉ [34, 92, 47, 98, 102, 110, 114, 116, 117] →
      lept_parse L (34 :: (b ++ 92 :: rest)) = some (LEPT_PARSE_INVALID_STRING_ESCAPE, .null)) ∧
    (∀ h rest, h.length < 4 → (∀ d ∈ h, is_hex d = true) → is_hex (peek rest) = false →
      lept_parse L (34 :: (b ++ 92 :: 117 :: (h ++ rest))) =
        some (LEPT_PARSE_INVALID_UNICODE_HEX, .null)) ∧
    (∀ (hi : Hex4) h rest, hi.ok → 0xD800 ≤ hi.value → hi.value ≤ 0xDBFF →
      h.length < 4 → (∀ d ∈ h, is_hex d = true) → is_hex (peek rest) = false →
      lept_parse L (34 :: (b ++ 92 :: 117 :: (hi.text ++ 92 :: 117 :: (h ++ rest)))) =
        some (LEPT_PARSE_INVALID_UNICODE_HEX, .null)) := by
  refine ⟨?_, ?_, ?_, ?_, ?_⟩
  · have := @lept_parse_string_fail L _ _ [] hb LEPT_PARSE_MISS_QUOTATION_MARK rfl
    simpa using this
  · intro ch rest h1 h2
    refine lept_parse_string_fail L hb ?_
    have a1 : ch ≠ 34 := by omega
    have a2 : ch ≠ 92 := by omega
    have a3 : ch ≠ 0 := by omega
    have a4 : ch < 32 := by omega
    simp [string_step, a1, a2, a3, a4]
  · intro rest hr
    refine lept_parse_string_fail L hb ?_
    simp only [List.mem_cons, List.mem_singleton, not_or, List.not_mem_nil, or_false] at hr
    obtain ⟨e0, e1, e2, e3, e4, e5, e6, e7, e8⟩ := hr
    simp [string_step, e0, e1, e2, e3, e4, e5, e6, e7, e8]
  · intro h rest hl hd hr
    refine lept_parse_string_fail L hb ?_
    simp [string_step, hex4_short hl hd hr]
  · intro hi h rest hok a1 a2 hl hd hr
    refine lept_parse_string_fail L hb ?_
    have e1 := hex4_text hi hok (92 :: 117 :: (h ++ rest))
    simp [string_step, e1, a1, a2, hex4_short hl hd hr]

/-- The body `a\n` and the four kinds of error after it, by C8. -/
theorem string_error_classification_witness :
    lept_parse example_libc (ascii "\"a\\n") =
      some (LEPT_PARSE_MISS_QUOTATION_MARK, .null) ∧
    lept_parse example_libc (ascii "\"a\\n\x01\"") =
      some (LEPT_PARSE_INVALID_STRING_CHAR, .null) ∧
    lept_parse example_libc (ascii "\"a\\n\\v\"") =
      some (LEPT_PARSE_INVALID_STRING_ESCAPE, .null) ∧
    lept_parse example_libc (ascii "\"a\\n\\u01\"") =
      some (LEPT_PARSE_INVALID_UNICODE_HEX, .null) ∧
    lept_parse example_libc (ascii "\"a\\n\\uD800\\uZ\"") =
      some (LEPT_PARSE_INVALID_UNICODE_HEX, .null) :=
  have hb : StringBody ([97] ++ ([92, 110] ++ [])) ([97] ++ ([10] ++ [])) :=
    StringBody.item (fun _ => rfl) (StringBody.item (fun _ => rfl) StringBody.nil)
  ⟨(string_error_classification example_libc hb).1,
    (string_error_classification example_libc hb).2.1 1 [34] (by decide) (by decide),
    (string_error_classification example_libc hb).2.2.1 (ascii "v\"") (by decide),
    (string_error_classification example_libc hb).2.2.2.1 (ascii "01") (ascii "\"")
      (by decide) (by decide) (by decide),
    (string_error_classification example_libc hb).2.2.2.2
      ⟨13, 8, 0, 0, true, true, true, true⟩ [] (ascii "Z\"") (by decide) (by decide)
      (by decide) (by decide) (by decide) (by decide)⟩

/-- Claim C9. In a string text whose body is passed over up to an escape `\uHHHH` with `H` a
high surrogate: when the next two bytes are not `\u`, or when they are and the four hexadecimal
digits after them write a unit outside `[0xDC00, 0xDFFF]`, `lept_parse` returns
`LEPT_PARSE_INVALID_UNICODE_SURROGATE`; and it returns `LEPT_PARSE_OK` only if the escape is
followed at once by `\u` and four hexadecimal digits that write a unit in `[0xDC00, 0xDFFF]`. -/
theorem surrogate_errors (L : CDouble) {b out : List Nat} (hb : StringBody b out) (hi : Hex4)
    (hok : hi.ok) (h1 : 0xD800 ≤ hi.value) (h2 : hi.value ≤ 0xDBFF) (rest : List Nat) :
    (peek rest ≠ 92 ∨ peek rest.tail ≠ 117 →
      lept_parse L (34 :: (b ++ 92 :: 117 :: (hi.text ++ rest))) =
        some (LEPT_PARSE_INVALID_UNICODE_SURROGATE, .null)) ∧
    (∀ (lo : Hex4) (rest2 : List Nat), lo.ok → rest = 92 :: 117 :: (lo.text ++ rest2) →
      lo.value < 0xDC00 ∨ 0xDFFF < lo.value →
      lept_parse L (34 :: (b ++ 92 :: 117 :: (hi.text ++ rest))) =
        some (LEPT_PARSE_INVALID_UNICODE_SURROGATE, .null)) ∧
    (∀ v, lept_parse L (34 :: (b ++ 92 :: 117 :: (hi.text ++ rest))) = some (LEPT_PARSE_OK, v) →
      ∃ (lo : Hex4) (rest2 : List Nat), lo.ok ∧ rest = 92 :: 117 :: (lo.text ++ rest2) ∧
        0xDC00 ≤ lo.value ∧ lo.value ≤ 0xDFFF) := by
  have e1 := hex4_text hi hok rest
  have A : peek rest ≠ 92 ∨ peek rest.tail ≠ 117 →
      lept_parse L (34 :: (b ++ 92 :: 117 :: (hi.text ++ rest))) =
        some (LEPT_PARSE_INVALID_UNICODE_SURROGATE, .null) := by
    intro hr
    refine lept_parse_string_fail L hb ?_
    rcases hr with hr | hr
    · simp [string_step, e1, h1, h2, hr]
    · by_cases h92 : peek rest = 92
      · simp [string_step, e1, h1, h2, hr, h92]
      · simp [string_step, e1, h1, h2, h92]
  have B : ∀ (lo : Hex4) (rest2 : List Nat), lo.ok → rest = 92 :: 117 :: (lo.text ++ rest2) →
      lo.value < 0xDC00 ∨ 0xDFFF < lo.value →
      lept_parse L (34 :: (b ++ 92 :: 117 :: (hi.text ++ rest))) =
        some (LEPT_PARSE_INVALID_UNICODE_SURROGATE, .null) := by
    intro lo rest2 lok hr hv
    refine lept_parse_string_fail L hb ?_
    subst hr
    have e2 := hex4_text lo lok rest2
    simp [string_step, e1, h1, h2, e2, hv]
  refine ⟨A, B, ?_⟩
  intro v hv
  by_cases c1 : peek rest ≠ 92 ∨ peek rest.tail ≠ 117
  · rw [A c1] at hv; cases hv
  have c2 : peek rest = 92 := by
    by_contra h; exact c1 (Or.inl h)
  have c3 : peek rest.tail = 117 := by
    by_contra h; exact c1 (Or.inr h)
  have r1 : rest = 92 :: rest.tail := peek_eq_cons c2 (by decide)
  have r2 : rest.tail = 117 :: rest.tail.tail := peek_eq_cons c3 (by decide)
  have r3 : rest = 92 :: 117 :: rest.tail.tail := by rw [← r2]; exact r1
  cases hx : lept_parse_hex4 rest.tail.tail with
  | none =>
    have hf : string_step (92 :: 117 :: (hi.text ++ rest)) =
        .fail LEPT_PARSE_INVALID_UNICODE_HEX := by
      simp [string_step, e1, h1, h2, c2, c3, hx]
    rw [lept_parse_string_fail L hb hf] at hv
    cases hv
  | some r =>
    obtain ⟨q, u2⟩ := r
    obtain ⟨lo, lok, hp, hval⟩ := hex4_inv hx
    have r4 : rest = 92 :: 117 :: (lo.text ++ q) := by rw [← hp]; exact r3
    by_cases hrange : lo.value < 0xDC00 ∨ 0xDFFF < lo.value
    · rw [B lo q lok r4 hrange] at hv; cases hv
    · exact ⟨lo, q, lok, r4, by omega, by omega⟩

/-- The high surrogate `\uD834` alone, followed by a plain byte, by a second high surrogate, and
by its low surrogate, by C9. -/
theorem surrogate_errors_witness :
    lept_parse example_libc (ascii "\"\\uD834\"") =
      some (LEPT_PARSE_INVALID_UNICODE_SURROGATE, .null) ∧
    lept_parse example_libc (ascii "\"\\uD834\\uD834\"") =
      some (LEPT_PARSE_INVALID_UNICODE_SURROGATE, .null) ∧
    (∀ v, lept_parse example_libc (ascii "\"\\uD834\\uDD1E\"") = some (LEPT_PARSE_OK, v) →
      ∃ (lo : Hex4) (rest2 : List Nat), lo.ok ∧
        ascii "\\uDD1E\"" = 92 :: 117 :: (lo.text ++ rest2) ∧
        0xDC00 ≤ lo.value ∧ lo.value ≤ 0xDFFF) :=
  ⟨(surrogate_errors example_libc StringBody.nil ⟨13, 8, 3, 4, true, true, true, true⟩
      (by decide) (by decide) (by decide) (ascii "\"")).1 (by decide),
    (surrogate_errors example_libc StringBody.nil ⟨13, 8, 3, 4, true, true, true, true⟩
      (by decide) (by decide) (by decide) (ascii "\\uD834\"")).2.1
      ⟨13, 8, 3, 4, true, true, true, true⟩ (ascii "\"") (by decide) rfl (by decide),
    (surrogate_errors example_libc StringBody.nil ⟨13, 8, 3, 4, true, true, true, true⟩
      (by decide) (by decide) (by decide) (ascii "\\uDD1E\"")).2.2⟩

/-! ## Appending text after a value -/

theorem ne_nil_of_peek {p : List Nat} {c : Nat} (h : peek p = c) (hc : c ≠ 0) : p ≠ [] := by
  intro h0; rw [h0] at h; exact hc h.symm

theorem peek_append_ne {p : List Nat} (x : List Nat) (hp : p ≠ []) : peek (p ++ x) = peek p := by
  cases p with
  | nil => exact absurd rfl hp
  | cons a q => rfl

theorem tail_append_ne {p : List Nat} (x : List Nat) (hp : p ≠ []) :
    (p ++ x).tail = p.tail ++ x := by
  cases p with
  | nil => exact absurd rfl hp
  | cons a q => rfl

theorem dropWhile_append_ne (f : Nat → Bool) {p : List Nat} (x : List Nat)
    (h : p.dropWhile f ≠ []) : (p ++ x).dropWhile f = p.dropWhile f ++ x := by
  induction p with
  | nil => exact absurd rfl h
  | cons a q ih =>
    by_cases ha : f a = true
    · simp only [List.cons_append, List.dropWhile_cons, ha, if_true] at h ⊢
      exact ih h
    · simp only [List.cons_append, List.dropWhile_cons, ha] at h ⊢
      rfl

theorem dropWhile_append_stop (f : Nat → Bool) (p x : List Nat) (hx : f (peek x) = false) :
    (p ++ x).dropWhile f = p.dropWhile f ++ x := by
  induction p with
  | nil =>
    cases x with
    | nil => rfl
    | cons b y =>
      simp only [peek_cons] at hx
      simp [List.dropWhile_cons, hx]
  | cons a q ih =>
    by_cases ha : f a = true
    · simp only [List.cons_append, List.dropWhile_cons, ha, if_true]
      exact ih
    · simp only [List.cons_append, List.dropWhile_cons, ha]
      rfl

theorem peek_append_numchar {x : List Nat} (hx : is_numchar (peek x) = false) (p : List Nat)
    (c : Nat) (hc : is_numchar c = true) : peek (p ++ x) = c ↔ peek p = c := by
  cases p with
  | nil =>
    simp only [List.nil_append, peek_nil]
    constructor
    · intro h; rw [h, hc] at hx; cases hx
    · intro h; rw [← h] at hc; cases hc
  | cons a q => rfl

theorem isdigit_numchar {c : Nat} (h : ISDIGIT c = true) : is_numchar c = true := by
  simp [is_numchar, h]

theorem isdigit_peek_append {x : List Nat} (hx : is_numchar (peek x) = false) (p : List Nat) :
    ISDIGIT (peek (p ++ x)) = ISDIGIT (peek p) := by
  cases p with
  | nil =>
    simp only [List.nil_append, peek_nil]
    cases h : ISDIGIT (peek x) with
    | false => rfl
    | true => rw [isdigit_numchar h] at hx; cases hx
  | cons a q => rfl

theorem isdigit_of_numchar_false {c : Nat} (h : is_numchar c = false) : ISDIGIT c = false := by
  cases h1 : ISDIGIT c with
  | false => rfl
  | true => rw [isdigit_numchar h1] at h; cases h

theorem digits_append {x : List Nat} (hx : is_numchar (peek x) = false) (p : List Nat) :
    (p ++ x).dropWhile ISDIGIT = p.dropWhile ISDIGIT ++ x :=
  dropWhile_append_stop ISDIGIT p x (isdigit_of_numchar_false hx)

theorem scan_sign_append {x : List Nat} (hx : is_numchar (peek x) = false) (p : List Nat) :
    scan_sign (p ++ x) = scan_sign p ++ x := by
  unfold scan_sign
  by_cases h : peek p = 45
  · rw [if_pos h, if_pos ((peek_append_numchar hx p 45 rfl).mpr h),
      tail_append_ne x (ne_nil_of_peek h (by decide))]
  · rw [if_neg h, if_neg (fun h2 => h ((peek_append_numchar hx p 45 rfl).mp h2))]

theorem scan_int_append {x : List Nat} (hx : is_numchar (peek x) = false) {p q : List Nat}
    (H : scan_int p = some q) : scan_int (p ++ x) = some (q ++ x) := by
  unfold scan_int at H ⊢
  by_cases h1 : peek p = 48
  · rw [if_pos h1] at H
    rw [if_pos ((peek_append_numchar hx p 48 rfl).mpr h1),
      tail_append_ne x (ne_nil_of_peek h1 (by decide))]
    injection H with H
    rw [H]
  · rw [if_neg h1] at H
    rw [if_neg (fun h2 => h1 ((peek_append_numchar hx p 48 rfl).mp h2))]
    by_cases h2 : (!ISDIGIT1TO9 (peek p)) = true
    · rw [if_pos h2] at H; cases H
    · rw [if_neg h2] at H
      have h3 : ISDIGIT1TO9 (peek p) = true := by simpa using h2
      have hp : p ≠ [] := by
        intro h0; rw [h0] at h3; cases h3
      rw [peek_append_ne x hp, if_neg h2, tail_append_ne x hp, digits_append hx]
      injection H with H
      rw [H]

theorem scan_frac_append {x : List Nat} (hx : is_numchar (peek x) = false) {p q : List Nat}
    (H : scan_frac p = some q) : scan_frac (p ++ x) = some (q ++ x) := by
  unfold scan_frac at H ⊢
  by_cases h1 : peek p = 46
  · rw [if_pos h1] at H
    have hp := ne_nil_of_peek h1 (by decide)
    rw [if_pos ((peek_append_numchar hx p 46 rfl).mpr h1), tail_append_ne x hp]
    by_cases h2 : (!ISDIGIT (peek p.tail)) = true
    · rw [if_pos h2] at H; cases H
    · rw [if_neg h2] at H
      have h3 : ISDIGIT (peek p.tail) = true := by simpa using h2
      have hp2 : p.tail ≠ [] := by
        intro h0; rw [h0] at h3; cases h3
      rw [peek_append_ne x hp2, if_neg h2, tail_append_ne x hp2, digits_append hx]
      injection H with H
      rw [H]
  · rw [if_neg h1] at H
    rw [if_neg (fun h2 => h1 ((peek_append_numchar hx p 46 rfl).mp h2))]
    injection H with H
    rw [H]

theorem scan_exp_append {x : List Nat} (hx : is_numchar (peek x) = false) {p q : List Nat}
    (H : scan_exp p = some q) : scan_exp (p ++ x) = some (q ++ x) := by
  unfold scan_exp at H ⊢
  by_cases h1 : peek p = 101 ∨ peek p = 69
  · rw [if_pos h1] at H
    have hp : p ≠ [] := by
      rcases h1 with h | h
      · exact ne_nil_of_peek h (by decide)
      · exact ne_nil_of_peek h (by decide)
    rw [peek_append_ne x hp, if_pos h1, tail_append_ne x hp]
    have es : (peek (p.tail ++ x) = 43 ∨ peek (p.tail ++ x) = 45) ↔
        (peek p.tail = 43 ∨ peek p.tail = 45) := by
      rw [peek_append_numchar hx p.tail 43 rfl, peek_append_numchar hx p.tail 45 rfl]
    by_cases hs : peek p.tail = 43 ∨ peek p.tail = 45
    · rw [if_pos hs] at H
      have hp1 : p.tail ≠ [] := by
        rcases hs with h | h
        · exact ne_nil_of_peek h (by decide)
        · exact ne_nil_of_peek h (by decide)
      rw [if_pos (es.mpr hs), tail_append_ne x hp1]
      by_cases h2 : (!ISDIGIT (peek p.tail.tail)) = true
      · rw [if_pos h2] at H; cases H
      · rw [if_neg h2] at H
        have h3 : ISDIGIT (peek p.tail.tail) = true := by simpa using h2
        have hp2 : p.tail.tail ≠ [] := by
          intro h0; rw [h0] at h3; cases h3
        rw [peek_append_ne x hp2, if_neg h2, tail_append_ne x hp2, digits_append hx]
        injection H with H
        rw [H]
    · rw [if_neg hs] at H
      rw [if_neg (fun h => hs (es.mp h))]
      by_cases h2 : (!ISDIGIT (peek p.tail)) = true
      · rw [if_pos h2] at H; cases H
      · rw [if_neg h2] at H
        have h3 : ISDIGIT (peek p.tail) = true := by simpa using h2
        have hp2 : p.tail ≠ [] := by
          intro h0; rw [h0] at h3; cases h3
        rw [peek_append_ne x hp2, if_neg h2, tail_append_ne x hp2, digits_append hx]
        injection H with H
        rw [H]
  · rw [if_neg h1] at H
    have e : ¬ (peek (p ++ x) = 101 ∨ peek (p ++ x) = 69) := by
      rw [peek_append_numchar hx p 101 rfl, peek_append_numchar hx p 69 rfl]
      exact h1
    rw [if_neg e]
    injection H with H
    rw [H]

theorem number_scan_append {x : List Nat} (hx : is_numchar (peek x) = false) {p q : List Nat}
    (H : lept_parse_number_scan p = some q) : lept_parse_number_scan (p ++ x) = some (q ++ x) := by
  rw [number_scan_eq] at H ⊢
  rw [scan_sign_append hx]
  cases h1 : scan_int (scan_sign p) with
  | none => rw [h1] at H; cases H
  | some t1 =>
    rw [h1] at H
    rw [scan_int_append hx h1]
    simp only [Option.some_bind] at H ⊢
    cases h2 : scan_frac t1 with
    | none => rw [h2] at H; cases H
    | some t2 =>
      rw [h2] at H
      rw [scan_frac_append hx h2]
      simp only [Option.some_bind] at H ⊢
      exact scan_exp_append hx H

theorem delim_not_numchar {c : Nat} (h : is_delim c = true) : is_numchar c = false := by
  simp only [is_delim, is_ws, Bool.or_eq_true, decide_eq_true_eq] at h
  simp only [is_numchar, ISDIGIT, Bool.or_eq_false_iff, Bool.and_eq_false_iff,
    decide_eq_false_iff_not]
  omega

theorem ws_delim {c : Nat} (h : is_ws c = true) : is_delim c = true := by
  simp [is_delim, h]

/-- A text whose first byte after whitespace is `c` (not a NUL) starts with a delimiter when `c`
is one. -/
theorem delim_of_dropWhile_ws {q : List Nat} (h : is_delim (peek (q.dropWhile is_ws)) = true) :
    is_delim (peek q) = true := by
  cases q with
  | nil => rfl
  | cons a r =>
    by_cases ha : is_ws a = true
    · exact ws_delim ha
    · simp only [List.dropWhile_cons, ha] at h
      exact h

theorem literal_loop_append (x : List Nat) : ∀ (ls p q : List Nat), (∀ l ∈ ls, l ≠ 0) →
    lept_parse_literal_loop p ls = some q → lept_parse_literal_loop (p ++ x) ls = some (q ++ x) := by
  intro ls
  induction ls with
  | nil =>
    intro p q _ H
    simp only [lept_parse_literal_loop, Option.some.injEq] at H ⊢
    rw [H]
  | cons l ls ih =>
    intro p q hl H
    rw [lept_parse_literal_loop] at H ⊢
    by_cases h : peek p ≠ l
    · rw [if_pos h] at H; cases H
    · rw [if_neg h] at H
      have h1 : peek p = l := by simpa using h
      have hp : p ≠ [] := ne_nil_of_peek h1 (hl l (List.mem_cons_self _ _))
      rw [peek_append_ne x hp, if_neg h, tail_append_ne x hp]
      exact ih _ _ (fun a ha => hl a (List.mem_cons_of_mem _ ha)) H

theorem literal_append (x : List Nat) (j : List Nat) (v : lept_value) (lit : List Nat)
    (ty : lept_type) (hj : j ≠ []) (hl : ∀ l ∈ lit.tail, l ≠ 0)
    (H : (lept_parse_literal ⟨j, []⟩ v lit ty).1 = LEPT_PARSE_OK) :
    lept_parse_literal ⟨j ++ x, []⟩ v lit ty =
      (LEPT_PARSE_OK, ⟨(lept_parse_literal ⟨j, []⟩ v lit ty).2.1.json ++ x, []⟩,
        (lept_parse_literal ⟨j, []⟩ v lit ty).2.2) := by
  unfold lept_parse_literal at H ⊢
  simp only [EXPECT] at H ⊢
  cases hq : lept_parse_literal_loop j.tail lit.tail with
  | none => rw [hq] at H; cases H
  | some q =>
    rw [tail_append_ne x hj, literal_loop_append x _ _ _ hl hq]

theorem string_loop_append (x : List Nat) : ∀ (fuel : Nat) (p acc q s : List Nat),
    pure_string_loop fuel p acc = some (LEPT_PARSE_OK, q, s) →
      pure_string_loop fuel (p ++ x) acc = some (LEPT_PARSE_OK, q ++ x, s) := by
  intro fuel
  induction fuel with
  | zero => intro p acc q s H; simp [pure_string_loop] at H
  | succ fuel ih =>
    intro p acc q s H
    rw [pure_string_loop] at H ⊢
    cases hs : string_step p with
    | stop q1 =>
      rw [hs] at H
      simp only [Option.some.injEq, Prod.mk.injEq, true_and] at H
      rw [string_step_stop hs, List.cons_append, string_step_quote]
      simp only [Option.some.injEq, Prod.mk.injEq, true_and]
      exact ⟨by rw [H.1], H.2⟩
    | put bs q1 =>
      rw [hs] at H
      obtain ⟨it, -, hp, hx⟩ := string_step_put hs
      rw [hp, List.append_assoc, hx]
      exact ih _ _ _ _ H
    | fail e =>
      rw [hs] at H
      simp only [Option.some.injEq, Prod.mk.injEq] at H
      exact absurd H.1 (string_step_fail hs)

theorem array_loop_append
    (pv : List Nat → lept_value → Option (lept_parse_code × List Nat × lept_value))
    (hc : Consumes pv) (ha : Appends pv) (x : List Nat) (hx : is_delim (peek x) = true) :
    ∀ (fuel : Nat) (j : List Nat) (v : lept_value) (acc : List lept_value) (q : List Nat)
      (w : lept_value),
      pure_parse_array_loop pv fuel j v acc = some (LEPT_PARSE_OK, q, w) →
        pure_parse_array_loop pv fuel (j ++ x) v acc = some (LEPT_PARSE_OK, q ++ x, w) := by
  intro fuel
  induction fuel with
  | zero => intro j v acc q w H; simp [pure_parse_array_loop] at H
  | succ fuel ih =>
    intro j v acc q w H
    rw [pure_parse_array_loop] at H ⊢
    cases hp : pv j .null with
    | none => rw [hp] at H; cases H
    | some r =>
      obtain ⟨ret1, q1, e⟩ := r
      rw [hp] at H
      simp only [] at H
      by_cases h : ret1 ≠ LEPT_PARSE_OK
      · rw [if_pos h] at H
        simp only [Option.some.injEq, Prod.mk.injEq] at H
        exact absurd H.1 h
      rw [if_neg h] at H
      have h1 : ret1 = LEPT_PARSE_OK := by simpa using h
      subst h1
      by_cases c1 : peek (List.dropWhile is_ws q1) = 44
      · rw [if_pos c1] at H
        have n1 : List.dropWhile is_ws q1 ≠ [] := ne_nil_of_peek c1 (by decide)
        have d1 : is_delim (peek q1) = true := delim_of_dropWhile_ws (by rw [c1]; rfl)
        rw [ha _ _ _ _ x hp d1 hx]
        simp only []
        rw [if_neg h, dropWhile_append_ne _ x n1, peek_append_ne x n1, if_pos c1,
          tail_append_ne x n1]
        have n2 : List.dropWhile is_ws (List.dropWhile is_ws q1).tail ≠ [] := by
          intro h0
          have := (array_loop_shape pv hc _ _ _ _ _ _ _ H).2.1 rfl
          rw [h0] at this
          simp at this
        rw [dropWhile_append_ne _ x n2]
        exact ih _ _ _ _ _ H
      · rw [if_neg c1] at H
        by_cases c2 : peek (List.dropWhile is_ws q1) = 93
        · rw [if_pos c2] at H
          have n1 : List.dropWhile is_ws q1 ≠ [] := ne_nil_of_peek c2 (by decide)
          have d1 : is_delim (peek q1) = true := delim_of_dropWhile_ws (by rw [c2]; rfl)
          rw [ha _ _ _ _ x hp d1 hx]
          simp only []
          rw [if_neg h, dropWhile_append_ne _ x n1, peek_append_ne x n1, if_neg c1, if_pos c2,
            tail_append_ne x n1]
          simp only [Option.some.injEq, Prod.mk.injEq, true_and] at H ⊢
          exact ⟨by rw [H.1], H.2⟩
        · rw [if_neg c2] at H
          simp only [Option.some.injEq, Prod.mk.injEq] at H
          exact absurd H.1 (by decide)

theorem object_loop_append
    (pv : List Nat → lept_value → Option (lept_parse_code × List Nat × lept_value))
    (hc : Consumes pv) (ha : Appends pv) (x : List Nat) (hx : is_delim (peek x) = true) :
    ∀ (fuel : Nat) (j : List Nat) (acc : List lept_member) (q : List Nat) (w : lept_value),
      pure_parse_object_loop pv fuel j acc = some (LEPT_PARSE_OK, q, w) →
        pure_parse_object_loop pv fuel (j ++ x) acc = some (LEPT_PARSE_OK, q ++ x, w) := by
  intro fuel
  induction fuel with
  | zero => intro j acc q w H; simp [pure_parse_object_loop] at H
  | succ fuel ih =>
    intro j acc q w H
    rw [pure_parse_object_loop] at H ⊢
    by_cases k1 : peek j ≠ 34
    · rw [if_pos k1] at H
      simp only [Option.some.injEq, Prod.mk.injEq] at H
      exact absurd H.1 (by decide)
    rw [if_neg k1] at H
    have k1e : peek j = 34 := by simpa using k1
    have nj : j ≠ [] := ne_nil_of_peek k1e (by decide)
    rw [peek_append_ne x nj, if_neg k1, tail_append_ne x nj]
    cases hl : pure_string_loop fuel j.tail [] with
    | none => rw [hl] at H; cases H
    | some r =>
      obtain ⟨ret1, q1, k⟩ := r
      rw [hl] at H
      simp only [] at H
      by_cases h : ret1 ≠ LEPT_PARSE_OK
      · rw [if_pos h] at H
        simp only [Option.some.injEq, Prod.mk.injEq] at H
        exact absurd H.1 h
      rw [if_neg h] at H
      have h1 : ret1 = LEPT_PARSE_OK := by simpa using h
      subst h1
      rw [string_loop_append x _ _ _ _ _ hl]
      simp only []
      rw [if_neg h]
      by_cases k2 : peek (List.dropWhile is_ws q1) ≠ 58
      · rw [if_pos k2] at H
        simp only [Option.some.injEq, Prod.mk.injEq] at H
        exact absurd H.1 (by decide)
      rw [if_neg k2] at H
      have k2e : peek (List.dropWhile is_ws q1) = 58 := by simpa using k2
      have n1 : List.dropWhile is_ws q1 ≠ [] := ne_nil_of_peek k2e (by decide)
      rw [dropWhile_append_ne _ x n1, peek_append_ne x n1, if_neg k2, tail_append_ne x n1]
      cases hp : pv (List.dropWhile is_ws (List.dropWhile is_ws q1).tail) .null with
      | none => rw [hp] at H; cases H
      | some r2 =>
        obtain ⟨ret2, q2, mv⟩ := r2
        rw [hp] at H
        simp only [] at H
        by_cases h2 : ret2 ≠ LEPT_PARSE_OK
        · rw [if_pos h2] at H
          simp only [Option.some.injEq, Prod.mk.injEq] at H
          exact absurd H.1 h2
        rw [if_neg h2] at H
        have h3 : ret2 = LEPT_PARSE_OK := by simpa using h2
        subst h3
        have n2 : List.dropWhile is_ws (List.dropWhile is_ws q1).tail ≠ [] := by
          intro h0
          have := (hc _ _ _ _ _ hp).2 rfl
          rw [h0] at this
          simp at this
        rw [dropWhile_append_ne _ x n2]
        by_cases c1 : peek (List.dropWhile is_ws q2) = 44
        · rw [if_pos c1] at H
          have n3 : List.dropWhile is_ws q2 ≠ [] := ne_nil_of_peek c1 (by decide)
          have d1 : is_delim (peek q2) = true := delim_of_dropWhile_ws (by rw [c1]; rfl)
          rw [ha _ _ _ _ x hp d1 hx]
          simp only []
          rw [if_neg h2, dropWhile_append_ne _ x n3, peek_append_ne x n3, if_pos c1,
            tail_append_ne x n3]
          have n4 : List.dropWhile is_ws (List.dropWhile is_ws q2).tail ≠ [] := by
            intro h0
            have := (object_loop_shape pv hc _ _ _ _ _ _ H).2.1 rfl
            rw [h0] at this
            simp at this
          rw [dropWhile_append_ne _ x n4]
          exact ih _ _ _ _ H
        · rw [if_neg c1] at H
          by_cases c2 : peek (List.dropWhile is_ws q2) = 125
          · rw [if_pos c2] at H
            have n3 : List.dropWhile is_ws q2 ≠ [] := ne_nil_of_peek c2 (by decide)
            have d1 : is_delim (peek q2) = true := delim_of_dropWhile_ws (by rw [c2]; rfl)
            rw [ha _ _ _ _ x hp d1 hx]
            simp only []
            rw [if_neg h2, dropWhile_append_ne _ x n3, peek_append_ne x n3, if_neg c1,
              if_pos c2, tail_append_ne x n3]
            simp only [Option.some.injEq, Prod.mk.injEq, true_and] at H ⊢
            exact ⟨by rw [H.1], H.2⟩
          · rw [if_neg c2] at H
            simp only [Option.some.injEq, Prod.mk.injEq] at H
            exact absurd H.1 (by decide)

theorem number_append (L : CDouble) (hL : StrtodLocal L) (j x : List Nat) (v : lept_value)
    (H : (lept_parse_number L ⟨j, []⟩ v).1 = LEPT_PARSE_OK)
    (hq : is_delim (peek (lept_parse_number L ⟨j, []⟩ v).2.1.json) = true)
    (hx : is_delim (peek x) = true) :
    lept_parse_number L ⟨j ++ x, []⟩ v =
      (LEPT_PARSE_OK, ⟨(lept_parse_number L ⟨j, []⟩ v).2.1.json ++ x, []⟩,
        (lept_parse_number L ⟨j, []⟩ v).2.2) := by
  unfold lept_parse_number at H hq ⊢
  simp only [] at H hq ⊢
  cases hs : lept_parse_number_scan j with
  | none => rw [hs] at H; cases H
  | some q =>
    rw [hs] at H hq
    simp only [] at H hq
    obtain ⟨⟨n, hn, hnum⟩, hlen⟩ := number_scan_rest hs
    have hne : n ≠ [] := by
      intro h0
      rw [hn, h0] at hlen
      simp at hlen
    by_cases hb : ((L.strtod j).2 && (L.eq (L.strtod j).1 L.HUGE_VAL ||
        L.eq (L.strtod j).1 (L.neg L.HUGE_VAL))) = true
    · rw [if_pos hb] at H; cases H
    · rw [if_neg hb] at hq
      simp only [] at hq
      have hqx : is_delim (peek (q ++ x)) = true := by
        cases q with
        | nil => exact hx
        | cons a r => exact hq
      have e : L.strtod (j ++ x) = L.strtod j := by
        rw [hn, List.append_assoc]
        exact hL n (q ++ x) q hne hnum hqx hq
      rw [number_scan_append (delim_not_numchar hx) hs]
      simp only []
      rw [e, if_neg hb, if_neg hb]

/-- Text that starts with a delimiter, appended after a value that is followed by a delimiter or
by nothing, does not change how the value is parsed. -/
theorem parse_value_append (L : CDouble) (hL : StrtodLocal L) :
    ∀ fuel : Nat, Appends (pure_parse_value L fuel) := by
  intro fuel
  induction fuel with
  | zero => intro j v q w x H; simp [pure_parse_value] at H
  | succ fuel ih =>
    intro j v q w x H hq hx
    have hj : j ≠ [] := by
      intro h0
      have := (parse_value_shape L _ _ _ _ _ _ H).2.1 rfl
      rw [h0] at this
      simp at this
    rw [pure_parse_value] at H ⊢
    simp only [] at H ⊢
    rw [peek_append_ne x hj]
    by_cases c1 : peek j = 116
    · rw [if_pos c1] at H
      rw [if_pos c1]
      simp only [Option.some.injEq, Prod.mk.injEq] at H
      obtain ⟨H1, H2, H3⟩ := H
      rw [literal_append x j v _ _ hj (by decide) H1, H2, H3]
    rw [if_neg c1] at H
    rw [if_neg c1]
    by_cases c2 : peek j = 102
    · rw [if_pos c2] at H
      rw [if_pos c2]
      simp only [Option.some.injEq, Prod.mk.injEq] at H
      obtain ⟨H1, H2, H3⟩ := H
      rw [literal_append x j v _ _ hj (by decide) H1, H2, H3]
    rw [if_neg c2] at H
    rw [if_neg c2]
    by_cases c3 : peek j = 110
    · rw [if_pos c3] at H
      rw [if_pos c3]
      simp only [Option.some.injEq, Prod.mk.injEq] at H
      obtain ⟨H1, H2, H3⟩ := H
      rw [literal_append x j v _ _ hj (by decide) H1, H2, H3]
    rw [if_neg c3] at H
    rw [if_neg c3]
    by_cases c4 : peek j = 34
    · rw [if_pos c4] at H
      rw [if_pos c4]
      unfold pure_parse_string at H ⊢
      rw [tail_append_ne x hj]
      cases hl : pure_string_loop fuel j.tail [] with
      | none => rw [hl] at H; cases H
      | some r =>
        obtain ⟨ret1, q1, s⟩ := r
        rw [hl] at H
        simp only [] at H
        by_cases h : ret1 = LEPT_PARSE_OK
        · subst h
          rw [if_pos rfl] at H
          rw [string_loop_append x _ _ _ _ _ hl]
          simp only [if_true, Option.some.injEq, Prod.mk.injEq, true_and] at H ⊢
          exact ⟨by rw [H.1], H.2⟩
        · rw [if_neg h] at H
          simp only [Option.some.injEq, Prod.mk.injEq] at H
          exact absurd H.1 h
    rw [if_neg c4] at H
    rw [if_neg c4]
    by_cases c5 : peek j = 91
    · rw [if_pos c5] at H
      rw [if_pos c5, tail_append_ne x hj]
      by_cases d1 : peek (List.dropWhile is_ws j.tail) = 93
      · rw [if_pos d1] at H
        have n1 : List.dropWhile is_ws j.tail ≠ [] := ne_nil_of_peek d1 (by decide)
        rw [dropWhile_append_ne _ x n1, peek_append_ne x n1, if_pos d1, tail_append_ne x n1]
        simp only [Option.some.injEq, Prod.mk.injEq, true_and] at H ⊢
        exact ⟨by rw [H.1], H.2⟩
      · rw [if_neg d1] at H
        have n1 : List.dropWhile is_ws j.tail ≠ [] := by
          intro h0
          have := (array_loop_shape _ (parse_value_consumes L fuel) _ _ _ _ _ _ _ H).2.1 rfl
          rw [h0] at this
          simp at this
        rw [dropWhile_append_ne _ x n1, peek_append_ne x n1, if_neg d1]
        exact array_loop_append _ (parse_value_consumes L fuel) ih x hx _ _ _ _ _ _ H
    rw [if_neg c5] at H
    rw [if_neg c5]
    by_cases c6 : peek j = 123
    · rw [if_pos c6] at H
      rw [if_pos c6, tail_append_ne x hj]
      by_cases d1 : peek (List.dropWhile is_ws j.tail) = 125
      · rw [if_pos d1] at H
        have n1 : List.dropWhile is_ws j.tail ≠ [] := ne_nil_of_peek d1 (by decide)
        rw [dropWhile_append_ne _ x n1, peek_append_ne x n1, if_pos d1, tail_append_ne x n1]
        simp only [Option.some.injEq, Prod.mk.injEq, true_and] at H ⊢
        exact ⟨by rw [H.1], H.2⟩
      · rw [if_neg d1] at H
        have n1 : List.dropWhile is_ws j.tail ≠ [] := by
          intro h0
          have := (object_loop_shape _ (parse_value_consumes L fuel) _ _ _ _ _ _ H).2.1 rfl
          rw [h0] at this
          simp at this
        rw [dropWhile_append_ne _ x n1, peek_append_ne x n1, if_neg d1]
        exact object_loop_append _ (parse_value_consumes L fuel) ih x hx _ _ _ _ _ H
    rw [if_neg c6] at H
    rw [if_neg c6]
    by_cases c7 : peek j = 0
    · rw [if_pos c7] at H
      simp only [Option.some.injEq, Prod.mk.injEq] at H
      exact absurd H.1 (by decide)
    rw [if_neg c7] at H
    rw [if_neg c7]
    simp only [Option.some.injEq, Prod.mk.injEq] at H
    obtain ⟨H1, H2, H3⟩ := H
    rw [number_append L hL j x v H1 (by rw [H2]; exact hq) hx, H2, H3]

/-! ## One value, then whitespace only -/

theorem pure_parse_ok_inv (L : CDouble) {t : List Nat} {v : lept_value}
    (hp : pure_parse L t = some (LEPT_PARSE_OK, v)) :
    ∃ q, pure_parse_value L (t.length + 1) (t.dropWhile is_ws) .null =
        some (LEPT_PARSE_OK, q, v) ∧ peek (q.dropWhile is_ws) = 0 := by
  unfold pure_parse at hp
  cases hv : pure_parse_value L (t.length + 1) (t.dropWhile is_ws) .null with
  | none => rw [hv] at hp; cases hp
  | some r =>
    obtain ⟨ret, q, w⟩ := r
    rw [hv] at hp
    simp only [] at hp
    by_cases h1 : ret = LEPT_PARSE_OK
    · rw [if_pos h1] at hp
      by_cases h2 : peek (List.dropWhile is_ws q) ≠ 0
      · rw [if_pos h2] at hp
        simp only [Option.some.injEq, Prod.mk.injEq] at hp
        exact absurd hp.1 (by decide)
      · rw [if_neg h2] at hp
        simp only [Option.some.injEq, Prod.mk.injEq] at hp
        refine ⟨q, ?_, by simpa using h2⟩
        rw [h1, hp.2]
    · rw [if_neg h1] at hp
      simp only [Option.some.injEq, Prod.mk.injEq] at hp
      exact absurd hp.1 h1

theorem value_start_ne_nil (L : CDouble) {fuel : Nat} {j q : List Nat} {v w : lept_value}
    (H : pure_parse_value L fuel j v = some (LEPT_PARSE_OK, q, w)) : j ≠ [] := by
  intro h0
  have := (parse_value_shape L _ _ _ _ _ _ H).2.1 rfl
  rw [h0] at this
  simp at this

theorem eq_nil_of_peek_zero {p : List Nat} (h : peek p = 0) (hp : ∀ b ∈ p, b ≠ 0) : p = [] := by
  cases p with
  | nil => rfl
  | cons a r => exact absurd h (hp a (List.mem_cons_self _ _))

/-- Claim C5. For every text `t` (a C string: no zero byte) on which `lept_parse` returns
`LEPT_PARSE_OK`, and every continuation `r` that starts with a byte that is no whitespace,
`lept_parse` on `t`, a space and `r` returns `LEPT_PARSE_ROOT_NOT_SINGULAR`, and the output value
is the one of type `LEPT_NULL`: the parsed value is discarded. The C library is one whose `strtod` reads no further than the first
delimiter. -/
theorem root_not_singular (L : CDouble) (hL : StrtodLocal L) (t r : List Nat) (v : lept_value)
    (ht : ∀ b ∈ t, b ≠ 0) (hp : lept_parse L t = some (LEPT_PARSE_OK, v))
    (hr : is_ws (peek r) = false) (hr0 : peek r ≠ 0) :
    lept_parse L (t ++ 32 :: r) = some (LEPT_PARSE_ROOT_NOT_SINGULAR, .null) := by
  rw [lept_parse_eq] at hp ⊢
  obtain ⟨q, hv, hq⟩ := pure_parse_ok_inv L hp
  have hj := value_start_ne_nil L hv
  have hqs : q <:+ t := (parse_value_shape L _ _ _ _ _ _ hv).1.trans (List.dropWhile_suffix _)
  have hq0 : List.dropWhile is_ws q = [] := by
    refine eq_nil_of_peek_zero hq ?_
    intro b hb
    exact ht b (hqs.subset ((List.dropWhile_suffix _).subset hb))
  have hd : is_delim (peek q) = true := delim_of_dropWhile_ws (by rw [hq]; rfl)
  have ha := parse_value_append L hL _ _ _ _ _ (32 :: r) hv hd rfl
  have e1 : List.dropWhile is_ws (t ++ 32 :: r) = List.dropWhile is_ws t ++ 32 :: r :=
    dropWhile_append_ne _ _ hj
  rw [@pure_parse_of_value L (t.length + 1) _ _ _ _ (by rw [e1]; exact ha)]
  have e2 : List.dropWhile is_ws (q ++ 32 :: r) = r := by
    rw [List.dropWhile_append_of_pos (List.dropWhile_eq_nil_iff.mp hq0)]
    cases r with
    | nil => rfl
    | cons a r2 =>
      simp only [peek_cons] at hr
      rw [List.dropWhile_cons, show is_ws 32 = true from rfl]
      simp only [if_true]
      rw [List.dropWhile_cons, hr]
      rfl
  rw [if_pos rfl, e2, if_pos hr0]

/-- Claim C6. For every text `t` on which `lept_parse` returns `LEPT_PARSE_OK` with the value
`v`, and all `w1`, `w2` made of space, tab, LF and CR only, `lept_parse` on `w1`, `t`, `w2`
returns `LEPT_PARSE_OK` with the same value. The C library is one whose `strtod` reads no further
than the first delimiter. -/
theorem surrounding_whitespace (L : CDouble) (hL : StrtodLocal L) (t w1 w2 : List Nat)
    (v : lept_value) (h1 : ∀ b ∈ w1, is_ws b = true) (h2 : ∀ b ∈ w2, is_ws b = true)
    (hp : lept_parse L t = some (LEPT_PARSE_OK, v)) :
    lept_parse L (w1 ++ t ++ w2) = some (LEPT_PARSE_OK, v) := by
  rw [lept_parse_eq] at hp ⊢
  obtain ⟨q, hv, hq⟩ := pure_parse_ok_inv L hp
  have hj := value_start_ne_nil L hv
  have hd : is_delim (peek q) = true := delim_of_dropWhile_ws (by rw [hq]; rfl)
  have hx : is_delim (peek w2) = true := by
    cases w2 with
    | nil => rfl
    | cons a r => exact ws_delim (h2 a (List.mem_cons_self _ _))
  have ha := parse_value_append L hL _ _ _ _ _ w2 hv hd hx
  have e1 : List.dropWhile is_ws (w1 ++ t ++ w2) = List.dropWhile is_ws t ++ w2 := by
    rw [List.append_assoc, List.dropWhile_append_of_pos h1]
    exact dropWhile_append_ne _ _ hj
  rw [@pure_parse_of_value L (t.length + 1) _ _ _ _ (by rw [e1]; exact ha)]
  have e2 : peek (List.dropWhile is_ws (q ++ w2)) = 0 := by
    by_cases hn : List.dropWhile is_ws q = []
    · rw [List.dropWhile_append_of_pos (List.dropWhile_eq_nil_iff.mp hn),
        List.dropWhile_eq_nil_iff.mpr h2]
      rfl
    · rw [dropWhile_append_ne _ _ hn, peek_append_ne _ hn]
      exact hq
  rw [if_pos rfl, if_neg (by simp [e2])]

/-- The `strtod` of the example library looks at the text up to the first delimiter only. -/
theorem example_libc_local : StrtodLocal example_libc := by
  intro n r r2 _ hnum hr hr2
  have key : ∀ y : List Nat, is_delim (peek y) = true →
      (n ++ y).takeWhile (fun b => !is_delim b) = n := by
    intro y hy
    have hn : ∀ a ∈ n, (fun b => !is_delim b) a = true := by
      intro a ha
      have h1 := hnum a ha
      cases hd : is_delim a with
      | false => simp [hd]
      | true => rw [delim_not_numchar hd] at h1; cases h1
    rw [List.takeWhile_append_of_pos hn]
    cases y with
    | nil => simp
    | cons a y2 =>
      simp only [peek_cons] at hy
      simp [List.takeWhile_cons, hy]
  show (example_libc.strtod (n ++ r)) = (example_libc.strtod (n ++ r2))
  unfold example_libc
  simp only [key r hr, key r2 hr2]

/-- The text `[1,2]` followed by a space and `3`, by C5. -/
theorem root_not_singular_witness :
    (∀ b ∈ ascii "[1,2]", b ≠ 0) ∧
    lept_parse example_libc (ascii "[1,2]") =
      some (LEPT_PARSE_OK, .array [.number ⟨0x3FF0000000000000⟩,
        .number ⟨0x4000000000000000⟩] 2) ∧
    lept_parse example_libc (ascii "[1,2] 3") = some (LEPT_PARSE_ROOT_NOT_SINGULAR, .null) :=
  ⟨by decide, rfl,
    root_not_singular example_libc example_libc_local (ascii "[1,2]") (ascii "3") _
      (by decide) rfl (by decide) (by decide)⟩

/-- The text `true` of the specification between whitespace, by C6. -/
theorem surrounding_whitespace_witness :
    lept_parse example_libc (ascii "true") = some (LEPT_PARSE_OK, .jtrue) ∧
    lept_parse example_libc (ascii "  true ") = some (LEPT_PARSE_OK, .jtrue) :=
  ⟨rfl, surrounding_whitespace example_libc example_libc_local (ascii "true") (ascii "  ")
    (ascii " ") _ (by decide) (by decide) rfl⟩

/-! ## Errors inside nested arrays and objects -/

theorem array_loop_ext
    (pv pv2 : List Nat → lept_value → Option (lept_parse_code × List Nat × lept_value))
    (hpv : ∀ j v r, pv j v = some r → pv2 j v = some r) :
    ∀ (fuel : Nat) (j : List Nat) (v : lept_value) (acc : List lept_value)
      (r : lept_parse_code × List Nat × lept_value),
      pure_parse_array_loop pv fuel j v acc = some r →
        pure_parse_array_loop pv2 fuel j v acc = some r := by
  intro fuel
  induction fuel with
  | zero => intro j v acc r H; simp [pure_parse_array_loop] at H
  | succ fuel ih =>
    intro j v acc r H
    rw [pure_parse_array_loop] at H ⊢
    cases hp : pv j .null with
    | none => rw [hp] at H; cases H
    | some r1 =>
      obtain ⟨ret1, q1, e⟩ := r1
      rw [hp] at H
      rw [hpv _ _ _ hp]
      simp only [] at H ⊢
      by_cases h : ret1 ≠ LEPT_PARSE_OK
      · rw [if_pos h] at H; rw [if_pos h]; exact H
      · rw [if_neg h] at H; rw [if_neg h]
        by_cases c1 : peek (List.dropWhile is_ws q1) = 44
        · rw [if_pos c1] at H; rw [if_pos c1]; exact ih _ _ _ _ H
        · rw [if_neg c1] at H; rw [if_neg c1]; exact H

theorem object_loop_ext
    (pv pv2 : List Nat → lept_value → Option (lept_parse_code × List Nat × lept_value))
    (hpv : ∀ j v r, pv j v = some r → pv2 j v = some r) :
    ∀ (fuel : Nat) (j : List Nat) (acc : List lept_member)
      (r : lept_parse_code × List Nat × lept_value),
      pure_parse_object_loop pv fuel j acc = some r →
        pure_parse_object_loop pv2 fuel j acc = some r := by
  intro fuel
  induction fuel with
  | zero => intro j acc r H; simp [pure_parse_object_loop] at H
  | succ fuel ih =>
    intro j acc r H
    rw [pure_parse_object_loop] at H ⊢
    by_cases k1 : peek j ≠ 34
    · rw [if_pos k1] at H; rw [if_pos k1]; exact H
    rw [if_neg k1] at H; rw [if_neg k1]
    cases hl : pure_string_loop fuel j.tail [] with
    | none => rw [hl] at H; cases H
    | some r1 =>
      obtain ⟨ret1, q1, k⟩ := r1
      rw [hl] at H
      simp only [] at H ⊢
      by_cases h : ret1 ≠ LEPT_PARSE_OK
      · rw [if_pos h] at H; rw [if_pos h]; exact H
      rw [if_neg h] at H; rw [if_neg h]
      by_cases k2 : peek (List.dropWhile is_ws q1) ≠ 58
      · rw [if_pos k2] at H; rw [if_pos k2]; exact H
      rw [if_neg k2] at H; rw [if_neg k2]
      cases hp : pv (List.dropWhile is_ws (List.dropWhile is_ws q1).tail) .null with
      | none => rw [hp] at H; cases H
      | some r2 =>
        obtain ⟨ret2, q2, mv⟩ := r2
        rw [hp] at H
        rw [hpv _ _ _ hp]
        simp only [] at H ⊢
        by_cases h2 : ret2 ≠ LEPT_PARSE_OK
        · rw [if_pos h2] at H; rw [if_pos h2]; exact H
        rw [if_neg h2] at H; rw [if_neg h2]
        by_cases c1 : peek (List.dropWhile is_ws q2) = 44
        · rw [if_pos c1] at H; rw [if_pos c1]; exact ih _ _ _ H
        · rw [if_neg c1] at H; rw [if_neg c1]; exact H

/-- A result of the array loop stays with more fuel for the loop and for the values. -/
theorem array_loop_more (L : CDouble) {f k f2 k2 : Nat} (hf : f ≤ f2) (hk : k ≤ k2)
    {j : List Nat} {v : lept_value} {acc : List lept_value}
    {r : lept_parse_code × List Nat × lept_value}
    (H : pure_parse_array_loop (pure_parse_value L f) k j v acc = some r) :
    pure_parse_array_loop (pure_parse_value L f2) k2 j v acc = some r := by
  have H1 := array_loop_ext _ (pure_parse_value L f2)
    (fun _ _ _ h => parse_value_mono_le L hf h) _ _ _ _ _ H
  clear H
  induction hk with
  | refl => exact H1
  | step _ ih => exact array_loop_mono _ _ (fun _ _ _ h => h) _ _ _ _ _ ih

/-- A result of the object loop stays with more fuel for the loop and for the values. -/
theorem object_loop_more (L : CDouble) {f k f2 k2 : Nat} (hf : f ≤ f2) (hk : k ≤ k2)
    {j : List Nat} {acc : List lept_member} {r : lept_parse_code × List Nat × lept_value}
    (H : pure_parse_object_loop (pure_parse_value L f) k j acc = some r) :
    pure_parse_object_loop (pure_parse_value L f2) k2 j acc = some r := by
  have H1 := object_loop_ext _ (pure_parse_value L f2)
    (fun _ _ _ h => parse_value_mono_le L hf h) _ _ _ _ H
  clear H
  induction hk with
  | refl => exact H1
  | step _ ih => exact object_loop_mono _ _ (fun _ _ _ h => h) _ _ _ _ ih

theorem parses_value_pure {L : CDouble} {j q : List Nat} (h : ParsesValue L j q) :
    ∃ f v, pure_parse_value L f j .null = some (LEPT_PARSE_OK, q, v) := by
  obtain ⟨f, v, hv⟩ := h
  rw [parse_value_eq] at hv
  cases hp : pure_parse_value L f j .null with
  | none => rw [hp] at hv; cases hv
  | some r =>
    obtain ⟨ret, q1, w⟩ := r
    rw [hp] at hv
    simp only [value_result, Option.some.injEq, Prod.mk.injEq, lept_context.mk.injEq] at hv
    obtain ⟨rfl, ⟨rfl, -⟩, rfl⟩ := hv
    exact ⟨f, _, hp⟩

theorem parses_key_pure {j q : List Nat} (h : ParsesKey j q) :
    ∃ f k, pure_string_loop f j.tail [] = some (LEPT_PARSE_OK, q, k) := by
  obtain ⟨f, k, len, hv⟩ := h
  rw [parse_string_raw_eq] at hv
  cases hp : pure_string_loop f j.tail [] with
  | none => rw [hp] at hv; cases hv
  | some r =>
    obtain ⟨ret, q1, s⟩ := r
    rw [hp] at hv
    simp only [string_result] at hv
    by_cases h1 : ret = LEPT_PARSE_OK
    · rw [if_pos h1] at hv
      simp only [Option.some.injEq, Prod.mk.injEq, lept_context.mk.injEq] at hv
      obtain ⟨-, ⟨rfl, -⟩, -, -⟩ := hv
      exact ⟨f, s, by rw [hp, h1]⟩
    · rw [if_neg h1] at hv
      simp only [Option.some.injEq, Prod.mk.injEq] at hv
      exact absurd hv.1 h1

/-- An element that fails makes the rounds of the array loop fail with its code. -/
theorem array_loop_fails_of_value {L : CDouble} {p : List Nat} {e : lept_parse_code}
    (he : e ≠ LEPT_PARSE_OK) (h : ValueFails L p e) : ArrayLoopFails L p e := by
  obtain ⟨f, q, w, hv⟩ := h
  intro acc
  refine ⟨f, 1, q, .null, ?_⟩
  rw [pure_parse_array_loop, hv]
  simp only []
  rw [if_pos he]

/-- An element parsed with success and followed, after whitespace, by neither `,` nor `]` makes
the rounds of the array loop fail with `LEPT_PARSE_MISS_COMMA_OR_SQUARE_BRACKET`. -/
theorem array_loop_fails_of_separator {L : CDouble} {p q : List Nat} (h : ParsesValue L p q)
    (h1 : peek (q.dropWhile is_ws) ≠ 44) (h2 : peek (q.dropWhile is_ws) ≠ 93) :
    ArrayLoopFails L p LEPT_PARSE_MISS_COMMA_OR_SQUARE_BRACKET := by
  obtain ⟨f, v, hv⟩ := parses_value_pure h
  intro acc
  refine ⟨f, 1, q.dropWhile is_ws, .null, ?_⟩
  rw [pure_parse_array_loop, hv]
  simp only []
  rw [if_neg (by simp), if_neg h1, if_neg h2]

/-- When the rounds of the array loop fail from a round on, the array fails. -/
theorem value_fails_of_array_round {L : CDouble} {j p : List Nat} {e : lept_parse_code}
    (hr : ArrayRound L j p) (h : ArrayLoopFails L p e) :
    ValueFails L j e := by
  induction hr with
  | first h91 hne =>
    obtain ⟨f, k, q, w, hl⟩ := h []
    refine ⟨max f k + 1, q, w, ?_⟩
    rw [pure_parse_value]
    simp only []
    rw [if_neg (by rw [h91]; decide), if_neg (by rw [h91]; decide),
      if_neg (by rw [h91]; decide), if_neg (by rw [h91]; decide), if_pos h91, if_neg hne]
    exact array_loop_more L (le_max_left f k) (le_max_right f k) hl
  | next _ hpv hc ih =>
    apply ih
    obtain ⟨f0, v0, hv0⟩ := parses_value_pure hpv
    intro acc
    obtain ⟨f, k, q, w, hl⟩ := h (acc ++ [v0])
    refine ⟨max f0 f, k + 1, q, w, ?_⟩
    rw [pure_parse_array_loop, parse_value_mono_le L (le_max_left f0 f) hv0]
    simp only []
    rw [if_neg (by simp), if_pos hc]
    exact array_loop_more L (le_max_right f0 f) (le_refl k) hl

/-- A member value that fails makes the rounds of the object loop fail with its code. -/
theorem object_loop_fails_of_value {L : CDouble} {p pv : List Nat} {e : lept_parse_code}
    (he : e ≠ LEPT_PARSE_OK) (hm : MemberValue p pv) (h : ValueFails L pv e) :
    ObjectLoopFails L p e := by
  obtain ⟨f, q, w, hv⟩ := h
  obtain ⟨h34, q1, hk, h58, rfl⟩ := hm
  obtain ⟨fk, k, hs⟩ := parses_key_pure hk
  intro acc
  refine ⟨f, fk + 1, q, .null, ?_⟩
  rw [pure_parse_object_loop]
  rw [if_neg (by simp [h34]), hs]
  simp only []
  rw [if_neg (by simp), if_neg (by simp [h58]), hv]
  simp only []
  rw [if_pos he]

/-- When the rounds of the object loop fail from a round on, the object fails. -/
theorem value_fails_of_object_round {L : CDouble} {j p : List Nat} {e : lept_parse_code}
    (hr : ObjectRound L j p) (h : ObjectLoopFails L p e) :
    ValueFails L j e := by
  induction hr with
  | first h123 hne =>
    obtain ⟨f, k, q, w, hl⟩ := h []
    refine ⟨max f k + 1, q, w, ?_⟩
    rw [pure_parse_value]
    simp only []
    rw [if_neg (by rw [h123]; decide), if_neg (by rw [h123]; decide),
      if_neg (by rw [h123]; decide), if_neg (by rw [h123]; decide),
      if_neg (by rw [h123]; decide), if_pos h123, if_neg hne]
    exact object_loop_more L (le_max_left f k) (le_max_right f k) hl
  | next _ hm hpv hc ih =>
    apply ih
    obtain ⟨f0, v0, hv0⟩ := parses_value_pure hpv
    obtain ⟨h34, q1, hk, h58, rfl⟩ := hm
    obtain ⟨fk, key, hs⟩ := parses_key_pure hk
    intro acc
    obtain ⟨f, k, q, w, hl⟩ := h (acc ++ [.mk key v0])
    refine ⟨max f0 f, max fk k + 1, q, w, ?_⟩
    rw [pure_parse_object_loop]
    rw [if_neg (by simp [h34]), string_loop_mono_le (le_max_left fk k) hs]
    simp only []
    rw [if_neg (by simp), if_neg (by simp [h58]),
      parse_value_mono_le L (le_max_left f0 f) hv0]
    simp only []
    rw [if_neg (by simp), if_pos hc]
    exact object_loop_more L (le_max_right f0 f) (le_max_right fk k) hl

/-- A value that fails where the parse of an enclosing value comes to parse it makes the
enclosing value fail with the same code. -/
theorem value_fails_of_reaches {L : CDouble} {j r : List Nat} {e : lept_parse_code}
    (he : e ≠ LEPT_PARSE_OK) (hr : Reaches L j r) (h : ValueFails L r e) : ValueFails L j e := by
  induction hr with
  | here j => exact h
  | element ha _ ih => exact value_fails_of_array_round ha (array_loop_fails_of_value he (ih h))
  | member ho hm _ ih =>
    exact value_fails_of_object_round ho (object_loop_fails_of_value he hm (ih h))

/-- The code with which the root value fails is the code of `lept_parse`. -/
theorem lept_parse_of_value_fails {L : CDouble} {t : List Nat} {e : lept_parse_code}
    (he : e ≠ LEPT_PARSE_OK) (h : ValueFails L (t.dropWhile is_ws) e) :
    lept_parse L t = some (e, .null) := by
  obtain ⟨f, q, w, hv⟩ := h
  rw [lept_parse_eq, pure_parse_of_value L hv, if_neg he]
  rcases (parse_value_shape L _ _ _ _ _ _ hv).2.2 he with hw | hw <;> rw [hw]

/-- Claim C10. In every text in which an array, at the root or nested at any depth inside other
arrays or objects, has an element parsed with success that is followed, after optional
whitespace, by a byte that is neither `,` nor `]` (the end of the text included), `lept_parse`
returns `LEPT_PARSE_MISS_COMMA_OR_SQUARE_BRACKET`. -/
theorem array_separator_error (L : CDouble) (t a p q : List Nat)
    (hr : Reaches L (t.dropWhile is_ws) a) (ha : ArrayRound L a p) (he : ParsesValue L p q)
    (h1 : peek (q.dropWhile is_ws) ≠ 44) (h2 : peek (q.dropWhile is_ws) ≠ 93) :
    lept_parse L t = some (LEPT_PARSE_MISS_COMMA_OR_SQUARE_BRACKET, .null) :=
  lept_parse_of_value_fails (by decide)
    (value_fails_of_reaches (by decide) hr
      (value_fails_of_array_round ha (array_loop_fails_of_separator he h1 h2)))

/-- The text `[1,2,3` of the specification, an array nested in an array and an array that is
the value of a member, by C10. -/
theorem array_separator_error_witness :
    lept_parse example_libc (ascii "[1,2,3") =
      some (LEPT_PARSE_MISS_COMMA_OR_SQUARE_BRACKET, .null) ∧
    lept_parse example_libc (ascii " [[1 2]]") =
      some (LEPT_PARSE_MISS_COMMA_OR_SQUARE_BRACKET, .null) ∧
    lept_parse example_libc (ascii "\x7b\"a\":[1 2]\x7d") =
      some (LEPT_PARSE_MISS_COMMA_OR_SQUARE_BRACKET, .null) :=
  have r1 : ArrayRound example_libc (ascii "[1,2,3") (ascii "1,2,3") :=
    ArrayRound.first rfl (by decide)
  have r2 : ArrayRound example_libc (ascii "[1,2,3") (ascii "2,3") :=
    ArrayRound.next r1 (q := ascii ",2,3") ⟨2, _, rfl⟩ rfl
  have r3 : ArrayRound example_libc (ascii "[1,2,3") (ascii "3") :=
    ArrayRound.next r2 (q := ascii ",3") ⟨2, _, rfl⟩ rfl
  have n1 : ArrayRound example_libc (ascii "[[1 2]]") (ascii "[1 2]]") :=
    ArrayRound.first rfl (by decide)
  have n2 : ArrayRound example_libc (ascii "[1 2]]") (ascii "1 2]]") :=
    ArrayRound.first rfl (by decide)
  have o1 : ObjectRound example_libc (ascii "\x7b\"a\":[1 2]\x7d") (ascii "\"a\":[1 2]\x7d") :=
    ObjectRound.first rfl (by decide)
  have o2 : MemberValue (ascii "\"a\":[1 2]\x7d") (ascii "[1 2]\x7d") :=
    ⟨rfl, ascii ":[1 2]\x7d", ⟨3, _, _, rfl⟩, rfl, rfl⟩
  have o3 : ArrayRound example_libc (ascii "[1 2]\x7d") (ascii "1 2]\x7d") :=
    ArrayRound.first rfl (by decide)
  ⟨array_separator_error example_libc (ascii "[1,2,3") (ascii "[1,2,3") (ascii "3") []
      (Reaches.here _) r3 ⟨2, _, rfl⟩ (by decide) (by decide),
    array_separator_error example_libc (ascii " [[1 2]]") (ascii "[1 2]]") (ascii "1 2]]")
      (ascii " 2]]") (Reaches.element n1 (Reaches.here _)) n2 ⟨2, _, rfl⟩ (by decide)
      (by decide),
    array_separator_error example_libc (ascii "\x7b\"a\":[1 2]\x7d") (ascii "[1 2]\x7d")
      (ascii "1 2]\x7d") (ascii " 2]\x7d") (Reaches.member o1 o2 (Reaches.here _)) o3
      ⟨2, _, rfl⟩ (by decide) (by decide)⟩

/-! ## Round trip -/

mutual
theorem lept_value.induct {P : lept_value → Prop} (hnull : P .null) (hfalse : P .jfalse)
    (htrue : P .jtrue) (hnum : ∀ n, P (.number n)) (hstr : ∀ s, P (.string s))
    (harr : ∀ e c, (∀ x ∈ e, P x) → P (.array e c))
    (hobj : ∀ m c, (∀ x ∈ m, P x.v) → P (.object m c)) : ∀ v, P v
  | .null => hnull
  | .jfalse => hfalse
  | .jtrue => htrue
  | .number n => hnum n
  | .string s => hstr s
  | .array e c => harr e c (lept_value.induct_array hnull hfalse htrue hnum hstr harr hobj e)
  | .object m c => hobj m c (lept_value.induct_object hnull hfalse htrue hnum hstr harr hobj m)
theorem lept_value.induct_array {P : lept_value → Prop} (hnull : P .null) (hfalse : P .jfalse)
    (htrue : P .jtrue) (hnum : ∀ n, P (.number n)) (hstr : ∀ s, P (.string s))
    (harr : ∀ e c, (∀ x ∈ e, P x) → P (.array e c))
    (hobj : ∀ m c, (∀ x ∈ m, P x.v) → P (.object m c)) : ∀ e : List lept_value, ∀ x ∈ e, P x
  | [], _, h => nomatch h
  | y :: ys, x, h => by
    rcases List.mem_cons.mp h with h1 | h1
    · rw [h1]; exact lept_value.induct hnull hfalse htrue hnum hstr harr hobj y
    · exact lept_value.induct_array hnull hfalse htrue hnum hstr harr hobj ys x h1
theorem lept_value.induct_object {P : lept_value → Prop} (hnull : P .null) (hfalse : P .jfalse)
    (htrue : P .jtrue) (hnum : ∀ n, P (.number n)) (hstr : ∀ s, P (.string s))
    (harr : ∀ e c, (∀ x ∈ e, P x) → P (.array e c))
    (hobj : ∀ m c, (∀ x ∈ m, P x.v) → P (.object m c)) :
    ∀ m : List lept_member, ∀ x ∈ m, P x.v
  | [], _, h => nomatch h
  | .mk k y :: ys, x, h => by
    rcases List.mem_cons.mp h with h1 | h1
    · rw [h1]; exact lept_value.induct hnull hfalse htrue hnum hstr harr hobj y
    · exact lept_value.induct_object hnull hfalse htrue hnum hstr harr hobj ys x h1
end

theorem everywhere_array_mem {P : lept_value → Prop} : ∀ {e : List lept_value},
    EverywhereArray P e → ∀ x ∈ e, Everywhere P x
  | [], _, _, h => nomatch h
  | y :: ys, he, x, h => by
    rw [EverywhereArray] at he
    rcases List.mem_cons.mp h with h1 | h1
    · rw [h1]; exact he.1
    · exact everywhere_array_mem he.2 x h1

theorem everywhere_object_mem {P : lept_value → Prop} : ∀ {m : List lept_member},
    EverywhereObject P m → ∀ x ∈ m, Everywhere P x.v
  | [], _, _, h => nomatch h
  | .mk k y :: ys, he, x, h => by
    rw [EverywhereObject] at he
    rcases List.mem_cons.mp h with h1 | h1
    · rw [h1]; exact he.1
    · exact everywhere_object_mem he.2 x h1

theorem exact_capacity_array_length : ∀ e : List lept_value,
    (exact_capacity_array e).length = e.length
  | [] => rfl
  | x :: xs => by rw [exact_capacity_array, List.length_cons, List.length_cons,
      exact_capacity_array_length xs]

theorem exact_capacity_object_length : ∀ m : List lept_member,
    (exact_capacity_object m).length = m.length
  | [] => rfl
  | .mk k x :: ms => by rw [exact_capacity_object, List.length_cons, List.length_cons,
      exact_capacity_object_length ms]

theorem number_scan_head {p q : List Nat} (H : lept_parse_number_scan p = some q) :
    ∃ c t, p = c :: t ∧ is_numchar c = true := by
  obtain ⟨⟨n, e, hn⟩, hl⟩ := number_scan_rest H
  cases n with
  | nil => rw [e] at hl; simp at hl
  | cons c n => exact ⟨c, n ++ q, by rw [e]; rfl, hn c (List.mem_cons_self _ _)⟩

theorem numchar_not_delim {c : Nat} (h : is_numchar c = true) : is_delim c = false := by
  cases hd : is_delim c with
  | false => rfl
  | true => rw [delim_not_numchar hd] at h; cases h

theorem not_ws_of_not_delim {c : Nat} (h : is_delim c = false) : is_ws c = false := by
  cases hw : is_ws c with
  | false => rfl
  | true => rw [ws_delim hw] at h; cases h

theorem parses_back_null (L : CDouble) : ParsesBack L .null :=
  ⟨⟨110, _, rfl, by decide⟩, fun _ _ => ⟨1, rfl⟩⟩

theorem parses_back_false (L : CDouble) : ParsesBack L .jfalse :=
  ⟨⟨102, _, rfl, by decide⟩, fun _ _ => ⟨1, rfl⟩⟩

theorem parses_back_true (L : CDouble) : ParsesBack L .jtrue :=
  ⟨⟨116, _, rfl, by decide⟩, fun _ _ => ⟨1, rfl⟩⟩

theorem parses_back_string (L : CDouble) (s : List Nat) : ParsesBack L (.string s) := by
  refine ⟨⟨34, _, rfl, by decide⟩, fun rest _ => ?_⟩
  obtain ⟨f, hf⟩ := parse_value_string_ok L (render_chars_body s) rest .null
  refine ⟨f, ?_⟩
  have e : render L (.string s) ++ rest = 34 :: (render_chars s ++ 34 :: rest) := by
    simp [render, render_string]
  rw [e, hf]
  rfl

theorem parses_back_number (L : CDouble) (n : double) (h : PrintsBack L n) :
    ParsesBack L (.number n) := by
  have e : render L (.number n) = L.sprintf_17g n := by rw [render]
  rw [ParsesBack, e]
  have h0 := h [] rfl
  rw [List.append_nil] at h0
  obtain ⟨c, t, hct, hc⟩ := number_scan_head h0.1
  refine ⟨⟨c, t, hct, numchar_not_delim hc⟩, fun rest hr => ⟨1, ?_⟩⟩
  obtain ⟨h1, h2, h3⟩ := h rest hr
  have hp : peek (L.sprintf_17g n ++ rest) = c := by rw [hct]; rfl
  simp only [is_numchar, ISDIGIT, Bool.or_eq_true, Bool.and_eq_true, decide_eq_true_eq] at hc
  rw [pure_parse_value]
  simp only []
  rw [hp, if_neg (show ¬ c = 116 by omega), if_neg (show ¬ c = 102 by omega),
    if_neg (show ¬ c = 110 by omega), if_neg (show ¬ c = 34 by omega),
    if_neg (show ¬ c = 91 by omega), if_neg (show ¬ c = 123 by omega),
    if_neg (show ¬ c = 0 by omega)]
  unfold lept_parse_number
  simp only [h1, h2, h3]
  rfl

theorem key_loop (k q : List Nat) :
    ∃ n, pure_string_loop n (render_chars k ++ 34 :: q) [] = some (LEPT_PARSE_OK, q, k) := by
  obtain ⟨kk, hk⟩ := string_body_loop (render_chars_body k)
  refine ⟨1 + kk, ?_⟩
  rw [hk, pure_string_loop, string_step_quote]
  rfl

theorem parses_back_array_loop (L : CDouble) : ∀ (xs : List lept_value),
    (∀ x ∈ xs, ParsesBack L x) → ∀ (x0 : lept_value), ParsesBack L x0 →
    ∀ (i : Nat) (acc : List lept_value) (rest : List Nat),
    ∃ f k, pure_parse_array_loop (pure_parse_value L f) k
      (render L x0 ++ (render_array_loop L (i + 1) xs ++ 93 :: rest)) .null acc =
        some (LEPT_PARSE_OK, rest,
          .array (acc ++ exact_capacity x0 :: exact_capacity_array xs)
            (acc.length + 1 + xs.length)) := by
  intro xs
  induction xs with
  | nil =>
    intro _ x0 h0 i acc rest
    obtain ⟨f, hf⟩ := h0.2 (93 :: rest) rfl
    refine ⟨f, 1, ?_⟩
    rw [render_array_loop, List.nil_append, pure_parse_array_loop, hf]
    rfl
  | cons x1 xs ih =>
    intro hall x0 h0 i acc rest
    obtain ⟨f1, k1, h1⟩ := ih (fun x hx => hall x (List.mem_cons_of_mem _ hx)) x1
      (hall x1 (List.mem_cons_self _ _)) (i + 1) (acc ++ [exact_capacity x0]) rest
    obtain ⟨f0, hf0⟩ := h0.2 (44 :: (render L x1 ++
      (render_array_loop L (i + 1 + 1) xs ++ 93 :: rest))) rfl
    obtain ⟨c, t, hct, hc⟩ := (hall x1 (List.mem_cons_self _ _)).1
    have e : render L x0 ++ (render_array_loop L (i + 1) (x1 :: xs) ++ 93 :: rest) =
        render L x0 ++ 44 :: (render L x1 ++
          (render_array_loop L (i + 1 + 1) xs ++ 93 :: rest)) := by
      simp [render_array_loop]
    refine ⟨max f0 f1, k1 + 1, ?_⟩
    rw [e, pure_parse_array_loop, parse_value_mono_le L (le_max_left f0 f1) hf0]
    have hd : (44 :: (render L x1 ++ (render_array_loop L (i + 1 + 1) xs ++ 93 :: rest))).dropWhile
        is_ws = 44 :: (render L x1 ++ (render_array_loop L (i + 1 + 1) xs ++ 93 :: rest)) :=
      dropWhile_ws_cons _ (by decide)
    have hd2 : (render L x1 ++ (render_array_loop L (i + 1 + 1) xs ++ 93 :: rest)).dropWhile
        is_ws = render L x1 ++ (render_array_loop L (i + 1 + 1) xs ++ 93 :: rest) := by
      rw [hct]
      exact dropWhile_ws_cons _ (not_ws_of_not_delim hc)
    simp only [ne_eq, not_true_eq_false, if_false, hd, peek_cons, if_true, List.tail_cons, hd2]
    rw [array_loop_more L (le_max_right f0 f1) (le_refl k1) h1]
    simp [exact_capacity_array, Nat.add_comm, Nat.add_left_comm]

theorem parses_back_object_loop (L : CDouble) : ∀ (ms : List lept_member),
    (∀ x ∈ ms, ParsesBack L x.v) → ∀ (k0 : List Nat) (x0 : lept_value), ParsesBack L x0 →
    ∀ (i : Nat) (acc : List lept_member) (rest : List Nat),
    ∃ f k, pure_parse_object_loop (pure_parse_value L f) k
      (render_string k0 ++ 58 :: (render L x0 ++
        (render_object_loop L (i + 1) ms ++ 125 :: rest))) acc =
        some (LEPT_PARSE_OK, rest,
          .object (acc ++ .mk k0 (exact_capacity x0) :: exact_capacity_object ms)
            (acc.length + 1 + ms.length)) := by
  intro ms
  induction ms with
  | nil =>
    intro _ k0 x0 h0 i acc rest
    obtain ⟨f, hf⟩ := h0.2 (125 :: rest) rfl
    obtain ⟨n, hn⟩ := key_loop k0 (58 :: (render L x0 ++ 125 :: rest))
    obtain ⟨c, t, hct, hc⟩ := h0.1
    have e : render_string k0 ++ 58 :: (render L x0 ++
        (render_object_loop L (i + 1) [] ++ 125 :: rest)) =
        34 :: (render_chars k0 ++ 34 :: 58 :: (render L x0 ++ 125 :: rest)) := by
      simp [render_object_loop, render_string]
    have hd2 : (render L x0 ++ 125 :: rest).dropWhile is_ws = render L x0 ++ 125 :: rest := by
      rw [hct]
      exact dropWhile_ws_cons _ (not_ws_of_not_delim hc)
    have hd : (58 :: (render L x0 ++ 125 :: rest)).dropWhile is_ws =
        58 :: (render L x0 ++ 125 :: rest) := dropWhile_ws_cons _ (by decide)
    refine ⟨f, n + 1, ?_⟩
    rw [e, pure_parse_object_loop]
    simp only [peek_cons, ne_eq, not_true_eq_false, if_false, List.tail_cons, hn, hd, hd2, hf]
    rfl
  | cons m1 ms ih =>
    intro hall k0 x0 h0 i acc rest
    obtain ⟨k1, x1⟩ := m1
    obtain ⟨f1, n1, h1⟩ := ih (fun x hx => hall x (List.mem_cons_of_mem _ hx)) k1 x1
      (hall _ (List.mem_cons_self _ _)) (i + 1) (acc ++ [.mk k0 (exact_capacity x0)]) rest
    generalize hT : render_string k1 ++ 58 :: (render L x1 ++
      (render_object_loop L (i + 1 + 1) ms ++ 125 :: rest)) = T at h1
    have hT2 : T = 34 :: T.tail := by rw [← hT]; rfl
    obtain ⟨f0, hf0⟩ := h0.2 (44 :: T) rfl
    obtain ⟨n, hn⟩ := key_loop k0 (58 :: (render L x0 ++ 44 :: T))
    obtain ⟨c, t, hct, hc⟩ := h0.1
    have e : render_string k0 ++ 58 :: (render L x0 ++
        (render_object_loop L (i + 1) (.mk k1 x1 :: ms) ++ 125 :: rest)) =
        34 :: (render_chars k0 ++ 34 :: 58 :: (render L x0 ++ 44 :: T)) := by
      rw [← hT]
      simp [render_object_loop, render_string]
    have hd2 : (render L x0 ++ 44 :: T).dropWhile is_ws = render L x0 ++ 44 :: T := by
      rw [hct]
      exact dropWhile_ws_cons _ (not_ws_of_not_delim hc)
    have hd : (58 :: (render L x0 ++ 44 :: T)).dropWhile is_ws =
        58 :: (render L x0 ++ 44 :: T) := dropWhile_ws_cons _ (by decide)
    have hd3 : (44 :: T).dropWhile is_ws = 44 :: T := dropWhile_ws_cons _ (by decide)
    have hd4 : T.dropWhile is_ws = T := by
      rw [hT2]
      exact dropWhile_ws_cons _ (by decide)
    refine ⟨max f0 f1, max n n1 + 1, ?_⟩
    rw [e, pure_parse_object_loop]
    simp only [peek_cons, ne_eq, not_true_eq_false, if_false, List.tail_cons,
      string_loop_mono_le (le_max_left n n1) hn, hd, hd2,
      parse_value_mono_le L (le_max_left f0 f1) hf0, hd3, if_true, hd4]
    rw [object_loop_more L (le_max_right f0 f1) (le_max_right n n1) h1]
    simp [exact_capacity_object, Nat.add_comm, Nat.add_left_comm]

theorem parses_back (L : CDouble) :
    ∀ v, Everywhere (NumberPrintsBack L) v → ParsesBack L v := by
  intro v
  induction v using lept_value.induct with
  | hnull => exact fun _ => parses_back_null L
  | hfalse => exact fun _ => parses_back_false L
  | htrue => exact fun _ => parses_back_true L
  | hnum n => exact fun h => parses_back_number L n h
  | hstr s => exact fun _ => parses_back_string L s
  | harr e c ih =>
    intro h
    rw [Everywhere] at h
    have hall : ∀ x ∈ e, ParsesBack L x := fun x hx => ih x hx (everywhere_array_mem h.2 x hx)
    refine ⟨⟨91, _, by rw [render], by decide⟩, fun rest _ => ?_⟩
    cases e with
    | nil => exact ⟨1, rfl⟩
    | cons x0 xs =>
      obtain ⟨f, k, hfk⟩ := parses_back_array_loop L xs
        (fun x hx => hall x (List.mem_cons_of_mem _ hx)) x0 (hall x0 (List.mem_cons_self _ _))
        0 [] rest
      obtain ⟨c0, t, hct, hc⟩ := (hall x0 (List.mem_cons_self _ _)).1
      generalize hT : render L x0 ++ (render_array_loop L (0 + 1) xs ++ 93 :: rest) = T at hfk
      have hT2 : T = c0 :: T.tail := by rw [← hT, hct]; rfl
      have e1 : render L (.array (x0 :: xs) c) ++ rest = 91 :: T := by
        rw [← hT]
        simp [render, render_array_loop]
      have hd : T.dropWhile is_ws = T := by
        rw [hT2]
        exact dropWhile_ws_cons _ (not_ws_of_not_delim hc)
      have hp : peek T ≠ 93 := by
        rw [hT2, peek_cons]
        intro h93
        rw [h93] at hc
        exact absurd hc (by decide)
      refine ⟨max f k + 1, ?_⟩
      rw [e1, pure_parse_value]
      simp only [peek_cons, List.tail_cons, hd, if_neg hp]
      rw [if_neg (by decide), if_neg (by decide), if_neg (by decide), if_neg (by decide),
        if_pos trivial, array_loop_more L (le_max_left f k) (le_max_right f k) hfk]
      simp [exact_capacity, exact_capacity_array, Nat.add_comm]
  | hobj m c ih =>
    intro h
    rw [Everywhere] at h
    have hall : ∀ x ∈ m, ParsesBack L x.v := fun x hx => ih x hx (everywhere_object_mem h.2 x hx)
    refine ⟨⟨123, _, by rw [render], by decide⟩, fun rest _ => ?_⟩
    cases m with
    | nil => exact ⟨1, rfl⟩
    | cons m0 ms =>
      obtain ⟨k0, x0⟩ := m0
      obtain ⟨f, k, hfk⟩ := parses_back_object_loop L ms
        (fun x hx => hall x (List.mem_cons_of_mem _ hx)) k0 x0 (hall _ (List.mem_cons_self _ _))
        0 [] rest
      generalize hT : render_string k0 ++ 58 :: (render L x0 ++
        (render_object_loop L (0 + 1) ms ++ 125 :: rest)) = T at hfk
      have hT2 : T = 34 :: T.tail := by rw [← hT]; rfl
      have e1 : render L (.object (.mk k0 x0 :: ms) c) ++ rest = 123 :: T := by
        rw [← hT]
        simp [render, render_object_loop]
      have hd : T.dropWhile is_ws = T := by
        rw [hT2]
        exact dropWhile_ws_cons _ (by decide)
      have hp : peek T ≠ 125 := by
        rw [hT2, peek_cons]
        decide
      refine ⟨max f k + 1, ?_⟩
      rw [e1, pure_parse_value]
      simp only [peek_cons, List.tail_cons, hd, if_neg hp]
      rw [if_neg (by decide), if_neg (by decide), if_neg (by decide), if_neg (by decide),
        if_neg (by decide), if_pos trivial,
        object_loop_more L (le_max_left f k) (le_max_right f k) hfk]
      simp [exact_capacity, exact_capacity_object, Nat.add_comm]

/-- The text of a value whose numbers print back is parsed to the value with exact
capacities. -/
theorem lept_parse_stringify (L : CDouble) (v : lept_value)
    (h : Everywhere (NumberPrintsBack L) v) :
    lept_parse L (lept_stringify L v) = some (LEPT_PARSE_OK, exact_capacity v) := by
  obtain ⟨⟨c, t, hct, hc⟩, hp⟩ := parses_back L v h
  obtain ⟨f, hf⟩ := hp [] rfl
  rw [List.append_nil] at hf
  have hd : (render L v).dropWhile is_ws = render L v := by
    rw [hct]
    exact dropWhile_ws_cons _ (not_ws_of_not_delim hc)
  rw [← hd] at hf
  rw [lept_parse_eq, lept_stringify_eq, pure_parse_of_value L hf]
  rfl

/-! ## Stringify and equality on the parsed-back value -/

mutual
theorem render_exact_capacity (L : CDouble) : ∀ v : lept_value,
    render L (exact_capacity v) = render L v
  | .null => rfl
  | .jfalse => rfl
  | .jtrue => rfl
  | .number _ => rfl
  | .string _ => rfl
  | .array e c => by
    rw [exact_capacity, render, render, render_exact_capacity_array L e 0]
  | .object m c => by
    rw [exact_capacity, render, render, render_exact_capacity_object L m 0]
theorem render_exact_capacity_array (L : CDouble) : ∀ (e : List lept_value) (i : Nat),
    render_array_loop L i (exact_capacity_array e) = render_array_loop L i e
  | [], _ => rfl
  | x :: xs, i => by
    rw [exact_capacity_array, render_array_loop, render_array_loop, render_exact_capacity L x,
      render_exact_capacity_array L xs (i + 1)]
theorem render_exact_capacity_object (L : CDouble) : ∀ (m : List lept_member) (i : Nat),
    render_object_loop L i (exact_capacity_object m) = render_object_loop L i m
  | [], _ => rfl
  | .mk k x :: ms, i => by
    rw [exact_capacity_object, render_object_loop, render_object_loop, render_exact_capacity L x,
      render_exact_capacity_object L ms (i + 1)]
end

theorem exact_capacity_object_append : ∀ (a b : List lept_member),
    exact_capacity_object (a ++ b) = exact_capacity_object a ++ exact_capacity_object b
  | [], _ => rfl
  | .mk k x :: ms, b => by
    rw [List.cons_append, exact_capacity_object, exact_capacity_object,
      exact_capacity_object_append ms b, List.cons_append]

theorem exact_capacity_object_keys : ∀ (m : List lept_member),
    (exact_capacity_object m).map lept_member.k = m.map lept_member.k
  | [] => rfl
  | .mk k x :: ms => by
    rw [exact_capacity_object, List.map_cons, List.map_cons, exact_capacity_object_keys ms]
    rfl

theorem find_object_index_loop_at (k : List Nat) (x : lept_value) (post : List lept_member) :
    ∀ (pre : List lept_member) (i : Nat), k ∉ pre.map lept_member.k →
      lept_find_object_index_loop k k.length i (pre ++ .mk k x :: post) = i + pre.length := by
  intro pre
  induction pre with
  | nil =>
    intro i _
    simp [lept_find_object_index_loop, lept_member.klen, lept_member.k, memcmp_eq]
  | cons a pre ih =>
    intro i hk
    obtain ⟨ka, xa⟩ := a
    have hne : ¬ ka = k := fun h => hk (by simp [lept_member.k, h])
    have hk2 : k ∉ pre.map lept_member.k := fun h => hk (by simp at h ⊢; exact Or.inr h)
    rw [List.cons_append, lept_find_object_index_loop, if_neg, ih (i + 1) hk2]
    · simp only [List.length_cons]; omega
    · rintro ⟨h1, h2⟩
      simp only [lept_member.klen, lept_member.k, memcmp_eq, decide_eq_true_eq] at h1 h2
      rw [List.take_length, ← h1, List.take_length] at h2
      exact hne h2

theorem member_at_append (pre post : List lept_member) (a : lept_member) :
    member_at (pre ++ a :: post) pre.length = a := by
  induction pre with
  | nil => rfl
  | cons b pre ih => exact ih

theorem is_equal_array_loop_refl (L : CDouble) : ∀ e : List lept_value,
    (∀ x ∈ e, lept_is_equal L (exact_capacity x) x = true) →
      lept_is_equal_array_loop L (exact_capacity_array e) e = true
  | [], _ => rfl
  | x :: xs, h => by
    rw [exact_capacity_array, lept_is_equal_array_loop, h x (List.mem_cons_self _ _),
      is_equal_array_loop_refl L xs (fun y hy => h y (List.mem_cons_of_mem _ hy))]
    rfl

theorem is_equal_object_loop_refl (L : CDouble) : ∀ (post pre : List lept_member),
    ((pre ++ post).map lept_member.k).Nodup → (pre ++ post).length < 2 ^ 64 →
    (∀ x ∈ post, lept_is_equal L (exact_capacity x.v) x.v = true) →
      lept_is_equal_object_loop L (exact_capacity_object (pre ++ post)) post = true := by
  intro post
  induction post with
  | nil => intro pre _ _ _; rw [lept_is_equal_object_loop]
  | cons a ms ih =>
    intro pre hnd hlen hall
    obtain ⟨k, x⟩ := a
    have hk : k ∉ (exact_capacity_object pre).map lept_member.k := by
      rw [exact_capacity_object_keys]
      rw [List.map_append, List.nodup_append] at hnd
      intro hin
      exact hnd.2.2 hin (by simp [lept_member.k])
    have hi : lept_find_object_index (exact_capacity_object (pre ++ .mk k x :: ms)) k k.length =
        pre.length := by
      rw [lept_find_object_index, exact_capacity_object_append, exact_capacity_object,
        find_object_index_loop_at k _ _ _ 0 hk, exact_capacity_object_length, Nat.zero_add]
    have hm : member_at (exact_capacity_object (pre ++ .mk k x :: ms)) pre.length =
        .mk k (exact_capacity x) := by
      rw [exact_capacity_object_append, exact_capacity_object]
      have := member_at_append (exact_capacity_object pre) (exact_capacity_object ms)
        (.mk k (exact_capacity x))
      rw [exact_capacity_object_length] at this
      exact this
    have hx := hall _ (List.mem_cons_self _ _)
    have hlt : ¬ pre.length = LEPT_KEY_NOT_EXIST := by
      rw [List.length_append, List.length_cons] at hlen
      unfold LEPT_KEY_NOT_EXIST
      omega
    have e2 : pre ++ .mk k x :: ms = (pre ++ [.mk k x]) ++ ms := by simp
    have hr := ih (pre ++ [.mk k x]) (by rw [← e2]; exact hnd) (by rw [← e2]; exact hlen)
      (fun y hy => hall y (List.mem_cons_of_mem _ hy))
    rw [← e2] at hr
    rw [lept_is_equal_object_loop]
    simp only [hi, hm, if_neg hlt, lept_member.v]
    simp only [lept_member.v] at hx
    rw [hx, hr]
    rfl

theorem is_equal_exact_capacity (L : CDouble) :
    ∀ v, Everywhere (EqualityFriendly L) v → lept_is_equal L (exact_capacity v) v = true := by
  intro v
  induction v using lept_value.induct with
  | hnull => exact fun _ => rfl
  | hfalse => exact fun _ => rfl
  | htrue => exact fun _ => rfl
  | hnum n => exact fun h => h
  | hstr s =>
    intro _
    rw [exact_capacity, lept_is_equal]
    simp [memcmp_eq]
  | harr e c ih =>
    intro h
    rw [Everywhere] at h
    rw [exact_capacity, lept_is_equal, exact_capacity_array_length, if_neg (by simp)]
    exact is_equal_array_loop_refl L e (fun x hx => ih x hx (everywhere_array_mem h.2 x hx))
  | hobj m c ih =>
    intro h
    rw [Everywhere] at h
    rw [exact_capacity, lept_is_equal, exact_capacity_object_length,
      if_neg (by simp [lept_value.u_a_size])]
    exact is_equal_object_loop_refl L m [] h.1.1 h.1.2
      (fun x hx => ih x hx (everywhere_object_mem h.2 x hx))

/-- A double that the example library prints as the digits `n` of a JSON number and converts
back from them prints back. -/
theorem example_libc_prints_back {x : double} {n : List Nat}
    (hs : example_libc.sprintf_17g x = n) (hn : n ≠ []) (hnum : ∀ b ∈ n, is_numchar b = true)
    (hscan : lept_parse_number_scan n = some []) (hst : example_libc.strtod n = (x, false)) :
    PrintsBack example_libc x := by
  intro rest hr
  rw [hs]
  have h1 : lept_parse_number_scan (n ++ rest) = some ([] ++ rest) :=
    number_scan_append (delim_not_numchar hr) hscan
  have h2 : example_libc.strtod (n ++ rest) = example_libc.strtod (n ++ []) :=
    example_libc_local n rest [] hn hnum hr rfl
  rw [List.append_nil, hst] at h2
  rw [h2]
  exact ⟨h1, rfl, rfl⟩

theorem example_libc_prints_back_one : PrintsBack example_libc ⟨0x3FF0000000000000⟩ :=
  example_libc_prints_back (n := ascii "1") rfl (by decide) (by decide) rfl rfl

theorem example_libc_prints_back_minus_two : PrintsBack example_libc ⟨0xC000000000000000⟩ :=
  example_libc_prints_back (n := ascii "-2") rfl (by decide) (by decide) rfl rfl

/-! ## Round trip and idempotence of stringify -/

theorem find_object_index_loop_exact_capacity (key : List Nat) (klen : Nat) :
    ∀ (m : List lept_member) (i : Nat),
      lept_find_object_index_loop key klen i (exact_capacity_object m) =
        lept_find_object_index_loop key klen i m
  | [], _ => rfl
  | .mk k x :: ms, i => by
    rw [exact_capacity_object, lept_find_object_index_loop, lept_find_object_index_loop,
      find_object_index_loop_exact_capacity key klen ms (i + 1)]
    rfl

theorem member_at_exact_capacity : ∀ (m : List lept_member) (i : Nat),
    member_at (exact_capacity_object m) i =
      .mk (member_at m i).k (exact_capacity (member_at m i).v)
  | [], _ => rfl
  | .mk k x :: ms, 0 => rfl
  | .mk k x :: ms, i + 1 => by
    have h := member_at_exact_capacity ms i
    unfold member_at at h ⊢
    rw [exact_capacity_object, List.getD_cons_succ, List.getD_cons_succ]
    exact h

theorem member_at_default {m : List lept_member} {i : Nat} (h : m.length ≤ i) :
    member_at m i = .mk [] .null := by
  unfold member_at
  exact List.getD_eq_default _ _ h

theorem is_equal_array_loop_capacity (L : CDouble) : ∀ (e e2 : List lept_value),
    (∀ x ∈ e, ∀ y, lept_is_equal L (exact_capacity x) y = lept_is_equal L x y) →
      lept_is_equal_array_loop L (exact_capacity_array e) e2 = lept_is_equal_array_loop L e e2
  | [], _, _ => rfl
  | x :: xs, [], _ => by
    simp [exact_capacity_array, lept_is_equal_array_loop]
  | x :: xs, y :: ys, h => by
    rw [exact_capacity_array, lept_is_equal_array_loop, lept_is_equal_array_loop,
      h x (List.mem_cons_self _ _) y,
      is_equal_array_loop_capacity L xs ys (fun z hz => h z (List.mem_cons_of_mem _ hz))]

theorem is_equal_object_loop_capacity (L : CDouble) (m : List lept_member)
    (h : ∀ x ∈ m, ∀ y, lept_is_equal L (exact_capacity x.v) y = lept_is_equal L x.v y) :
    ∀ m2 : List lept_member,
      lept_is_equal_object_loop L (exact_capacity_object m) m2 =
        lept_is_equal_object_loop L m m2
  | [] => by rw [lept_is_equal_object_loop, lept_is_equal_object_loop]
  | .mk k x :: ms => by
    have hv : lept_is_equal L
        (exact_capacity (member_at m (lept_find_object_index m k k.length)).v) x =
        lept_is_equal L (member_at m (lept_find_object_index m k k.length)).v x := by
      by_cases hi : lept_find_object_index m k k.length < m.length
      · have hmem : member_at m (lept_find_object_index m k k.length) ∈ m := by
          unfold member_at
          rw [List.getD_eq_getElem _ _ hi]
          exact List.getElem_mem hi
        exact h _ hmem x
      · rw [member_at_default (by omega)]
        rfl
    rw [lept_is_equal_object_loop, lept_is_equal_object_loop]
    simp only [lept_find_object_index, find_object_index_loop_exact_capacity,
      member_at_exact_capacity, lept_member.v]
    simp only [lept_find_object_index, lept_member.v] at hv
    rw [hv, is_equal_object_loop_capacity L m h ms]

/-- The capacities of the left value play no part in `lept_is_equal`. -/
theorem is_equal_capacity (L : CDouble) :
    ∀ a b, lept_is_equal L (exact_capacity a) b = lept_is_equal L a b := by
  intro a
  induction a using lept_value.induct with
  | hnull => intro b; rw [exact_capacity]
  | hfalse => intro b; rw [exact_capacity]
  | htrue => intro b; rw [exact_capacity]
  | hnum n => intro b; rw [exact_capacity]
  | hstr s => intro b; rw [exact_capacity]
  | harr e c ih =>
    intro b
    rw [exact_capacity]
    cases b with
    | array e2 c2 =>
      rw [lept_is_equal, lept_is_equal, exact_capacity_array_length,
        is_equal_array_loop_capacity L e e2 ih]
    | _ => simp [lept_is_equal]
  | hobj m c ih =>
    intro b
    rw [exact_capacity]
    cases b with
    | object m2 c2 =>
      rw [lept_is_equal, lept_is_equal, exact_capacity_object_length,
        is_equal_object_loop_capacity L m ih m2]
    | _ => simp [lept_is_equal]

/-- Claim C1, as stated, fails on duplicate keys. The text of an object with the members
`"a":true` and `"a":false` is parsed with `LEPT_PARSE_OK` to an object `v` with two members of
key `a`; `lept_stringify(v)` is that text again, so it parses to `v` again; and `lept_is_equal`
of `v` and `v` is 0, since `lept_find_object_index` finds the first member `a` (true) for the
second one (false). -/
theorem round_trip_fails_on_duplicate_keys :
    lept_parse example_libc (ascii "\x7b\"a\":true,\"a\":false\x7d") =
      some (LEPT_PARSE_OK, .object [.mk (ascii "a") .jtrue, .mk (ascii "a") .jfalse] 2) ∧
    lept_stringify example_libc (.object [.mk (ascii "a") .jtrue, .mk (ascii "a") .jfalse] 2) =
      ascii "\x7b\"a\":true,\"a\":false\x7d" ∧
    lept_is_equal example_libc
      (.object [.mk (ascii "a") .jtrue, .mk (ascii "a") .jfalse] 2)
      (.object [.mk (ascii "a") .jtrue, .mk (ascii "a") .jfalse] 2) = false :=
  ⟨rfl, rfl, rfl⟩

/-- Claim C1, amended. Let `v` be a value in which every number prints back (`%.17g` gives a
JSON number that `strtod` converts to the same double). Then `lept_parse` of the text of
`lept_stringify(v)` returns `LEPT_PARSE_OK`, the parsed value is `v` with every capacity equal
to the size, and `lept_is_equal` of the parsed value and `v` is what `lept_is_equal` of `v` and
`v` is: 1 exactly when `v` is equal to itself. It is 1 whenever every number of `v` is equal to
itself and every object of `v` has pairwise distinct keys and a size below
`LEPT_KEY_NOT_EXIST`. -/
theorem round_trip (L : CDouble) (v : lept_value) (hn : Everywhere (NumberPrintsBack L) v) :
    lept_parse L (lept_stringify L v) = some (LEPT_PARSE_OK, exact_capacity v) ∧
    lept_is_equal L (exact_capacity v) v = lept_is_equal L v v ∧
    (Everywhere (EqualityFriendly L) v → lept_is_equal L v v = true) :=
  ⟨lept_parse_stringify L v hn, is_equal_capacity L v v,
    fun he => (is_equal_capacity L v v).symm.trans (is_equal_exact_capacity L v he)⟩

/-- A value with distinct keys and spare capacities, and an object that holds the key `a`
twice with the same value, by C1. -/
theorem round_trip_witness :
    lept_stringify example_libc
        (.array [.number ⟨0x3FF0000000000000⟩, .string (ascii "a\n"),
          .object [.mk (ascii "k") .null, .mk (ascii "j") (.number ⟨0xC000000000000000⟩)] 5]
          7) = ascii "[1,\"a\\n\",\x7b\"k\":null,\"j\":-2\x7d]" ∧
      lept_parse example_libc (ascii "[1,\"a\\n\",\x7b\"k\":null,\"j\":-2\x7d]") =
        some (LEPT_PARSE_OK,
          .array [.number ⟨0x3FF0000000000000⟩, .string (ascii "a\n"),
            .object [.mk (ascii "k") .null, .mk (ascii "j") (.number ⟨0xC000000000000000⟩)] 2]
            3) ∧
      (lept_parse example_libc (lept_stringify example_libc
          (.array [.number ⟨0x3FF0000000000000⟩, .string (ascii "a\n"),
            .object [.mk (ascii "k") .null, .mk (ascii "j") (.number ⟨0xC000000000000000⟩)] 5]
            7)) =
        some (LEPT_PARSE_OK, exact_capacity
          (.array [.number ⟨0x3FF0000000000000⟩, .string (ascii "a\n"),
            .object [.mk (ascii "k") .null, .mk (ascii "j") (.number ⟨0xC000000000000000⟩)] 5]
            7)) ∧
        lept_is_equal example_libc (exact_capacity
          (.array [.number ⟨0x3FF0000000000000⟩, .string (ascii "a\n"),
            .object [.mk (ascii "k") .null, .mk (ascii "j") (.number ⟨0xC000000000000000⟩)] 5]
            7))
          (.array [.number ⟨0x3FF0000000000000⟩, .string (ascii "a\n"),
            .object [.mk (ascii "k") .null, .mk (ascii "j") (.number ⟨0xC000000000000000⟩)] 5]
            7) = true) ∧
      (lept_parse example_libc (lept_stringify example_libc
          (.object [.mk (ascii "a") (.number ⟨0x3FF0000000000000⟩),
            .mk (ascii "a") (.number ⟨0x3FF0000000000000⟩)] 4)) =
        some (LEPT_PARSE_OK, .object [.mk (ascii "a") (.number ⟨0x3FF0000000000000⟩),
            .mk (ascii "a") (.number ⟨0x3FF0000000000000⟩)] 2) ∧
        lept_is_equal example_libc
          (.object [.mk (ascii "a") (.number ⟨0x3FF0000000000000⟩),
            .mk (ascii "a") (.number ⟨0x3FF0000000000000⟩)] 2)
          (.object [.mk (ascii "a") (.number ⟨0x3FF0000000000000⟩),
            .mk (ascii "a") (.number ⟨0x3FF0000000000000⟩)] 4) = true) :=
  have t := round_trip example_libc
    (.array [.number ⟨0x3FF0000000000000⟩, .string (ascii "a\n"),
      .object [.mk (ascii "k") .null, .mk (ascii "j") (.number ⟨0xC000000000000000⟩)] 5] 7)
    ⟨trivial, example_libc_prints_back_one, trivial,
      ⟨trivial, trivial, example_libc_prints_back_minus_two, trivial⟩, trivial⟩
  have u := round_trip example_libc
    (.object [.mk (ascii "a") (.number ⟨0x3FF0000000000000⟩),
      .mk (ascii "a") (.number ⟨0x3FF0000000000000⟩)] 4)
    ⟨trivial, example_libc_prints_back_one, example_libc_prints_back_one, trivial⟩
  ⟨rfl, rfl,
    ⟨t.1, t.2.1.trans (t.2.2
      ⟨trivial, rfl, trivial, ⟨⟨by decide, by decide⟩, trivial, rfl, trivial⟩, trivial⟩)⟩,
    ⟨u.1, u.2.1.trans rfl⟩⟩

/-- Claim C2, as stated, fails on a number that is not finite. After
`lept_set_number(v, INFINITY)` the text of `lept_stringify(v)` is `inf`, which `lept_parse`
rejects with `LEPT_PARSE_INVALID_VALUE`: there is no parsed value to stringify again. -/
theorem stringify_parse_fails_on_infinity :
    lept_stringify example_libc (lept_set_number .null ⟨0x7FF0000000000000⟩) = ascii "inf" ∧
    lept_parse example_libc
        (lept_stringify example_libc (lept_set_number .null ⟨0x7FF0000000000000⟩)) =
      some (LEPT_PARSE_INVALID_VALUE, .null) :=
  ⟨rfl, rfl⟩

/-- Claim C2, amended. Let `v` be a value in which every number prints back (`%.17g` gives a
JSON number that `strtod` converts to the same double; the finite doubles do). Then `lept_parse`
of the text `s` of `lept_stringify(v)` returns `LEPT_PARSE_OK` with a value `w`, and
`lept_stringify(w)` is `s`, byte for byte. Duplicate keys do not matter here. -/
theorem stringify_idempotent (L : CDouble) (v : lept_value)
    (hn : Everywhere (NumberPrintsBack L) v) :
    ∃ w, lept_parse L (lept_stringify L v) = some (LEPT_PARSE_OK, w) ∧
      lept_stringify L w = lept_stringify L v :=
  ⟨exact_capacity v, lept_parse_stringify L v hn, by
    rw [lept_stringify_eq, lept_stringify_eq, render_exact_capacity]⟩

theorem stringify_idempotent_witness :
    lept_stringify example_libc
        (.object [.mk (ascii "a") (.number ⟨0x3FF0000000000000⟩),
          .mk (ascii "a") (.array [.jtrue, .string (ascii "\"\\\x01~")] 4)] 3) =
        ascii "\x7b\"a\":1,\"a\":[true,\"\\\"\\\\\\u0001~\"]\x7d" ∧
      ∃ w, lept_parse example_libc (lept_stringify example_libc
          (.object [.mk (ascii "a") (.number ⟨0x3FF0000000000000⟩),
            .mk (ascii "a") (.array [.jtrue, .string (ascii "\"\\\x01~")] 4)] 3)) =
          some (LEPT_PARSE_OK, w) ∧
        lept_stringify example_libc w = lept_stringify example_libc
          (.object [.mk (ascii "a") (.number ⟨0x3FF0000000000000⟩),
            .mk (ascii "a") (.array [.jtrue, .string (ascii "\"\\\x01~")] 4)] 3) :=
  ⟨rfl, stringify_idempotent example_libc _
    ⟨trivial, ⟨example_libc_prints_back_one, ⟨trivial, trivial, trivial, trivial⟩, trivial⟩⟩⟩

/-! ## Missing key -/

/-- A round of the object loop that starts at a byte other than `"` fails with
`LEPT_PARSE_MISS_KEY`. -/
theorem object_loop_fails_of_key {L : CDouble} {p : List Nat} (h : peek p ≠ 34) :
    ObjectLoopFails L p LEPT_PARSE_MISS_KEY := by
  intro acc
  refine ⟨0, 1, p, .null, ?_⟩
  rw [pure_parse_object_loop, if_pos h]

/-- Claim C11. In every text in which an object, at the root or nested at any depth inside
arrays or other objects, comes to expect a member key (after the opening brace and whitespace
when the next byte does not close the object, or after a `,` and whitespace) at a byte that is
not `"`, `lept_parse` returns `LEPT_PARSE_MISS_KEY`; the closing brace after a `,` is such a
byte, so a trailing comma gives this code. -/
theorem missing_key_error (L : CDouble) (t a p : List Nat)
    (hr : Reaches L (t.dropWhile is_ws) a) (ho : ObjectRound L a p) (h : peek p ≠ 34) :
    lept_parse L t = some (LEPT_PARSE_MISS_KEY, .null) :=
  lept_parse_of_value_fails (by decide)
    (value_fails_of_reaches (by decide) hr
      (value_fails_of_object_round ho (object_loop_fails_of_key h)))

/-- The text with a trailing comma of the specification, a key that is not a string, and an
object with a trailing comma inside an array, by C11. -/
theorem missing_key_error_witness :
    lept_parse example_libc (ascii "\x7b\"a\":1,\x7d") = some (LEPT_PARSE_MISS_KEY, .null) ∧
    lept_parse example_libc (ascii " \x7b 1:2\x7d") = some (LEPT_PARSE_MISS_KEY, .null) ∧
    lept_parse example_libc (ascii "[\x7b\"a\":1 , \x7d]") = some (LEPT_PARSE_MISS_KEY, .null) :=
  have r1 : ObjectRound example_libc (ascii "\x7b\"a\":1,\x7d") (ascii "\"a\":1,\x7d") :=
    ObjectRound.first rfl (by decide)
  have m1 : MemberValue (ascii "\"a\":1,\x7d") (ascii "1,\x7d") :=
    ⟨rfl, ascii ":1,\x7d", ⟨3, _, _, rfl⟩, rfl, rfl⟩
  have r2 : ObjectRound example_libc (ascii "\x7b\"a\":1,\x7d") (ascii "\x7d") :=
    ObjectRound.next r1 m1 (q := ascii ",\x7d") ⟨2, _, rfl⟩ rfl
  have s1 : ObjectRound example_libc (ascii "\x7b 1:2\x7d") (ascii "1:2\x7d") :=
    ObjectRound.first rfl (by decide)
  have a1 : ArrayRound example_libc (ascii "[\x7b\"a\":1 , \x7d]") (ascii "\x7b\"a\":1 , \x7d]") :=
    ArrayRound.first rfl (by decide)
  have n1 : ObjectRound example_libc (ascii "\x7b\"a\":1 , \x7d]") (ascii "\"a\":1 , \x7d]") :=
    ObjectRound.first rfl (by decide)
  have n2 : MemberValue (ascii "\"a\":1 , \x7d]") (ascii "1 , \x7d]") :=
    ⟨rfl, ascii ":1 , \x7d]", ⟨3, _, _, rfl⟩, rfl, rfl⟩
  have n3 : ObjectRound example_libc (ascii "\x7b\"a\":1 , \x7d]") (ascii "\x7d]") :=
    ObjectRound.next n1 n2 (q := ascii " , \x7d]") ⟨2, _, rfl⟩ rfl
  ⟨missing_key_error example_libc _ (ascii "\x7b\"a\":1,\x7d") _ (Reaches.here _) r2
      (by decide),
    missing_key_error example_libc (ascii " \x7b 1:2\x7d") (ascii "\x7b 1:2\x7d") _
      (Reaches.here _) s1 (by decide),
    missing_key_error example_libc (ascii "[\x7b\"a\":1 , \x7d]") (ascii "\x7b\"a\":1 , \x7d]") _
      (Reaches.element a1 (Reaches.here _)) n3 (by decide)⟩

/-! ## Numbers with a leading zero -/

theorem number_scan_zero_digit (d : Nat) (r : List Nat) (hd : ISDIGIT d = true) :
    lept_parse_number_scan (48 :: d :: r) = some (d :: r) ∧
    lept_parse_number_scan (45 :: 48 :: d :: r) = some (d :: r) := by
  simp only [ISDIGIT, Bool.and_eq_true, decide_eq_true_eq] at hd
  have h1 : ¬ d = 46 := by omega
  have h2 : ¬ (d = 101 ∨ d = 69) := by omega
  constructor <;>
    simp [number_scan_eq, scan_sign, scan_int, scan_frac, scan_exp, peek, h1, h2]

theorem parse_value_number (L : CDouble) (j : List Nat) (c : Nat) (hc : is_numchar c = true)
    (hj : peek j = c) :
    pure_parse_value L 1 j .null =
      some ((lept_parse_number L ⟨j, []⟩ .null).1, (lept_parse_number L ⟨j, []⟩ .null).2.1.json,
        (lept_parse_number L ⟨j, []⟩ .null).2.2) := by
  simp only [is_numchar, ISDIGIT, Bool.or_eq_true, Bool.and_eq_true, decide_eq_true_eq] at hc
  rw [pure_parse_value]
  simp only []
  rw [hj, if_neg (show ¬ c = 116 by omega), if_neg (show ¬ c = 102 by omega),
    if_neg (show ¬ c = 110 by omega), if_neg (show ¬ c = 34 by omega),
    if_neg (show ¬ c = 91 by omega), if_neg (show ¬ c = 123 by omega),
    if_neg (show ¬ c = 0 by omega)]

theorem lept_parse_leading_zero (L : CDouble) (j r : List Nat) (c d : Nat)
    (hc : is_numchar c = true) (hj : peek j = c) (hd : ISDIGIT d = true)
    (hs : lept_parse_number_scan j = some (d :: r)) :
    lept_parse L j =
      if strtod_too_big L j = true then some (LEPT_PARSE_NUMBER_TOO_BIG, .null)
      else some (LEPT_PARSE_ROOT_NOT_SINGULAR, .null) := by
  have hw : is_ws c = false := not_ws_of_not_delim (numchar_not_delim hc)
  have hjd : j.dropWhile is_ws = j := by
    cases j with
    | nil => rfl
    | cons a t =>
      rw [peek_cons] at hj
      rw [hj]
      exact dropWhile_ws_cons _ hw
  have hv := parse_value_number L j c hc hj
  have hd0 : ¬ d = 0 := by
    simp only [ISDIGIT, Bool.and_eq_true, decide_eq_true_eq] at hd
    omega
  have hdw : is_ws d = false := by
    simp only [ISDIGIT, Bool.and_eq_true, decide_eq_true_eq] at hd
    simp only [is_ws, Bool.or_eq_false_iff, decide_eq_false_iff_not]
    omega
  rw [← hjd] at hv
  rw [lept_parse_eq, pure_parse_of_value L hv, hjd]
  unfold lept_parse_number strtod_too_big
  simp only [hs]
  by_cases hb : ((L.strtod j).2 &&
      (L.eq (L.strtod j).1 L.HUGE_VAL || L.eq (L.strtod j).1 (L.neg L.HUGE_VAL))) = true
  · rw [if_pos hb, if_pos hb]
    rfl
  · rw [if_neg hb, if_neg hb]
    simp only [if_true, dropWhile_ws_cons r hdw, peek_cons, ne_eq, hd0, not_false_eq_true]

theorem lept_parse_invalid_number (L : CDouble) (t : List Nat)
    (h1 : peek (t.dropWhile is_ws) ∉ [116, 102, 110, 34, 91, 123, 0])
    (h2 : lept_parse_number_scan (t.dropWhile is_ws) = none) :
    lept_parse L t = some (LEPT_PARSE_INVALID_VALUE, .null) := by
  have hv : pure_parse_value L 1 (t.dropWhile is_ws) .null =
      some (LEPT_PARSE_INVALID_VALUE, t.dropWhile is_ws, .null) := by
    simp only [List.mem_cons, List.mem_singleton, not_or, List.not_mem_nil, or_false] at h1
    rw [pure_parse_value]
    simp only []
    rw [if_neg h1.1, if_neg h1.2.1, if_neg h1.2.2.1, if_neg h1.2.2.2.1, if_neg h1.2.2.2.2.1,
      if_neg h1.2.2.2.2.2.1, if_neg h1.2.2.2.2.2.2]
    unfold lept_parse_number
    simp only [h2]
  rw [lept_parse_eq, pure_parse_of_value L hv]
  rfl

/-- Claim C12, as stated, fails. On the texts `0123` and `-012` the walk of
`lept_parse_number` ends after the `0`, the number is accepted, and `lept_parse` finds the
further digits after the value: it returns `LEPT_PARSE_ROOT_NOT_SINGULAR`, not
`LEPT_PARSE_INVALID_VALUE`. On the text `[0123]` the code is
`LEPT_PARSE_MISS_COMMA_OR_SQUARE_BRACKET`, not `LEPT_PARSE_INVALID_VALUE` either. -/
theorem leading_zero_not_invalid_value :
    lept_parse example_libc (ascii "0123") = some (LEPT_PARSE_ROOT_NOT_SINGULAR, .null) ∧
    lept_parse example_libc (ascii "-012") = some (LEPT_PARSE_ROOT_NOT_SINGULAR, .null) ∧
    lept_parse example_libc (ascii "[0123]") =
      some (LEPT_PARSE_MISS_COMMA_OR_SQUARE_BRACKET, .null) :=
  ⟨rfl, rfl, rfl⟩

/-- Claim C12, amended. For every text that starts with `0` or `-0` followed directly by a
digit, `lept_parse` returns `LEPT_PARSE_ROOT_NOT_SINGULAR`, unless `strtod` reports an overflow
on the text (`errno` is `ERANGE` and the result is `HUGE_VAL` or `-HUGE_VAL`), in which case it
returns `LEPT_PARSE_NUMBER_TOO_BIG`; the value is null. `lept_parse` returns
`LEPT_PARSE_INVALID_VALUE`, with a null value, for every text that starts, after whitespace,
with a byte that opens no other kind of value and on which the walk over
`["-"] int [frac] [exp]` fails. -/
theorem leading_zero_result (L : CDouble) :
    (∀ (d : Nat) (r : List Nat), ISDIGIT d = true →
      lept_parse L (48 :: d :: r) =
        (if strtod_too_big L (48 :: d :: r) = true then some (LEPT_PARSE_NUMBER_TOO_BIG, .null)
        else some (LEPT_PARSE_ROOT_NOT_SINGULAR, .null)) ∧
      lept_parse L (45 :: 48 :: d :: r) =
        (if strtod_too_big L (45 :: 48 :: d :: r) = true then
          some (LEPT_PARSE_NUMBER_TOO_BIG, .null)
        else some (LEPT_PARSE_ROOT_NOT_SINGULAR, .null))) ∧
    (∀ t : List Nat, peek (t.dropWhile is_ws) ∉ [116, 102, 110, 34, 91, 123, 0] →
      lept_parse_number_scan (t.dropWhile is_ws) = none →
      lept_parse L t = some (LEPT_PARSE_INVALID_VALUE, .null)) :=
  ⟨fun d r hd =>
    ⟨lept_parse_leading_zero L _ r 48 d (by decide) rfl hd (number_scan_zero_digit d r hd).1,
      lept_parse_leading_zero L _ r 45 d (by decide) rfl hd (number_scan_zero_digit d r hd).2⟩,
    lept_parse_invalid_number L⟩

/-- The texts `0123` and `-012`, and the texts `+1`, `.5`, `1.` and `1e`, by C12. -/
theorem leading_zero_result_witness :
    (lept_parse example_libc (ascii "0123") = some (LEPT_PARSE_ROOT_NOT_SINGULAR, .null) ∧
      lept_parse example_libc (ascii "-012") = some (LEPT_PARSE_ROOT_NOT_SINGULAR, .null)) ∧
    lept_parse example_libc (ascii " +1") = some (LEPT_PARSE_INVALID_VALUE, .null) ∧
    lept_parse example_libc (ascii ".5") = some (LEPT_PARSE_INVALID_VALUE, .null) ∧
    lept_parse example_libc (ascii "1.") = some (LEPT_PARSE_INVALID_VALUE, .null) ∧
    lept_parse example_libc (ascii "1e") = some (LEPT_PARSE_INVALID_VALUE, .null) :=
  ⟨⟨((leading_zero_result example_libc).1 49 (ascii "23") (by decide)).1,
      ((leading_zero_result example_libc).1 49 (ascii "2") (by decide)).2⟩,
    (leading_zero_result example_libc).2 (ascii " +1") (by decide) rfl,
    (leading_zero_result example_libc).2 (ascii ".5") (by decide) rfl,
    (leading_zero_result example_libc).2 (ascii "1.") (by decide) rfl,
    (leading_zero_result example_libc).2 (ascii "1e") (by decide) rfl⟩

/-! ## String escaping -/

theorem stringify_string_char_eq_spec (b : Nat) : lept_stringify_string_char b = escape_spec b := by
  by_cases h : b < 0x20
  · have key : ∀ n : Fin 32, lept_stringify_string_char n.1 = escape_spec n.1 := by decide
    exact key ⟨b, h⟩
  · unfold lept_stringify_string_char escape_spec
    rw [if_neg h, if_neg h]

theorem render_string_eq_spec (s : List Nat) : render_string s = quoted_spec s := by
  have h : lept_stringify_string_char = escape_spec := funext stringify_string_char_eq_spec
  simp [render_string, render_chars, quoted_spec, h]

/-- Claim C14. For every byte sequence `s` and every buffer, `lept_stringify_string` leaves on
the buffer, after what it held, a `"`, then for each byte of `s` in order `\"` for `0x22`, `\\`
for `0x5C`, `\b`, `\f`, `\n`, `\r`, `\t` for `0x08`, `0x0C`, `0x0A`, `0x0D`, `0x09`, `\u00XX`
with the two upper-case hexadecimal digits of the byte for every other byte below `0x20`, and
the byte itself for every other byte, then a `"`. In particular `/`, `0x7F` and every byte from
`0x80` on are written unchanged. -/
theorem string_escaping (c : lept_context) (s : List Nat) :
    lept_stringify_string c s s.length = PUTS c ([34] ++ s.flatMap escape_spec ++ [34]) ∧
    escape_spec 0x2F = [0x2F] ∧ escape_spec 0x7F = [0x7F] ∧
    (∀ b, 0x80 ≤ b → escape_spec b = [b]) ∧
    escape_spec 0x1F = ascii "\\u001F" ∧ escape_spec 0x0B = ascii "\\u000B" ∧
    escape_spec 0 = ascii "\\u0000" := by
  refine ⟨?_, rfl, rfl, ?_, rfl, rfl, rfl⟩
  · rw [stringify_string_eq, render_string_eq_spec]
    rfl
  · intro b hb
    unfold escape_spec
    rw [if_neg (show ¬ b = 0x22 by omega), if_neg (show ¬ b = 0x5C by omega),
      if_neg (show ¬ b = 0x08 by omega), if_neg (show ¬ b = 0x0C by omega),
      if_neg (show ¬ b = 0x0A by omega), if_neg (show ¬ b = 0x0D by omega),
      if_neg (show ¬ b = 0x09 by omega), if_neg (show ¬ b < 0x20 by omega)]

/-- A string with a plain byte, `/`, the escapes of `"`, `\`, line feed and `0x01`, and the
byte `0x7F`; and the byte `0xE9`, by C14. -/
theorem string_escaping_witness :
    lept_stringify_string ⟨[], []⟩ (ascii "a/\"\\\n\x01\x7f") 7 =
      PUTS ⟨[], []⟩ (ascii "\"a/\\\"\\\\\\n\\u0001\x7f\"") ∧
    escape_spec 0xE9 = [0xE9] :=
  ⟨(string_escaping ⟨[], []⟩ (ascii "a/\"\\\n\x01\x7f")).1,
    (string_escaping ⟨[], []⟩ []).2.2.2.1 0xE9 (by decide)⟩

/-! ## Compact rendering -/

theorem join_comma_cons (x : List Nat) (xs : List (List Nat)) :
    join_comma (x :: xs) = x ++ xs.flatMap (fun y => 44 :: y) := by
  induction xs generalizing x with
  | nil => simp [join_comma]
  | cons y r ih => rw [join_comma, ih y]; simp

theorem mem_join_comma {b : Nat} : ∀ {xs : List (List Nat)}, b ∈ join_comma xs →
    b = 44 ∨ ∃ x ∈ xs, b ∈ x
  | [], h => by simp [join_comma] at h
  | x :: xs, h => by
    rw [join_comma_cons] at h
    simp only [List.mem_append, List.mem_flatMap, List.mem_cons] at h
    rcases h with h | ⟨y, hy, h | h⟩
    · exact Or.inr ⟨x, List.mem_cons_self _ _, h⟩
    · exact Or.inl h
    · exact Or.inr ⟨y, List.mem_cons_of_mem _ hy, h⟩

mutual
theorem render_eq_reference (L : CDouble) : ∀ v : lept_value,
    render L v = reference_rendering L v
  | .null => rfl
  | .jfalse => rfl
  | .jtrue => rfl
  | .number _ => rfl
  | .string s => by
    rw [render, render_string_eq_spec]
    rfl
  | .array e c => by
    unfold reference_rendering
    rw [render, reference_with]
    cases e with
    | nil => rfl
    | cons x xs =>
      rw [render_array_loop, reference_elements, join_comma_cons,
        render_eq_reference L x, render_array_loop_eq_reference L xs 0]
      simp [reference_rendering]
  | .object m c => by
    unfold reference_rendering
    rw [render, reference_with]
    cases m with
    | nil => rfl
    | cons a ms =>
      obtain ⟨k, x⟩ := a
      rw [render_object_loop, reference_members, join_comma_cons,
        render_eq_reference L x, render_object_loop_eq_reference L ms 0,
        render_string_eq_spec]
      simp [reference_rendering]
theorem render_array_loop_eq_reference (L : CDouble) : ∀ (e : List lept_value) (i : Nat),
    render_array_loop L (i + 1) e =
      (reference_elements L.sprintf_17g quoted_spec e).flatMap (fun y => 44 :: y)
  | [], _ => rfl
  | x :: xs, i => by
    rw [render_array_loop, reference_elements, render_eq_reference L x,
      render_array_loop_eq_reference L xs (i + 1)]
    simp [reference_rendering]
theorem render_object_loop_eq_reference (L : CDouble) : ∀ (m : List lept_member) (i : Nat),
    render_object_loop L (i + 1) m =
      (reference_members L.sprintf_17g quoted_spec m).flatMap (fun y => 44 :: y)
  | [], _ => rfl
  | .mk k x :: ms, i => by
    rw [render_object_loop, reference_members, render_eq_reference L x,
      render_object_loop_eq_reference L ms (i + 1), render_string_eq_spec]
    simp [reference_rendering]
end

mutual
theorem skeleton_no_ws : ∀ (v : lept_value) (b : Nat), b ∈ reference_skeleton v → is_ws b = false
  | .null, b, h => by
    simp only [reference_skeleton, reference_with, List.mem_cons, List.mem_singleton,
      List.not_mem_nil, or_false] at h
    rcases h with h | h | h | h <;> rw [h] <;> rfl
  | .jfalse, b, h => by
    simp only [reference_skeleton, reference_with, List.mem_cons, List.mem_singleton,
      List.not_mem_nil, or_false] at h
    rcases h with h | h | h | h | h <;> rw [h] <;> rfl
  | .jtrue, b, h => by
    simp only [reference_skeleton, reference_with, List.mem_cons, List.mem_singleton,
      List.not_mem_nil, or_false] at h
    rcases h with h | h | h | h <;> rw [h] <;> rfl
  | .number _, b, h => by
    simp [reference_skeleton, reference_with] at h
  | .string _, b, h => by
    simp only [reference_skeleton, reference_with, List.mem_cons, List.mem_singleton,
      List.not_mem_nil, or_false, or_self] at h
    rw [h]; rfl
  | .array e c, b, h => by
    simp only [reference_skeleton, reference_with, List.mem_append, List.mem_singleton] at h
    rcases h with (h | h) | h
    · rw [h]; rfl
    · rcases mem_join_comma h with h | ⟨x, hx, hb⟩
      · rw [h]; rfl
      · exact skeleton_elements_no_ws e x hx b hb
    · rw [h]; rfl
  | .object m c, b, h => by
    simp only [reference_skeleton, reference_with, List.mem_append, List.mem_singleton] at h
    rcases h with (h | h) | h
    · rw [h]; rfl
    · rcases mem_join_comma h with h | ⟨x, hx, hb⟩
      · rw [h]; rfl
      · exact skeleton_members_no_ws m x hx b hb
    · rw [h]; rfl
theorem skeleton_elements_no_ws : ∀ (e : List lept_value) (x : List Nat),
    x ∈ reference_elements (fun _ => []) (fun _ => [34, 34]) e → ∀ b ∈ x, is_ws b = false
  | [], x, h => by simp [reference_elements] at h
  | y :: ys, x, h => by
    rw [reference_elements] at h
    rcases List.mem_cons.mp h with h | h
    · intro b hb
      rw [h] at hb
      exact skeleton_no_ws y b hb
    · exact skeleton_elements_no_ws ys x h
theorem skeleton_members_no_ws : ∀ (m : List lept_member) (x : List Nat),
    x ∈ reference_members (fun _ => []) (fun _ => [34, 34]) m → ∀ b ∈ x, is_ws b = false
  | [], x, h => by simp [reference_members] at h
  | .mk k y :: ys, x, h => by
    rw [reference_members] at h
    rcases List.mem_cons.mp h with h | h
    · intro b hb
      rw [h] at hb
      simp only [List.mem_append, List.mem_cons, List.mem_singleton, List.not_mem_nil,
        or_false, or_self] at hb
      rcases hb with (hb | hb) | hb
      · rw [hb]; rfl
      · rw [hb]; rfl
      · exact skeleton_no_ws y b hb
    · exact skeleton_members_no_ws ys x h
end

/-- Claim C13. For every value `v`, the text of `lept_stringify(v)` is the reference rendering
defined by recursion: `null`, `true`, `false`, the text of a number, the escaped quoted string,
`[` and `]` around the renderings of the elements in index order joined by `,`, and the braces
around the members in index order joined by `,`, a member being the escaped quoted key, `:`
and the rendering of its value. The returned buffer is that text and a terminating NUL, and the
reported length is the number of bytes of the text. The bytes written outside the texts of
numbers and the payloads of strings include no whitespace byte. -/
theorem compact_rendering (L : CDouble) (v : lept_value) :
    lept_stringify L v = reference_rendering L v ∧
    lept_stringify_buffer L v = reference_rendering L v ++ [0] ∧
    lept_stringify_length L v = (reference_rendering L v).length ∧
    ∀ b ∈ reference_skeleton v, is_ws b = false := by
  refine ⟨?_, ?_, ?_, skeleton_no_ws v⟩
  · rw [lept_stringify_eq, render_eq_reference]
  · unfold lept_stringify_buffer
    rw [stringify_value_eq, render_eq_reference]
    simp [PUTC, PUTS, lept_context_push, toByte_comp_byte, Slot.toByte]
  · unfold lept_stringify_length
    rw [stringify_value_eq, render_eq_reference]
    simp [PUTS, lept_context.top]

/-- An object with a number, a string with a space and an array of the three literals, by
C13: the text, its length, and a byte written outside numbers and payloads. -/
theorem compact_rendering_witness :
    lept_stringify example_libc
        (.object [.mk (ascii "a b") (.number ⟨0x3FF0000000000000⟩),
          .mk (ascii "c") (.array [.null, .jtrue, .jfalse, .string (ascii " ")] 8)] 4) =
      ascii "\x7b\"a b\":1,\"c\":[null,true,false,\" \"]\x7d" ∧
    lept_stringify_length example_libc
        (.object [.mk (ascii "a b") (.number ⟨0x3FF0000000000000⟩),
          .mk (ascii "c") (.array [.null, .jtrue, .jfalse, .string (ascii " ")] 8)] 4) = 35 ∧
    is_ws 58 = false :=
  ⟨(compact_rendering example_libc _).1, (compact_rendering example_libc _).2.2.1,
    (compact_rendering example_libc
      (.object [.mk (ascii "a b") (.number ⟨0x3FF0000000000000⟩),
        .mk (ascii "c") (.array [.null, .jtrue, .jfalse, .string (ascii " ")] 8)] 4)).2.2.2
      58 (by decide)⟩

/-! ## Object lookup -/

theorem key_test_iff (key : List Nat) (klen : Nat) (x : lept_member) :
    (x.klen = klen ∧ memcmp_eq x.k key klen = true) ↔ KeyMatches key klen x := by
  obtain ⟨k, v⟩ := x
  simp only [lept_member.klen, lept_member.k, memcmp_eq, decide_eq_true_eq, KeyMatches]
  constructor
  · rintro ⟨h1, h2⟩
    rw [← h1, List.take_length] at h2
    exact ⟨h1, by rw [← h1]; exact h2⟩
  · rintro ⟨h1, h2⟩
    refine ⟨h1, ?_⟩
    rw [← h1, List.take_length]
    rw [← h1] at h2
    exact h2

theorem find_object_index_loop_none (key : List Nat) (klen : Nat) :
    ∀ (ms : List lept_member) (i : Nat), (∀ x ∈ ms, ¬ KeyMatches key klen x) →
      lept_find_object_index_loop key klen i ms = LEPT_KEY_NOT_EXIST := by
  intro ms
  induction ms with
  | nil => intro i _; rfl
  | cons a ms ih =>
    intro i h
    rw [lept_find_object_index_loop,
      if_neg (fun hc => h a (List.mem_cons_self _ _) ((key_test_iff key klen a).mp hc))]
    exact ih (i + 1) (fun x hx => h x (List.mem_cons_of_mem _ hx))

theorem find_object_index_loop_some (key : List Nat) (klen : Nat) :
    ∀ (ms : List lept_member) (i : Nat), (∃ x ∈ ms, KeyMatches key klen x) →
      ∃ n, n < ms.length ∧ lept_find_object_index_loop key klen i ms = i + n ∧
        KeyMatches key klen (member_at ms n) ∧
        ∀ j, j < n → ¬ KeyMatches key klen (member_at ms j) := by
  intro ms
  induction ms with
  | nil => intro i h; obtain ⟨x, hx, _⟩ := h; cases hx
  | cons a ms ih =>
    intro i h
    by_cases ha : KeyMatches key klen a
    · refine ⟨0, by simp, ?_, ha, fun j hj => absurd hj (Nat.not_lt_zero j)⟩
      rw [lept_find_object_index_loop, if_pos ((key_test_iff key klen a).mpr ha)]
      rfl
    · have h2 : ∃ x ∈ ms, KeyMatches key klen x := by
        obtain ⟨x, hx, hp⟩ := h
        rcases List.mem_cons.mp hx with hx | hx
        · rw [hx] at hp; exact absurd hp ha
        · exact ⟨x, hx, hp⟩
      obtain ⟨n, hn, hl, hp, hj⟩ := ih (i + 1) h2
      refine ⟨n + 1, by simp [hn], ?_, hp, ?_⟩
      · rw [lept_find_object_index_loop,
          if_neg (fun hc => ha ((key_test_iff key klen a).mp hc)), hl]
        omega
      · intro j hjn
        cases j with
        | zero => exact ha
        | succ j => exact hj j (by omega)

theorem member_at_mem {m : List lept_member} {n : Nat} (h : n < m.length) :
    member_at m n ∈ m := by
  unfold member_at
  rw [List.getD_eq_getElem _ _ h]
  exact List.getElem_mem h

/-- Claim C18. For every object (of a size that a `size_t` holds) and every key given by its
bytes and length: if some member has that length and those bytes, `lept_find_object_index`
returns the smallest index of such a member, which is below the size, and
`lept_find_object_value` returns the value of that member; if no member has, the index is
`LEPT_KEY_NOT_EXIST` and there is no value. `LEPT_KEY_NOT_EXIST`, which is `2 ^ 64 - 1`, is
returned exactly when no member has the key. Keys are compared in full, zero bytes
included. -/
theorem object_lookup (m : List lept_member) (key : List Nat) (klen : Nat)
    (hm : m.length < 2 ^ 64) :
    ((∃ x ∈ m, KeyMatches key klen x) →
      lept_find_object_index m key klen < m.length ∧
      KeyMatches key klen (member_at m (lept_find_object_index m key klen)) ∧
      (∀ j, j < lept_find_object_index m key klen → ¬ KeyMatches key klen (member_at m j)) ∧
      lept_find_object_value m key klen =
        some (member_at m (lept_find_object_index m key klen)).v) ∧
    ((¬ ∃ x ∈ m, KeyMatches key klen x) →
      lept_find_object_index m key klen = LEPT_KEY_NOT_EXIST ∧
      lept_find_object_value m key klen = none) ∧
    (lept_find_object_index m key klen = LEPT_KEY_NOT_EXIST ↔
      ¬ ∃ x ∈ m, KeyMatches key klen x) ∧
    LEPT_KEY_NOT_EXIST = 2 ^ 64 - 1 := by
  have hsome : (∃ x ∈ m, KeyMatches key klen x) →
      lept_find_object_index m key klen < m.length ∧
      KeyMatches key klen (member_at m (lept_find_object_index m key klen)) ∧
      (∀ j, j < lept_find_object_index m key klen → ¬ KeyMatches key klen (member_at m j)) := by
    intro h
    obtain ⟨n, hn, hl, hp, hj⟩ := find_object_index_loop_some key klen m 0 h
    rw [Nat.zero_add] at hl
    unfold lept_find_object_index
    rw [hl]
    exact ⟨hn, hp, hj⟩
  have hnone : (¬ ∃ x ∈ m, KeyMatches key klen x) →
      lept_find_object_index m key klen = LEPT_KEY_NOT_EXIST := by
    intro h
    exact find_object_index_loop_none key klen m 0 (fun x hx hp => h ⟨x, hx, hp⟩)
  have hne : (∃ x ∈ m, KeyMatches key klen x) →
      lept_find_object_index m key klen ≠ LEPT_KEY_NOT_EXIST := by
    intro h
    have := (hsome h).1
    unfold LEPT_KEY_NOT_EXIST
    omega
  refine ⟨fun h => ⟨(hsome h).1, (hsome h).2.1, (hsome h).2.2, ?_⟩, fun h => ⟨hnone h, ?_⟩,
    ⟨fun h hex => hne hex h, hnone⟩, rfl⟩
  · unfold lept_find_object_value
    simp only []
    rw [if_pos (hne h)]
  · unfold lept_find_object_value
    simp only []
    rw [if_neg (fun hc => hc (hnone h))]

/-- An object with the key `a` twice and a key with a zero byte, by C18: the first `a` is
found, the key `b\0c` is found in full, and `b` alone is not a key. -/
theorem object_lookup_witness :
    (lept_find_object_index
        [.mk (ascii "a") .jtrue, .mk [98, 0, 99] .null, .mk (ascii "a") .jfalse]
        (ascii "ab") 1 < 3 ∧
      KeyMatches (ascii "ab") 1 (member_at
        [.mk (ascii "a") .jtrue, .mk [98, 0, 99] .null, .mk (ascii "a") .jfalse]
        (lept_find_object_index
          [.mk (ascii "a") .jtrue, .mk [98, 0, 99] .null, .mk (ascii "a") .jfalse]
          (ascii "ab") 1)) ∧
      (∀ j, j < lept_find_object_index
          [.mk (ascii "a") .jtrue, .mk [98, 0, 99] .null, .mk (ascii "a") .jfalse]
          (ascii "ab") 1 →
        ¬ KeyMatches (ascii "ab") 1 (member_at
          [.mk (ascii "a") .jtrue, .mk [98, 0, 99] .null, .mk (ascii "a") .jfalse] j)) ∧
      lept_find_object_value
          [.mk (ascii "a") .jtrue, .mk [98, 0, 99] .null, .mk (ascii "a") .jfalse]
          (ascii "ab") 1 = some .jtrue) ∧
    (lept_find_object_index
        [.mk (ascii "a") .jtrue, .mk [98, 0, 99] .null, .mk (ascii "a") .jfalse]
        [98, 0, 99] 3 = 1) ∧
    (lept_find_object_index
        [.mk (ascii "a") .jtrue, .mk [98, 0, 99] .null, .mk (ascii "a") .jfalse]
        [98, 0, 99] 1 = LEPT_KEY_NOT_EXIST ∧
      lept_find_object_value
        [.mk (ascii "a") .jtrue, .mk [98, 0, 99] .null, .mk (ascii "a") .jfalse]
        [98, 0, 99] 1 = none) :=
  ⟨(object_lookup [.mk (ascii "a") .jtrue, .mk [98, 0, 99] .null, .mk (ascii "a") .jfalse]
      (ascii "ab") 1 (by decide)).1 ⟨.mk (ascii "a") .jtrue, by simp, rfl, rfl⟩,
    rfl,
    (object_lookup [.mk (ascii "a") .jtrue, .mk [98, 0, 99] .null, .mk (ascii "a") .jfalse]
      [98, 0, 99] 1 (by decide)).2.1 (by
        rintro ⟨x, hx, h1, h2⟩
        simp only [List.mem_cons, List.mem_singleton, List.not_mem_nil, or_false] at hx
        rcases hx with hx | hx | hx <;> rw [hx] at h2 <;> revert h2 <;> decide)⟩

/-! ## Upsert -/

theorem store_slot_length {α : Type} (m : List α) (x : α) : store_slot m m.length x = m ++ [x] := by
  simp [store_slot]

theorem double_capacity {c : Nat} (hc : c < 2 ^ 63) :
    (if c = 0 then 1 else (c <<< 1) % 2 ^ 64) = max 1 (2 * c) ∧
    (if c = 0 then 1 else c * 2 % 2 ^ 64) = max 1 (2 * c) ∧ c < max 1 (2 * c) := by
  by_cases h : c = 0
  · subst h; decide
  · simp only [if_neg h, Nat.shiftLeft_eq, pow_one]
    rw [Nat.mod_eq_of_lt (by omega)]
    omega

/-- The index that `lept_find_object_index` returns: the smallest index of a member with the
key, and `LEPT_KEY_NOT_EXIST` exactly when there is none. -/
theorem object_lookup_core (m : List lept_member) (key : List Nat) (klen : Nat)
    (hm : m.length < 2 ^ 64) :
    ((∃ x ∈ m, KeyMatches key klen x) →
      lept_find_object_index m key klen < m.length ∧
      KeyMatches key klen (member_at m (lept_find_object_index m key klen)) ∧
      (∀ j, j < lept_find_object_index m key klen → ¬ KeyMatches key klen (member_at m j))) ∧
    ((¬ ∃ x ∈ m, KeyMatches key klen x) →
      lept_find_object_index m key klen = LEPT_KEY_NOT_EXIST) ∧
    (lept_find_object_index m key klen = LEPT_KEY_NOT_EXIST ↔
      ¬ ∃ x ∈ m, KeyMatches key klen x) := by
  have hsome : (∃ x ∈ m, KeyMatches key klen x) →
      lept_find_object_index m key klen < m.length ∧
      KeyMatches key klen (member_at m (lept_find_object_index m key klen)) ∧
      (∀ j, j < lept_find_object_index m key klen → ¬ KeyMatches key klen (member_at m j)) := by
    intro h
    obtain ⟨n, hn, hl, hp, hj⟩ := find_object_index_loop_some key klen m 0 h
    rw [Nat.zero_add] at hl
    unfold lept_find_object_index
    rw [hl]
    exact ⟨hn, hp, hj⟩
  have hnone : (¬ ∃ x ∈ m, KeyMatches key klen x) →
      lept_find_object_index m key klen = LEPT_KEY_NOT_EXIST := by
    intro h
    exact find_object_index_loop_none key klen m 0 (fun x hx hp => h ⟨x, hx, hp⟩)
  refine ⟨hsome, hnone, ⟨fun h hex => ?_, hnone⟩⟩
  have := (hsome hex).1
  rw [h] at this
  unfold LEPT_KEY_NOT_EXIST at this
  omega

theorem set_object_value_present (m : List lept_member) (c : Nat) (key : List Nat) (klen : Nat)
    (h : lept_find_object_index m key klen ≠ LEPT_KEY_NOT_EXIST) :
    lept_set_object_value (.object m c) key klen =
      some (.object m c, lept_find_object_index m key klen) := by
  unfold lept_set_object_value
  simp only []
  rw [if_pos h]

theorem set_object_value_absent (m : List lept_member) (c : Nat) (key : List Nat) (klen : Nat)
    (hm : m.length ≤ c) (hs : m.length * sizeof_lept_member < 2 ^ 63) (hk : klen ≤ key.length)
    (h : lept_find_object_index m key klen = LEPT_KEY_NOT_EXIST) :
    lept_set_object_value (.object m c) key klen =
      some (.object (m ++ [.mk (key.take klen) .null])
        (if m.length = c then max 1 (2 * c) else c), m.length) := by
  unfold lept_set_object_value
  simp only []
  rw [if_neg (fun hn => hn h)]
  by_cases hf : m.length = c
  · have hc : c < 2 ^ 63 := by
      unfold sizeof_lept_member at hs
      omega
    have hr : lept_reserve_object (.object m c) (max 1 (2 * c)) =
        some (.object m (max 1 (2 * c))) := by
      show (if c < max 1 (2 * c) then _ else _) = _
      rw [if_pos (double_capacity hc).2.2, if_neg (no_wrap (by
        unfold sizeof_lept_member at hs ⊢
        omega))]
    rw [if_pos hf, if_pos hf, (double_capacity hc).1, hr]
    simp only []
    rw [if_pos ⟨by rw [hf]; exact (double_capacity hc).2.2, hk⟩, store_slot_length]
  · rw [if_neg hf, if_neg hf]
    simp only []
    rw [if_pos ⟨by omega, hk⟩, store_slot_length]

/-- Claim C19. For every object with `size <= capacity`, members that take less than `2 ^ 63`
bytes (so that the byte count of twice as many does not wrap in `size_t`) and every
key of `klen` readable bytes: if a member has the key, `lept_set_object_value` returns the value
of the first such member and leaves size, capacity and members as they are; otherwise the
members are followed by a new last member with the `klen` bytes of the key and a null value,
which is the one returned, and the capacity is `max(1, 2 * capacity)` when the object was full
and is unchanged when it was not. An object whose keys are pairwise distinct has pairwise
distinct keys after the call. -/
theorem upsert (m : List lept_member) (c : Nat) (key : List Nat) (klen : Nat)
    (hm : m.length ≤ c) (hs : m.length * sizeof_lept_member < 2 ^ 63) (hk : klen ≤ key.length) :
    ((∃ x ∈ m, KeyMatches key klen x) →
      lept_set_object_value (.object m c) key klen =
        some (.object m c, lept_find_object_index m key klen) ∧
      lept_find_object_index m key klen < m.length ∧
      KeyMatches key klen (member_at m (lept_find_object_index m key klen)) ∧
      ∀ j, j < lept_find_object_index m key klen → ¬ KeyMatches key klen (member_at m j)) ∧
    ((¬ ∃ x ∈ m, KeyMatches key klen x) →
      lept_set_object_value (.object m c) key klen =
        some (.object (m ++ [.mk (key.take klen) .null])
          (if m.length = c then max 1 (2 * c) else c), m.length)) ∧
    ((m.map lept_member.k).Nodup →
      ∃ m2 c2 i, lept_set_object_value (.object m c) key klen = some (.object m2 c2, i) ∧
        (m2.map lept_member.k).Nodup) := by
  have hlen : m.length < 2 ^ 64 := by
    unfold sizeof_lept_member at hs
    omega
  have hl := object_lookup_core m key klen hlen
  have h1 : (∃ x ∈ m, KeyMatches key klen x) →
      lept_set_object_value (.object m c) key klen =
        some (.object m c, lept_find_object_index m key klen) :=
    fun h => set_object_value_present m c key klen (fun hn => (hl.2.2.mp hn) h)
  have h2 : (¬ ∃ x ∈ m, KeyMatches key klen x) →
      lept_set_object_value (.object m c) key klen =
        some (.object (m ++ [.mk (key.take klen) .null])
          (if m.length = c then max 1 (2 * c) else c), m.length) :=
    fun h => set_object_value_absent m c key klen hm hs hk (hl.2.1 h)
  refine ⟨fun h => ⟨h1 h, (hl.1 h).1, (hl.1 h).2.1, (hl.1 h).2.2⟩, h2, fun hnd => ?_⟩
  by_cases h : ∃ x ∈ m, KeyMatches key klen x
  · exact ⟨m, c, _, h1 h, hnd⟩
  · refine ⟨_, _, _, h2 h, ?_⟩
    rw [List.map_append, List.nodup_append]
    refine ⟨hnd, List.nodup_singleton _, ?_⟩
    intro a ha hb
    simp only [List.map_cons, List.map_nil, List.mem_singleton, lept_member.k] at hb
    obtain ⟨x, hx, hxa⟩ := List.mem_map.mp ha
    apply h
    refine ⟨x, hx, ?_, by rw [hxa, hb]⟩
    obtain ⟨k, v⟩ := x
    simp only [lept_member.k] at hxa
    simp only [lept_member.klen, hxa, hb, List.length_take]
    omega

/-- A full object of one member, by C19: the key that is present, a key that is new (the
capacity doubles), and a new key in an object with room left. -/
theorem upsert_witness :
    lept_set_object_value (.object [.mk (ascii "a") .jtrue] 1) (ascii "a") 1 =
      some (.object [.mk (ascii "a") .jtrue] 1, 0) ∧
    lept_set_object_value (.object [.mk (ascii "a") .jtrue] 1) (ascii "bcd") 2 =
      some (.object [.mk (ascii "a") .jtrue, .mk (ascii "bc") .null] 2, 1) ∧
    lept_set_object_value (.object [] 0) (ascii "k") 1 =
      some (.object [.mk (ascii "k") .null] 1, 0) ∧
    lept_set_object_value (.object [.mk (ascii "a") .jtrue] 3) (ascii "") 0 =
      some (.object [.mk (ascii "a") .jtrue, .mk [] .null] 3, 1) :=
  ⟨((upsert [.mk (ascii "a") .jtrue] 1 (ascii "a") 1 (by decide) (by decide) (by decide)).1
      ⟨_, List.mem_cons_self _ _, rfl, rfl⟩).1,
    (upsert [.mk (ascii "a") .jtrue] 1 (ascii "bcd") 2 (by decide) (by decide) (by decide)).2.1
      (by rintro ⟨x, hx, h1, h2⟩; rw [List.mem_singleton.mp hx] at h1; revert h1; decide),
    (upsert [] 0 (ascii "k") 1 (by decide) (by decide) (by decide)).2.1
      (by rintro ⟨x, hx, _⟩; cases hx),
    (upsert [.mk (ascii "a") .jtrue] 3 (ascii "") 0 (by decide) (by decide) (by decide)).2.1
      (by rintro ⟨x, hx, h1, h2⟩; rw [List.mem_singleton.mp hx] at h1; revert h1; decide)⟩

/-! ## Array erase and insert -/

theorem memcpy_slots_overlap {α : Type} (e : List α) (dst src n : Nat)
    (h : n ≠ 0 ∧ dst < src + n ∧ src < dst + n) : memcpy_slots e dst src n = none := by
  unfold memcpy_slots
  rw [if_pos h]

theorem memcpy_slots_disjoint {α : Type} (e : List α) (dst src n : Nat)
    (h : ¬ (n ≠ 0 ∧ dst < src + n ∧ src < dst + n)) :
    memcpy_slots e dst src n = some (e.take dst ++ (e.drop src).take n ++ e.drop (dst + n)) := by
  unfold memcpy_slots
  rw [if_neg h]

theorem erase_slots_disjoint (e : List lept_value) (index count : Nat)
    (h : index + count ≤ e.length) (hd : e.length - index - count ≤ count) :
    lept_erase_array_element_slots e index count =
      some (e.take index ++ e.drop (index + count) ++ List.replicate count .null) := by
  unfold lept_erase_array_element_slots
  simp only []
  rw [memcpy_slots_disjoint _ _ _ _ (by omega)]
  simp only []
  have hA : (e.take index).length = index := by rw [List.length_take]; omega
  have hD : (e.drop (index + count)).length = e.length - index - count := by
    rw [List.length_drop]; omega
  have h1 : (e.take index ++ List.replicate count lept_value.null ++
      e.drop (index + count)).take index = e.take index := by
    rw [List.append_assoc]
    exact List.take_left' hA
  have h2 : (e.take index ++ List.replicate count lept_value.null ++
      e.drop (index + count)).drop (index + count) = e.drop (index + count) :=
    List.drop_left' (by rw [List.length_append, hA, List.length_replicate])
  have h3 : (e.drop (index + count)).take (e.length - index - count) = e.drop (index + count) :=
    List.take_of_length_le (by rw [hD])
  rw [h1, h2, h3, List.take_left' (by rw [List.length_append, hA, hD]; omega)]

theorem erase_array_element_disjoint (e : List lept_value) (c index count : Nat)
    (h : index + count ≤ e.length) (hd : e.length - index - count ≤ count) :
    lept_erase_array_element (.array e c) index count =
      some (.array (e.take index ++ e.drop (index + count)) c) := by
  rw [lept_erase_array_element, if_pos h]
  by_cases h0 : count = 0
  · rw [if_pos h0]
    subst h0
    have : e.drop index = [] := List.drop_eq_nil_of_le (by omega)
    have h2 : e.take index = e := List.take_of_length_le (by omega)
    simp [this, h2]
  · rw [if_neg h0, erase_slots_disjoint e index count h hd]
    simp only []
    have hA : (e.take index).length = index := by rw [List.length_take]; omega
    rw [List.take_left' (by rw [List.length_append, hA, List.length_drop]; omega)]

theorem erase_array_element_overlap (e : List lept_value) (c index count : Nat)
    (h : index + count ≤ e.length) (h0 : 0 < count) (hd : count < e.length - index - count) :
    lept_erase_array_element (.array e c) index count = none := by
  rw [lept_erase_array_element, if_pos h, if_neg (by omega)]
  unfold lept_erase_array_element_slots
  simp only []
  rw [memcpy_slots_overlap _ _ _ _ (by omega)]

/-- Claim C16, what the code does. With `index + count <= size`: if at most `count` elements
follow the erased ones, the two regions of the `memcpy` are disjoint and the array has the
elements `e[0 .. index)` followed by `e[index + count .. size)`, the size less `count`, the same
capacity, and `LEPT_NULL` in every slot from the new size up to the old size. If more than
`count` elements follow (and `count > 0`), `memcpy` is called on regions that overlap and the
behaviour is undefined. -/
theorem erase_array_element (e : List lept_value) (c index count : Nat)
    (h : index + count ≤ e.length) :
    (e.length - index - count ≤ count →
      lept_erase_array_element (.array e c) index count =
        some (.array (e.take index ++ e.drop (index + count)) c) ∧
      (e.take index ++ e.drop (index + count)).length = e.length - count ∧
      (0 < count → lept_erase_array_element_slots e index count =
        some (e.take index ++ e.drop (index + count) ++ List.replicate count .null))) ∧
    (0 < count → count < e.length - index - count →
      lept_erase_array_element (.array e c) index count = none) :=
  ⟨fun hd => ⟨erase_array_element_disjoint e c index count h hd, by
      rw [List.length_append, List.length_take, List.length_drop]; omega,
      fun _ => erase_slots_disjoint e index count h hd⟩,
    erase_array_element_overlap e c index count h⟩

/-- Erasing the last two of four elements, and the first of three, by C16. -/
theorem erase_array_element_witness :
    (lept_erase_array_element (.array [.jtrue, .jfalse, .string [97], .number ⟨0⟩] 6) 2 2 =
        some (.array [.jtrue, .jfalse] 6) ∧
      lept_erase_array_element_slots [.jtrue, .jfalse, .string [97], .number ⟨0⟩] 2 2 =
        some [.jtrue, .jfalse, .null, .null]) ∧
    lept_erase_array_element (.array [.jtrue, .jfalse, .string [97]] 3) 0 1 = none :=
  ⟨⟨((erase_array_element [.jtrue, .jfalse, .string [97], .number ⟨0⟩] 6 2 2 (by decide)).1
        (by decide)).1,
      ((erase_array_element [.jtrue, .jfalse, .string [97], .number ⟨0⟩] 6 2 2 (by decide)).1
        (by decide)).2.2 (by decide)⟩,
    (erase_array_element [.jtrue, .jfalse, .string [97]] 3 0 1 (by decide)).2 (by decide)
      (by decide)⟩

theorem array_room (e : List lept_value) (c : Nat) (hm : e.length ≤ c)
    (hs : e.length * sizeof_lept_value < 2 ^ 63) :
    (if e.length = c then
        lept_reserve_array (.array e c) (if c = 0 then 1 else c * 2 % 2 ^ 64)
      else some (.array e c)) =
      some (.array e (if e.length < c then c else max 1 (2 * c))) ∧
    e.length < (if e.length < c then c else max 1 (2 * c)) := by
  by_cases hf : e.length = c
  · have hc : c < 2 ^ 63 := by
      unfold sizeof_lept_value at hs
      omega
    have hr : lept_reserve_array (.array e c) (max 1 (2 * c)) =
        some (.array e (max 1 (2 * c))) := by
      show (if c < max 1 (2 * c) then _ else _) = _
      rw [if_pos (double_capacity hc).2.2, if_neg (no_wrap (by
        unfold sizeof_lept_value at hs ⊢
        omega))]
    rw [if_pos hf, (double_capacity hc).2.1, hr, if_neg (by omega)]
    exact ⟨rfl, by rw [hf]; exact (double_capacity hc).2.2⟩
  · rw [if_neg hf, if_pos (by omega)]
    exact ⟨rfl, by omega⟩

theorem insert_array_element_disjoint (e : List lept_value) (c index : Nat)
    (hm : e.length ≤ c) (hs : e.length * sizeof_lept_value < 2 ^ 63) (h : index ≤ e.length)
    (hd : e.length - index ≤ 1) :
    lept_insert_array_element (.array e c) index =
      some (.array (e.take index ++ .null :: e.drop index)
        (if e.length < c then c else max 1 (2 * c)), index) := by
  rw [lept_insert_array_element, if_pos h]
  simp only []
  rw [(array_room e c hm hs).1]
  simp only []
  rw [if_pos (array_room e c hm hs).2, memcpy_slots_disjoint _ _ _ _ (by omega)]
  simp only []
  have key : store_slot (e.take (index + 1) ++ (e.drop index).take (e.length - index) ++
      e.drop (index + 1 + (e.length - index))) index lept_value.null =
      e.take index ++ .null :: e.drop index := by
    have h3 : e.drop (index + 1 + (e.length - index)) = [] :=
      List.drop_eq_nil_of_le (by omega)
    have h4 : (e.drop index).take (e.length - index) = e.drop index :=
      List.take_of_length_le (by rw [List.length_drop])
    rw [h3, h4, List.append_nil]
    unfold store_slot
    by_cases hi : index = e.length
    · have h5 : e.drop index = [] := List.drop_eq_nil_of_le (by omega)
      have h6 : e.take (index + 1) = e := List.take_of_length_le (by omega)
      have h7 : e.take index = e := List.take_of_length_le (by omega)
      rw [h5, h6, List.append_nil, h7, List.drop_eq_nil_of_le (by omega)]
    · have hA : (e.take (index + 1)).length = index + 1 := by rw [List.length_take]; omega
      rw [List.drop_left' hA, List.take_append_of_le_length (by omega), List.take_take,
        Nat.min_eq_left (by omega)]
  rw [key]

theorem insert_array_element_overlap (e : List lept_value) (c index : Nat)
    (hm : e.length ≤ c) (hs : e.length * sizeof_lept_value < 2 ^ 63) (h : index ≤ e.length)
    (hd : 2 ≤ e.length - index) :
    lept_insert_array_element (.array e c) index = none := by
  rw [lept_insert_array_element, if_pos h]
  simp only []
  rw [(array_room e c hm hs).1]
  simp only []
  rw [if_pos (array_room e c hm hs).2, memcpy_slots_overlap _ _ _ _ (by omega)]

/-- Claim C17, what the code does. For an array with `size <= capacity`, elements that take
less than `2 ^ 63` bytes (so that the byte count of twice as many does not wrap in `size_t`)
and `index <= size`: if at most one element is at or after `index`, the array has the
elements `e[0 .. index)`, then `LEPT_NULL` at `index`, which is the element returned, then the
former elements from `index` on, one place further; the size is one more, and the capacity is
unchanged if `size < capacity` and `max(1, 2 * capacity)` otherwise. If two or more elements
are at or after `index`, `memcpy` is called on regions that overlap and the behaviour is
undefined. -/
theorem insert_array_element (e : List lept_value) (c index : Nat)
    (hm : e.length ≤ c) (hs : e.length * sizeof_lept_value < 2 ^ 63) (h : index ≤ e.length) :
    (e.length - index ≤ 1 →
      lept_insert_array_element (.array e c) index =
        some (.array (e.take index ++ .null :: e.drop index)
          (if e.length < c then c else max 1 (2 * c)), index) ∧
      (e.take index ++ lept_value.null :: e.drop index).length = e.length + 1) ∧
    (2 ≤ e.length - index → lept_insert_array_element (.array e c) index = none) :=
  ⟨fun hd => ⟨insert_array_element_disjoint e c index hm hs h hd, by
      rw [List.length_append, List.length_cons, List.length_take, List.length_drop]; omega⟩,
    insert_array_element_overlap e c index hm hs h⟩

/-- Inserting at the end and before the last element of a full array of two, and at the
front, by C17. -/
theorem insert_array_element_witness :
    lept_insert_array_element (.array [.jtrue, .jfalse] 2) 2 =
      some (.array [.jtrue, .jfalse, .null] 4, 2) ∧
    lept_insert_array_element (.array [.jtrue, .jfalse] 2) 1 =
      some (.array [.jtrue, .null, .jfalse] 4, 1) ∧
    lept_insert_array_element (.array [.jtrue, .jfalse] 2) 0 = none :=
  ⟨((insert_array_element [.jtrue, .jfalse] 2 2 (by decide) (by decide) (by decide)).1
      (by decide)).1,
    ((insert_array_element [.jtrue, .jfalse] 2 1 (by decide) (by decide) (by decide)).1
      (by decide)).1,
    (insert_array_element [.jtrue, .jfalse] 2 0 (by decide) (by decide) (by decide)).2
      (by decide)⟩

/-! ## The capacity invariant -/

theorem everywhere_array_of_mem {P : lept_value → Prop} : ∀ {e : List lept_value},
    (∀ x ∈ e, Everywhere P x) → EverywhereArray P e
  | [], _ => trivial
  | y :: ys, h => by
    rw [EverywhereArray]
    exact ⟨h y (List.mem_cons_self _ _),
      everywhere_array_of_mem (fun x hx => h x (List.mem_cons_of_mem _ hx))⟩

theorem everywhere_object_of_mem {P : lept_value → Prop} : ∀ {m : List lept_member},
    (∀ x ∈ m, Everywhere P x.v) → EverywhereObject P m
  | [], _ => trivial
  | .mk k y :: ys, h => by
    rw [EverywhereObject]
    exact ⟨h (.mk k y) (List.mem_cons_self _ _),
      everywhere_object_of_mem (fun x hx => h x (List.mem_cons_of_mem _ hx))⟩

theorem everywhere_array_iff {P : lept_value → Prop} (e : List lept_value) (c : Nat) :
    Everywhere P (.array e c) ↔ P (.array e c) ∧ ∀ x ∈ e, Everywhere P x := by
  rw [Everywhere]
  exact ⟨fun h => ⟨h.1, everywhere_array_mem h.2⟩, fun h => ⟨h.1, everywhere_array_of_mem h.2⟩⟩

theorem everywhere_object_iff {P : lept_value → Prop} (m : List lept_member) (c : Nat) :
    Everywhere P (.object m c) ↔ P (.object m c) ∧ ∀ x ∈ m, Everywhere P x.v := by
  rw [Everywhere]
  exact ⟨fun h => ⟨h.1, everywhere_object_mem h.2⟩,
    fun h => ⟨h.1, everywhere_object_of_mem h.2⟩⟩

theorem everywhere_mono {P Q : lept_value → Prop} (hpq : ∀ v, P v → Q v) :
    ∀ v, Everywhere P v → Everywhere Q v := by
  intro v
  induction v using lept_value.induct with
  | hnull => exact fun h => hpq _ h
  | hfalse => exact fun h => hpq _ h
  | htrue => exact fun h => hpq _ h
  | hnum n => exact fun h => hpq _ h
  | hstr s => exact fun h => hpq _ h
  | harr e c ih =>
    intro h
    rw [everywhere_array_iff] at h ⊢
    exact ⟨hpq _ h.1, fun x hx => ih x hx (h.2 x hx)⟩
  | hobj m c ih =>
    intro h
    rw [everywhere_object_iff] at h ⊢
    exact ⟨hpq _ h.1, fun x hx => ih x hx (h.2 x hx)⟩

theorem invariant_array (e : List lept_value) (c : Nat) :
    Invariant (.array e c) ↔ e.length ≤ c ∧ ∀ x ∈ e, Invariant x :=
  everywhere_array_iff e c

theorem invariant_object (m : List lept_member) (c : Nat) :
    Invariant (.object m c) ↔ m.length ≤ c ∧ ∀ x ∈ m, Invariant x.v :=
  everywhere_object_iff m c

theorem literal_ok_value (c : lept_context) (v : lept_value) (lit : List Nat) (ty : lept_type)
    (h : (lept_parse_literal c v lit ty).1 = LEPT_PARSE_OK) :
    (lept_parse_literal c v lit ty).2.2 = v.set_literal_type ty := by
  unfold lept_parse_literal at h ⊢
  simp only [] at h ⊢
  cases hl : lept_parse_literal_loop (EXPECT c (peek lit)).json lit.tail with
  | none => rw [hl] at h; cases h
  | some q => rfl

theorem number_ok_value (L : CDouble) (c : lept_context) (v : lept_value)
    (h : (lept_parse_number L c v).1 = LEPT_PARSE_OK) :
    ∃ n, (lept_parse_number L c v).2.2 = .number n := by
  unfold lept_parse_number at h ⊢
  simp only [] at h ⊢
  cases hs : lept_parse_number_scan c.json with
  | none => rw [hs] at h; cases h
  | some p =>
    rw [hs] at h
    simp only [] at h ⊢
    by_cases hb : ((L.strtod c.json).2 && (L.eq (L.strtod c.json).1 L.HUGE_VAL ||
        L.eq (L.strtod c.json).1 (L.neg L.HUGE_VAL))) = true
    · rw [if_pos hb] at h; cases h
    · rw [if_neg hb]; exact ⟨_, rfl⟩

theorem array_loop_exact
    (pv : List Nat → lept_value → Option (lept_parse_code × List Nat × lept_value))
    (hpv : ∀ j v q w, pv j v = some (LEPT_PARSE_OK, q, w) → Everywhere ExactCapacity w) :
    ∀ (fuel : Nat) (j : List Nat) (v : lept_value) (acc : List lept_value) (q : List Nat)
      (w : lept_value), (∀ x ∈ acc, Everywhere ExactCapacity x) →
      pure_parse_array_loop pv fuel j v acc = some (LEPT_PARSE_OK, q, w) →
        Everywhere ExactCapacity w := by
  intro fuel
  induction fuel with
  | zero => intro j v acc q w _ H; simp [pure_parse_array_loop] at H
  | succ fuel ih =>
    intro j v acc q w hacc H
    rw [pure_parse_array_loop] at H
    cases hp : pv j .null with
    | none => rw [hp] at H; simp at H
    | some r =>
      obtain ⟨ret1, q1, e⟩ := r
      rw [hp] at H
      simp only [] at H
      by_cases h : ret1 = LEPT_PARSE_OK
      · subst h
        have he := hpv _ _ _ _ hp
        have hacc2 : ∀ x ∈ acc ++ [e], Everywhere ExactCapacity x := by
          intro x hx
          rcases List.mem_append.mp hx with hx | hx
          · exact hacc x hx
          · rw [List.mem_singleton.mp hx]; exact he
        rw [if_neg (by simp)] at H
        by_cases c1 : peek (List.dropWhile is_ws q1) = 44
        · rw [if_pos c1] at H
          exact ih _ _ _ _ _ hacc2 H
        · rw [if_neg c1] at H
          by_cases c2 : peek (List.dropWhile is_ws q1) = 93
          · rw [if_pos c2] at H
            simp only [Option.some.injEq, Prod.mk.injEq, true_and] at H
            obtain ⟨-, rfl⟩ := H
            rw [everywhere_array_iff]
            exact ⟨by simp [ExactCapacity], hacc2⟩
          · rw [if_neg c2] at H
            simp only [Option.some.injEq, Prod.mk.injEq] at H
            exact absurd H.1 (by decide)
      · rw [if_pos h] at H
        simp only [Option.some.injEq, Prod.mk.injEq] at H
        exact absurd H.1 h

theorem object_loop_exact
    (pv : List Nat → lept_value → Option (lept_parse_code × List Nat × lept_value))
    (hpv : ∀ j v q w, pv j v = some (LEPT_PARSE_OK, q, w) → Everywhere ExactCapacity w) :
    ∀ (fuel : Nat) (j : List Nat) (acc : List lept_member) (q : List Nat)
      (w : lept_value), (∀ x ∈ acc, Everywhere ExactCapacity x.v) →
      pure_parse_object_loop pv fuel j acc = some (LEPT_PARSE_OK, q, w) →
        Everywhere ExactCapacity w := by
  intro fuel
  induction fuel with
  | zero => intro j acc q w _ H; simp [pure_parse_object_loop] at H
  | succ fuel ih =>
    intro j acc q w hacc H
    rw [pure_parse_object_loop] at H
    by_cases k1 : peek j ≠ 34
    · rw [if_pos k1] at H
      simp only [Option.some.injEq, Prod.mk.injEq] at H
      exact absurd H.1 (by decide)
    rw [if_neg k1] at H
    cases hl : pure_string_loop fuel j.tail [] with
    | none => rw [hl] at H; simp at H
    | some r =>
      obtain ⟨ret1, q1, k⟩ := r
      rw [hl] at H
      simp only [] at H
      by_cases h : ret1 = LEPT_PARSE_OK
      · subst h
        rw [if_neg (by simp)] at H
        by_cases k2 : peek (List.dropWhile is_ws q1) = 58
        · rw [if_neg (by simp [k2])] at H
          cases hp : pv (List.dropWhile is_ws (List.dropWhile is_ws q1).tail) .null with
          | none => rw [hp] at H; simp at H
          | some r2 =>
            obtain ⟨ret2, q2, mv⟩ := r2
            rw [hp] at H
            simp only [] at H
            by_cases h2 : ret2 = LEPT_PARSE_OK
            · subst h2
              have he := hpv _ _ _ _ hp
              have hacc2 : ∀ x ∈ acc ++ [lept_member.mk k mv],
                  Everywhere ExactCapacity x.v := by
                intro x hx
                rcases List.mem_append.mp hx with hx | hx
                · exact hacc x hx
                · rw [List.mem_singleton.mp hx]; exact he
              rw [if_neg (by simp)] at H
              by_cases c1 : peek (List.dropWhile is_ws q2) = 44
              · rw [if_pos c1] at H
                exact ih _ _ _ _ hacc2 H
              · rw [if_neg c1] at H
                by_cases c2 : peek (List.dropWhile is_ws q2) = 125
                · rw [if_pos c2] at H
                  simp only [Option.some.injEq, Prod.mk.injEq, true_and] at H
                  obtain ⟨-, rfl⟩ := H
                  rw [everywhere_object_iff]
                  exact ⟨by simp [ExactCapacity], hacc2⟩
                · rw [if_neg c2] at H
                  simp only [Option.some.injEq, Prod.mk.injEq] at H
                  exact absurd H.1 (by decide)
            · rw [if_pos h2] at H
              simp only [Option.some.injEq, Prod.mk.injEq] at H
              exact absurd H.1 h2
        · rw [if_pos k2] at H
          simp only [Option.some.injEq, Prod.mk.injEq] at H
          exact absurd H.1 (by decide)
      · rw [if_pos h] at H
        simp only [Option.some.injEq, Prod.mk.injEq] at H
        exact absurd H.1 h

/-- Every array and object of a value that the parser returns with success has a capacity
equal to its size. -/
theorem parse_value_exact (L : CDouble) : ∀ (fuel : Nat) (j : List Nat) (v : lept_value)
    (q : List Nat) (w : lept_value),
    pure_parse_value L fuel j v = some (LEPT_PARSE_OK, q, w) → Everywhere ExactCapacity w := by
  intro fuel
  induction fuel with
  | zero => intro j v q w H; simp [pure_parse_value] at H
  | succ fuel ih =>
    intro j v q w H
    rw [pure_parse_value] at H
    simp only [] at H
    by_cases c1 : peek j = 116
    · rw [if_pos c1] at H
      simp only [Option.some.injEq, Prod.mk.injEq] at H
      obtain ⟨h1, -, rfl⟩ := H
      rw [literal_ok_value _ _ _ _ h1]
      trivial
    rw [if_neg c1] at H
    by_cases c2 : peek j = 102
    · rw [if_pos c2] at H
      simp only [Option.some.injEq, Prod.mk.injEq] at H
      obtain ⟨h1, -, rfl⟩ := H
      rw [literal_ok_value _ _ _ _ h1]
      trivial
    rw [if_neg c2] at H
    by_cases c3 : peek j = 110
    · rw [if_pos c3] at H
      simp only [Option.some.injEq, Prod.mk.injEq] at H
      obtain ⟨h1, -, rfl⟩ := H
      rw [literal_ok_value _ _ _ _ h1]
      trivial
    rw [if_neg c3] at H
    by_cases c4 : peek j = 34
    · rw [if_pos c4] at H
      unfold pure_parse_string at H
      cases hl : pure_string_loop fuel j.tail [] with
      | none => rw [hl] at H; simp at H
      | some r =>
        obtain ⟨ret1, q1, s⟩ := r
        rw [hl] at H
        by_cases h : ret1 = LEPT_PARSE_OK
        · simp only [if_pos h, Option.some.injEq, Prod.mk.injEq] at H
          obtain ⟨-, -, rfl⟩ := H
          trivial
        · simp only [if_neg h, Option.some.injEq, Prod.mk.injEq] at H
          exact absurd H.1 h
    rw [if_neg c4] at H
    by_cases c5 : peek j = 91
    · rw [if_pos c5] at H
      by_cases d1 : peek (List.dropWhile is_ws j.tail) = 93
      · rw [if_pos d1] at H
        simp only [Option.some.injEq, Prod.mk.injEq, true_and] at H
        obtain ⟨-, rfl⟩ := H
        rw [everywhere_array_iff]
        exact ⟨rfl, fun x hx => absurd hx (List.not_mem_nil x)⟩
      · rw [if_neg d1] at H
        exact array_loop_exact _ (ih) _ _ _ _ _ _ (fun x hx => absurd hx (List.not_mem_nil x)) H
    rw [if_neg c5] at H
    by_cases c6 : peek j = 123
    · rw [if_pos c6] at H
      by_cases d1 : peek (List.dropWhile is_ws j.tail) = 125
      · rw [if_pos d1] at H
        simp only [Option.some.injEq, Prod.mk.injEq, true_and] at H
        obtain ⟨-, rfl⟩ := H
        rw [everywhere_object_iff]
        exact ⟨rfl, fun x hx => absurd hx (List.not_mem_nil x)⟩
      · rw [if_neg d1] at H
        exact object_loop_exact _ (ih) _ _ _ _ _ (fun x hx => absurd hx (List.not_mem_nil x)) H
    rw [if_neg c6] at H
    by_cases c7 : peek j = 0
    · rw [if_pos c7] at H
      simp only [Option.some.injEq, Prod.mk.injEq] at H
      exact absurd H.1 (by decide)
    rw [if_neg c7] at H
    simp only [Option.some.injEq, Prod.mk.injEq] at H
    obtain ⟨h1, -, rfl⟩ := H
    obtain ⟨n, hn⟩ := number_ok_value L _ _ h1
    rw [hn]
    trivial

theorem lept_parse_exact (L : CDouble) (t : List Nat) (v : lept_value)
    (h : lept_parse L t = some (LEPT_PARSE_OK, v)) : Everywhere ExactCapacity v := by
  rw [lept_parse_eq] at h
  unfold pure_parse at h
  cases hp : pure_parse_value L (t.length + 1) (t.dropWhile is_ws) .null with
  | none => rw [hp] at h; cases h
  | some r =>
    obtain ⟨ret, q, w⟩ := r
    rw [hp] at h
    simp only [] at h
    by_cases hr : ret = LEPT_PARSE_OK
    · subst hr
      rw [if_pos rfl] at h
      by_cases h0 : peek (q.dropWhile is_ws) ≠ 0
      · rw [if_pos h0] at h
        simp only [Option.some.injEq, Prod.mk.injEq] at h
        exact absurd h.1 (by decide)
      · rw [if_neg h0] at h
        simp only [Option.some.injEq, Prod.mk.injEq, true_and] at h
        rw [← h]
        exact parse_value_exact L _ _ _ _ _ hp
    · rw [if_neg hr] at h
      simp only [Option.some.injEq, Prod.mk.injEq] at h
      exact absurd h.1 hr

theorem lept_parse_invariant (L : CDouble) (t : List Nat) (v : lept_value)
    (h : lept_parse L t = some (LEPT_PARSE_OK, v)) : Invariant v := by
  refine everywhere_mono ?_ v (lept_parse_exact L t v h)
  intro x hx
  cases x with
  | array e c => exact Nat.le_of_eq (Eq.symm hx)
  | object m c => exact Nat.le_of_eq (Eq.symm hx)
  | _ => trivial

theorem mem_of_memcpy_slots {α : Type} {e r : List α} {dst src n : Nat}
    (h : memcpy_slots e dst src n = some r) : ∀ x ∈ r, x ∈ e := by
  unfold memcpy_slots at h
  by_cases hc : n ≠ 0 ∧ dst < src + n ∧ src < dst + n
  · rw [if_pos hc] at h; cases h
  · rw [if_neg hc] at h
    simp only [Option.some.injEq] at h
    subst h
    intro x hx
    rcases List.mem_append.mp hx with hx | hx
    · rcases List.mem_append.mp hx with hx | hx
      · exact List.mem_of_mem_take hx
      · exact List.mem_of_mem_drop (List.mem_of_mem_take hx)
    · exact List.mem_of_mem_drop hx

theorem mem_store_slot {α : Type} {e : List α} {i : Nat} {x z : α}
    (h : z ∈ store_slot e i x) : z = x ∨ z ∈ e := by
  unfold store_slot at h
  rcases List.mem_append.mp h with h | h
  · exact Or.inr (List.mem_of_mem_take h)
  · rcases List.mem_cons.mp h with h | h
    · exact Or.inl h
    · exact Or.inr (List.mem_of_mem_drop h)

theorem store_slot_length_lt {α : Type} (e : List α) (i : Nat) (x : α) (h : i < e.length) :
    (store_slot e i x).length = e.length := by
  unfold store_slot
  rw [List.length_append, List.length_cons, List.length_take, List.length_drop]
  omega

theorem invariant_null : Invariant .null := trivial

theorem reserve_array_eq (e : List lept_value) (c cap : Nat)
    (hw : cap * sizeof_lept_value < 2 ^ 64) :
    lept_reserve_array (.array e c) cap = some (.array e (max c cap)) := by
  show (if c < cap then _ else _) = _
  by_cases h : c < cap
  · rw [if_pos h, if_neg (no_wrap hw), Nat.max_eq_right (by omega)]
  · rw [if_neg h, Nat.max_eq_left (by omega)]

theorem reserve_object_eq (m : List lept_member) (c cap : Nat)
    (hw : cap * sizeof_lept_member < 2 ^ 64) :
    lept_reserve_object (.object m c) cap = some (.object m (max c cap)) := by
  show (if c < cap then _ else _) = _
  by_cases h : c < cap
  · rw [if_pos h, if_neg (no_wrap hw), Nat.max_eq_right (by omega)]
  · rw [if_neg h, Nat.max_eq_left (by omega)]

theorem reserve_array_some {e : List lept_value} {c cap : Nat} {w : lept_value}
    (h : lept_reserve_array (.array e c) cap = some w) : w = .array e (max c cap) := by
  have h2 : (if c < cap then
      (if cap * sizeof_lept_value % 2 ^ 64 < cap * sizeof_lept_value then none
        else some (lept_value.array e cap))
      else some (lept_value.array e c)) = some w := h
  by_cases h1 : c < cap
  · rw [if_pos h1] at h2
    by_cases h3 : cap * sizeof_lept_value % 2 ^ 64 < cap * sizeof_lept_value
    · rw [if_pos h3] at h2
      cases h2
    · rw [if_neg h3] at h2
      rw [← Option.some.inj h2, Nat.max_eq_right (by omega)]
  · rw [if_neg h1] at h2
    rw [← Option.some.inj h2, Nat.max_eq_left (by omega)]

theorem reserve_object_some {m : List lept_member} {c cap : Nat} {w : lept_value}
    (h : lept_reserve_object (.object m c) cap = some w) : w = .object m (max c cap) := by
  have h2 : (if c < cap then
      (if cap * sizeof_lept_member % 2 ^ 64 < cap * sizeof_lept_member then none
        else some (lept_value.object m cap))
      else some (lept_value.object m c)) = some w := h
  by_cases h1 : c < cap
  · rw [if_pos h1] at h2
    by_cases h3 : cap * sizeof_lept_member % 2 ^ 64 < cap * sizeof_lept_member
    · rw [if_pos h3] at h2
      cases h2
    · rw [if_neg h3] at h2
      rw [← Option.some.inj h2, Nat.max_eq_right (by omega)]
  · rw [if_neg h1] at h2
    rw [← Option.some.inj h2, Nat.max_eq_left (by omega)]

theorem shrink_array_eq (e : List lept_value) (c : Nat) :
    lept_shrink_array (.array e c) = some (.array e (min c e.length)) := by
  show (if c > e.length then _ else _) = _
  by_cases h : c > e.length
  · rw [if_pos h, Nat.min_eq_right (by omega)]
  · rw [if_neg h, Nat.min_eq_left (by omega)]

theorem shrink_object_eq (m : List lept_member) (c : Nat) :
    lept_shrink_object (.object m c) = some (.object m (min c m.length)) := by
  show (if c > m.length then _ else _) = _
  by_cases h : c > m.length
  · rw [if_pos h, Nat.min_eq_right (by omega)]
  · rw [if_neg h, Nat.min_eq_left (by omega)]

theorem erase_array_element_some {e : List lept_value} {c index count : Nat} {w : lept_value}
    (h : lept_erase_array_element (.array e c) index count = some w) :
    index + count ≤ e.length ∧ w = .array (e.take index ++ e.drop (index + count)) c := by
  by_cases h1 : index + count ≤ e.length
  · refine ⟨h1, ?_⟩
    by_cases hd : e.length - index - count ≤ count
    · rw [erase_array_element_disjoint e c index count h1 hd] at h
      exact (Option.some.inj h).symm
    · by_cases h0 : count = 0
      · subst h0
        rw [lept_erase_array_element, if_pos h1, if_pos rfl] at h
        rw [← Option.some.inj h, Nat.add_zero, List.take_append_drop]
      · rw [erase_array_element_overlap e c index count h1 (by omega) (by omega)] at h
        cases h
  · rw [lept_erase_array_element, if_neg h1] at h
    cases h

theorem insert_slots (e : List lept_value) (index : Nat) (h : index ≤ e.length) :
    store_slot (e.take (index + 1) ++ (e.drop index).take (e.length - index) ++
      e.drop (index + 1 + (e.length - index))) index lept_value.null =
      e.take index ++ .null :: e.drop index := by
  have h3 : e.drop (index + 1 + (e.length - index)) = [] :=
    List.drop_eq_nil_of_le (by omega)
  have h4 : (e.drop index).take (e.length - index) = e.drop index :=
    List.take_of_length_le (by rw [List.length_drop])
  rw [h3, h4, List.append_nil]
  unfold store_slot
  by_cases hi : index = e.length
  · have h5 : e.drop index = [] := List.drop_eq_nil_of_le (by omega)
    have h6 : e.take (index + 1) = e := List.take_of_length_le (by omega)
    have h7 : e.take index = e := List.take_of_length_le (by omega)
    rw [h5, h6, List.append_nil, h7, List.drop_eq_nil_of_le (by omega)]
  · have hA : (e.take (index + 1)).length = index + 1 := by rw [List.length_take]; omega
    rw [List.drop_left' hA, List.take_append_of_le_length (by omega), List.take_take,
      Nat.min_eq_left (by omega)]

theorem array_room_eq (e : List lept_value) (c : Nat) :
    (if e.length = c then
        lept_reserve_array (.array e c) (if c = 0 then 1 else c * 2 % 2 ^ 64)
      else some (.array e c)) = none ∨
    ∃ c2, c ≤ c2 ∧ (if e.length = c then
        lept_reserve_array (.array e c) (if c = 0 then 1 else c * 2 % 2 ^ 64)
      else some (.array e c)) = some (.array e c2) := by
  by_cases hf : e.length = c
  · rw [if_pos hf]
    cases hr : lept_reserve_array (.array e c) (if c = 0 then 1 else c * 2 % 2 ^ 64) with
    | none => exact Or.inl rfl
    | some w =>
      rw [reserve_array_some hr]
      exact Or.inr ⟨_, Nat.le_max_left _ _, rfl⟩
  · rw [if_neg hf]
    exact Or.inr ⟨c, Nat.le_refl c, rfl⟩

theorem object_room_eq (m : List lept_member) (c : Nat) :
    (if m.length = c then
        lept_reserve_object (.object m c) (if c = 0 then 1 else (c <<< 1) % 2 ^ 64)
      else some (.object m c)) = none ∨
    ∃ c2, c ≤ c2 ∧ (if m.length = c then
        lept_reserve_object (.object m c) (if c = 0 then 1 else (c <<< 1) % 2 ^ 64)
      else some (.object m c)) = some (.object m c2) := by
  by_cases hf : m.length = c
  · rw [if_pos hf]
    cases hr : lept_reserve_object (.object m c) (if c = 0 then 1 else (c <<< 1) % 2 ^ 64) with
    | none => exact Or.inl rfl
    | some w =>
      rw [reserve_object_some hr]
      exact Or.inr ⟨_, Nat.le_max_left _ _, rfl⟩
  · rw [if_neg hf]
    exact Or.inr ⟨c, Nat.le_refl c, rfl⟩

theorem insert_array_element_some {e : List lept_value} {c index : Nat}
    {r : lept_value × Nat} (h : lept_insert_array_element (.array e c) index = some r) :
    ∃ c2, c ≤ c2 ∧ e.length < c2 ∧ index ≤ e.length ∧
      r = (.array (e.take index ++ .null :: e.drop index) c2, index) := by
  rw [lept_insert_array_element] at h
  by_cases h1 : index ≤ e.length
  · rw [if_pos h1] at h
    simp only [] at h
    rcases array_room_eq e c with hr | ⟨c2, hc2, hr⟩
    · rw [hr] at h
      cases h
    rw [hr] at h
    simp only [] at h
    by_cases h2 : e.length < c2
    · rw [if_pos h2] at h
      by_cases ho : e.length - index ≠ 0 ∧ index + 1 < index + (e.length - index) ∧
          index < index + 1 + (e.length - index)
      · rw [memcpy_slots_overlap _ _ _ _ ho] at h
        cases h
      · rw [memcpy_slots_disjoint _ _ _ _ ho] at h
        simp only [] at h
        rw [insert_slots e index h1] at h
        exact ⟨c2, hc2, h2, h1, (Option.some.inj h).symm⟩
    · rw [if_neg h2] at h
      cases h
  · rw [if_neg h1] at h
    cases h

theorem pushback_array_element_some {e : List lept_value} {c : Nat}
    {r : lept_value × Nat} (h : lept_pushback_array_element (.array e c) = some r) :
    ∃ c2, c ≤ c2 ∧ e.length < c2 ∧ r = (.array (e ++ [.null]) c2, e.length) := by
  rw [lept_pushback_array_element] at h
  rcases array_room_eq e c with hr | ⟨c2, hc2, hr⟩
  · rw [hr] at h
    cases h
  rw [hr] at h
  simp only [] at h
  by_cases h2 : e.length < c2
  · rw [if_pos h2, store_slot_length] at h
    exact ⟨c2, hc2, h2, (Option.some.inj h).symm⟩
  · rw [if_neg h2] at h
    cases h

theorem find_object_index_range (m : List lept_member) (key : List Nat) (klen : Nat) :
    lept_find_object_index m key klen = LEPT_KEY_NOT_EXIST ∨
      lept_find_object_index m key klen < m.length := by
  by_cases h : ∃ x ∈ m, KeyMatches key klen x
  · obtain ⟨n, hn, hl, -, -⟩ := find_object_index_loop_some key klen m 0 h
    rw [Nat.zero_add] at hl
    unfold lept_find_object_index
    rw [hl]
    exact Or.inr hn
  · exact Or.inl (find_object_index_loop_none key klen m 0 (fun x hx hp => h ⟨x, hx, hp⟩))

theorem set_object_value_some {m : List lept_member} {c klen : Nat} {key : List Nat}
    {r : lept_value × Nat} (h : lept_set_object_value (.object m c) key klen = some r) :
    ∃ m2 c2, r.1 = .object m2 c2 ∧ r.2 < m2.length ∧ c ≤ c2 ∧
      (m.length ≤ c → m2.length ≤ c2) ∧ ∀ x ∈ m2, x ∈ m ∨ x.v = .null := by
  rw [lept_set_object_value] at h
  simp only [] at h
  by_cases hi : lept_find_object_index m key klen ≠ LEPT_KEY_NOT_EXIST
  · rw [if_pos hi] at h
    rw [← Option.some.inj h]
    rcases find_object_index_range m key klen with h1 | h1
    · exact absurd h1 hi
    · exact ⟨m, c, rfl, h1, Nat.le_refl c, fun hm => hm, fun x hx => Or.inl hx⟩
  · rw [if_neg hi] at h
    rcases object_room_eq m c with hr | ⟨c2, hc2, hr⟩
    · rw [hr] at h
      cases h
    rw [hr] at h
    simp only [] at h
    by_cases h2 : m.length < c2 ∧ klen ≤ key.length
    · rw [if_pos h2, store_slot_length] at h
      rw [← Option.some.inj h]
      refine ⟨_, c2, rfl, by simp, hc2, fun _ => by simp; omega, ?_⟩
      intro x hx
      rcases List.mem_append.mp hx with hx | hx
      · exact Or.inl hx
      · rw [List.mem_singleton.mp hx]; exact Or.inr rfl
    · rw [if_neg h2] at h
      cases h

theorem remove_object_value_some {m : List lept_member} {c index : Nat} {w : lept_value}
    (h : lept_remove_object_value (.object m c) index = some w) :
    ∃ m2, w = .object m2 c ∧ m2.length ≤ m.length ∧ ∀ x ∈ m2, x ∈ m := by
  rw [lept_remove_object_value] at h
  by_cases h1 : index < m.length
  · rw [if_pos h1] at h
    cases hc : memcpy_slots m index (index + 1) (m.length - 1 - index) with
    | none => rw [hc] at h; cases h
    | some m1 =>
      rw [hc] at h
      simp only [] at h
      rw [← Option.some.inj h]
      refine ⟨_, rfl, ?_, fun x hx => mem_of_memcpy_slots hc x (List.mem_of_mem_take hx)⟩
      rw [List.length_take]
      omega
  · rw [if_neg h1] at h
    cases h

theorem store_member_value_invariant {m : List lept_member} {c i : Nat} {y : lept_value}
    (hv : Invariant (.object m c)) (hi : i < m.length) (hy : Invariant y) :
    ∃ m2, store_member_value (.object m c) i y = .object m2 c ∧ Invariant (.object m2 c) := by
  refine ⟨_, rfl, ?_⟩
  rw [invariant_object] at hv ⊢
  refine ⟨by rw [store_slot_length_lt _ _ _ hi]; exact hv.1, ?_⟩
  intro x hx
  rcases mem_store_slot hx with hx | hx
  · rw [hx]; exact hy
  · exact hv.2 x hx

theorem copy_array_loop_some {e e2 : List lept_value}
    (h : lept_copy_array_loop e = some e2) : e = [] ∧ e2 = [] := by
  cases e with
  | nil =>
    rw [lept_copy_array_loop] at h
    exact ⟨rfl, (Option.some.inj h).symm⟩
  | cons x xs =>
    rw [lept_copy_array_loop] at h
    cases h

theorem copy_object_loop_invariant (klen : Nat) : ∀ (ms : List lept_member)
    (m0 : List lept_member) (c0 : Nat) (dst : lept_value),
    (∀ x ∈ ms, ∀ y, Invariant x.v → lept_copy x.v = some y → Invariant y) →
    (∀ x ∈ ms, Invariant x.v) → Invariant (.object m0 c0) →
    lept_copy_object_loop klen ms (.object m0 c0) = some dst →
      ∃ m2 c2, dst = .object m2 c2 ∧ Invariant dst := by
  intro ms
  induction ms with
  | nil =>
    intro m0 c0 dst _ _ h0 h
    rw [lept_copy_object_loop] at h
    rw [← Option.some.inj h]
    exact ⟨m0, c0, rfl, h0⟩
  | cons a ms ih =>
    intro m0 c0 dst hc hinv h0 h
    obtain ⟨k, x⟩ := a
    rw [lept_copy_object_loop] at h
    cases hs : lept_set_object_value (.object m0 c0) (k ++ [0]) klen with
    | none => rw [hs] at h; cases h
    | some r =>
      obtain ⟨dst1, index⟩ := r
      rw [hs] at h
      simp only [] at h
      obtain ⟨m1, c1, e1, hi, -, hlen, hmem⟩ := set_object_value_some hs
      simp only [] at e1 hi
      subst e1
      cases hx : lept_copy x with
      | none => rw [hx] at h; cases h
      | some y =>
        rw [hx] at h
        simp only [] at h
        have hy : Invariant y :=
          hc (.mk k x) (List.mem_cons_self _ _) y (hinv _ (List.mem_cons_self _ _)) hx
        have h1 : Invariant (.object m1 c1) := by
          rw [invariant_object] at h0 ⊢
          refine ⟨hlen h0.1, fun z hz => ?_⟩
          rcases hmem z hz with hz | hz
          · exact h0.2 z hz
          · rw [hz]; exact invariant_null
        obtain ⟨m2, e2, h2⟩ := store_member_value_invariant h1 hi hy
        rw [e2] at h
        exact ih m2 c1 dst (fun z hz => hc z (List.mem_cons_of_mem _ hz))
          (fun z hz => hinv z (List.mem_cons_of_mem _ hz)) h2 h

/-- What `lept_copy` leaves in the destination, when it leaves a value, has the capacity
invariant if the source has. -/
theorem copy_invariant : ∀ src dst : lept_value, Invariant src → lept_copy src = some dst →
    Invariant dst := by
  intro src
  induction src using lept_value.induct with
  | hnull => intro dst _ h; rw [lept_copy] at h; rw [← Option.some.inj h]; trivial
  | hfalse => intro dst _ h; rw [lept_copy] at h; rw [← Option.some.inj h]; trivial
  | htrue => intro dst _ h; rw [lept_copy] at h; rw [← Option.some.inj h]; trivial
  | hnum n => intro dst _ h; rw [lept_copy] at h; rw [← Option.some.inj h]; trivial
  | hstr s => intro dst _ h; rw [lept_copy] at h; rw [← Option.some.inj h]; trivial
  | harr e c ih =>
    intro dst hinv h
    rw [invariant_array] at hinv
    rw [lept_copy] at h
    cases hs : lept_set_array .null c with
    | none => rw [hs] at h; cases h
    | some d0 =>
    rw [hs] at h
    simp only [] at h
    cases he : lept_copy_array_loop e with
    | none => rw [he] at h; cases h
    | some e2 =>
      rw [he] at h
      simp only [] at h
      rw [← Option.some.inj h]
      obtain ⟨_, a2⟩ := copy_array_loop_some he
      rw [invariant_array, a2]
      exact ⟨Nat.zero_le c, fun y hy => absurd hy (List.not_mem_nil y)⟩
  | hobj m c ih =>
    intro dst hinv h
    rw [invariant_object] at hinv
    rw [lept_copy] at h
    cases hs : lept_set_object .null c with
    | none => rw [hs] at h; cases h
    | some d0 =>
    rw [hs] at h
    simp only [] at h
    rw [set_object_some hs] at h
    cases hl : lept_copy_object_loop (member_at m 0).klen m (.object [] c) with
    | none => rw [hl] at h; cases h
    | some d =>
      rw [hl] at h
      have h0 : Invariant (.object [] c) := by
        rw [invariant_object]
        exact ⟨Nat.zero_le c, fun x hx => absurd hx (List.not_mem_nil x)⟩
      obtain ⟨m2, c2, e2, hd⟩ := copy_object_loop_invariant _ m [] c d ih hinv.2 h0 hl
      subst e2
      simp only [] at h
      by_cases hm : m2.length = m.length
      · rw [if_pos hm] at h
        rw [← Option.some.inj h]
        exact hd
      · rw [if_neg hm] at h
        cases h

theorem preserves_array_op {f : lept_value → Option lept_value}
    (h : ∀ e c w, e.length ≤ c → f (.array e c) = some w →
      ∃ e2 c2, w = .array e2 c2 ∧ e2.length ≤ c2 ∧ ∀ x ∈ e2, x ∈ e ∨ x = .null)
    (hn : ∀ v w, f v = some w → ∃ e c, v = .array e c) : Preserves f := by
  intro v w hv hw
  obtain ⟨e, c, rfl⟩ := hn v w hw
  rw [invariant_array] at hv
  obtain ⟨e2, c2, rfl, hl, hm⟩ := h e c w hv.1 hw
  rw [invariant_array]
  refine ⟨hl, fun x hx => ?_⟩
  rcases hm x hx with hx | hx
  · exact hv.2 x hx
  · rw [hx]; exact invariant_null

theorem preserves_object_op {f : lept_value → Option lept_value}
    (h : ∀ m c w, m.length ≤ c → f (.object m c) = some w →
      ∃ m2 c2, w = .object m2 c2 ∧ m2.length ≤ c2 ∧ ∀ x ∈ m2, x ∈ m ∨ x.v = .null)
    (hn : ∀ v w, f v = some w → ∃ m c, v = .object m c) : Preserves f := by
  intro v w hv hw
  obtain ⟨m, c, rfl⟩ := hn v w hw
  rw [invariant_object] at hv
  obtain ⟨m2, c2, rfl, hl, hm⟩ := h m c w hv.1 hw
  rw [invariant_object]
  refine ⟨hl, fun x hx => ?_⟩
  rcases hm x hx with hx | hx
  · exact hv.2 x hx
  · rw [hx]; exact invariant_null

theorem preserves_set_array (cap : Nat) : Preserves (fun v => lept_set_array v cap) := by
  intro v w _ hw
  rw [set_array_some hw]
  exact (invariant_array [] cap).mpr ⟨Nat.zero_le cap, fun x hx => absurd hx (List.not_mem_nil x)⟩

theorem preserves_set_object (cap : Nat) :
    Preserves (fun v => lept_set_object v cap) := by
  intro v w _ hw
  rw [set_object_some hw]
  exact (invariant_object [] cap).mpr
    ⟨Nat.zero_le cap, fun x hx => absurd hx (List.not_mem_nil x)⟩

theorem preserves_reserve_array (cap : Nat) : Preserves (fun v => lept_reserve_array v cap) := by
  refine preserves_array_op (fun e c w hl hw => ?_) (fun v w hw => ?_)
  · exact ⟨e, _, reserve_array_some hw, Nat.le_trans hl (Nat.le_max_left _ _),
      fun x hx => Or.inl hx⟩
  · cases v <;> first | exact ⟨_, _, rfl⟩ | cases hw

theorem preserves_shrink_array : Preserves lept_shrink_array := by
  refine preserves_array_op (fun e c w hl hw => ?_) (fun v w hw => ?_)
  · rw [shrink_array_eq] at hw
    exact ⟨e, _, (Option.some.inj hw).symm, Nat.le_min.mpr ⟨hl, Nat.le_refl _⟩,
      fun x hx => Or.inl hx⟩
  · cases v <;> first | exact ⟨_, _, rfl⟩ | cases hw

theorem preserves_erase_array_element (index count : Nat) :
    Preserves (fun v => lept_erase_array_element v index count) := by
  refine preserves_array_op (fun e c w hl hw => ?_) (fun v w hw => ?_)
  · obtain ⟨h1, rfl⟩ := erase_array_element_some hw
    refine ⟨_, c, rfl, ?_, fun x hx => Or.inl ?_⟩
    · rw [List.length_append, List.length_take, List.length_drop]; omega
    · rcases List.mem_append.mp hx with hx | hx
      · exact List.mem_of_mem_take hx
      · exact List.mem_of_mem_drop hx
  · cases v <;> first | exact ⟨_, _, rfl⟩ | cases hw

theorem preserves_clear_array : Preserves lept_clear_array := by
  intro v w hv hw
  cases v with
  | array e c => exact preserves_erase_array_element 0 e.length _ w hv hw
  | _ => cases hw

theorem preserves_pushback_array_element :
    Preserves (fun v => (lept_pushback_array_element v).map Prod.fst) := by
  refine preserves_array_op (fun e c w hl hw => ?_) (fun v w hw => ?_)
  · cases hr : lept_pushback_array_element (.array e c) with
    | none => rw [hr] at hw; cases hw
    | some r =>
      rw [hr] at hw
      obtain ⟨c2, -, h2, rfl⟩ := pushback_array_element_some hr
      refine ⟨_, c2, (Option.some.inj hw).symm, by simp; omega, fun x hx => ?_⟩
      rcases List.mem_append.mp hx with hx | hx
      · exact Or.inl hx
      · exact Or.inr (List.mem_singleton.mp hx)
  · cases v <;> first | exact ⟨_, _, rfl⟩ | cases hw

theorem preserves_popback_array_element : Preserves lept_popback_array_element := by
  refine preserves_array_op (fun e c w hl hw => ?_) (fun v w hw => ?_)
  · rw [lept_popback_array_element] at hw
    by_cases h : e.length > 0
    · rw [if_pos h] at hw
      refine ⟨_, c, (Option.some.inj hw).symm, ?_, fun x hx => Or.inl (List.mem_of_mem_take hx)⟩
      rw [List.length_take]; omega
    · rw [if_neg h] at hw; cases hw
  · cases v <;> first | exact ⟨_, _, rfl⟩ | cases hw

theorem preserves_insert_array_element (index : Nat) :
    Preserves (fun v => (lept_insert_array_element v index).map Prod.fst) := by
  refine preserves_array_op (fun e c w hl hw => ?_) (fun v w hw => ?_)
  · cases hr : lept_insert_array_element (.array e c) index with
    | none => rw [hr] at hw; cases hw
    | some r =>
      rw [hr] at hw
      obtain ⟨c2, -, h2, h3, rfl⟩ := insert_array_element_some hr
      refine ⟨_, c2, (Option.some.inj hw).symm, ?_, fun x hx => ?_⟩
      · rw [List.length_append, List.length_cons, List.length_take, List.length_drop]; omega
      · rcases List.mem_append.mp hx with hx | hx
        · exact Or.inl (List.mem_of_mem_take hx)
        · rcases List.mem_cons.mp hx with hx | hx
          · exact Or.inr hx
          · exact Or.inl (List.mem_of_mem_drop hx)
  · cases v <;> first | exact ⟨_, _, rfl⟩ | cases hw

theorem preserves_reserve_object (cap : Nat) :
    Preserves (fun v => lept_reserve_object v cap) := by
  refine preserves_object_op (fun m c w hl hw => ?_) (fun v w hw => ?_)
  · exact ⟨m, _, reserve_object_some hw, Nat.le_trans hl (Nat.le_max_left _ _),
      fun x hx => Or.inl hx⟩
  · cases v <;> first | exact ⟨_, _, rfl⟩ | cases hw

theorem preserves_shrink_object : Preserves lept_shrink_object := by
  refine preserves_object_op (fun m c w hl hw => ?_) (fun v w hw => ?_)
  · rw [shrink_object_eq] at hw
    exact ⟨m, _, (Option.some.inj hw).symm, Nat.le_min.mpr ⟨hl, Nat.le_refl _⟩,
      fun x hx => Or.inl hx⟩
  · cases v <;> first | exact ⟨_, _, rfl⟩ | cases hw

theorem preserves_clear_object : Preserves lept_clear_object := by
  refine preserves_object_op (fun m c w hl hw => ?_) (fun v w hw => ?_)
  · rw [lept_clear_object] at hw
    exact ⟨[], c, (Option.some.inj hw).symm, Nat.zero_le c,
      fun x hx => absurd hx (List.not_mem_nil x)⟩
  · cases v <;> first | exact ⟨_, _, rfl⟩ | cases hw

theorem preserves_set_object_value (key : List Nat) (klen : Nat) :
    Preserves (fun v => (lept_set_object_value v key klen).map Prod.fst) := by
  refine preserves_object_op (fun m c w hl hw => ?_) (fun v w hw => ?_)
  · cases hr : lept_set_object_value (.object m c) key klen with
    | none => rw [hr] at hw; cases hw
    | some r =>
      rw [hr] at hw
      obtain ⟨m2, c2, e1, -, -, h2, h3⟩ := set_object_value_some hr
      exact ⟨m2, c2, by rw [← e1]; exact (Option.some.inj hw).symm, h2 hl, h3⟩
  · cases v <;> first | exact ⟨_, _, rfl⟩ | cases hw

theorem preserves_remove_object_value (index : Nat) :
    Preserves (fun v => lept_remove_object_value v index) := by
  refine preserves_object_op (fun m c w hl hw => ?_) (fun v w hw => ?_)
  · obtain ⟨m2, rfl, h2, h3⟩ := remove_object_value_some hw
    exact ⟨m2, c, rfl, Nat.le_trans h2 hl, fun x hx => Or.inl (h3 x hx)⟩
  · cases v <;> first | exact ⟨_, _, rfl⟩ | cases hw

/-! ## Copy -/

/-- Claim C15 fails on an object whose keys have different lengths. The text with the members
`"a":1` and `"bc":2` is parsed to an object `src`; `lept_copy(dst, src)` reads every key with
the length of the first one (`src->u.o.m->klen`), so `dst` has the keys `a` and `b`, and
`lept_is_equal(dst, src)` is 0. With the members `"a":1` and `"ab":2` the second key is read as
`a`, which `lept_set_object_value` finds: the first value is overwritten, and the size is then
set to 2 over a second member that was never written; with the keys `abc` and `c` the read of
the second key runs past its buffer. An object with the key `a` twice, which the parser builds,
also ends with a member that was never written. -/
theorem copy_truncates_keys :
    lept_parse example_libc (ascii "\x7b\"a\":1,\"bc\":2\x7d") =
      some (LEPT_PARSE_OK, .object [.mk (ascii "a") (.number ⟨0x3FF0000000000000⟩),
        .mk (ascii "bc") (.number ⟨0x4000000000000000⟩)] 2) ∧
    lept_copy (.object [.mk (ascii "a") (.number ⟨0x3FF0000000000000⟩),
        .mk (ascii "bc") (.number ⟨0x4000000000000000⟩)] 2) =
      some (.object [.mk (ascii "a") (.number ⟨0x3FF0000000000000⟩),
        .mk (ascii "b") (.number ⟨0x4000000000000000⟩)] 2) ∧
    lept_is_equal example_libc
        (.object [.mk (ascii "a") (.number ⟨0x3FF0000000000000⟩),
          .mk (ascii "b") (.number ⟨0x4000000000000000⟩)] 2)
        (.object [.mk (ascii "a") (.number ⟨0x3FF0000000000000⟩),
          .mk (ascii "bc") (.number ⟨0x4000000000000000⟩)] 2) = false ∧
    lept_copy (.object [.mk (ascii "a") (.number ⟨0x3FF0000000000000⟩),
        .mk (ascii "ab") (.number ⟨0x4000000000000000⟩)] 2) = none ∧
    lept_copy (.object [.mk (ascii "abc") .jtrue, .mk (ascii "c") .jfalse] 2) = none ∧
    lept_copy (.object [.mk (ascii "a") .jtrue, .mk (ascii "a") .jfalse] 2) = none :=
  ⟨rfl, rfl, rfl, rfl, rfl, rfl⟩

theorem set_object_value_new (pre : List lept_member) (c : Nat) (k : List Nat)
    (hk : k ∉ pre.map lept_member.k) (hl : pre.length < c) :
    lept_set_object_value (.object pre c) (k ++ [0]) k.length =
      some (.object (pre ++ [.mk k .null]) c, pre.length) := by
  have hkey : (k ++ [0]).take k.length = k := List.take_left' rfl
  have hf : lept_find_object_index pre (k ++ [0]) k.length = LEPT_KEY_NOT_EXIST := by
    refine find_object_index_loop_none _ _ pre 0 (fun x hx hm => hk ?_)
    rw [← hkey, ← hm.2]
    exact List.mem_map_of_mem _ hx
  rw [lept_set_object_value]
  simp only []
  rw [if_neg (fun hn => hn hf), if_neg (by omega)]
  simp only []
  rw [if_pos ⟨hl, by simp⟩, store_slot_length, hkey]

theorem store_member_value_last (pre : List lept_member) (c : Nat) (k : List Nat)
    (x : lept_value) :
    store_member_value (.object (pre ++ [.mk k .null]) c) pre.length x =
      .object (pre ++ [.mk k x]) c := by
  rw [store_member_value, member_at_append]
  unfold store_slot
  rw [List.take_left' rfl, List.drop_eq_nil_of_le (by simp)]
  rfl

theorem copy_object_loop_same (c klen : Nat) : ∀ (ms pre : List lept_member),
    (∀ x ∈ ms, lept_copy x.v = some x.v) → ((pre ++ ms).map lept_member.k).Nodup →
    (pre ++ ms).length ≤ c → (∀ x ∈ ms, x.klen = klen) →
    lept_copy_object_loop klen ms (.object pre c) = some (.object (pre ++ ms) c) := by
  intro ms
  induction ms with
  | nil => intro pre _ _ _ _; rw [lept_copy_object_loop, List.append_nil]
  | cons a ms ih =>
    intro pre hc hnd hlen hkl
    obtain ⟨k, x⟩ := a
    have e2 : pre ++ lept_member.mk k x :: ms = (pre ++ [.mk k x]) ++ ms := by simp
    have hk : k ∉ pre.map lept_member.k := by
      rw [List.map_append, List.nodup_append] at hnd
      intro hin
      exact hnd.2.2 hin (by simp [lept_member.k])
    have hl : pre.length < c := by
      rw [List.length_append, List.length_cons] at hlen
      omega
    have h1 : klen = k.length := (hkl _ (List.mem_cons_self _ _)).symm
    subst h1
    rw [lept_copy_object_loop, set_object_value_new pre c k hk hl]
    simp only []
    have hx : lept_copy x = some x := hc (.mk k x) (List.mem_cons_self _ _)
    rw [hx]
    simp only []
    rw [store_member_value_last, e2]
    exact ih (pre ++ [.mk k x]) (fun y hy => hc y (List.mem_cons_of_mem _ hy))
      (by rw [← e2]; exact hnd) (by rw [← e2]; exact hlen)
      (fun y hy => hkl y (List.mem_cons_of_mem _ hy))

/-- Where `lept_copy` is a deep clone: on every value in which each array is empty, each
object has `size <= capacity`, pairwise distinct keys, and keys that all have the length of
its first key, and no byte count of a capacity wraps, the destination is left equal to the
source, capacities included. -/
theorem copy_same_length_keys : ∀ src : lept_value, Everywhere CopyFriendly src →
    lept_copy src = some src := by
  intro src
  induction src using lept_value.induct with
  | hnull => intro _; rw [lept_copy]
  | hfalse => intro _; rw [lept_copy]
  | htrue => intro _; rw [lept_copy]
  | hnum n => intro _; rw [lept_copy]
  | hstr s => intro _; rw [lept_copy, lept_set_string, List.take_length]
  | harr e c ih =>
    intro h
    rw [everywhere_array_iff] at h
    have he : e = [] := h.1.1
    subst he
    rw [lept_copy, set_array_eq _ c h.1.2, lept_copy_array_loop]
  | hobj m c ih =>
    intro h
    rw [everywhere_object_iff] at h
    obtain ⟨⟨⟨h1, h2, h3⟩, h5⟩, h4⟩ := h
    have hl := copy_object_loop_same c (member_at m 0).klen m []
      (fun x hx => ih x hx (h4 x hx)) h2 h1 h3
    rw [lept_copy, set_object_eq _ c h5]
    show (match lept_copy_object_loop (member_at m 0).klen m (lept_value.object [] c) with
      | some (lept_value.object m2 c2) =>
        if m2.length = m.length then some (lept_value.object m2 c2) else none
      | _ => none) = _
    rw [hl]
    simp

/-! ## The capacity invariant, for every operation -/

theorem clear_array_eq (e : List lept_value) (c : Nat) :
    lept_clear_array (.array e c) = some (.array [] c) := by
  rw [lept_clear_array, erase_array_element_disjoint e c 0 e.length (by omega) (by omega),
    List.take_zero, List.drop_eq_nil_of_le (by omega)]
  rfl

theorem popback_array_element_eq (e : List lept_value) (c : Nat) (h : 0 < e.length) :
    lept_popback_array_element (.array e c) = some (.array (e.take (e.length - 1)) c) := by
  rw [lept_popback_array_element, if_pos h]

theorem pushback_array_element_eq (e : List lept_value) (c : Nat) (hm : e.length ≤ c)
    (hs : e.length * sizeof_lept_value < 2 ^ 63) :
    lept_pushback_array_element (.array e c) =
      some (.array (e ++ [.null]) (if e.length < c then c else max 1 (2 * c)), e.length) := by
  rw [lept_pushback_array_element, (array_room e c hm hs).1]
  simp only []
  rw [if_pos (array_room e c hm hs).2, store_slot_length]

theorem remove_object_value_returns (m : List lept_member) (c index : Nat)
    (h : index < m.length) (hd : m.length - 1 - index ≤ 1) :
    ∃ w, lept_remove_object_value (.object m c) index = some w := by
  rw [lept_remove_object_value, if_pos h, memcpy_slots_disjoint _ _ _ _ (by omega)]
  exact ⟨_, rfl⟩

theorem set_object_value_returns (m : List lept_member) (c : Nat) (key : List Nat) (klen : Nat)
    (hm : m.length ≤ c) (hs : m.length * sizeof_lept_member < 2 ^ 63)
    (hk : klen ≤ key.length) : ∃ r, lept_set_object_value (.object m c) key klen = some r := by
  by_cases h : lept_find_object_index m key klen = LEPT_KEY_NOT_EXIST
  · exact ⟨_, set_object_value_absent m c key klen hm hs hk h⟩
  · exact ⟨_, set_object_value_present m c key klen h⟩

/-- Claim C20, what holds of the code. `size <= capacity` holds for every array and object of
a value that `lept_parse` returns with `LEPT_PARSE_OK`. Each container function and `lept_copy`,
called on a value with the invariant, leaves a value with the invariant whenever it leaves a
value. The calls that leave a value are listed next, with the value where it is short to
write: `lept_reserve_array` and `lept_reserve_object` with a capacity whose byte count does
not wrap in `size_t` keep the elements and the size and leave the larger of the two
capacities, and whenever they leave a value it is that one; `lept_shrink_array` and
`lept_shrink_object` leave a capacity equal to the size; the other calls that leave a value
are setting an empty array or object with a capacity whose byte count does not wrap,
clearing, popping from an array that is not empty, pushing, inserting with at most one
element to move, erasing with no more elements to move than are erased, setting a member by a
readable key, removing with at most one member to move (for pushing, inserting and setting,
on elements or members that take less than `2 ^ 63` bytes), and copying a value with no array
element, distinct keys and keys of one length. The last part evaluates calls that leave no
value: the copy of the array that `lept_parse` gives for `[1]` (the slot of the destination is
released as `malloc` left it), the copy of an object with the keys `a` and `ab`, and an
insertion, an erasure and a removal that move two elements over themselves. -/
theorem capacity_invariant :
    (∀ (L : CDouble) (t : List Nat) (v : lept_value),
      lept_parse L t = some (LEPT_PARSE_OK, v) → Invariant v) ∧
    ((∀ cap, Preserves (fun v => lept_set_array v cap)) ∧
      (∀ cap, Preserves (fun v => lept_reserve_array v cap)) ∧
      Preserves lept_shrink_array ∧
      Preserves lept_clear_array ∧
      Preserves (fun v => (lept_pushback_array_element v).map Prod.fst) ∧
      Preserves lept_popback_array_element ∧
      (∀ index, Preserves (fun v => (lept_insert_array_element v index).map Prod.fst)) ∧
      (∀ index count, Preserves (fun v => lept_erase_array_element v index count))) ∧
    ((∀ cap, Preserves (fun v => lept_set_object v cap)) ∧
      (∀ cap, Preserves (fun v => lept_reserve_object v cap)) ∧
      Preserves lept_shrink_object ∧
      Preserves lept_clear_object ∧
      (∀ key klen, Preserves (fun v => (lept_set_object_value v key klen).map Prod.fst)) ∧
      (∀ index, Preserves (fun v => lept_remove_object_value v index))) ∧
    Preserves lept_copy ∧
    ((∀ e c cap, cap * sizeof_lept_value < 2 ^ 64 →
        lept_reserve_array (.array e c) cap = some (.array e (max c cap))) ∧
      (∀ m c cap, cap * sizeof_lept_member < 2 ^ 64 →
        lept_reserve_object (.object m c) cap = some (.object m (max c cap))) ∧
      (∀ e c cap w, lept_reserve_array (.array e c) cap = some w → w = .array e (max c cap)) ∧
      (∀ m c cap w, lept_reserve_object (.object m c) cap = some w → w = .object m (max c cap)) ∧
      (∀ e c, e.length ≤ c → lept_shrink_array (.array e c) = some (.array e e.length)) ∧
      (∀ m c, m.length ≤ c → lept_shrink_object (.object m c) = some (.object m m.length))) ∧
    ((∀ v cap, cap * sizeof_lept_value < 2 ^ 64 →
        lept_set_array v cap = some (.array [] cap)) ∧
      (∀ v cap, cap * sizeof_lept_member < 2 ^ 64 →
        lept_set_object v cap = some (.object [] cap)) ∧
      (∀ e c, lept_clear_array (.array e c) = some (.array [] c)) ∧
      (∀ e c, 0 < e.length →
        lept_popback_array_element (.array e c) = some (.array (e.take (e.length - 1)) c)) ∧
      (∀ e c, e.length ≤ c → e.length * sizeof_lept_value < 2 ^ 63 →
        lept_pushback_array_element (.array e c) =
          some (.array (e ++ [.null]) (if e.length < c then c else max 1 (2 * c)), e.length)) ∧
      (∀ e c index, e.length ≤ c → e.length * sizeof_lept_value < 2 ^ 63 → index ≤ e.length →
        e.length - index ≤ 1 → ∃ r, lept_insert_array_element (.array e c) index = some r) ∧
      (∀ e c index count, index + count ≤ e.length → e.length - index - count ≤ count →
        ∃ w, lept_erase_array_element (.array e c) index count = some w) ∧
      (∀ m c, lept_clear_object (.object m c) = some (.object [] c)) ∧
      (∀ m c key klen, m.length ≤ c → m.length * sizeof_lept_member < 2 ^ 63 →
        klen ≤ key.length → ∃ r, lept_set_object_value (.object m c) key klen = some r) ∧
      (∀ m c index, index < m.length → m.length - 1 - index ≤ 1 →
        ∃ w, lept_remove_object_value (.object m c) index = some w) ∧
      (∀ src, Everywhere CopyFriendly src → lept_copy src = some src)) ∧
    (lept_parse example_libc (ascii "[1]") =
        some (LEPT_PARSE_OK, .array [.number ⟨0x3FF0000000000000⟩] 1) ∧
      lept_copy (.array [.number ⟨0x3FF0000000000000⟩] 1) = none ∧
      lept_copy (.object [.mk (ascii "a") (.number ⟨0x3FF0000000000000⟩),
        .mk (ascii "ab") (.number ⟨0x4000000000000000⟩)] 2) = none ∧
      lept_insert_array_element (.array [.jtrue, .jfalse] 2) 0 = none ∧
      lept_erase_array_element (.array [.jtrue, .jfalse, .null] 3) 0 1 = none ∧
      lept_remove_object_value
        (.object [.mk (ascii "a") .null, .mk (ascii "b") .null, .mk (ascii "c") .null] 3) 0 =
        none) :=
  ⟨lept_parse_invariant,
    ⟨preserves_set_array, preserves_reserve_array, preserves_shrink_array,
      preserves_clear_array, preserves_pushback_array_element,
      preserves_popback_array_element, preserves_insert_array_element,
      preserves_erase_array_element⟩,
    ⟨preserves_set_object, preserves_reserve_object, preserves_shrink_object,
      preserves_clear_object, preserves_set_object_value, preserves_remove_object_value⟩,
    copy_invariant,
    ⟨reserve_array_eq, reserve_object_eq,
      fun _ _ _ _ h => reserve_array_some h, fun _ _ _ _ h => reserve_object_some h,
      fun e c h => by rw [shrink_array_eq, Nat.min_eq_right h],
      fun m c h => by rw [shrink_object_eq, Nat.min_eq_right h]⟩,
    ⟨set_array_eq, set_object_eq, clear_array_eq, popback_array_element_eq,
      pushback_array_element_eq,
      fun e c index hm hs h hd => ⟨_, insert_array_element_disjoint e c index hm hs h hd⟩,
      fun e c index count h hd => ⟨_, erase_array_element_disjoint e c index count h hd⟩,
      fun _ _ => rfl, set_object_value_returns, remove_object_value_returns,
      copy_same_length_keys⟩,
    ⟨rfl, rfl, rfl, rfl, rfl, rfl⟩⟩

/-- A parsed text, an insertion before the last element of a full array, a copy of an object
that holds an object, and a reservation, by C20. -/
theorem capacity_invariant_witness :
    Invariant (.array [.array [.number ⟨0x3FF0000000000000⟩] 1,
      .object [.mk (ascii "a") (.array [] 0)] 1] 2) ∧
    Invariant (.array [.jtrue, .null, .jfalse] 4) ∧
    Invariant (.object [.mk (ascii "a") (.object [] 3)] 2) ∧
    lept_reserve_array (.array [.jtrue] 1) 5 = some (.array [.jtrue] 5) ∧
    lept_copy (.object [.mk (ascii "a") (.object [] 3)] 2) =
      some (.object [.mk (ascii "a") (.object [] 3)] 2) :=
  ⟨capacity_invariant.1 example_libc (ascii "[[1],\x7b\"a\":[]\x7d]") _ rfl,
    capacity_invariant.2.1.2.2.2.2.2.2.1 1 (.array [.jtrue, .jfalse] 2) _
      ⟨(by decide : 2 ≤ 2), trivial, trivial, trivial⟩ rfl,
    capacity_invariant.2.2.2.1 (.object [.mk (ascii "a") (.object [] 3)] 2) _
      ⟨(by decide : 1 ≤ 2), ⟨(by decide : 0 ≤ 3), trivial⟩, trivial⟩ rfl,
    capacity_invariant.2.2.2.2.1.1 [.jtrue] 1 5 (by decide),
    capacity_invariant.2.2.2.2.2.1.2.2.2.2.2.2.2.2.2.2
      (.object [.mk (ascii "a") (.object [] 3)] 2)
      ⟨⟨⟨(by decide : 1 ≤ 2), by decide, by decide⟩, by decide⟩,
        ⟨⟨⟨(by decide : 0 ≤ 3), by decide, fun x hx => absurd hx (List.not_mem_nil x)⟩,
          by decide⟩, trivial⟩, trivial⟩⟩

/-! ## A low surrogate alone -/

theorem string_body_append {a x : List Nat} (ha : StringBody a x) {b y : List Nat}
    (hb : StringBody b y) : StringBody (a ++ b) (x ++ y) := by
  induction ha with
  | nil => exact hb
  | @item it bs a0 x0 hit _ ih =>
    rw [List.append_assoc, List.append_assoc]
    exact StringBody.item hit ih

theorem utf8_bytes_low_surrogate (u : Nat) (h1 : 0xDC00 ≤ u) (h2 : u ≤ 0xDFFF) :
    utf8_bytes u = [0xED, 0x80 ||| ((u >>> 6) &&& 0x3F), 0x80 ||| (u &&& 0x3F)] := by
  have m63 : ∀ x : Nat, x &&& 0x3F = x % 64 := fun x => Nat.and_pow_two_sub_one_eq_mod x 6
  have o80 : ∀ x : Nat, x < 64 → 0x80 ||| x = 0x80 + x := fun x hx =>
    or_small 1 7 x (by omega)
  rw [utf8_bytes_eq_spec u (by omega)]
  unfold utf8_spec
  rw [if_neg (show ¬ u < 0x80 by omega), if_neg (show ¬ u < 0x800 by omega),
    if_pos (show u < 0x10000 by omega), m63, m63, Nat.shiftRight_eq_div_pow,
    o80 _ (Nat.mod_lt _ (by decide)), o80 _ (Nat.mod_lt _ (by decide))]
  have e : 0xE0 + u / 4096 = 0xED := by omega
  rw [e]

theorem low_surrogate_item (h : Hex4) (hok : h.ok) (h1 : 0xDC00 ≤ h.value)
    (h2 : h.value ≤ 0xDFFF) :
    StringBody ([92, 117] ++ h.text)
      [0xED, 0x80 ||| ((h.value >>> 6) &&& 0x3F), 0x80 ||| (h.value &&& 0x3F)] := by
  have hs : ∀ x, string_step (([92, 117] ++ h.text) ++ x) =
      .put [0xED, 0x80 ||| ((h.value >>> 6) &&& 0x3F), 0x80 ||| (h.value &&& 0x3F)] x := by
    intro x
    have := string_step_unicode (hex4_text h hok x) (by omega)
    rw [utf8_bytes_low_surrogate _ h1 h2] at this
    simpa using this
  have := StringBody.item hs StringBody.nil
  simpa using this

/-- Claim C27. For every code unit `u` from `0xDC00` to `0xDFFF`, written with four hexadecimal
digits of either case, the string text made of the escape `\uXXXX` alone is parsed with
`LEPT_PARSE_OK` to the string of the three bytes `0xED`, `0x80 | ((u >> 6) & 0x3F)` and
`0x80 | (u & 0x3F)`; and so is the escape in the middle of a string, after a body that the
loop has passed over whole (so that no high surrogate is waiting for its pair) and before
another: its three bytes come between the bytes of the two bodies. -/
theorem lone_low_surrogate (L : CDouble) (h : Hex4) (hok : h.ok) (h1 : 0xDC00 ≤ h.value)
    (h2 : h.value ≤ 0xDFFF) :
    lept_parse L ([34, 92, 117] ++ h.text ++ [34]) =
      some (LEPT_PARSE_OK,
        .string [0xED, 0x80 ||| ((h.value >>> 6) &&& 0x3F), 0x80 ||| (h.value &&& 0x3F)]) ∧
    ∀ a x b y : List Nat, StringBody a x → StringBody b y →
      lept_parse L ([34] ++ a ++ [92, 117] ++ h.text ++ b ++ [34]) =
        some (LEPT_PARSE_OK, .string (x ++
          [0xED, 0x80 ||| ((h.value >>> 6) &&& 0x3F), 0x80 ||| (h.value &&& 0x3F)] ++ y)) := by
  have hi := low_surrogate_item h hok h1 h2
  constructor
  · have := lept_parse_string_ok L hi [] rfl
    simpa using this
  · intro a x b y ha hb
    have := lept_parse_string_ok L (string_body_append ha (string_body_append hi hb)) [] rfl
    simpa using this

/-- The escapes `\uDC00` and `\udFff` alone, and `\uDE0A` between `a` and a line feed escape,
by C27. -/
theorem lone_low_surrogate_witness :
    lept_parse example_libc (ascii "\"\\uDC00\"") =
      some (LEPT_PARSE_OK, .string [0xED, 0xB0, 0x80]) ∧
    lept_parse example_libc (ascii "\"\\udFff\"") =
      some (LEPT_PARSE_OK, .string [0xED, 0xBF, 0xBF]) ∧
    lept_parse example_libc (ascii "\"a\\uDE0A\\n\"") =
      some (LEPT_PARSE_OK, .string [97, 0xED, 0xB8, 0x8A, 10]) :=
  ⟨(lone_low_surrogate example_libc ⟨13, 12, 0, 0, true, true, true, true⟩
      (by decide) (by decide) (by decide)).1,
    (lone_low_surrogate example_libc ⟨13, 15, 15, 15, false, true, false, false⟩
      (by decide) (by decide) (by decide)).1,
    (lone_low_surrogate example_libc ⟨13, 14, 0, 10, true, true, true, true⟩
      (by decide) (by decide) (by decide)).2 [97] [97] [92, 110] [10]
      (@StringBody.item [97] [97] [] [] (fun _ => rfl) StringBody.nil)
      (@StringBody.item [92, 110] [10] [] [] (fun _ => rfl) StringBody.nil)⟩

/-! ## UTF-8 encoding -/

theorem utf8_by_range_eq_spec (u : Nat) (hu : u ≤ 0x10FFFF) : utf8_by_range u = utf8_spec u := by
  unfold utf8_by_range utf8_spec
  have m63 : ∀ x : Nat, x &&& 0x3F = x % 64 := fun x => Nat.and_pow_two_sub_one_eq_mod x 6
  have o80 : ∀ x : Nat, x < 64 → 0x80 ||| x = 0x80 + x := fun x hx =>
    or_small 1 7 x (by omega)
  have oC0 : ∀ x : Nat, x < 64 → 0xC0 ||| x = 0xC0 + x := fun x hx =>
    or_small 3 6 x (by omega)
  have oE0 : ∀ x : Nat, x < 32 → 0xE0 ||| x = 0xE0 + x := fun x hx =>
    or_small 7 5 x (by omega)
  have oF0 : ∀ x : Nat, x < 16 → 0xF0 ||| x = 0xF0 + x := fun x hx =>
    or_small 15 4 x (by omega)
  by_cases h1 : u ≤ 0x7F
  · rw [if_pos h1, if_pos (show u < 0x80 by omega)]
  rw [if_neg h1, if_neg (show ¬ u < 0x80 by omega)]
  by_cases h2 : u ≤ 0x7FF
  · rw [if_pos h2, if_pos (show u < 0x800 by omega), m63, Nat.shiftRight_eq_div_pow,
      o80 _ (Nat.mod_lt _ (by decide)), oC0 _ (by omega)]
  rw [if_neg h2, if_neg (show ¬ u < 0x800 by omega)]
  by_cases h3 : u ≤ 0xFFFF
  · rw [if_pos h3, if_pos (show u < 0x10000 by omega), m63, m63, Nat.shiftRight_eq_div_pow,
      Nat.shiftRight_eq_div_pow, o80 _ (Nat.mod_lt _ (by decide)),
      o80 _ (Nat.mod_lt _ (by decide)), oE0 _ (by omega)]
  rw [if_neg h3, if_neg (show ¬ u < 0x10000 by omega), m63, m63, m63,
    Nat.shiftRight_eq_div_pow, Nat.shiftRight_eq_div_pow, Nat.shiftRight_eq_div_pow,
    o80 _ (Nat.mod_lt _ (by decide)), o80 _ (Nat.mod_lt _ (by decide)),
    o80 _ (Nat.mod_lt _ (by decide)), oF0 _ (by omega)]

theorem utf8_spec_length (u : Nat) :
    (utf8_spec u).length =
      if u ≤ 0x7F then 1 else if u ≤ 0x7FF then 2 else if u ≤ 0xFFFF then 3 else 4 := by
  unfold utf8_spec
  by_cases h1 : u ≤ 0x7F
  · rw [if_pos h1, if_pos (show u < 0x80 by omega)]; rfl
  rw [if_neg h1, if_neg (show ¬ u < 0x80 by omega)]
  by_cases h2 : u ≤ 0x7FF
  · rw [if_pos h2, if_pos (show u < 0x800 by omega)]; rfl
  rw [if_neg h2, if_neg (show ¬ u < 0x800 by omega)]
  by_cases h3 : u ≤ 0xFFFF
  · rw [if_pos h3, if_pos (show u < 0x10000 by omega)]; rfl
  rw [if_neg h3, if_neg (show ¬ u < 0x10000 by omega)]; rfl

theorem utf8_spec_byte (u : Nat) (hu : u ≤ 0x10FFFF) : ∀ b ∈ utf8_spec u, b < 256 := by
  unfold utf8_spec
  intro b hb
  by_cases h1 : u < 0x80
  · rw [if_pos h1] at hb
    simp only [List.mem_singleton] at hb
    omega
  rw [if_neg h1] at hb
  by_cases h2 : u < 0x800
  · rw [if_pos h2] at hb
    simp only [List.mem_cons, List.mem_singleton, List.not_mem_nil, or_false] at hb
    omega
  rw [if_neg h2] at hb
  by_cases h3 : u < 0x10000
  · rw [if_pos h3] at hb
    simp only [List.mem_cons, List.mem_singleton, List.not_mem_nil, or_false] at hb
    omega
  rw [if_neg h3] at hb
  simp only [List.mem_cons, List.mem_singleton, List.not_mem_nil, or_false] at hb
  omega

theorem utf8_decode_spec (u : Nat) (hu : u ≤ 0x10FFFF) : utf8_decode (utf8_spec u) = some u := by
  unfold utf8_spec
  by_cases h1 : u < 0x80
  · rw [if_pos h1, utf8_decode, if_pos h1]
  rw [if_neg h1]
  by_cases h2 : u < 0x800
  · rw [if_pos h2, utf8_decode, if_pos ⟨by omega, by omega, by
      simp only [utf8_is_continuation, Bool.and_eq_true, decide_eq_true_eq]; omega⟩]
    exact congrArg some (by omega)
  rw [if_neg h2]
  by_cases h3 : u < 0x10000
  · rw [if_pos h3, utf8_decode, if_pos ⟨by omega, by omega, by
      simp only [utf8_is_continuation, Bool.and_eq_true, decide_eq_true_eq]; omega, by
      simp only [utf8_is_continuation, Bool.and_eq_true, decide_eq_true_eq]; omega⟩]
    exact congrArg some (by omega)
  rw [if_neg h3, utf8_decode, if_pos ⟨by omega, by omega, by
    simp only [utf8_is_continuation, Bool.and_eq_true, decide_eq_true_eq]; omega, by
    simp only [utf8_is_continuation, Bool.and_eq_true, decide_eq_true_eq]; omega, by
    simp only [utf8_is_continuation, Bool.and_eq_true, decide_eq_true_eq]; omega⟩]
  exact congrArg some (by omega)

/-- Claim C23. For every code point `u <= 0x10FFFF`, `lept_encode_utf8` pushes the bytes of
the encoding by range: one byte `u` if `u <= 0x7F`; `0xC0 | (u >> 6)` and `0x80 | (u & 0x3F)`
if `u <= 0x7FF`; `0xE0 | (u >> 12)` and two such continuation bytes if `u <= 0xFFFF`;
`0xF0 | (u >> 18)` and three otherwise. These are 1, 2, 3 or 4 bytes; each value is below
256, so that the conversion to `char` and the masks with `0xFF` change nothing; and decoding
the bytes by the rules of UTF-8 gives `u` back. -/
theorem utf8_encoding (c : lept_context) (u : Nat) (hu : u ≤ 0x10FFFF) :
    lept_encode_utf8 c u = PUTS c (utf8_by_range u) ∧
    (utf8_by_range u).length =
      (if u ≤ 0x7F then 1 else if u ≤ 0x7FF then 2 else if u ≤ 0xFFFF then 3 else 4) ∧
    (∀ b ∈ utf8_by_range u, b < 256) ∧
    utf8_decode (utf8_by_range u) = some u := by
  rw [utf8_by_range_eq_spec u hu]
  refine ⟨?_, utf8_spec_length u, utf8_spec_byte u hu, utf8_decode_spec u hu⟩
  rw [lept_encode_utf8_eq, utf8_bytes_eq_spec u hu]

/-- The code points `0x24`, `0xA2`, `0x20AC` and `0x10348`, and the largest one, by C23. -/
theorem utf8_encoding_witness :
    lept_encode_utf8 ⟨[], []⟩ 0x24 = PUTS ⟨[], []⟩ [0x24] ∧
    lept_encode_utf8 ⟨[], []⟩ 0xA2 = PUTS ⟨[], []⟩ [0xC2, 0xA2] ∧
    lept_encode_utf8 ⟨[], []⟩ 0x20AC = PUTS ⟨[], []⟩ [0xE2, 0x82, 0xAC] ∧
    lept_encode_utf8 ⟨[], []⟩ 0x10348 = PUTS ⟨[], []⟩ [0xF0, 0x90, 0x8D, 0x88] ∧
    utf8_decode [0xF4, 0x8F, 0xBF, 0xBF] = some 0x10FFFF :=
  ⟨(utf8_encoding ⟨[], []⟩ 0x24 (by decide)).1, (utf8_encoding ⟨[], []⟩ 0xA2 (by decide)).1,
    (utf8_encoding ⟨[], []⟩ 0x20AC (by decide)).1,
    (utf8_encoding ⟨[], []⟩ 0x10348 (by decide)).1,
    (utf8_encoding ⟨[], []⟩ 0x10FFFF (by decide)).2.2.2⟩

/-! ## The size test of object equality -/

/-- Claim C22. For two objects of different sizes `lept_is_equal` returns 0, whichever is the
left one. The field `u.a.size` that the source reads on the right object holds the size of
that object, so the test of the `LEPT_OBJECT` case compares the two sizes: for any two objects
the result is 0 if the sizes differ and the result of the loop over the members if not. -/
theorem object_size_test (L : CDouble) (m1 m2 : List lept_member) (c1 c2 : Nat)
    (h : m1.length ≠ m2.length) :
    (lept_value.object m2 c2).u_a_size = m2.length ∧
    lept_is_equal L (.object m1 c1) (.object m2 c2) = false ∧
    lept_is_equal L (.object m2 c2) (.object m1 c1) = false ∧
    ∀ (a b : List lept_member) (ca cb : Nat),
      lept_is_equal L (.object a ca) (.object b cb) =
        if a.length ≠ b.length then false else lept_is_equal_object_loop L a b := by
  have hgen : ∀ (a b : List lept_member) (ca cb : Nat),
      lept_is_equal L (.object a ca) (.object b cb) =
        if a.length ≠ b.length then false else lept_is_equal_object_loop L a b := by
    intro a b ca cb
    rw [lept_is_equal]
    rfl
  refine ⟨rfl, ?_, ?_, hgen⟩
  · rw [hgen, if_pos h]
  · rw [hgen, if_pos (Ne.symm h)]

theorem object_size_test_witness :
    lept_is_equal example_libc (.object [.mk (ascii "a") .null] 1)
      (.object [.mk (ascii "a") .null, .mk (ascii "b") .null] 2) = false ∧
    lept_is_equal example_libc (.object [.mk (ascii "a") .null, .mk (ascii "b") .null] 2)
      (.object [.mk (ascii "a") .null] 1) = false ∧
    lept_is_equal example_libc (.object [.mk (ascii "a") .null] 4)
      (.object [.mk (ascii "a") .null] 1) = true :=
  have t := object_size_test example_libc [.mk (ascii "a") .null]
    [.mk (ascii "a") .null, .mk (ascii "b") .null] 1 2 (by decide)
  ⟨t.2.1, t.2.2.1, rfl⟩

/-! ## Object equality and the order of the members -/

theorem is_equal_object_loop_of_mem (L : CDouble) (m1 : List lept_member)
    (hnd : (m1.map lept_member.k).Nodup) (hlen : m1.length < 2 ^ 64)
    (hself : ∀ x ∈ m1, lept_is_equal L x.v x.v = true) :
    ∀ post : List lept_member, (∀ y ∈ post, y ∈ m1) →
      lept_is_equal_object_loop L m1 post = true := by
  intro post
  induction post with
  | nil => intro _; rw [lept_is_equal_object_loop]
  | cons a ms ih =>
    intro hall
    obtain ⟨k, x⟩ := a
    have hin : lept_member.mk k x ∈ m1 := hall _ (List.mem_cons_self _ _)
    have hkm : KeyMatches k k.length (lept_member.mk k x) :=
      ⟨rfl, (List.take_length (l := k)).symm⟩
    obtain ⟨hlt, hmatch, _⟩ := (object_lookup_core m1 k k.length hlen).1 ⟨_, hin, hkm⟩
    have hat : member_at m1 (lept_find_object_index m1 k k.length) = lept_member.mk k x := by
      apply List.inj_on_of_nodup_map hnd (member_at_mem hlt) hin
      rw [hmatch.2, List.take_length]
      rfl
    have hne : ¬ lept_find_object_index m1 k k.length = LEPT_KEY_NOT_EXIST := by
      unfold LEPT_KEY_NOT_EXIST
      omega
    have hx : lept_is_equal L x x = true := hself _ hin
    rw [lept_is_equal_object_loop]
    simp only [hat, if_neg hne, lept_member.v]
    rw [hx, ih (fun y hy => hall y (List.mem_cons_of_mem _ hy))]
    rfl

/-- Claim C24, as stated, fails when a member is not equal to itself. The two objects below
have the members `x` and `y` in the two orders, with distinct keys; the value of `x` is the
object that `lept_parse` gives for a text with the key `a` twice, which `lept_is_equal` does
not find equal to itself; `lept_is_equal` of the two objects is 0 in both orders. The same
holds when the value of `x` is a number that is a NaN. -/
theorem object_order_fails_on_unequal_member :
    lept_parse example_libc (ascii "\x7b\"a\":1,\"a\":2\x7d") =
      some (LEPT_PARSE_OK, .object [.mk (ascii "a") (.number ⟨0x3FF0000000000000⟩),
        .mk (ascii "a") (.number ⟨0x4000000000000000⟩)] 2) ∧
    lept_is_equal example_libc
      (.object [.mk (ascii "x") (.object [.mk (ascii "a") (.number ⟨0x3FF0000000000000⟩),
          .mk (ascii "a") (.number ⟨0x4000000000000000⟩)] 2), .mk (ascii "y") .null] 2)
      (.object [.mk (ascii "y") .null,
        .mk (ascii "x") (.object [.mk (ascii "a") (.number ⟨0x3FF0000000000000⟩),
          .mk (ascii "a") (.number ⟨0x4000000000000000⟩)] 2)] 2) = false ∧
    lept_is_equal example_libc
      (.object [.mk (ascii "y") .null,
        .mk (ascii "x") (.object [.mk (ascii "a") (.number ⟨0x3FF0000000000000⟩),
          .mk (ascii "a") (.number ⟨0x4000000000000000⟩)] 2)] 2)
      (.object [.mk (ascii "x") (.object [.mk (ascii "a") (.number ⟨0x3FF0000000000000⟩),
          .mk (ascii "a") (.number ⟨0x4000000000000000⟩)] 2), .mk (ascii "y") .null] 2) = false ∧
    lept_is_equal example_libc
      (.object [.mk (ascii "x") (.number ⟨0x7FF8000000000000⟩), .mk (ascii "y") .null] 2)
      (.object [.mk (ascii "y") .null, .mk (ascii "x") (.number ⟨0x7FF8000000000000⟩)] 2) =
        false ∧
    lept_is_equal example_libc
      (.object [.mk (ascii "y") .null, .mk (ascii "x") (.number ⟨0x7FF8000000000000⟩)] 2)
      (.object [.mk (ascii "x") (.number ⟨0x7FF8000000000000⟩), .mk (ascii "y") .null] 2) =
        false :=
  ⟨rfl, rfl, rfl, rfl, rfl⟩

/-- Claim C24, amended. Let two objects have the same members in any two orders (the members
of one are a permutation of the members of the other), with pairwise distinct keys, and let
every member value be equal to itself under `lept_is_equal`. Then `lept_is_equal` of the two
objects is 1 in both argument orders, whatever the capacities. -/
theorem object_order_ignored (L : CDouble) (m1 m2 : List lept_member) (c1 c2 : Nat)
    (hnd : (m1.map lept_member.k).Nodup) (hperm : m1.Perm m2) (hlen : m1.length < 2 ^ 64)
    (hself : ∀ x ∈ m1, lept_is_equal L x.v x.v = true) :
    lept_is_equal L (.object m1 c1) (.object m2 c2) = true ∧
    lept_is_equal L (.object m2 c2) (.object m1 c1) = true := by
  have hl : m1.length = m2.length := hperm.length_eq
  have hnd2 : (m2.map lept_member.k).Nodup := (hperm.map lept_member.k).nodup_iff.1 hnd
  constructor
  · rw [lept_is_equal, if_neg (by simp [lept_value.u_a_size, hl])]
    exact is_equal_object_loop_of_mem L m1 hnd hlen hself m2 (fun y hy => hperm.mem_iff.2 hy)
  · rw [lept_is_equal, if_neg (by simp [lept_value.u_a_size, hl])]
    exact is_equal_object_loop_of_mem L m2 hnd2 (hl ▸ hlen)
      (fun x hx => hself x (hperm.mem_iff.2 hx)) m1 (fun y hy => hperm.mem_iff.1 hy)

theorem object_order_ignored_witness :
    lept_is_equal example_libc
      (.object [.mk (ascii "x") (.number ⟨0x3FF0000000000000⟩), .mk (ascii "y") .null,
        .mk (ascii "") (.array [.jtrue] 1)] 3)
      (.object [.mk (ascii "") (.array [.jtrue] 1),
        .mk (ascii "x") (.number ⟨0x3FF0000000000000⟩), .mk (ascii "y") .null] 8) = true ∧
    lept_is_equal example_libc
      (.object [.mk (ascii "") (.array [.jtrue] 1),
        .mk (ascii "x") (.number ⟨0x3FF0000000000000⟩), .mk (ascii "y") .null] 8)
      (.object [.mk (ascii "x") (.number ⟨0x3FF0000000000000⟩), .mk (ascii "y") .null,
        .mk (ascii "") (.array [.jtrue] 1)] 3) = true :=
  object_order_ignored example_libc
    [.mk (ascii "x") (.number ⟨0x3FF0000000000000⟩), .mk (ascii "y") .null,
      .mk (ascii "") (.array [.jtrue] 1)]
    [.mk (ascii "") (.array [.jtrue] 1),
      .mk (ascii "x") (.number ⟨0x3FF0000000000000⟩), .mk (ascii "y") .null] 3 8
    (by decide)
    (@List.perm_append_comm lept_member
      [lept_member.mk (ascii "x") (.number ⟨0x3FF0000000000000⟩), lept_member.mk (ascii "y") .null]
      [lept_member.mk (ascii "") (.array [.jtrue] 1)])
    (by decide)
    (by
      intro x hx
      simp only [List.mem_cons, List.mem_singleton, List.not_mem_nil, or_false] at hx
      rcases hx with rfl | rfl | rfl <;> rfl)

/-! ## The scratch buffer is balanced -/

theorem parse_value_balanced (L : CDouble) (fuel : Nat) (j : List Nat) (S : List Slot)
    (v : lept_value) (h : j.length < fuel) :
    ∃ ret q w, lept_parse_value L fuel ⟨j, S⟩ v = some (ret, ⟨q, S⟩, w) := by
  obtain ⟨r, hr⟩ := parse_value_total L fuel j v h
  obtain ⟨ret, q, w⟩ := r
  rw [parse_value_eq, hr]
  exact ⟨ret, q, w, rfl⟩

/-- Claim C25. Let `lept_parse_value` be entered on any text `j` with any records `S` on the
scratch buffer, with more fuel than the text has bytes. It returns, whatever the code, with
the records `S` on the buffer again: nothing of what it pushed is left and nothing below the
entry `top` was popped, so `top` is what it was on entry. The same holds for
`lept_parse_string_raw` on a text that starts with a quote, for `lept_parse_array` on a text
that starts with `[` and for `lept_parse_object` on a text that starts with an opening brace
(the bytes on which they are called, as their `EXPECT` asserts). And the `top` that `lept_parse` tests in
`assert(c.top == 0)` is 0 on every text. -/
theorem scratch_stack_balanced (L : CDouble) (fuel : Nat) (j : List Nat) (S : List Slot)
    (v : lept_value) (h : j.length < fuel) :
    (∃ ret q w, lept_parse_value L fuel ⟨j, S⟩ v = some (ret, ⟨q, S⟩, w) ∧
      (lept_context.mk q S).top = (lept_context.mk j S).top) ∧
    (peek j = 34 →
      ∃ ret q s len, lept_parse_string_raw fuel ⟨j, S⟩ = some (ret, ⟨q, S⟩, s, len)) ∧
    (peek j = 91 →
      ∃ ret q w, lept_parse_array (lept_parse_value L fuel) fuel ⟨j, S⟩ v =
        some (ret, ⟨q, S⟩, w)) ∧
    (peek j = 123 →
      ∃ ret q w, lept_parse_object (lept_parse_value L fuel) fuel ⟨j, S⟩ v =
        some (ret, ⟨q, S⟩, w)) ∧
    lept_parse_top L j = some 0 := by
  refine ⟨?_, ?_, ?_, ?_, ?_⟩
  · obtain ⟨ret, q, w, e⟩ := parse_value_balanced L fuel j S v h
    exact ⟨ret, q, w, e, rfl⟩
  · intro _
    have hl : j.tail.length < fuel := by rw [List.length_tail]; omega
    obtain ⟨r, hr⟩ := string_loop_total fuel j.tail [] hl
    obtain ⟨ret, q, s⟩ := r
    rw [parse_string_raw_eq, hr]
    by_cases k : ret = LEPT_PARSE_OK
    · exact ⟨ret, q, s, s.length, by simp only [string_result, if_pos k]⟩
    · exact ⟨ret, j.tail, [], 0, by simp only [string_result, if_neg k]⟩
  · intro hp
    have e : lept_parse_value L (fuel + 1) ⟨j, S⟩ v =
        lept_parse_array (lept_parse_value L fuel) fuel ⟨j, S⟩ v := by
      rw [lept_parse_value]
      show (if peek j = 116 then _ else _) = _
      rw [if_neg (show ¬ peek j = 116 by omega), if_neg (show ¬ peek j = 102 by omega),
        if_neg (show ¬ peek j = 110 by omega), if_neg (show ¬ peek j = 34 by omega), if_pos hp]
    rw [← e]
    exact parse_value_balanced L (fuel + 1) j S v (by omega)
  · intro hp
    have e : lept_parse_value L (fuel + 1) ⟨j, S⟩ v =
        lept_parse_object (lept_parse_value L fuel) fuel ⟨j, S⟩ v := by
      rw [lept_parse_value]
      show (if peek j = 116 then _ else _) = _
      rw [if_neg (show ¬ peek j = 116 by omega), if_neg (show ¬ peek j = 102 by omega),
        if_neg (show ¬ peek j = 110 by omega), if_neg (show ¬ peek j = 34 by omega),
        if_neg (show ¬ peek j = 91 by omega), if_pos hp]
    rw [← e]
    exact parse_value_balanced L (fuel + 1) j S v (by omega)
  · have hs := (List.dropWhile_suffix is_ws (l := j)).length_le
    obtain ⟨ret, q, w, e⟩ := parse_value_balanced L (j.length + 1) (j.dropWhile is_ws) []
      (lept_init .null) (by omega)
    unfold lept_parse_top
    simp only [lept_parse_whitespace]
    rw [e]
    by_cases k : ret = LEPT_PARSE_OK
    · simp only [if_pos k]; rfl
    · simp only [if_neg k]; rfl

theorem scratch_stack_balanced_witness :
    (∃ ret q w, lept_parse_value example_libc 12 ⟨ascii "[1,\"a\\x\"]", [.byte 7]⟩ .null =
        some (ret, ⟨q, [.byte 7]⟩, w)) ∧
    (∃ ret q s len, lept_parse_string_raw 5 ⟨ascii "\"a\\x", [.byte 7]⟩ =
        some (ret, ⟨q, [.byte 7]⟩, s, len)) ∧
    (∃ ret q w, lept_parse_object (lept_parse_value example_libc 9) 9
        ⟨ascii "\x7b\"a\":[1,", [.value .jtrue]⟩ .null = some (ret, ⟨q, [.value .jtrue]⟩, w)) ∧
    lept_parse_value example_libc 12 ⟨ascii "[1,\"a\\x\"]", [.byte 7]⟩ .null =
      some (LEPT_PARSE_INVALID_STRING_ESCAPE, ⟨ascii "a\\x\"]", [.byte 7]⟩, .null) ∧
    lept_parse_top example_libc (ascii "[1,\"a\\x\"]") = some 0 :=
  have t1 := scratch_stack_balanced example_libc 12 (ascii "[1,\"a\\x\"]") [.byte 7] .null
    (by decide)
  have t2 := scratch_stack_balanced example_libc 5 (ascii "\"a\\x") [.byte 7] .null (by decide)
  have t3 := scratch_stack_balanced example_libc 9 (ascii "\x7b\"a\":[1,") [.value .jtrue] .null
    (by decide)
  ⟨(t1.1.imp fun _ => Exists.imp fun _ => Exists.imp fun _ => And.left), t2.2.1 rfl,
    t3.2.2.2.1 rfl, rfl, t1.2.2.2.2⟩

/-! ## The reservation of `lept_stringify_string` -/

theorem stringify_string_char_length (ch : Nat) : (lept_stringify_string_char ch).length ≤ 6 := by
  unfold lept_stringify_string_char
  split_ifs <;> simp

theorem render_chars_length : ∀ s : List Nat, (render_chars s).length ≤ 6 * s.length
  | [] => Nat.le_refl _
  | ch :: s => by
    have h1 := stringify_string_char_length ch
    have h2 := render_chars_length s
    simp only [render_chars, List.flatMap_cons, List.length_append, List.length_cons] at h2 ⊢
    omega

theorem store_reserved_bytes (size : Nat) : ∀ (bs w : List Nat), w.length + bs.length ≤ size →
    bs.foldl (store_reserved size) (some w) = some (w ++ bs)
  | [], w, _ => by rw [List.foldl_nil, List.append_nil]
  | b :: bs, w, h => by
    rw [List.length_cons] at h
    rw [List.foldl_cons, store_reserved, if_pos (show w.length < size by omega),
      store_reserved_bytes size bs (w ++ [b]) (by rw [List.length_append, List.length_singleton]; omega),
      List.append_assoc, List.singleton_append]

theorem store_reserved_chars (size : Nat) : ∀ (s w : List Nat),
    w.length + (render_chars s).length ≤ size →
    s.foldl (fun w ch => (lept_stringify_string_char ch).foldl (store_reserved size) w) (some w) =
      some (w ++ render_chars s)
  | [], w, _ => by rw [List.foldl_nil]; simp [render_chars]
  | ch :: s, w, h => by
    have e : render_chars (ch :: s) = lept_stringify_string_char ch ++ render_chars s := by
      simp [render_chars]
    rw [e, List.length_append] at h
    rw [List.foldl_cons, store_reserved_bytes size _ w (by omega),
      store_reserved_chars size s _ (by rw [List.length_append]; omega), e, List.append_assoc]

/-- Claim C26. Let `s` and `len` be the arguments of `lept_stringify_string`, with `len` such
that `len * 6 + 2` does not wrap in `size_t`, and let `w` be the bytes it stores: the
quotation mark, what the switch writes for each of the `len` bytes, the quotation mark. Then
`w` has at most `6 * len + 2` bytes; every store falls inside the reserved region and
`size - (p - head)` is not below zero (the function with these checks returns); the final
`top` is the `top` on entry plus the number of bytes stored; and the bytes stored are what is
left on the buffer above the records that were there. -/
theorem stringify_reservation (c : lept_context) (s : List Nat) (len : Nat)
    (hlen : len * 6 + 2 < 2 ^ 64) :
    (render_string (s.take len)).length ≤ 6 * len + 2 ∧
    lept_stringify_string_reserved c s len =
      some (c.top + (render_string (s.take len)).length, render_string (s.take len)) ∧
    lept_stringify_string c s len = PUTS c (render_string (s.take len)) ∧
    (lept_stringify_string c s len).top = c.top + (render_string (s.take len)).length := by
  have hsize : (len * 6 + 2) % 2 ^ 64 = len * 6 + 2 := Nat.mod_eq_of_lt hlen
  have hr := render_chars_length (s.take len)
  have ht : (s.take len).length ≤ len := List.length_take_le _ _
  have hw : (render_string (s.take len)).length = (render_chars (s.take len)).length + 2 := by
    simp [render_string]
  have hput : lept_stringify_string c s len = PUTS c (render_string (s.take len)) := by
    have e : lept_stringify_string c s len =
        lept_stringify_string c (s.take len) (s.take len).length := by
      unfold lept_stringify_string
      rw [List.take_length]
    rw [e, stringify_string_eq]
  refine ⟨by omega, ?_, hput, ?_⟩
  · unfold lept_stringify_string_reserved
    simp only [hsize]
    rw [if_neg (show ¬ len * 6 + 2 = 0 by omega), store_reserved,
      if_pos (show ([] : List Nat).length < len * 6 + 2 by simp),
      store_reserved_chars _ _ _ (by simp only [List.nil_append, List.length_singleton]; omega),
      store_reserved, if_pos (by
        simp only [List.nil_append, List.length_append, List.length_singleton]; omega)]
    have e : [] ++ [34] ++ render_chars (s.take len) ++ [34] = render_string (s.take len) := by
      simp [render_string]
    simp only [e]
    rw [if_neg (by omega)]
    exact congrArg some (Prod.ext (by simp only []; omega) rfl)
  · rw [hput]
    simp [PUTS, lept_context.top]

theorem stringify_reservation_witness :
    lept_stringify_string_reserved ⟨[], [.byte 91]⟩ (ascii "a\n\"") 3 =
      some (8, ascii "\"a\\n\\\"\"") ∧
    (lept_stringify_string ⟨[], [.byte 91]⟩ (ascii "a\n\"") 3).top = 1 + 7 ∧
    (ascii "\"a\\n\\\"\"").length ≤ 6 * 3 + 2 :=
  have t := stringify_reservation ⟨[], [.byte 91]⟩ (ascii "a\n\"") 3 (by decide)
  ⟨t.2.1, t.2.2.2, t.1⟩

/-! ## The parser keeps every element and every member -/

theorem parses_to_pure {L : CDouble} {p q : List Nat} {x : lept_value} (h : ParsesTo L p x q) :
    ∃ f, pure_parse_value L f p .null = some (LEPT_PARSE_OK, q, x) := by
  obtain ⟨f, hf⟩ := h
  rw [parse_value_eq] at hf
  cases hp : pure_parse_value L f p .null with
  | none => rw [hp] at hf; exact absurd hf (by simp [value_result])
  | some t =>
    obtain ⟨ret, q2, w⟩ := t
    rw [hp] at hf
    simp only [value_result, Option.some.injEq, Prod.mk.injEq, lept_context.mk.injEq] at hf
    obtain ⟨e1, ⟨e2, _⟩, e3⟩ := hf
    exact ⟨f, by rw [hp, e1, e2, e3]⟩

theorem parses_key_to_pure {p k q : List Nat} (h : ParsesKeyTo p k q) :
    ∃ f, pure_string_loop f p.tail [] = some (LEPT_PARSE_OK, q, k) := by
  obtain ⟨f, hf⟩ := h
  rw [parse_string_raw_eq] at hf
  cases hp : pure_string_loop f p.tail [] with
  | none => rw [hp] at hf; exact absurd hf (by simp [string_result])
  | some t =>
    obtain ⟨ret, q2, s⟩ := t
    rw [hp] at hf
    by_cases hr : ret = LEPT_PARSE_OK
    · simp only [string_result, if_pos hr, Option.some.injEq, Prod.mk.injEq,
        lept_context.mk.injEq] at hf
      obtain ⟨_, ⟨e2, _⟩, e3, _⟩ := hf
      exact ⟨f, by rw [hp, hr, e2, e3]⟩
    · simp only [string_result, if_neg hr, Option.some.injEq, Prod.mk.injEq] at hf
      exact absurd hf.1 hr

theorem value_fails_on_bracket (L : CDouble) (f : Nat) (p : List Nat) (v : lept_value)
    (hp : peek p = 93) :
    pure_parse_value L (f + 1) p v = some (LEPT_PARSE_INVALID_VALUE, p, v) := by
  rw [pure_parse_value]
  show (if peek p = 116 then _ else _) = _
  rw [if_neg (show ¬ peek p = 116 by omega), if_neg (show ¬ peek p = 102 by omega),
    if_neg (show ¬ peek p = 110 by omega), if_neg (show ¬ peek p = 34 by omega),
    if_neg (show ¬ peek p = 91 by omega), if_neg (show ¬ peek p = 123 by omega),
    if_neg (show ¬ peek p = 0 by omega)]
  simp [lept_parse_number, lept_parse_number_scan, hp, ISDIGIT1TO9]

theorem array_elements_start {L : CDouble} {p r : List Nat} {es : List lept_value}
    (h : ArrayElements L p es r) : peek p ≠ 93 := by
  intro hp
  have key : ∀ e q, ParsesTo L p e q → False := by
    intro e q hq
    obtain ⟨f, hf⟩ := parses_to_pure hq
    cases f with
    | zero => simp [pure_parse_value] at hf
    | succ f =>
      rw [value_fails_on_bracket L f p _ hp] at hf
      simp at hf
  cases h with
  | last h1 _ => exact key _ _ h1
  | more h1 _ _ => exact key _ _ h1

theorem array_loop_elements (L : CDouble) {p r : List Nat} {es : List lept_value}
    (h : ArrayElements L p es r) :
    ∃ k, ∀ fpv fuel : Nat, k ≤ fpv → k ≤ fuel → ∀ (v : lept_value) (acc : List lept_value),
      pure_parse_array_loop (pure_parse_value L fpv) fuel p v acc =
        some (LEPT_PARSE_OK, r, .array (acc ++ es) (acc.length + es.length)) := by
  induction h with
  | @last p q e h1 h2 =>
    obtain ⟨f, hf⟩ := parses_to_pure h1
    refine ⟨f + 1, fun fpv fuel h3 h4 v acc => ?_⟩
    obtain ⟨n, rfl⟩ : ∃ n, fuel = n + 1 := ⟨fuel - 1, by omega⟩
    rw [pure_parse_array_loop, parse_value_mono_le L (show f ≤ fpv by omega) hf]
    simp only [ne_eq, not_true_eq_false, if_false]
    rw [if_neg (show ¬ peek (List.dropWhile is_ws q) = 44 by omega), if_pos h2]
    rfl
  | @more p q r e es h1 h2 _ ih =>
    obtain ⟨f, hf⟩ := parses_to_pure h1
    obtain ⟨k, hk⟩ := ih
    refine ⟨max f k + 1, fun fpv fuel h3 h4 v acc => ?_⟩
    obtain ⟨n, rfl⟩ : ∃ n, fuel = n + 1 := ⟨fuel - 1, by omega⟩
    rw [pure_parse_array_loop, parse_value_mono_le L (show f ≤ fpv by omega) hf]
    simp only [ne_eq, not_true_eq_false, if_false]
    rw [if_pos h2, hk fpv n (by omega) (by omega)]
    have e1 : acc ++ [e] ++ es = acc ++ e :: es := by simp
    have e2 : (acc ++ [e]).length + es.length = acc.length + (e :: es).length := by
      simp only [List.length_append, List.length_cons, List.length_nil]
      omega
    rw [e1, e2]

theorem object_loop_members (L : CDouble) {p r : List Nat} {ms : List lept_member}
    (h : ObjectMembers L p ms r) :
    ∃ k, ∀ fpv fuel : Nat, k ≤ fpv → k ≤ fuel → ∀ acc : List lept_member,
      pure_parse_object_loop (pure_parse_value L fpv) fuel p acc =
        some (LEPT_PARSE_OK, r, .object (acc ++ ms) (acc.length + ms.length)) := by
  induction h with
  | @last p q1 q2 key x h0 h1 h2 h3 h4 =>
    obtain ⟨g, hg⟩ := parses_key_to_pure h1
    obtain ⟨f, hf⟩ := parses_to_pure h3
    refine ⟨max f g + 1, fun fpv fuel h5 h6 acc => ?_⟩
    obtain ⟨n, rfl⟩ : ∃ n, fuel = n + 1 := ⟨fuel - 1, by omega⟩
    rw [pure_parse_object_loop, if_neg (show ¬ peek p ≠ 34 from fun c => c h0),
      string_loop_mono_le (show g ≤ n by omega) hg]
    simp only [ne_eq, not_true_eq_false, if_false]
    rw [if_neg (show ¬ ¬ peek (List.dropWhile is_ws q1) = 58 from fun c => c h2),
      parse_value_mono_le L (show f ≤ fpv by omega) hf]
    simp only [not_true_eq_false, if_false]
    rw [if_neg (show ¬ peek (List.dropWhile is_ws q2) = 44 by omega), if_pos h4]
    rfl
  | @more p q1 q2 key r x ms h0 h1 h2 h3 h4 _ ih =>
    obtain ⟨g, hg⟩ := parses_key_to_pure h1
    obtain ⟨f, hf⟩ := parses_to_pure h3
    obtain ⟨k, hk⟩ := ih
    refine ⟨max (max f g) k + 1, fun fpv fuel h5 h6 acc => ?_⟩
    obtain ⟨n, rfl⟩ : ∃ n, fuel = n + 1 := ⟨fuel - 1, by omega⟩
    rw [pure_parse_object_loop, if_neg (show ¬ peek p ≠ 34 from fun c => c h0),
      string_loop_mono_le (show g ≤ n by omega) hg]
    simp only [ne_eq, not_true_eq_false, if_false]
    rw [if_neg (show ¬ ¬ peek (List.dropWhile is_ws q1) = 58 from fun c => c h2),
      parse_value_mono_le L (show f ≤ fpv by omega) hf]
    simp only [not_true_eq_false, if_false]
    rw [if_pos h4, hk fpv n (by omega) (by omega)]
    have e1 : acc ++ [lept_member.mk key x] ++ ms = acc ++ lept_member.mk key x :: ms := by simp
    have e2 : (acc ++ [lept_member.mk key x]).length + ms.length =
        acc.length + (lept_member.mk key x :: ms).length := by
      simp only [List.length_append, List.length_cons, List.length_nil]
      omega
    rw [e1, e2]

theorem array_text_pure (L : CDouble) {j r : List Nat} {es : List lept_value}
    (h : ArrayText L j es r) :
    ∃ f, pure_parse_value L f j .null = some (LEPT_PARSE_OK, r, .array es es.length) := by
  cases h with
  | empty h1 h2 =>
    refine ⟨1, ?_⟩
    rw [pure_parse_value]
    show (if peek j = 116 then _ else _) = _
    rw [if_neg (show ¬ peek j = 116 by omega), if_neg (show ¬ peek j = 102 by omega),
      if_neg (show ¬ peek j = 110 by omega), if_neg (show ¬ peek j = 34 by omega), if_pos h1]
    simp only []
    rw [if_pos h2]
    rfl
  | elements h1 h2 =>
    obtain ⟨k, hk⟩ := array_loop_elements L h2
    refine ⟨k + 1, ?_⟩
    rw [pure_parse_value]
    show (if peek j = 116 then _ else _) = _
    rw [if_neg (show ¬ peek j = 116 by omega), if_neg (show ¬ peek j = 102 by omega),
      if_neg (show ¬ peek j = 110 by omega), if_neg (show ¬ peek j = 34 by omega), if_pos h1]
    simp only []
    rw [if_neg (array_elements_start h2), hk k k (Nat.le_refl _) (Nat.le_refl _)]
    simp

theorem object_text_pure (L : CDouble) {j r : List Nat} {ms : List lept_member}
    (h : ObjectText L j ms r) :
    ∃ f, pure_parse_value L f j .null = some (LEPT_PARSE_OK, r, .object ms ms.length) := by
  cases h with
  | empty h1 h2 =>
    refine ⟨1, ?_⟩
    rw [pure_parse_value]
    show (if peek j = 116 then _ else _) = _
    rw [if_neg (show ¬ peek j = 116 by omega), if_neg (show ¬ peek j = 102 by omega),
      if_neg (show ¬ peek j = 110 by omega), if_neg (show ¬ peek j = 34 by omega),
      if_neg (show ¬ peek j = 91 by omega), if_pos h1]
    simp only []
    rw [if_pos h2]
    rfl
  | members h1 h2 =>
    obtain ⟨k, hk⟩ := object_loop_members L h2
    have h3 : ¬ peek (List.dropWhile is_ws j.tail) = 125 := by
      cases h2 with
      | last h0 _ _ _ _ => omega
      | more h0 _ _ _ _ _ => omega
    refine ⟨k + 1, ?_⟩
    rw [pure_parse_value]
    show (if peek j = 116 then _ else _) = _
    rw [if_neg (show ¬ peek j = 116 by omega), if_neg (show ¬ peek j = 102 by omega),
      if_neg (show ¬ peek j = 110 by omega), if_neg (show ¬ peek j = 34 by omega),
      if_neg (show ¬ peek j = 91 by omega), if_pos h1]
    simp only []
    rw [if_neg h3, hk k k (Nat.le_refl _) (Nat.le_refl _)]
    simp

theorem parses_to_of_pure (L : CDouble) {f : Nat} {j r : List Nat} {x : lept_value}
    (h : pure_parse_value L f j .null = some (LEPT_PARSE_OK, r, x)) : ParsesTo L j x r :=
  ⟨f, by rw [parse_value_eq, h]; rfl⟩

theorem parse_of_pure_ok (L : CDouble) {f : Nat} {json r : List Nat} {x : lept_value}
    (h : pure_parse_value L f (json.dropWhile is_ws) .null = some (LEPT_PARSE_OK, r, x))
    (hend : peek (r.dropWhile is_ws) = 0) : lept_parse L json = some (LEPT_PARSE_OK, x) := by
  rw [lept_parse_eq, pure_parse_of_value L h, if_pos rfl,
    if_neg (show ¬ peek (List.dropWhile is_ws r) ≠ 0 from fun c => c hend)]

theorem first_occurrence (ms : List lept_member) (x : lept_member) (hx : x ∈ ms)
    (hlen : ms.length < 2 ^ 64) :
    lept_find_object_index ms x.k x.klen < ms.length ∧
    (member_at ms (lept_find_object_index ms x.k x.klen)).k = x.k ∧
    ∀ i, i < lept_find_object_index ms x.k x.klen → (member_at ms i).k ≠ x.k := by
  obtain ⟨k, v⟩ := x
  have hk : ∀ y : lept_member, y.k = k → KeyMatches k k.length y := by
    intro y hy
    obtain ⟨ky, vy⟩ := y
    simp only [lept_member.k] at hy
    exact ⟨by rw [hy]; rfl, by rw [List.take_length]; exact hy⟩
  obtain ⟨h1, h2, h3⟩ := (object_lookup_core ms k k.length hlen).1 ⟨_, hx, hk _ rfl⟩
  refine ⟨h1, ?_, fun i hi hc => h3 i hi (hk _ hc)⟩
  show (member_at ms (lept_find_object_index ms k k.length)).k = k
  rw [h2.2, List.take_length]

/-- Claim C21. Let the text start, after whitespace, with a well-formed object of the members
`ms` (each a key and a value that the parser reads, in the order of the text), or with a
well-formed array of the elements `es`, and let only whitespace follow it. Then `lept_parse`
returns `LEPT_PARSE_OK` with the object whose members are exactly `ms`, or the array whose
elements are exactly `es`: same number, same order, same keys and values, a repeated key kept
as often as it is written. For every member of such an object (of a size that a `size_t`
holds), `lept_find_object_index` on its key returns the index of the first member with that
key. The same values are what `lept_parse_value` gives when the object or array stands inside
a text, whatever follows. -/
theorem parser_keeps_members (L : CDouble) (json r : List Nat)
    (hend : peek (r.dropWhile is_ws) = 0) :
    (∀ ms, ObjectText L (json.dropWhile is_ws) ms r →
      lept_parse L json = some (LEPT_PARSE_OK, .object ms ms.length) ∧
      ∀ x ∈ ms, ms.length < 2 ^ 64 →
        lept_find_object_index ms x.k x.klen < ms.length ∧
        (member_at ms (lept_find_object_index ms x.k x.klen)).k = x.k ∧
        ∀ i, i < lept_find_object_index ms x.k x.klen → (member_at ms i).k ≠ x.k) ∧
    (∀ es, ArrayText L (json.dropWhile is_ws) es r →
      lept_parse L json = some (LEPT_PARSE_OK, .array es es.length)) ∧
    (∀ j q ms, ObjectText L j ms q → ParsesTo L j (.object ms ms.length) q) ∧
    (∀ j q es, ArrayText L j es q → ParsesTo L j (.array es es.length) q) := by
  refine ⟨fun ms h => ⟨?_, fun x hx hlen => first_occurrence ms x hx hlen⟩, fun es h => ?_,
    fun j q ms h => ?_, fun j q es h => ?_⟩
  · obtain ⟨f, hf⟩ := object_text_pure L h
    exact parse_of_pure_ok L hf hend
  · obtain ⟨f, hf⟩ := array_text_pure L h
    exact parse_of_pure_ok L hf hend
  · obtain ⟨f, hf⟩ := object_text_pure L h
    exact parses_to_of_pure L hf
  · obtain ⟨f, hf⟩ := array_text_pure L h
    exact parses_to_of_pure L hf

theorem parser_keeps_members_witness :
    lept_parse example_libc (ascii " \x7b\"a\":1, \"a\" : 2\x7d ") =
      some (LEPT_PARSE_OK, .object [.mk (ascii "a") (.number ⟨0x3FF0000000000000⟩),
        .mk (ascii "a") (.number ⟨0x4000000000000000⟩)] 2) ∧
    lept_find_object_index [.mk (ascii "a") (.number ⟨0x3FF0000000000000⟩),
      .mk (ascii "a") (.number ⟨0x4000000000000000⟩)] (ascii "a") 1 = 0 ∧
    lept_parse example_libc (ascii "[true,[] ,\"x\"]") =
      some (LEPT_PARSE_OK, .array [.jtrue, .array [] 0, .string (ascii "x")] 3) := by
  have m2 : ObjectMembers example_libc (ascii "\"a\" : 2\x7d ")
      [.mk (ascii "a") (.number ⟨0x4000000000000000⟩)] (ascii " ") :=
    @ObjectMembers.last example_libc (ascii "\"a\" : 2\x7d ") (ascii " : 2\x7d ") (ascii "\x7d ")
      (ascii "a") (.number ⟨0x4000000000000000⟩) rfl ⟨3, rfl⟩ rfl ⟨2, rfl⟩ rfl
  have m1 : ObjectMembers example_libc (ascii "\"a\":1, \"a\" : 2\x7d ")
      [.mk (ascii "a") (.number ⟨0x3FF0000000000000⟩),
        .mk (ascii "a") (.number ⟨0x4000000000000000⟩)] (ascii " ") :=
    @ObjectMembers.more example_libc (ascii "\"a\":1, \"a\" : 2\x7d ") (ascii ":1, \"a\" : 2\x7d ")
      (ascii ", \"a\" : 2\x7d ") (ascii "a") (ascii " ") (.number ⟨0x3FF0000000000000⟩) _
      rfl ⟨3, rfl⟩ rfl ⟨2, rfl⟩ rfl m2
  have a3 : ArrayElements example_libc (ascii "\"x\"]") [.string (ascii "x")] [] :=
    @ArrayElements.last example_libc (ascii "\"x\"]") (ascii "]") (.string (ascii "x"))
      ⟨3, rfl⟩ rfl
  have a2 : ArrayElements example_libc (ascii "[] ,\"x\"]") [.array [] 0, .string (ascii "x")]
      [] :=
    @ArrayElements.more example_libc (ascii "[] ,\"x\"]") (ascii " ,\"x\"]") [] (.array [] 0) _
      ⟨2, rfl⟩ rfl a3
  have a1 : ArrayElements example_libc (ascii "true,[] ,\"x\"]")
      [.jtrue, .array [] 0, .string (ascii "x")] [] :=
    @ArrayElements.more example_libc (ascii "true,[] ,\"x\"]") (ascii ",[] ,\"x\"]") [] .jtrue _
      ⟨2, rfl⟩ rfl a2
  have t := (parser_keeps_members example_libc (ascii " \x7b\"a\":1, \"a\" : 2\x7d ")
    (ascii " ") rfl).1 _ (ObjectText.members rfl m1)
  have u := (parser_keeps_members example_libc (ascii "[true,[] ,\"x\"]") [] rfl).2.1 _
    (ArrayText.elements rfl a1)
  exact ⟨t.1, rfl, u⟩

end Leptjson
